import Mathlib

/-!
# Two-segment (B1/B2) buffer replacement: `elru_draft.c`

A shallow embedding of the CS3223 replacement code that lives in
`src/elru_draft.c`.  The C code keeps two doubly linked lists of `node`
structures (`linkedListInfo` = B1, `otherLinkedListInfo` = B2) whose nodes
are slots of the arrays `doubleLinkedList` and `otherDoubleLinkedList`.

* pointers are modelled as `Option Ptr` (`none` = `NULL`);
* a dereference of `NULL` is the fault `Fault.nullDeref`;
* every `while`/`for(;;)` loop takes a fuel argument and reports
  `Fault.outOfFuel` when it is used up;
* `uint64_t` arithmetic on the counter is taken modulo `2 ^ 64`;
* spinlocks do not change the state; the acquire and release events of a call
  are modelled separately, as a trace in program order (section *Lock events*);
* logging, the bgwriter latch and the allocation statistics are not part of
  the model.
-/

namespace Elru

/-! ## Data model -/

/-- Address of a `node`: slot `i` of `doubleLinkedList` (`main i`) or slot `i`
of `otherDoubleLinkedList` (`other i`). -/
inductive Ptr where
  | main (i : Nat)
  | other (i : Nat)
  deriving DecidableEq, Repr

/-- The C `struct node`.  `time_array_0` is `time_array[SECOND_LAST_ACCESS]`
and `time_array_1` is `time_array[FIRST_LAST_ACCESS]`. -/
structure Node where
  prev : Option Ptr
  next : Option Ptr
  frame_id : Int
  time_array_0 : Nat
  time_array_1 : Nat
  sanity_check : Int
  deriving DecidableEq, Repr

/-- The C `struct info` (the unused `size` field and the spinlock are left out). -/
structure Info where
  head : Option Ptr
  tail : Option Ptr
  deriving DecidableEq, Repr

/-- Ways in which the C code can leave defined, terminating behaviour. -/
inductive Fault where
  | nullDeref
  | badIndex
  | outOfFuel
  deriving DecidableEq, Repr

/-- Modulus of `uint64_t` arithmetic. -/
def UINT64_MOD : Nat := 2 ^ 64

/-- Value of `FREENEXT_END_OF_LIST` in PostgreSQL's `buf_internals.h`. -/
def FREENEXT_END_OF_LIST : Int := -1

/-- Value of `FREENEXT_NOT_IN_LIST` in PostgreSQL's `buf_internals.h`. -/
def FREENEXT_NOT_IN_LIST : Int := -2

/-- The shared state read and written by the strategy functions.
`mem` holds both node arrays, `counter` is `counterInfo->counter`,
`firstFreeBuffer`/`lastFreeBuffer`/`freeNext` are the free list, and
`refcount`/`usagecount` are what `LockBufHdr` reports for a buffer
descriptor (the external pin predicate). -/
structure State where
  mem : Ptr → Node
  linkedListInfo : Info
  otherLinkedListInfo : Info
  counter : Nat
  firstFreeBuffer : Int
  lastFreeBuffer : Int
  freeNext : Nat → Int
  refcount : Nat → Nat
  usagecount : Nat → Nat

/-- Assignment `p->prev = v`. -/
def State.setPrev (s : State) (p : Ptr) (v : Option Ptr) : State :=
  { s with mem := Function.update s.mem p { s.mem p with prev := v } }

/-- Assignment `p->next = v`. -/
def State.setNext (s : State) (p : Ptr) (v : Option Ptr) : State :=
  { s with mem := Function.update s.mem p { s.mem p with next := v } }

/-- Assignment `p->time_array[SECOND_LAST_ACCESS] = v`. -/
def State.setTime0 (s : State) (p : Ptr) (v : Nat) : State :=
  { s with mem := Function.update s.mem p { s.mem p with time_array_0 := v } }

/-- Assignment `p->time_array[FIRST_LAST_ACCESS] = v`. -/
def State.setTime1 (s : State) (p : Ptr) (v : Nat) : State :=
  { s with mem := Function.update s.mem p { s.mem p with time_array_1 := v } }

/-- Assignment `p->frame_id = v`. -/
def State.setFrameId (s : State) (p : Ptr) (v : Int) : State :=
  { s with mem := Function.update s.mem p { s.mem p with frame_id := v } }

/-- Assignment `p->sanity_check = v`. -/
def State.setSanity (s : State) (p : Ptr) (v : Int) : State :=
  { s with mem := Function.update s.mem p { s.mem p with sanity_check := v } }

/-- Assignment `linkedListInfo->head = v`. -/
def State.setHead (s : State) (v : Option Ptr) : State :=
  { s with linkedListInfo := { s.linkedListInfo with head := v } }

/-- Assignment `linkedListInfo->tail = v`. -/
def State.setTail (s : State) (v : Option Ptr) : State :=
  { s with linkedListInfo := { s.linkedListInfo with tail := v } }

/-- Assignment `otherLinkedListInfo->head = v`. -/
def State.setOtherHead (s : State) (v : Option Ptr) : State :=
  { s with otherLinkedListInfo := { s.otherLinkedListInfo with head := v } }

/-- Assignment `otherLinkedListInfo->tail = v`. -/
def State.setOtherTail (s : State) (v : Option Ptr) : State :=
  { s with otherLinkedListInfo := { s.otherLinkedListInfo with tail := v } }

/-! ## B1 list primitives -/

/-- The `while (traversal_ptr != NULL)` loop shared by `search_for_frame` and
`search_for_frame_b2`: follow `next` until a node with the wanted
`frame_id` is met. -/
def search_loop (mem : Ptr → Node) (desired_frame_id : Int) :
    Nat → Option Ptr → Except Fault (Option Ptr)
  | _, none => .ok none
  | 0, some _ => .error .outOfFuel
  | n + 1, some p =>
    if (mem p).frame_id = desired_frame_id then .ok (some p)
    else search_loop mem desired_frame_id n (mem p).next

/-- C `search_for_frame`: look a frame id up in B1. -/
def search_for_frame (fuel : Nat) (s : State) (desired_frame_id : Int) :
    Except Fault (Option Ptr) :=
  if s.linkedListInfo.head = none then .ok none
  else search_loop s.mem desired_frame_id fuel s.linkedListInfo.head

/-- C `delete_arbitrarily`: unlink the node with the given id from B1. -/
def delete_arbitrarily (fuel : Nat) (s : State) (frame_id_for_deletion : Int) :
    Except Fault State :=
  match search_for_frame fuel s frame_id_for_deletion with
  | .error e => .error e
  | .ok none => .ok s
  | .ok (some frame) =>
    let unlinked : Except Fault State :=
      if s.linkedListInfo.head = some frame then
        match (s.mem frame).next with
        | some nx => .ok ((s.setHead (some nx)).setPrev nx none)
        | none => .ok ((s.setHead none).setTail none)
      else if s.linkedListInfo.tail = some frame then
        match (s.mem frame).prev with
        | none => .error .nullDeref
        | some pv => .ok ((s.setTail (some pv)).setNext pv none)
      else
        match (s.mem frame).prev with
        | none => .error .nullDeref
        | some pv =>
          let s1 := s.setNext pv (s.mem frame).next
          match (s1.mem frame).next with
          | none => .error .nullDeref
          | some nx => .ok (s1.setPrev nx (s1.mem frame).prev)
    match unlinked with
    | .error e => .error e
    | .ok s2 => .ok ((s2.setNext frame none).setPrev frame none)

/-- C `update_time`: record the current counter value in the node's
two-slot history. -/
def update_time (s : State) (frame : Ptr) : State :=
  let not_first_update : Bool :=
    if (s.mem frame).time_array_0 = 0 ∧ (s.mem frame).time_array_1 = 0 then false else true
  if not_first_update then
    let s1 := s.setTime0 frame (s.mem frame).time_array_1
    s1.setTime1 frame s1.counter
  else
    s.setTime1 frame s.counter

/-- C `insert_at_head`: stamp the node and push it on the head of B1. -/
def insert_at_head (s : State) (frame : Ptr) : State :=
  let s := update_time s frame
  let s := s.setNext frame s.linkedListInfo.head
  let s :=
    match s.linkedListInfo.head, s.linkedListInfo.tail with
    | some h, some _ => s.setPrev h (some frame)
    | _, _ => s
  let s := s.setHead (some frame)
  let s :=
    if s.linkedListInfo.tail = none then (s.setTail (some frame)).setNext frame none
    else s
  s.setPrev frame none

/-! ## B2 list primitives -/

/-- C `search_for_frame_b2`: look a frame id up in B2. -/
def search_for_frame_b2 (fuel : Nat) (s : State) (desired_frame_id : Int) :
    Except Fault (Option Ptr) :=
  if s.otherLinkedListInfo.head = none then .ok none
  else search_loop s.mem desired_frame_id fuel s.otherLinkedListInfo.head

/-- Loop of C `search_for_frame_before`: the node whose `next` carries the id. -/
def search_before_loop (mem : Ptr → Node) (desired_frame_id : Int) :
    Nat → Option Ptr → Except Fault (Option Ptr)
  | _, none => .ok none
  | 0, some _ => .error .outOfFuel
  | n + 1, some p =>
    match (mem p).next with
    | none => .ok none
    | some nx =>
      if (mem nx).frame_id = desired_frame_id then .ok (some p)
      else search_before_loop mem desired_frame_id n (some nx)

/-- C `search_for_frame_before`. -/
def search_for_frame_before (fuel : Nat) (s : State) (desired_frame_id : Int) :
    Except Fault (Option Ptr) :=
  if s.otherLinkedListInfo.head = none then .ok none
  else search_before_loop s.mem desired_frame_id fuel s.otherLinkedListInfo.head

/-- Loop of C `search_for_frame_after`: walking `prev` from the tail, the node
whose `prev` carries the id. -/
def search_after_loop (mem : Ptr → Node) (desired_frame_id : Int) :
    Nat → Option Ptr → Except Fault (Option Ptr)
  | _, none => .ok none
  | 0, some _ => .error .outOfFuel
  | n + 1, some p =>
    match (mem p).prev with
    | none => .ok none
    | some pv =>
      if (mem pv).frame_id = desired_frame_id then .ok (some p)
      else search_after_loop mem desired_frame_id n (some pv)

/-- C `search_for_frame_after`. -/
def search_for_frame_after (fuel : Nat) (s : State) (desired_frame_id : Int) :
    Except Fault (Option Ptr) :=
  if s.otherLinkedListInfo.tail = none then .ok none
  else search_after_loop s.mem desired_frame_id fuel s.otherLinkedListInfo.tail

/-- The link-repair prologue of the middle-node case of
`delete_other_arbitrarily` (lines 310-324 of the C file). -/
def repair_links (fuel : Nat) (s : State) (frame : Ptr) (frame_id_for_deletion : Int) :
    Except Fault State :=
  match (s.mem frame).prev, (s.mem frame).next with
  | some _, some _ => .ok s
  | some _, none =>
    match search_for_frame_after fuel s frame_id_for_deletion with
    | .error e => .error e
    | .ok after_frame => .ok (s.setNext frame after_frame)
  | none, some _ =>
    match search_for_frame_before fuel s frame_id_for_deletion with
    | .error e => .error e
    | .ok before_frame => .ok (s.setPrev frame before_frame)
  | none, none => .ok s

/-- C `delete_other_arbitrarily`: unlink the node with the given id from B2.
Only the middle-node case clears the node's own links. -/
def delete_other_arbitrarily (fuel : Nat) (s : State) (frame_id_for_deletion : Int) :
    Except Fault State :=
  match search_for_frame_b2 fuel s frame_id_for_deletion with
  | .error e => .error e
  | .ok none => .ok s
  | .ok (some frame) =>
    if s.otherLinkedListInfo.head = some frame then
      match (s.mem frame).next with
      | some nx => .ok ((s.setOtherHead (some nx)).setPrev nx none)
      | none => .ok ((s.setOtherHead none).setOtherTail none)
    else if s.otherLinkedListInfo.tail = some frame then
      match (s.mem frame).prev with
      | none => .error .nullDeref
      | some pv => .ok ((s.setOtherTail (some pv)).setNext pv none)
    else
      match repair_links fuel s frame frame_id_for_deletion with
      | .error e => .error e
      | .ok s0 =>
        match (s0.mem frame).prev with
        | none => .error .nullDeref
        | some pv =>
          let s1 := s0.setNext pv (s0.mem frame).next
          match (s1.mem frame).next with
          | none => .error .nullDeref
          | some nx =>
            let s2 := s1.setPrev nx (s1.mem frame).prev
            .ok ((s2.setNext frame none).setPrev frame none)

/-- C `move_to_head`: remove the node's id from both segments, then
`insert_at_head`. -/
def move_to_head (fuel : Nat) (s : State) (frame : Ptr) : Except Fault State :=
  match delete_arbitrarily fuel s (s.mem frame).frame_id with
  | .error e => .error e
  | .ok s1 =>
    match delete_other_arbitrarily fuel s1 (s1.mem frame).frame_id with
    | .error e => .error e
    | .ok s2 => .ok (insert_at_head s2 frame)

/-- The ranked scan of C `insert_into_b2` (the `else` branch, lines 220-262):
link `frame` in front of the first node whose second-last access time is
`<=` its own, or behind the tail when the scan runs off the list. -/
def insert_rank_loop (s : State) (frame : Ptr) : Nat → Option Ptr → Except Fault State
  | _, none =>
    match s.otherLinkedListInfo.tail with
    | none => .error .nullDeref
    | some t =>
      let s1 := s.setNext t (some frame)
      let s2 := s1.setPrev frame s1.otherLinkedListInfo.tail
      let s3 := s2.setNext frame none
      .ok (s3.setOtherTail (some frame))
  | 0, some _ => .error .outOfFuel
  | n + 1, some traversal_ptr =>
    if (s.mem traversal_ptr).time_array_0 ≤ (s.mem frame).time_array_0 then
      let prev_frame := (s.mem traversal_ptr).prev
      let s1 :=
        match prev_frame with
        | some pf => s.setNext pf (some frame)
        | none => s.setOtherHead (some frame)
      let s2 := s1.setPrev frame prev_frame
      let s3 := s2.setNext frame (some traversal_ptr)
      .ok (s3.setPrev traversal_ptr (some frame))
    else insert_rank_loop s frame n (s.mem traversal_ptr).next

/-- C `insert_into_b2`: stamp the node, remove its id from both segments and
insert it into B2 by rank. -/
def insert_into_b2 (fuel : Nat) (s : State) (frame : Ptr) : Except Fault State :=
  let s0 := update_time s frame
  match delete_other_arbitrarily fuel s0 (s0.mem frame).frame_id with
  | .error e => .error e
  | .ok s1 =>
    match delete_arbitrarily fuel s1 (s1.mem frame).frame_id with
    | .error e => .error e
    | .ok s2 =>
      if s2.otherLinkedListInfo.tail = none then
        let s3 := (s2.setOtherTail (some frame)).setOtherHead (some frame)
        .ok ((s3.setNext frame none).setPrev frame none)
      else insert_rank_loop s2 frame fuel s2.otherLinkedListInfo.head

/-! ## Strategy entry points -/

/-- The statement `counterInfo->counter++` on a `uint64_t`. -/
def State.tick (s : State) : State :=
  { s with counter := (s.counter + 1) % UINT64_MOD }

/-- C `StrategyAccessBuffer(buf_id, delete)`: `touch` when `delete` is false,
`purge` when it is true. -/
def StrategyAccessBuffer (fuel : Nat) (s : State) (buf_id : Nat) (delete : Bool) :
    Except Fault State :=
  let s := s.tick
  if delete then
    match delete_arbitrarily fuel s buf_id with
    | .error e => .error e
    | .ok s1 => delete_other_arbitrarily fuel s1 buf_id
  else
    match search_for_frame fuel s buf_id with
    | .error e => .error e
    | .ok (some frame) => insert_into_b2 fuel s frame
    | .ok none =>
      match search_for_frame_b2 fuel s buf_id with
      | .error e => .error e
      | .ok (some frame) => insert_into_b2 fuel s frame
      | .ok none =>
        let new_frame := Ptr.main buf_id
        let s1 := s.setFrameId new_frame buf_id
        let s2 := s1.setTime0 new_frame 0
        let s3 := s2.setTime1 new_frame 0
        let s4 := s3.setSanity new_frame 42069
        move_to_head fuel s4 new_frame

/-- Outcome of `StrategyGetBuffer`: the id of the returned buffer descriptor,
or `elog(ERROR, "no unpinned buffers available")`. -/
inductive GetResult where
  | buf (buf_id : Nat)
  | noUnpinnedBuffers
  deriving DecidableEq, Repr

/-- The free-list loop of `StrategyGetBuffer` (lines 970-1024): pop
descriptors until one has zero reference and usage counts.  `none` is the
`break` taken when the list has run empty. -/
def freelist_loop (fuel : Nat) : Nat → State → Except Fault (Option Nat × State)
  | 0, _ => .error .outOfFuel
  | n + 1, s =>
    if s.firstFreeBuffer < 0 then .ok (none, s)
    else
      let b := s.firstFreeBuffer.toNat
      let s1 : State :=
        { s with firstFreeBuffer := s.freeNext b,
                 freeNext := Function.update s.freeNext b FREENEXT_NOT_IN_LIST }
      if s1.refcount b = 0 ∧ s1.usagecount b = 0 then
        match StrategyAccessBuffer fuel s1 b false with
        | .error e => .error e
        | .ok s2 => .ok (some b, s2)
      else freelist_loop fuel n s1

/-- One statement `otherDoubleLinkedList[frame->frame_id].field = v` of lines
1093-1098: the index is read from the node again for each statement. -/
def write_other_slot (s : State) (frame : Ptr) (w : State → Ptr → State) :
    Except Fault State :=
  if (s.mem frame).frame_id < 0 then .error .badIndex
  else .ok (w s (.other (s.mem frame).frame_id.toNat))

/-- The six writes to `otherDoubleLinkedList[other_fetched_frame->frame_id]` of
lines 1093-1098. -/
def reset_other_slot (s : State) (frame : Ptr) : Except Fault State :=
  write_other_slot s frame (fun t q => t.setNext q none) >>= fun s1 =>
  write_other_slot s1 frame (fun t q => t.setPrev q none) >>= fun s2 =>
  write_other_slot s2 frame (fun t q => t.setFrameId q (-1)) >>= fun s3 =>
  write_other_slot s3 frame (fun t q => t.setTime0 q 0) >>= fun s4 =>
  write_other_slot s4 frame (fun t q => t.setTime1 q 0) >>= fun s5 =>
  write_other_slot s5 frame (fun t q => t.setSanity q 42069)

/-- The inner `for (;;)` of `StrategyGetBuffer` (lines 1063-1108): scan B2
from the tail along `prev` for a descriptor with zero reference count. -/
def scan_b2 (fuel : Nat) (s : State) : Nat → Option Ptr → Except Fault (GetResult × State)
  | _, none => .ok (.noUnpinnedBuffers, s)
  | 0, some _ => .error .outOfFuel
  | n + 1, some otherTraversal_frame =>
    let other_frame_id := (s.mem otherTraversal_frame).frame_id
    if other_frame_id < 0 then .error .badIndex
    else if s.refcount other_frame_id.toNat = 0 then
      match search_for_frame_b2 fuel s other_frame_id with
      | .error e => .error e
      | .ok none => .error .nullDeref
      | .ok (some other_fetched_frame) =>
        match delete_other_arbitrarily fuel s (s.mem other_fetched_frame).frame_id with
        | .error e => .error e
        | .ok s1 =>
          match reset_other_slot s1 other_fetched_frame with
          | .error e => .error e
          | .ok s2 =>
            match move_to_head fuel s2 other_fetched_frame with
            | .error e => .error e
            | .ok s3 => .ok (.buf other_frame_id.toNat, s3)
    else scan_b2 fuel s n (s.mem otherTraversal_frame).prev

/-- The outer `for (;;)` of `StrategyGetBuffer` (lines 1041-1173): scan B1
from the tail along `prev`; when it runs off the list, scan B2. -/
def scan_b1 (fuel : Nat) (s : State) : Nat → Option Ptr → Except Fault (GetResult × State)
  | _, none => scan_b2 fuel s fuel s.otherLinkedListInfo.tail
  | 0, some _ => .error .outOfFuel
  | n + 1, some traversal_frame =>
    let fetched_frame_id := (s.mem traversal_frame).frame_id
    if fetched_frame_id < 0 then .error .badIndex
    else if s.refcount fetched_frame_id.toNat = 0 then
      match search_for_frame fuel s fetched_frame_id with
      | .error e => .error e
      | .ok fetched_frame =>
        match delete_other_arbitrarily fuel s fetched_frame_id with
        | .error e => .error e
        | .ok s1 =>
          match fetched_frame with
          | none => .error .nullDeref
          | some f =>
            match move_to_head fuel s1 f with
            | .error e => .error e
            | .ok s2 => .ok (.buf fetched_frame_id.toNat, s2)
    else scan_b1 fuel s n (s.mem traversal_frame).prev

/-- C `StrategyGetBuffer` (`acquireVictim`): bump the counter, try the free
list, then scan B1 and B2 from their tails. -/
def StrategyGetBuffer (fuel : Nat) (s : State) : Except Fault (GetResult × State) :=
  let s := s.tick
  if 0 ≤ s.firstFreeBuffer then
    match freelist_loop fuel fuel s with
    | .error e => .error e
    | .ok (some b, s1) => .ok (.buf b, s1)
    | .ok (none, s1) => scan_b1 fuel s1 fuel s1.linkedListInfo.tail
  else scan_b1 fuel s fuel s.linkedListInfo.tail

/-- C `StrategyFreeBuffer`: put a descriptor back on the free list and purge
its frame, unless it is on the list already. -/
def StrategyFreeBuffer (fuel : Nat) (s : State) (buf_id : Nat) : Except Fault State :=
  if s.freeNext buf_id = FREENEXT_NOT_IN_LIST then
    let s1 : State :=
      { s with freeNext := Function.update s.freeNext buf_id s.firstFreeBuffer }
    let s2 : State :=
      if s1.freeNext buf_id < 0 then { s1 with lastFreeBuffer := buf_id } else s1
    let s3 : State := { s2 with firstFreeBuffer := buf_id }
    StrategyAccessBuffer fuel s3 buf_id true
  else .ok s

/-- Initial contents of every slot of `doubleLinkedList`
(`StrategyInitialize`, lines 1418-1425). -/
def initNode : Node :=
  { prev := none, next := none, frame_id := -1, time_array_0 := 0, time_array_1 := 0,
    sanity_check := 12345 }

/-- Initial contents of every slot of `otherDoubleLinkedList`
(`StrategyInitialize`, lines 1443-1450). -/
def initOtherNode : Node :=
  { prev := none, next := none, frame_id := -1, time_array_0 := 0, time_array_1 := 0,
    sanity_check := 42069 }

/-- The state built by C `StrategyInitialize` for `NBuffers` buffers.  The
descriptor fields (`freeNext`, reference and usage counts) are set up by the
buffer manager and are taken as parameters. -/
def StrategyInitialize (NBuffers : Nat) (freeNext : Nat → Int)
    (refcount usagecount : Nat → Nat) : State :=
  { mem := fun p => match p with
      | .main _ => initNode
      | .other _ => initOtherNode
    linkedListInfo := { head := some (.main 0), tail := none }
    otherLinkedListInfo := { head := some (.other 0), tail := none }
    counter := 0
    firstFreeBuffer := 0
    lastFreeBuffer := (NBuffers : Int) - 1
    freeNext := freeNext
    refcount := refcount
    usagecount := usagecount }

/-! ## Representation of a segment as a list -/

/-- First node of a list of nodes, or `q` when the list is empty. -/
def firstOr : List Ptr → Option Ptr → Option Ptr
  | [], q => q
  | y :: _, _ => some y

/-- Last node of a list of nodes, or `p` when the list is empty. -/
def lastOr : List Ptr → Option Ptr → Option Ptr
  | [], p => p
  | y :: ys, _ => lastOr ys (some y)

/-- `Seg mem p xs q`: the nodes `xs` are doubly linked in this order, the
`prev` of the first one is `p` and the `next` of the last one is `q`. -/
def Seg (mem : Ptr → Node) : Option Ptr → List Ptr → Option Ptr → Prop
  | _, [], _ => True
  | p, x :: xs, q => (mem x).prev = p ∧ (mem x).next = firstOr xs q ∧ Seg mem (some x) xs q

instance Seg.decidable (mem : Ptr → Node) :
    (p : Option Ptr) → (xs : List Ptr) → (q : Option Ptr) → Decidable (Seg mem p xs q)
  | _, [], _ => isTrue trivial
  | p, x :: xs, q =>
    have := Seg.decidable mem (some x) xs q
    (inferInstance : Decidable ((mem x).prev = p ∧ (mem x).next = firstOr xs q ∧
      Seg mem (some x) xs q))

/-- The nodes of the frames `xs`: frame `i` lives in `doubleLinkedList[i]`. -/
def nodes (xs : List Nat) : List Ptr := xs.map Ptr.main

/-- The segment described by `info` is exactly the list of frames `xs`
(head first): distinct frames, each node carrying its own index as
`frame_id`, correctly linked, with consistent head and tail pointers. -/
def Proper (mem : Ptr → Node) (info : Info) (xs : List Nat) : Prop :=
  xs.Nodup ∧ (∀ i ∈ xs, (mem (.main i)).frame_id = (i : Int)) ∧
  Seg mem none (nodes xs) none ∧
  info.head = firstOr (nodes xs) none ∧ info.tail = lastOr (nodes xs) none

/-- The state of a segment that `StrategyInitialize` leaves behind: `tail` is
`NULL` and `head` points at an unused slot (negative `frame_id`, no
successor). -/
def Pristine (mem : Ptr → Node) (info : Info) : Prop :=
  info.tail = none ∧
  match info.head with
  | none => False
  | some g => (mem g).frame_id < 0 ∧ (mem g).next = none

/-- The segment holds the frames `xs`, head first: either a proper list or,
for the empty segment, the pristine state. -/
def IsSeg (mem : Ptr → Node) (info : Info) (xs : List Nat) : Prop :=
  Proper mem info xs ∨ (xs = [] ∧ Pristine mem info)

/-- Well-formed state: B1 is the list `b1`, B2 is the list `b2`, and no frame
is in both. -/
def Inv (s : State) (b1 b2 : List Nat) : Prop :=
  IsSeg s.mem s.linkedListInfo b1 ∧ IsSeg s.mem s.otherLinkedListInfo b2 ∧
  ∀ i ∈ b1, i ∉ b2

instance Proper.decidable (mem : Ptr → Node) (info : Info) (xs : List Nat) :
    Decidable (Proper mem info xs) :=
  inferInstanceAs (Decidable (xs.Nodup ∧ (∀ i ∈ xs, (mem (.main i)).frame_id = (i : Int)) ∧
    Seg mem none (nodes xs) none ∧
    info.head = firstOr (nodes xs) none ∧ info.tail = lastOr (nodes xs) none))

instance Pristine.decidable (mem : Ptr → Node) (info : Info) :
    Decidable (Pristine mem info) :=
  match h : info.head with
  | none => isFalse (by simp [Pristine, h])
  | some g =>
    if h1 : info.tail = none ∧ (mem g).frame_id < 0 ∧ (mem g).next = none then
      isTrue (by simpa [Pristine, h] using h1)
    else isFalse (by simpa [Pristine, h] using h1)

instance IsSeg.decidable (mem : Ptr → Node) (info : Info) (xs : List Nat) :
    Decidable (IsSeg mem info xs) :=
  inferInstanceAs (Decidable (Proper mem info xs ∨ (xs = [] ∧ Pristine mem info)))

instance Inv.decidable (s : State) (b1 b2 : List Nat) : Decidable (Inv s b1 b2) :=
  inferInstanceAs (Decidable (IsSeg s.mem s.linkedListInfo b1 ∧
    IsSeg s.mem s.otherLinkedListInfo b2 ∧ ∀ i ∈ b1, i ∉ b2))

/-- The second-last access time of frame `i`. -/
def secondLastTouch (s : State) (i : Nat) : Nat := (s.mem (.main i)).time_array_0

/-- The last access time of frame `i`. -/
def lastTouch (s : State) (i : Nat) : Nat := (s.mem (.main i)).time_array_1

/-- `s2` differs from `s` at most in the `prev`/`next` fields of the nodes in
`T` and in the head/tail pointers of the two segments. -/
structure LinksOnly (T : List Ptr) (s s2 : State) : Prop where
  counter : s2.counter = s.counter
  firstFreeBuffer : s2.firstFreeBuffer = s.firstFreeBuffer
  lastFreeBuffer : s2.lastFreeBuffer = s.lastFreeBuffer
  freeNext : s2.freeNext = s.freeNext
  refcount : s2.refcount = s.refcount
  usagecount : s2.usagecount = s.usagecount
  outside : ∀ p, p ∉ T → s2.mem p = s.mem p
  frame_id : ∀ p, (s2.mem p).frame_id = (s.mem p).frame_id
  time_array_0 : ∀ p, (s2.mem p).time_array_0 = (s.mem p).time_array_0
  time_array_1 : ∀ p, (s2.mem p).time_array_1 = (s.mem p).time_array_1
  sanity_check : ∀ p, (s2.mem p).sanity_check = (s.mem p).sanity_check

/-- The effect of `update_time` on one node when the counter reads `c`. -/
def stamp (n : Node) (c : Nat) : Node :=
  if n.time_array_0 = 0 ∧ n.time_array_1 = 0 then { n with time_array_1 := c }
  else { n with time_array_0 := n.time_array_1, time_array_1 := c }

/-- Ranked insertion into B2 as a list operation: `f` goes in front of the
first member whose key is `<=` its own, or to the end. -/
def rankInsert (key : Nat → Nat) (f : Nat) : List Nat → List Nat
  | [] => [f]
  | m :: ms => if key m ≤ key f then f :: m :: ms else m :: rankInsert key f ms

/-- The pristine state of a segment whose head slot is `doubleLinkedList[k]`,
seen after `StrategyAccessBuffer` has written `frame_id = k` into that slot. -/
def GhostAt (mem : Ptr → Node) (info : Info) (k : Nat) : Prop :=
  info.tail = none ∧ info.head = some (.main k) ∧ (mem (.main k)).next = none

/-- `s2` agrees with `s` on everything an operation on frame `k` must not
change: the free list, the pin state, and the ids and timestamps of all
other frames. -/
structure OnlyFrame (k : Nat) (s s2 : State) : Prop where
  firstFreeBuffer : s2.firstFreeBuffer = s.firstFreeBuffer
  lastFreeBuffer : s2.lastFreeBuffer = s.lastFreeBuffer
  freeNext : s2.freeNext = s.freeNext
  refcount : s2.refcount = s.refcount
  usagecount : s2.usagecount = s.usagecount
  frame_id : ∀ i, i ≠ k → (s2.mem (.main i)).frame_id = (s.mem (.main i)).frame_id
  time_array_0 : ∀ i, i ≠ k →
    (s2.mem (.main i)).time_array_0 = (s.mem (.main i)).time_array_0
  time_array_1 : ∀ i, i ≠ k →
    (s2.mem (.main i)).time_array_1 = (s.mem (.main i)).time_array_1

/-- `s2` agrees with `s` on the counter, the free list, the pin state and on
the id and timestamps of every frame. -/
structure SameFrames (s s2 : State) : Prop where
  counter : s2.counter = s.counter
  firstFreeBuffer : s2.firstFreeBuffer = s.firstFreeBuffer
  lastFreeBuffer : s2.lastFreeBuffer = s.lastFreeBuffer
  freeNext : s2.freeNext = s.freeNext
  refcount : s2.refcount = s.refcount
  usagecount : s2.usagecount = s.usagecount
  frame_id : ∀ i, (s2.mem (.main i)).frame_id = (s.mem (.main i)).frame_id
  time_array_0 : ∀ i, (s2.mem (.main i)).time_array_0 = (s.mem (.main i)).time_array_0
  time_array_1 : ∀ i, (s2.mem (.main i)).time_array_1 = (s.mem (.main i)).time_array_1

/-- What `update_time` on frame `v` leaves behind once the link surgery is
done: the counter is unchanged, `v` has the counter value as last access
time and its former last access time as second-last access time, and
nothing else about the frames, the free list or the pin state has changed. -/
structure Stamped (v : Nat) (s s2 : State) : Prop where
  only : OnlyFrame v s s2
  counter : s2.counter = s.counter
  frame_id : (s2.mem (.main v)).frame_id = (s.mem (.main v)).frame_id
  last : lastTouch s2 v = s.counter
  secondLast : secondLastTouch s2 v = lastTouch s v

/-- States reachable from `StrategyInitialize` by calls of the strategy entry
points (each run with some amount of fuel and returning normally) and by
arbitrary changes of the pin state, which belongs to the buffer manager. -/
inductive Reachable : State → Prop
  | init (NBuffers : Nat) (freeNext : Nat → Int) (refcount usagecount : Nat → Nat) :
      Reachable (StrategyInitialize NBuffers freeNext refcount usagecount)
  | access {s s2 : State} (fuel f : Nat) (delete : Bool) :
      Reachable s → StrategyAccessBuffer fuel s f delete = .ok s2 → Reachable s2
  | get {s s2 : State} (fuel : Nat) (r : GetResult) :
      Reachable s → StrategyGetBuffer fuel s = .ok (r, s2) → Reachable s2
  | free {s s2 : State} (fuel b : Nat) :
      Reachable s → StrategyFreeBuffer fuel s b = .ok s2 → Reachable s2
  | pins {s : State} (refcount usagecount : Nat → Nat) :
      Reachable s → Reachable { s with refcount := refcount, usagecount := usagecount }

/-! ## List-level description of what one call does -/

/-- `s2` has the same nodes, segments and counter as `s`; only the free list
and the pin state may differ. -/
structure Ext (s s2 : State) : Prop where
  mem : s2.mem = s.mem
  linkedListInfo : s2.linkedListInfo = s.linkedListInfo
  otherLinkedListInfo : s2.otherLinkedListInfo = s.otherLinkedListInfo
  counter : s2.counter = s.counter

/-- Frame `k` has entered from outside both segments: its history was
cleared and then stamped with the counter of `s`; nothing else about the
frames, the counter, the free list or the pin state has changed. -/
structure Entered (k : Nat) (s s2 : State) : Prop where
  only : OnlyFrame k s s2
  counter : s2.counter = s.counter
  last : lastTouch s2 k = s.counter
  secondLast : secondLastTouch s2 k = 0

/-- What one counter increment followed by the list surgery of a call does to
a well-formed state with B1 = `b1` and B2 = `b2`: the four ways in which
`StrategyAccessBuffer` and the victim scan of `StrategyGetBuffer` end. -/
inductive Effect (s : State) (b1 b2 : List Nat) (s2 : State) : List Nat → List Nat → Prop
  | purge (k : Nat) : SameFrames s.tick s2 → Effect s b1 b2 s2 (b1.erase k) (b2.erase k)
  | enter (k : Nat) : k ∉ b1 → k ∉ b2 → Entered k s.tick s2 → Effect s b1 b2 s2 (k :: b1) b2
  | promote (k : Nat) : k ∈ b1 ∨ k ∈ b2 → Stamped k s.tick s2 →
      Effect s b1 b2 s2 (b1.erase k) (rankInsert (secondLastTouch s2) k (b2.erase k))
  | victim (v : Nat) : v ∈ b1 ∨ v ∈ b2 → Stamped v s.tick s2 →
      Effect s b1 b2 s2 (v :: b1.erase v) (b2.erase v)

/-- Reachable states in whose history the 64-bit counter never wrapped
around: every call left the counter at least as large as it found it (a call
increments it at most twice, so this holds exactly when no increment of the
call went from `2 ^ 64 - 1` to `0`). -/
inductive ReachableNoWrap : State → Prop
  | init (NBuffers : Nat) (freeNext : Nat → Int) (refcount usagecount : Nat → Nat) :
      ReachableNoWrap (StrategyInitialize NBuffers freeNext refcount usagecount)
  | access {s s2 : State} (fuel f : Nat) (delete : Bool) :
      ReachableNoWrap s → StrategyAccessBuffer fuel s f delete = .ok s2 →
      s.counter ≤ s2.counter → ReachableNoWrap s2
  | get {s s2 : State} (fuel : Nat) (r : GetResult) :
      ReachableNoWrap s → StrategyGetBuffer fuel s = .ok (r, s2) →
      s.counter ≤ s2.counter → ReachableNoWrap s2
  | free {s s2 : State} (fuel b : Nat) :
      ReachableNoWrap s → StrategyFreeBuffer fuel s b = .ok s2 →
      s.counter ≤ s2.counter → ReachableNoWrap s2
  | pins {s : State} (refcount usagecount : Nat → Nat) :
      ReachableNoWrap s →
      ReachableNoWrap { s with refcount := refcount, usagecount := usagecount }

/-- B2 is ranked: from head to tail the second-last access times do not
increase. -/
def Ranked (s : State) (b2 : List Nat) : Prop :=
  b2.Pairwise (fun a b => secondLastTouch s b ≤ secondLastTouch s a)

/-- B1 is in most-recently-touched-first order: from head to tail the last
access times strictly decrease. -/
def Recency (s : State) (b1 : List Nat) : Prop :=
  b1.Pairwise (fun a b => lastTouch s b < lastTouch s a)

/-- Every member of B2 has been touched twice: its second-last access time is
not 0 and is smaller than its last access time. -/
def TwiceTouched (s : State) (b2 : List Nat) : Prop :=
  ∀ i ∈ b2, secondLastTouch s i ≠ 0 ∧ secondLastTouch s i < lastTouch s i

/-- Bounds on the timestamps that hold as long as the counter has not wrapped:
the counter is a 64-bit value, every member of B1 or B2 has a last access
time between 1 and the counter. -/
def Clocked (s : State) (b1 b2 : List Nat) : Prop :=
  s.counter < UINT64_MOD ∧
  ∀ i, i ∈ b1 ∨ i ∈ b2 → 0 < lastTouch s i ∧ lastTouch s i ≤ s.counter

/-- Every member of B1 or B2 was last touched after its second-last touch. -/
def SecondBeforeLast (s : State) (b1 b2 : List Nat) : Prop :=
  ∀ i, i ∈ b1 ∨ i ∈ b2 → secondLastTouch s i < lastTouch s i

/-- No timestamp is shared between two members of B1 or B2: the last access
times differ, and so does a last access time from a second-last access time
and a non-zero second-last access time from another one. -/
def DistinctStamps (s : State) (b1 b2 : List Nat) : Prop :=
  ∀ i j, i ∈ b1 ∨ i ∈ b2 → j ∈ b1 ∨ j ∈ b2 → i ≠ j →
    lastTouch s i ≠ lastTouch s j ∧ lastTouch s i ≠ secondLastTouch s j ∧
    (secondLastTouch s i ≠ 0 → secondLastTouch s i ≠ secondLastTouch s j)

/-- The head-to-tail traversal: the nodes met by following `next` from `p`
until `NULL`, at most `fuel` of them. -/
def walkNext (mem : Ptr → Node) : Nat → Option Ptr → List Ptr
  | 0, _ => []
  | _ + 1, none => []
  | n + 1, some p => p :: walkNext mem n (mem p).next

/-- The tail-to-head traversal: the nodes met by following `prev` from `p`
until `NULL`, at most `fuel` of them. -/
def walkPrev (mem : Ptr → Node) : Nat → Option Ptr → List Ptr
  | 0, _ => []
  | _ + 1, none => []
  | n + 1, some p => p :: walkPrev mem n (mem p).prev

/-- The structural invariant of a segment whose nodes, head first, are `L`:
no node occurs twice, the walk along `next` from the head meets exactly `L`
and then `NULL`, the walk along `prev` from the tail meets exactly the reverse
of `L` and then `NULL`, the head has no predecessor and the tail no successor,
head and tail are `NULL` together, the successor of a node points back to it,
and every node is the slot of the frame array named by its `frame_id`. -/
structure Linked (mem : Ptr → Node) (info : Info) (L : List Ptr) : Prop where
  acyclic : L.Nodup
  forward : ∀ fuel, L.length < fuel → walkNext mem fuel info.head = L
  backward : ∀ fuel, L.length < fuel → walkPrev mem fuel info.tail = L.reverse
  head_prev : ∀ h, info.head = some h → (mem h).prev = none
  tail_next : ∀ t, info.tail = some t → (mem t).next = none
  head_iff_tail : info.head = none ↔ info.tail = none
  back_link : ∀ p ∈ L, ∀ q, (mem p).next = some q → (mem q).prev = some p
  frame_id : ∀ p ∈ L, ∃ i : Nat, p = Ptr.main i ∧ (mem p).frame_id = (i : Int)

/-- No unused slot is linked: a node with a negative `frame_id` has no
predecessor. -/
def Unlinked (mem : Ptr → Node) : Prop :=
  ∀ p, (mem p).frame_id < 0 → (mem p).prev = none

/-- Going from `s` to `s2` links no unused slot: a node that has a negative
`frame_id` in `s2` has no predecessor there, or it had a negative `frame_id`
and the same predecessor in `s`. -/
def KeepsUnlinked (s s2 : State) : Prop :=
  ∀ p, (s2.mem p).frame_id < 0 →
    (s2.mem p).prev = none ∨
      ((s.mem p).frame_id < 0 ∧ (s2.mem p).prev = (s.mem p).prev)

/-! ## The free list (reservoir) -/

/-- The free list read as a list of buffer ids: starting at `p`
(`firstFreeBuffer`), follow `freeNext` until a negative value ends the
chain. -/
def FreeList (freeNext : Nat → Int) : Int → List Nat → Prop
  | p, [] => p < 0
  | p, b :: bs => p = (b : Int) ∧ FreeList freeNext (freeNext b) bs

/-- What the test `BUF_STATE_GET_REFCOUNT == 0 && BUF_STATE_GET_USAGECOUNT == 0`
of the free-list loop reports for buffer `b`. -/
def Usable (s : State) (b : Nat) : Prop := s.refcount b = 0 ∧ s.usagecount b = 0

/-- The state after the free-list loop has popped the entries `xs`: each of
them is marked `FREENEXT_NOT_IN_LIST` and `firstFreeBuffer` is `p`. -/
def popAll (s : State) (xs : List Nat) (p : Int) : State :=
  { s with firstFreeBuffer := p,
           freeNext := fun x => if x ∈ xs then FREENEXT_NOT_IN_LIST else s.freeNext x }

/-- `s2` differs from `s` at most in `firstFreeBuffer` and `freeNext`. -/
structure Popped (s s2 : State) : Prop where
  mem : s2.mem = s.mem
  linkedListInfo : s2.linkedListInfo = s.linkedListInfo
  otherLinkedListInfo : s2.otherLinkedListInfo = s.otherLinkedListInfo
  counter : s2.counter = s.counter
  lastFreeBuffer : s2.lastFreeBuffer = s.lastFreeBuffer
  refcount : s2.refcount = s.refcount
  usagecount : s2.usagecount = s.usagecount

instance Usable.decidable (s : State) (b : Nat) : Decidable (Usable s b) :=
  inferInstanceAs (Decidable (s.refcount b = 0 ∧ s.usagecount b = 0))

instance FreeList.decidable (freeNext : Nat → Int) :
    (p : Int) → (fl : List Nat) → Decidable (FreeList freeNext p fl)
  | p, [] => inferInstanceAs (Decidable (p < 0))
  | p, b :: bs =>
    have := FreeList.decidable freeNext (freeNext b) bs
    inferInstanceAs (Decidable (p = (b : Int) ∧ FreeList freeNext (freeNext b) bs))

/-! ## Lock events -/

/-- The spinlocks the strategy functions take: `counterInfo->counter_spinlock`,
the `linkedListInfo_spinlock` of `linkedListInfo` (B1) and of
`otherLinkedListInfo` (B2), `StrategyControl->buffer_strategy_lock`, and the
header lock of a buffer descriptor (`LockBufHdr` / `UnlockBufHdr`). -/
inductive Lock where
  | counter
  | b1
  | b2
  | freelist
  | header (buf : Nat)
  deriving DecidableEq, Repr

/-- One `SpinLockAcquire` / `LockBufHdr` or `SpinLockRelease` / `UnlockBufHdr`. -/
inductive LockEvent where
  | acquire (l : Lock)
  | release (l : Lock)
  deriving DecidableEq, Repr

/-- Lock events of C `update_time` (lines 445 and 465). -/
def update_time_locks : List LockEvent := [.acquire .counter, .release .counter]

/-- Lock events of C `insert_at_head`: those of its call of `update_time`. -/
def insert_at_head_locks : List LockEvent := update_time_locks

/-- Lock events of C `move_to_head`: `delete_arbitrarily` and
`delete_other_arbitrarily` take no lock, `insert_at_head` follows. -/
def move_to_head_locks : List LockEvent := insert_at_head_locks

/-- Lock events of C `insert_into_b2`: those of its call of `update_time`;
the searches, deletions and the ranked scan take no lock. -/
def insert_into_b2_locks : List LockEvent := update_time_locks

/-- Lock events of C `StrategyAccessBuffer(buf_id, delete)` in program order
(lines 782-854).  The three branches of the touch path call `insert_into_b2`,
`insert_into_b2` and `move_to_head`; the branch taken is picked by the same
searches as in `StrategyAccessBuffer`. -/
def StrategyAccessBuffer_locks (fuel : Nat) (s : State) (buf_id : Nat) (delete : Bool) :
    List LockEvent :=
  let s := s.tick
  [.acquire .counter, .release .counter] ++
  if delete then
    [.acquire .b1, .release .b1, .acquire .b2, .release .b2]
  else
    [.acquire .b1, .acquire .b2] ++
    (match search_for_frame fuel s buf_id with
      | .ok (some _) => insert_into_b2_locks
      | _ =>
        match search_for_frame_b2 fuel s buf_id with
        | .ok (some _) => insert_into_b2_locks
        | _ => move_to_head_locks) ++
    [.release .b1, .release .b2]

/-- Lock events of the free-list loop of `StrategyGetBuffer` (lines 970-1024).
When a usable buffer is found the function returns with its header lock
held. -/
def freelist_loop_locks (fuel : Nat) : Nat → State → List LockEvent
  | 0, _ => []
  | n + 1, s =>
    if s.firstFreeBuffer < 0 then [.acquire .freelist, .release .freelist]
    else
      let b := s.firstFreeBuffer.toNat
      let s1 : State :=
        { s with firstFreeBuffer := s.freeNext b,
                 freeNext := Function.update s.freeNext b FREENEXT_NOT_IN_LIST }
      [.acquire .freelist, .release .freelist, .acquire (.header b)] ++
      if s1.refcount b = 0 ∧ s1.usagecount b = 0 then
        StrategyAccessBuffer_locks fuel s1 b false
      else .release (.header b) :: freelist_loop_locks fuel n s1

/-- Lock events of the inner `for (;;)` of `StrategyGetBuffer` (lines
1063-1108), the scan of B2: one `LockBufHdr` per frame looked at. -/
def scan_b2_locks (s : State) : Nat → Option Ptr → List LockEvent
  | _, none => [.release .b2, .release .b1]
  | 0, some _ => []
  | n + 1, some otherTraversal_frame =>
    let other_frame_id := (s.mem otherTraversal_frame).frame_id
    if other_frame_id < 0 then []
    else
      .acquire (.header other_frame_id.toNat) ::
      if s.refcount other_frame_id.toNat = 0 then
        move_to_head_locks ++ [.release .b2, .release .b1]
      else
        .release (.header other_frame_id.toNat) ::
          scan_b2_locks s n (s.mem otherTraversal_frame).prev

/-- Lock events of the outer `for (;;)` of `StrategyGetBuffer` (lines
1041-1173), the scan of B1 followed, when it runs off the list, by the scan of
B2. -/
def scan_b1_locks (fuel : Nat) (s : State) : Nat → Option Ptr → List LockEvent
  | _, none => scan_b2_locks s fuel s.otherLinkedListInfo.tail
  | 0, some _ => []
  | n + 1, some traversal_frame =>
    let fetched_frame_id := (s.mem traversal_frame).frame_id
    if fetched_frame_id < 0 then []
    else
      .acquire (.header fetched_frame_id.toNat) ::
      if s.refcount fetched_frame_id.toNat = 0 then
        move_to_head_locks ++ [.release .b1, .release .b2]
      else
        .release (.header fetched_frame_id.toNat) ::
          scan_b1_locks fuel s n (s.mem traversal_frame).prev

/-- Lock events of C `StrategyGetBuffer` in program order (lines 878-1173). -/
def StrategyGetBuffer_locks (fuel : Nat) (s : State) : List LockEvent :=
  let s := s.tick
  [.acquire .counter, .release .counter] ++
  if 0 ≤ s.firstFreeBuffer then
    freelist_loop_locks fuel fuel s ++
    (match freelist_loop fuel fuel s with
      | .ok (none, s1) =>
        [.acquire .b1, .acquire .b2] ++ scan_b1_locks fuel s1 fuel s1.linkedListInfo.tail
      | _ => [])
  else [.acquire .b1, .acquire .b2] ++ scan_b1_locks fuel s fuel s.linkedListInfo.tail

/-- Lock events of C `StrategyFreeBuffer` in program order (lines 1183-1204). -/
def StrategyFreeBuffer_locks (fuel : Nat) (s : State) (buf_id : Nat) : List LockEvent :=
  [.acquire .freelist] ++
  (if s.freeNext buf_id = FREENEXT_NOT_IN_LIST then
    let s1 : State :=
      { s with freeNext := Function.update s.freeNext buf_id s.firstFreeBuffer }
    let s2 : State :=
      if s1.freeNext buf_id < 0 then { s1 with lastFreeBuffer := buf_id } else s1
    let s3 : State := { s2 with firstFreeBuffer := buf_id }
    StrategyAccessBuffer_locks fuel s3 buf_id true
  else []) ++
  [.release .freelist]

/-- Whether lock `l` is held after the events of a trace, given whether it
was held before. -/
def holds (l : Lock) : Bool → List LockEvent → Bool
  | h, [] => h
  | h, .acquire m :: es => holds l (if m = l then true else h) es
  | h, .release m :: es => holds l (if m = l then false else h) es

/-- The ClockCounter lock is never held at a moment when the B1 or the B2
lock is being acquired.  The flag says whether the ClockCounter lock is held
at the start of the trace. -/
def CounterInnermost : Bool → List LockEvent → Prop
  | _, [] => True
  | c, .acquire l :: es =>
    (l = .b1 ∨ l = .b2 → c = false) ∧ CounterInnermost (if l = .counter then true else c) es
  | c, .release l :: es => CounterInnermost (if l = .counter then false else c) es

/-- The segment locks are acquired together, B1 first: the B2 lock is only
acquired at a moment when the B1 lock is held.  The flag says whether the B1
lock is held at the start of the trace. -/
def AcquiredTogether : Bool → List LockEvent → Prop
  | _, [] => True
  | h, .acquire l :: es =>
    (l = .b2 → h = true) ∧ AcquiredTogether (if l = .b1 then true else h) es
  | h, .release l :: es => AcquiredTogether (if l = .b1 then false else h) es

/-- The B1 lock is never acquired at a moment when the B2 lock is held.  The
flag says whether the B2 lock is held at the start of the trace. -/
def B1BeforeB2 : Bool → List LockEvent → Prop
  | _, [] => True
  | h, .acquire l :: es =>
    (l = .b1 → h = false) ∧ B1BeforeB2 (if l = .b2 then true else h) es
  | h, .release l :: es => B1BeforeB2 (if l = .b2 then false else h) es

instance CounterInnermost.decidable :
    (c : Bool) → (tr : List LockEvent) → Decidable (CounterInnermost c tr)
  | _, [] => isTrue trivial
  | c, .acquire l :: es =>
    have := CounterInnermost.decidable (if l = .counter then true else c) es
    inferInstanceAs (Decidable ((l = .b1 ∨ l = .b2 → c = false) ∧
      CounterInnermost (if l = .counter then true else c) es))
  | c, .release l :: es => CounterInnermost.decidable (if l = .counter then false else c) es

instance AcquiredTogether.decidable :
    (h : Bool) → (tr : List LockEvent) → Decidable (AcquiredTogether h tr)
  | _, [] => isTrue trivial
  | h, .acquire l :: es =>
    have := AcquiredTogether.decidable (if l = .b1 then true else h) es
    inferInstanceAs (Decidable ((l = .b2 → h = true) ∧
      AcquiredTogether (if l = .b1 then true else h) es))
  | h, .release l :: es => AcquiredTogether.decidable (if l = .b1 then false else h) es

instance B1BeforeB2.decidable :
    (h : Bool) → (tr : List LockEvent) → Decidable (B1BeforeB2 h tr)
  | _, [] => isTrue trivial
  | h, .acquire l :: es =>
    have := B1BeforeB2.decidable (if l = .b2 then true else h) es
    inferInstanceAs (Decidable ((l = .b1 → h = false) ∧
      B1BeforeB2 (if l = .b2 then true else h) es))
  | h, .release l :: es => B1BeforeB2.decidable (if l = .b2 then false else h) es

/-- The pin checks of a trace: the buffers whose header lock is taken, in
order. -/
def pinChecks : List LockEvent → List Nat
  | [] => []
  | .acquire (.header b) :: es => b :: pinChecks es
  | _ :: es => pinChecks es

/-! ## Concrete states used in the worked examples -/

/-- The free list as `InitBufferPool` links it for three buffers: 0 → 1 → 2. -/
def exFreeNext : Nat → Int :=
  fun i => if i + 1 < 3 then (i : Int) + 1 else FREENEXT_END_OF_LIST

/-- The state right after `StrategyInitialize` with three unpinned buffers. -/
def exInit : State := StrategyInitialize 3 exFreeNext (fun _ => 0) (fun _ => 0)

/-- The state an operation leaves behind (the old state if it faults). -/
def okState (r : Except Fault State) (d : State) : State :=
  match r with
  | .ok s => s
  | .error _ => d

/-- The state `StrategyGetBuffer` leaves behind (the old state if it faults). -/
def getState (r : Except Fault (GetResult × State)) (d : State) : State :=
  match r with
  | .ok (_, s) => s
  | .error _ => d

/-- What `StrategyGetBuffer` returned, if it did not fault. -/
def getResult (r : Except Fault (GetResult × State)) : Option GetResult :=
  match r with
  | .ok (g, _) => some g
  | .error _ => none

/-- Run a sequence of `StrategyAccessBuffer (f, delete)` calls. -/
def runAccess (fuel : Nat) : List (Nat × Bool) → State → State
  | [], s => s
  | (f, d) :: r, s => runAccess fuel r (okState (StrategyAccessBuffer fuel s f d) s)

/-- Three allocations from the initial state: the free list is used up and
B1 = [2, 1, 0]. -/
def exDrained : State :=
  let s1 := getState (StrategyGetBuffer 8 exInit) exInit
  let s2 := getState (StrategyGetBuffer 8 s1) s1
  getState (StrategyGetBuffer 8 s2) s2

/-- `exDrained` after `touch 1; touch 0`: B1 = [2], B2 = [1, 0]. -/
def exTwoSegments : State := runAccess 8 [(1, false), (0, false)] exDrained

/-- `exDrained` after `touch 1; touch 0; purge 2`: B1 = [], B2 = [1, 0]. -/
def exOnlyB2 : State := runAccess 8 [(1, false), (0, false), (2, true)] exDrained

/-- `exTwoSegments` with every buffer pinned. -/
def exAllPinned : State := { exTwoSegments with refcount := fun _ => 1 }

/-- The initial state after `touch 0; purge 0`: frame 0 is in neither segment
but still carries the timestamp of its first touch. -/
def exPurged : State := runAccess 8 [(0, false), (0, true)] exInit

/-- Counter, last and second-last access time of frame `f` after an
operation, or `none` if the operation faulted. -/
def observe (r : Except Fault State) (f : Nat) : Option (Nat × Nat × Nat) :=
  match r with
  | .ok s => some (s.counter, lastTouch s f, secondLastTouch s f)
  | .error _ => none

/-- Returned buffer together with the counter, last and second-last access
time of frame `f` after `StrategyGetBuffer`, or `none` if it faulted. -/
def observeGet (r : Except Fault (GetResult × State)) (f : Nat) :
    Option (GetResult × Nat × Nat × Nat) :=
  match r with
  | .ok (g, s) => some (g, s.counter, lastTouch s f, secondLastTouch s f)
  | .error _ => none

/-- Touch the frames of a list one after the other, stopping at the first
fault. -/
def touchAll (fuel : Nat) : List Nat → State → Except Fault State
  | [], s => .ok s
  | f :: fs, s =>
    match StrategyAccessBuffer fuel s f false with
    | .error e => .error e
    | .ok s2 => touchAll fuel fs s2

/-- The state right after `StrategyInitialize` with the counter advanced to
`c` (what `c` purges of an absent frame leave behind). -/
def exAtCounter (c : Nat) : State := { exInit with counter := c }

/-- Two touches of frame 0 starting with the counter at `2 ^ 64 - 1`: the
first touch wraps the counter to 0. -/
def exWrappedB2 : State :=
  runAccess 8 [(0, false), (0, false)] (exAtCounter (UINT64_MOD - 1))

/-- Touches of frames 0 and 1 starting with the counter at `2 ^ 64 - 2`: the
second touch wraps the counter to 0. -/
def exWrappedB1 : State :=
  runAccess 8 [(0, false), (1, false)] (exAtCounter (UINT64_MOD - 2))

/-- `exDrained` after `purge 0; purge 1; purge 2`: both segments and the free
list are empty. -/
def exEmptied : State := runAccess 8 [(0, true), (1, true), (2, true)] exDrained

/-- The emptied state with the counter advanced to `2 ^ 64 - 2`, followed by
`touch 0; touch 1`: the second touch wraps the counter to 0, B1 = [1, 0] and
the free list is empty. -/
def exWrappedVictim : State :=
  runAccess 8 [(0, false), (1, false)] { exEmptied with counter := UINT64_MOD - 2 }

/-- The initial state with buffer 0 unpinned but carrying a usage count. -/
def exUsed : State := { exInit with usagecount := fun i => if i = 0 then 1 else 0 }

/-- `exTwoSegments` after `touch 2`: B1 = [], B2 = [2, 1, 0], so frame 1 is a
middle node of B2. -/
def exThreeInB2 : State := runAccess 8 [(2, false)] exTwoSegments

/-- B2 = [2, 1, 0] with the `next` link of its middle node 1 lost. -/
def exLostNext : State := exThreeInB2.setNext (.main 1) none

/-- B2 = [2, 1, 0] with the `prev` link of its middle node 1 lost. -/
def exLostPrev : State := exThreeInB2.setPrev (.main 1) none

/-- B2 = [2, 1, 0] with both links of its middle node 1 lost. -/
def exLostBoth : State := (exThreeInB2.setNext (.main 1) none).setPrev (.main 1) none

/-- `exDrained` with the tail of B1 pinned: B1 = [2, 1, 0], frame 0 is pinned,
frames 1 and 2 are not. -/
def exPinnedTail : State :=
  { exDrained with refcount := fun i => if i = 0 then 1 else 0, usagecount := fun _ => 0 }

/-- The free list as `InitBufferPool` links it for four buffers:
0 → 1 → 2 → 3. -/
def exFreeNextFour : Nat → Int :=
  fun i => if i + 1 < 4 then (i : Int) + 1 else FREENEXT_END_OF_LIST

/-- The state right after `StrategyInitialize` with four unpinned buffers. -/
def exInitFour : State := StrategyInitialize 4 exFreeNextFour (fun _ => 0) (fun _ => 0)

/-- Four allocations from `exInitFour`: the free list is used up and
B1 = [3, 2, 1, 0]. -/
def exDrainedFour : State :=
  let s1 := getState (StrategyGetBuffer 8 exInitFour) exInitFour
  let s2 := getState (StrategyGetBuffer 8 s1) s1
  let s3 := getState (StrategyGetBuffer 8 s2) s2
  getState (StrategyGetBuffer 8 s3) s3

/-- `exDrainedFour` after `touch 2; touch 1; touch 0`: B1 = [3],
B2 = [2, 1, 0]. -/
def exFourFrames : State := runAccess 8 [(2, false), (1, false), (0, false)] exDrainedFour

/-- `exFourFrames` with the only member of B1 (frame 3) and the tail of B2
(frame 0) pinned; frames 2 and 1 are not pinned. -/
def exPinnedEnds : State :=
  { exFourFrames with
    refcount := fun i => if i = 3 ∨ i = 0 then 1 else 0, usagecount := fun _ => 0 }

end Elru

/-!
# Single-list LRU stack: `main.c` and `freelist_lru.c`

`main.c` holds the list primitives (`search_for_frame`, `delete_arbitrarily`,
`insert_at_head`, `move_to_head`) on a static list and a test driver;
`freelist_lru.c` has the same four functions on `linkedListInfo` together with
the strategy entry points.  A pointer to a node is modelled as its index in
the node array (`nodes` in `main.c`, `doubleLinkedList` in
`freelist_lru.c`), `NULL` as `none`.
-/

namespace Lru

/-- The C `struct node` of `main.c` and `freelist_lru.c`. -/
structure Node where
  prev : Option Nat
  next : Option Nat
  frame_id : Int
  deriving DecidableEq, Repr

/-- Ways in which the C code can leave defined, terminating behaviour. -/
inductive Fault where
  | nullDeref
  | badIndex
  | outOfFuel
  deriving DecidableEq, Repr

/-- Value of `FREENEXT_NOT_IN_LIST` in PostgreSQL's `buf_internals.h`. -/
def FREENEXT_NOT_IN_LIST : Int := -2

/-- The list (`doubleLinkedList` of `main.c`, `linkedListInfo` of
`freelist_lru.c`; the unused `size` field is left out), the node array, the
free list of `StrategyControl` and what `LockBufHdr` reports for a buffer
descriptor. -/
structure State where
  mem : Nat → Node
  head : Option Nat
  tail : Option Nat
  firstFreeBuffer : Int
  lastFreeBuffer : Int
  freeNext : Nat → Int
  refcount : Nat → Nat
  usagecount : Nat → Nat

/-- Assignment `p->prev = v`. -/
def State.setPrev (s : State) (p : Nat) (v : Option Nat) : State :=
  { s with mem := Function.update s.mem p { s.mem p with prev := v } }

/-- Assignment `p->next = v`. -/
def State.setNext (s : State) (p : Nat) (v : Option Nat) : State :=
  { s with mem := Function.update s.mem p { s.mem p with next := v } }

/-- Assignment `p->frame_id = v`. -/
def State.setFrameId (s : State) (p : Nat) (v : Int) : State :=
  { s with mem := Function.update s.mem p { s.mem p with frame_id := v } }

/-- Assignment to the `head` field of the list. -/
def State.setHead (s : State) (v : Option Nat) : State := { s with head := v }

/-- Assignment to the `tail` field of the list. -/
def State.setTail (s : State) (v : Option Nat) : State := { s with tail := v }

/-- The `while (traversal_ptr != NULL)` loop of `search_for_frame`. -/
def search_loop (mem : Nat → Node) (desired_frame_id : Int) :
    Nat → Option Nat → Except Fault (Option Nat)
  | _, none => .ok none
  | 0, some _ => .error .outOfFuel
  | n + 1, some p =>
    if (mem p).frame_id = desired_frame_id then .ok (some p)
    else search_loop mem desired_frame_id n (mem p).next

/-- C `search_for_frame`: the first node from the head with the given id. -/
def search_for_frame (fuel : Nat) (s : State) (desired_frame_id : Int) :
    Except Fault (Option Nat) :=
  if s.head = none then .ok none
  else search_loop s.mem desired_frame_id fuel s.head

/-- C `delete_arbitrarily`: unlink the node with the given id.  The node's own
`prev` and `next` are left as they are. -/
def delete_arbitrarily (fuel : Nat) (s : State) (frame_id_for_deletion : Int) :
    Except Fault State :=
  match search_for_frame fuel s frame_id_for_deletion with
  | .error e => .error e
  | .ok none => .ok s
  | .ok (some frame) =>
    if s.head = some frame then
      match (s.mem frame).next with
      | some nx => .ok ((s.setHead (some nx)).setPrev nx none)
      | none => .ok ((s.setHead none).setTail none)
    else if s.tail = some frame then
      match (s.mem frame).prev with
      | none => .error .nullDeref
      | some pv => .ok ((s.setTail (some pv)).setNext pv none)
    else
      match (s.mem frame).prev with
      | none => .error .nullDeref
      | some pv =>
        let s1 := s.setNext pv (s.mem frame).next
        match (s1.mem frame).next with
        | none => .error .nullDeref
        | some nx => .ok (s1.setPrev nx (s1.mem frame).prev)

/-- C `insert_at_head`. -/
def insert_at_head (s : State) (frame : Nat) : State :=
  let s := s.setNext frame s.head
  let s :=
    match s.head with
    | some h => s.setPrev h (some frame)
    | none => s
  let s := s.setHead (some frame)
  let s := if s.tail = none then s.setTail (some frame) else s
  s.setPrev frame none

/-- C `move_to_head`: `delete_arbitrarily(frame->frame_id)` followed by
`insert_at_head(frame)`. -/
def move_to_head (fuel : Nat) (s : State) (frame : Nat) : Except Fault State :=
  match delete_arbitrarily fuel s (s.mem frame).frame_id with
  | .error e => .error e
  | .ok s1 => .ok (insert_at_head s1 frame)

/-- C `StrategyAccessBuffer(buf_id, delete)` of `freelist_lru.c`. -/
def StrategyAccessBuffer (fuel : Nat) (s : State) (buf_id : Nat) (delete : Bool) :
    Except Fault State :=
  if delete then delete_arbitrarily fuel s buf_id
  else
    match search_for_frame fuel s buf_id with
    | .error e => .error e
    | .ok (some frame) => move_to_head fuel s frame
    | .ok none =>
      let new_frame := buf_id
      let s1 := s.setFrameId new_frame buf_id
      .ok (insert_at_head s1 new_frame)

/-- Outcome of `StrategyGetBuffer`: the id of the returned buffer descriptor,
or `elog(ERROR, "no unpinned buffers available")`. -/
inductive GetResult where
  | buf (buf_id : Nat)
  | noUnpinnedBuffers
  deriving DecidableEq, Repr

/-- The free-list loop of `StrategyGetBuffer` (lines 468-517 of
`freelist_lru.c`). -/
def freelist_loop (fuel : Nat) : Nat → State → Except Fault (Option Nat × State)
  | 0, _ => .error .outOfFuel
  | n + 1, s =>
    if s.firstFreeBuffer < 0 then .ok (none, s)
    else
      let b := s.firstFreeBuffer.toNat
      let s1 : State :=
        { s with firstFreeBuffer := s.freeNext b,
                 freeNext := Function.update s.freeNext b FREENEXT_NOT_IN_LIST }
      if s1.refcount b = 0 ∧ s1.usagecount b = 0 then
        match StrategyAccessBuffer fuel s1 b false with
        | .error e => .error e
        | .ok s2 => .ok (some b, s2)
      else freelist_loop fuel n s1

/-- The `for (;;)` of `StrategyGetBuffer` (lines 534-607 of
`freelist_lru.c`): scan the stack from the tail along `prev` for a descriptor
with zero reference count. -/
def scan (fuel : Nat) (s : State) : Nat → Option Nat → Except Fault (GetResult × State)
  | _, none => .ok (.noUnpinnedBuffers, s)
  | 0, some _ => .error .outOfFuel
  | n + 1, some traversal_frame =>
    let fetched_frame_id := (s.mem traversal_frame).frame_id
    if fetched_frame_id < 0 then .error .badIndex
    else if s.refcount fetched_frame_id.toNat = 0 then
      match search_for_frame fuel s fetched_frame_id with
      | .error e => .error e
      | .ok none => .error .nullDeref
      | .ok (some fetched_frame) =>
        match move_to_head fuel s fetched_frame with
        | .error e => .error e
        | .ok s2 => .ok (.buf fetched_frame_id.toNat, s2)
    else scan fuel s n (s.mem traversal_frame).prev

/-- C `StrategyGetBuffer` of `freelist_lru.c`. -/
def StrategyGetBuffer (fuel : Nat) (s : State) : Except Fault (GetResult × State) :=
  if 0 ≤ s.firstFreeBuffer then
    match freelist_loop fuel fuel s with
    | .error e => .error e
    | .ok (some b, s1) => .ok (.buf b, s1)
    | .ok (none, s1) => scan fuel s1 fuel s1.tail
  else scan fuel s fuel s.tail

/-- C `StrategyFreeBuffer` of `freelist_lru.c`. -/
def StrategyFreeBuffer (fuel : Nat) (s : State) (buf_id : Nat) : Except Fault State :=
  if s.freeNext buf_id = FREENEXT_NOT_IN_LIST then
    let s1 : State :=
      { s with freeNext := Function.update s.freeNext buf_id s.firstFreeBuffer }
    let s2 : State :=
      if s1.freeNext buf_id < 0 then { s1 with lastFreeBuffer := buf_id } else s1
    let s3 : State := { s2 with firstFreeBuffer := buf_id }
    StrategyAccessBuffer fuel s3 buf_id true
  else .ok s

/-- The state built by C `StrategyInitialize` of `freelist_lru.c` for
`NBuffers` buffers: `tail = NULL`, `head = doubleLinkedList` (the address of
slot 0), free list from 0 to `NBuffers - 1`.  The function writes no node, so
the nodes are what the zero-filled shared memory holds: no links and
`frame_id = 0`.  The descriptor fields are set up by the buffer manager and are
taken as parameters. -/
def StrategyInitialize (NBuffers : Nat) (freeNext : Nat → Int)
    (refcount usagecount : Nat → Nat) : State :=
  { mem := fun _ => { prev := none, next := none, frame_id := 0 }
    head := some 0
    tail := none
    firstFreeBuffer := 0
    lastFreeBuffer := (NBuffers : Int) - 1
    freeNext := freeNext
    refcount := refcount
    usagecount := usagecount }

/-! ## Representation of the list -/

/-- First node of a list of nodes, or `q` when the list is empty. -/
def firstOr : List Nat → Option Nat → Option Nat
  | [], q => q
  | y :: _, _ => some y

/-- Last node of a list of nodes, or `p` when the list is empty. -/
def lastOr : List Nat → Option Nat → Option Nat
  | [], p => p
  | y :: ys, _ => lastOr ys (some y)

/-- `Seg mem p xs q`: the nodes `xs` are doubly linked in this order, the
`prev` of the first one is `p` and the `next` of the last one is `q`. -/
def Seg (mem : Nat → Node) : Option Nat → List Nat → Option Nat → Prop
  | _, [], _ => True
  | p, x :: xs, q => (mem x).prev = p ∧ (mem x).next = firstOr xs q ∧ Seg mem (some x) xs q

instance Seg.decidable (mem : Nat → Node) :
    (p : Option Nat) → (xs : List Nat) → (q : Option Nat) → Decidable (Seg mem p xs q)
  | _, [], _ => isTrue trivial
  | p, x :: xs, q =>
    have := Seg.decidable mem (some x) xs q
    (inferInstance : Decidable ((mem x).prev = p ∧ (mem x).next = firstOr xs q ∧
      Seg mem (some x) xs q))

/-- The frame ids carried by a list of nodes. -/
def ids (s : State) (L : List Nat) : List Int := L.map (fun p => (s.mem p).frame_id)

/-- The list is well formed and consists of the nodes `L`, head first: the
nodes are distinct and correctly linked, `head` is the first and `tail` the
last of them (both `NULL` when `L` is empty). -/
def WF (s : State) (L : List Nat) : Prop :=
  L.Nodup ∧ Seg s.mem none L none ∧ s.head = firstOr L none ∧ s.tail = lastOr L none

instance WF.decidable (s : State) (L : List Nat) : Decidable (WF s L) :=
  inferInstanceAs (Decidable (L.Nodup ∧ Seg s.mem none L none ∧
    s.head = firstOr L none ∧ s.tail = lastOr L none))

/-- `s2` differs from `s` at most in `prev`/`next` fields and in the head and
tail pointers: frame ids, free list and pin state are the same. -/
structure Relinked (s s2 : State) : Prop where
  frame_id : ∀ p, (s2.mem p).frame_id = (s.mem p).frame_id
  firstFreeBuffer : s2.firstFreeBuffer = s.firstFreeBuffer
  lastFreeBuffer : s2.lastFreeBuffer = s.lastFreeBuffer
  freeNext : s2.freeNext = s.freeNext
  refcount : s2.refcount = s.refcount
  usagecount : s2.usagecount = s.usagecount

/-- The LRU stack of `freelist_lru.c` holds the frames `xs`, most recently
used first: the list is well formed and frame `i` is node `doubleLinkedList[i]`
carrying `frame_id = i`. -/
def Stack (s : State) (xs : List Nat) : Prop :=
  WF s xs ∧ ∀ i ∈ xs, (s.mem i).frame_id = (i : Int)

instance Stack.decidable (s : State) (xs : List Nat) : Decidable (Stack s xs) :=
  inferInstanceAs (Decidable (WF s xs ∧ ∀ i ∈ xs, (s.mem i).frame_id = (i : Int)))

/-! ## Concrete states used in the worked examples -/

/-- The state an operation leaves behind (the old state if it faults). -/
def okState (r : Except Fault State) (d : State) : State :=
  match r with
  | .ok s => s
  | .error _ => d

/-- The state `StrategyGetBuffer` leaves behind (the old state if it faults). -/
def getState (r : Except Fault (GetResult × State)) (d : State) : State :=
  match r with
  | .ok (_, s) => s
  | .error _ => d

/-- What `StrategyGetBuffer` returned, if it did not fault. -/
def getResult (r : Except Fault (GetResult × State)) : Option GetResult :=
  match r with
  | .ok (g, _) => some g
  | .error _ => none

/-- The state of `main.c` after the initialisation loop of `main`: node `i`
has `frame_id = i` and no links, the static list is empty.  The free list is
empty and nothing is pinned. -/
def exMain : State :=
  { mem := fun i => { prev := none, next := none, frame_id := i }
    head := none
    tail := none
    firstFreeBuffer := -1
    lastFreeBuffer := -1
    freeNext := fun _ => FREENEXT_NOT_IN_LIST
    refcount := fun _ => 0
    usagecount := fun _ => 0 }

/-- After the three insertions of `main`: the list is [2, 1, 0]. -/
def exInserted : State := insert_at_head (insert_at_head (insert_at_head exMain 0) 1) 2

/-- After `move_to_head(&nodes[0])` in `main`: the list is [0, 2, 1]. -/
def exMoved : State := okState (move_to_head 8 exInserted 0) exInserted

/-- After `delete_arbitrarily(nodes[1].frame_id)` in `main`: the list is
[0, 2]. -/
def exDeleted : State := okState (delete_arbitrarily 8 exMoved 1) exMoved

/-- The list [2, 1, 0] with buffer 0 pinned. -/
def exTailPinned : State := { exInserted with refcount := fun i => if i = 0 then 1 else 0 }

/-- The list [2, 1, 0] with every buffer pinned. -/
def exAllPinned : State := { exInserted with refcount := fun _ => 1 }

/-- The state right after `StrategyInitialize` of `freelist_lru.c` with three
unpinned buffers on the free list 0 → 1 → 2. -/
def exInit : State :=
  StrategyInitialize 3 (fun i => if i + 1 < 3 then (i : Int) + 1 else -1) (fun _ => 0)
    (fun _ => 0)

end Lru

namespace Elru

/-! ## Linked segments: basic facts -/

@[simp] theorem firstOr_nil (q : Option Ptr) : firstOr [] q = q := rfl

@[simp] theorem firstOr_cons (y : Ptr) (l : List Ptr) (q : Option Ptr) :
    firstOr (y :: l) q = some y := rfl

@[simp] theorem lastOr_nil (p : Option Ptr) : lastOr [] p = p := rfl

@[simp] theorem lastOr_cons (y : Ptr) (l : List Ptr) (p : Option Ptr) :
    lastOr (y :: l) p = lastOr l (some y) := rfl

@[simp] theorem mem_setHead (s : State) (v : Option Ptr) : (s.setHead v).mem = s.mem := rfl

@[simp] theorem mem_setTail (s : State) (v : Option Ptr) : (s.setTail v).mem = s.mem := rfl

@[simp] theorem mem_setOtherHead (s : State) (v : Option Ptr) :
    (s.setOtherHead v).mem = s.mem := rfl

@[simp] theorem mem_setOtherTail (s : State) (v : Option Ptr) :
    (s.setOtherTail v).mem = s.mem := rfl

@[simp] theorem linkedListInfo_setPrev (s : State) (p : Ptr) (v : Option Ptr) :
    (s.setPrev p v).linkedListInfo = s.linkedListInfo := rfl

@[simp] theorem otherLinkedListInfo_setPrev (s : State) (p : Ptr) (v : Option Ptr) :
    (s.setPrev p v).otherLinkedListInfo = s.otherLinkedListInfo := rfl

@[simp] theorem counter_setPrev (s : State) (p : Ptr) (v : Option Ptr) :
    (s.setPrev p v).counter = s.counter := rfl

@[simp] theorem refcount_setPrev (s : State) (p : Ptr) (v : Option Ptr) :
    (s.setPrev p v).refcount = s.refcount := rfl

@[simp] theorem linkedListInfo_setNext (s : State) (p : Ptr) (v : Option Ptr) :
    (s.setNext p v).linkedListInfo = s.linkedListInfo := rfl

@[simp] theorem otherLinkedListInfo_setNext (s : State) (p : Ptr) (v : Option Ptr) :
    (s.setNext p v).otherLinkedListInfo = s.otherLinkedListInfo := rfl

@[simp] theorem counter_setNext (s : State) (p : Ptr) (v : Option Ptr) :
    (s.setNext p v).counter = s.counter := rfl

@[simp] theorem refcount_setNext (s : State) (p : Ptr) (v : Option Ptr) :
    (s.setNext p v).refcount = s.refcount := rfl

@[simp] theorem linkedListInfo_setTime0 (s : State) (p : Ptr) (v : Nat) :
    (s.setTime0 p v).linkedListInfo = s.linkedListInfo := rfl

@[simp] theorem otherLinkedListInfo_setTime0 (s : State) (p : Ptr) (v : Nat) :
    (s.setTime0 p v).otherLinkedListInfo = s.otherLinkedListInfo := rfl

@[simp] theorem counter_setTime0 (s : State) (p : Ptr) (v : Nat) :
    (s.setTime0 p v).counter = s.counter := rfl

@[simp] theorem refcount_setTime0 (s : State) (p : Ptr) (v : Nat) :
    (s.setTime0 p v).refcount = s.refcount := rfl

@[simp] theorem linkedListInfo_setTime1 (s : State) (p : Ptr) (v : Nat) :
    (s.setTime1 p v).linkedListInfo = s.linkedListInfo := rfl

@[simp] theorem otherLinkedListInfo_setTime1 (s : State) (p : Ptr) (v : Nat) :
    (s.setTime1 p v).otherLinkedListInfo = s.otherLinkedListInfo := rfl

@[simp] theorem counter_setTime1 (s : State) (p : Ptr) (v : Nat) :
    (s.setTime1 p v).counter = s.counter := rfl

@[simp] theorem refcount_setTime1 (s : State) (p : Ptr) (v : Nat) :
    (s.setTime1 p v).refcount = s.refcount := rfl

@[simp] theorem linkedListInfo_setFrameId (s : State) (p : Ptr) (v : Int) :
    (s.setFrameId p v).linkedListInfo = s.linkedListInfo := rfl

@[simp] theorem otherLinkedListInfo_setFrameId (s : State) (p : Ptr) (v : Int) :
    (s.setFrameId p v).otherLinkedListInfo = s.otherLinkedListInfo := rfl

@[simp] theorem counter_setFrameId (s : State) (p : Ptr) (v : Int) :
    (s.setFrameId p v).counter = s.counter := rfl

@[simp] theorem refcount_setFrameId (s : State) (p : Ptr) (v : Int) :
    (s.setFrameId p v).refcount = s.refcount := rfl

@[simp] theorem linkedListInfo_setSanity (s : State) (p : Ptr) (v : Int) :
    (s.setSanity p v).linkedListInfo = s.linkedListInfo := rfl

@[simp] theorem otherLinkedListInfo_setSanity (s : State) (p : Ptr) (v : Int) :
    (s.setSanity p v).otherLinkedListInfo = s.otherLinkedListInfo := rfl

@[simp] theorem counter_setSanity (s : State) (p : Ptr) (v : Int) :
    (s.setSanity p v).counter = s.counter := rfl

@[simp] theorem refcount_setSanity (s : State) (p : Ptr) (v : Int) :
    (s.setSanity p v).refcount = s.refcount := rfl

@[simp] theorem head_setHead (s : State) (v : Option Ptr) :
    (s.setHead v).linkedListInfo.head = v := rfl

@[simp] theorem tail_setHead (s : State) (v : Option Ptr) :
    (s.setHead v).linkedListInfo.tail = s.linkedListInfo.tail := rfl

@[simp] theorem otherLinkedListInfo_setHead (s : State) (v : Option Ptr) :
    (s.setHead v).otherLinkedListInfo = s.otherLinkedListInfo := rfl

@[simp] theorem counter_setHead (s : State) (v : Option Ptr) :
    (s.setHead v).counter = s.counter := rfl

@[simp] theorem refcount_setHead (s : State) (v : Option Ptr) :
    (s.setHead v).refcount = s.refcount := rfl

@[simp] theorem tail_setTail (s : State) (v : Option Ptr) :
    (s.setTail v).linkedListInfo.tail = v := rfl

@[simp] theorem head_setTail (s : State) (v : Option Ptr) :
    (s.setTail v).linkedListInfo.head = s.linkedListInfo.head := rfl

@[simp] theorem otherLinkedListInfo_setTail (s : State) (v : Option Ptr) :
    (s.setTail v).otherLinkedListInfo = s.otherLinkedListInfo := rfl

@[simp] theorem counter_setTail (s : State) (v : Option Ptr) :
    (s.setTail v).counter = s.counter := rfl

@[simp] theorem refcount_setTail (s : State) (v : Option Ptr) :
    (s.setTail v).refcount = s.refcount := rfl

@[simp] theorem head_setOtherHead (s : State) (v : Option Ptr) :
    (s.setOtherHead v).otherLinkedListInfo.head = v := rfl

@[simp] theorem tail_setOtherHead (s : State) (v : Option Ptr) :
    (s.setOtherHead v).otherLinkedListInfo.tail = s.otherLinkedListInfo.tail := rfl

@[simp] theorem linkedListInfo_setOtherHead (s : State) (v : Option Ptr) :
    (s.setOtherHead v).linkedListInfo = s.linkedListInfo := rfl

@[simp] theorem counter_setOtherHead (s : State) (v : Option Ptr) :
    (s.setOtherHead v).counter = s.counter := rfl

@[simp] theorem refcount_setOtherHead (s : State) (v : Option Ptr) :
    (s.setOtherHead v).refcount = s.refcount := rfl

@[simp] theorem tail_setOtherTail (s : State) (v : Option Ptr) :
    (s.setOtherTail v).otherLinkedListInfo.tail = v := rfl

@[simp] theorem head_setOtherTail (s : State) (v : Option Ptr) :
    (s.setOtherTail v).otherLinkedListInfo.head = s.otherLinkedListInfo.head := rfl

@[simp] theorem linkedListInfo_setOtherTail (s : State) (v : Option Ptr) :
    (s.setOtherTail v).linkedListInfo = s.linkedListInfo := rfl

@[simp] theorem counter_setOtherTail (s : State) (v : Option Ptr) :
    (s.setOtherTail v).counter = s.counter := rfl

@[simp] theorem refcount_setOtherTail (s : State) (v : Option Ptr) :
    (s.setOtherTail v).refcount = s.refcount := rfl

@[simp] theorem prev_setPrev (s : State) (p q : Ptr) (v : Option Ptr) :
    ((s.setPrev p v).mem q).prev = if q = p then v else (s.mem q).prev := by
  simp only [State.setPrev, Function.update_apply]; split_ifs with h <;> simp [h]

@[simp] theorem next_setPrev (s : State) (p q : Ptr) (v : Option Ptr) :
    ((s.setPrev p v).mem q).next = (s.mem q).next := by
  simp only [State.setPrev, Function.update_apply]; split_ifs with h <;> simp [h]

@[simp] theorem next_setNext (s : State) (p q : Ptr) (v : Option Ptr) :
    ((s.setNext p v).mem q).next = if q = p then v else (s.mem q).next := by
  simp only [State.setNext, Function.update_apply]; split_ifs with h <;> simp [h]

@[simp] theorem prev_setNext (s : State) (p q : Ptr) (v : Option Ptr) :
    ((s.setNext p v).mem q).prev = (s.mem q).prev := by
  simp only [State.setNext, Function.update_apply]; split_ifs with h <;> simp [h]

theorem firstOr_append (l r : List Ptr) (q : Option Ptr) :
    firstOr (l ++ r) q = firstOr l (firstOr r q) := by
  cases l <;> rfl

theorem lastOr_append (l r : List Ptr) (p : Option Ptr) :
    lastOr (l ++ r) p = lastOr r (lastOr l p) := by
  induction l generalizing p with
  | nil => rfl
  | cons x l ih => simpa [lastOr] using ih (some x)

theorem lastOr_concat (l : List Ptr) (a : Ptr) (p : Option Ptr) :
    lastOr (l ++ [a]) p = some a := by
  rw [lastOr_append]; rfl

theorem lastOr_cons_ne_none (x : Ptr) (l : List Ptr) (p : Option Ptr) :
    ∃ a, lastOr (x :: l) p = some a ∧ a ∈ x :: l := by
  induction l generalizing x p with
  | nil => exact ⟨x, rfl, by simp⟩
  | cons y l ih =>
    obtain ⟨a, h1, h2⟩ := ih y (some x)
    exact ⟨a, by simpa [lastOr] using h1, List.mem_cons_of_mem _ h2⟩

theorem Seg_append (mem : Ptr → Node) (l r : List Ptr) (p q : Option Ptr) :
    Seg mem p (l ++ r) q ↔ Seg mem p l (firstOr r q) ∧ Seg mem (lastOr l p) r q := by
  induction l generalizing p with
  | nil => simp [Seg, lastOr]
  | cons x l ih =>
    show ((mem x).prev = p ∧ (mem x).next = firstOr (l ++ r) q ∧ Seg mem (some x) (l ++ r) q) ↔
      ((mem x).prev = p ∧ (mem x).next = firstOr l (firstOr r q) ∧
        Seg mem (some x) l (firstOr r q)) ∧ Seg mem (lastOr l (some x)) r q
    rw [firstOr_append, ih (some x)]
    tauto

/-- A segment only depends on the `prev` and `next` fields of its nodes. -/
theorem Seg_congr {mem mem2 : Ptr → Node} {xs : List Ptr} {p q : Option Ptr}
    (h : Seg mem p xs q)
    (hc : ∀ x ∈ xs, (mem2 x).prev = (mem x).prev ∧ (mem2 x).next = (mem x).next) :
    Seg mem2 p xs q := by
  induction xs generalizing p with
  | nil => trivial
  | cons x xs ih =>
    obtain ⟨h1, h2, h3⟩ := h
    refine ⟨?_, ?_, ih h3 (fun y hy => hc y (List.mem_cons_of_mem _ hy))⟩
    · rw [(hc x (by simp)).1, h1]
    · rw [(hc x (by simp)).2, h2]

/-- Re-point the `next` of the last node of a segment. -/
theorem Seg_concat_relink {mem mem2 : Ptr → Node} {l : List Ptr} {a : Ptr}
    {p q q2 : Option Ptr} (h : Seg mem p (l ++ [a]) q)
    (hc : ∀ x ∈ l, (mem2 x).prev = (mem x).prev ∧ (mem2 x).next = (mem x).next)
    (ha : (mem2 a).prev = (mem a).prev) (hn : (mem2 a).next = q2) :
    Seg mem2 p (l ++ [a]) q2 := by
  rw [Seg_append] at h ⊢
  refine ⟨Seg_congr h.1 hc, ?_⟩
  have h2 := h.2
  simp only [Seg, firstOr, and_true] at h2 ⊢
  exact ⟨by rw [ha, h2.1], hn⟩

/-- Re-point the `prev` of the first node of a segment. -/
theorem Seg_cons_relink {mem mem2 : Ptr → Node} {r : List Ptr} {b : Ptr}
    {p p2 q : Option Ptr} (h : Seg mem p (b :: r) q)
    (hc : ∀ x ∈ r, (mem2 x).prev = (mem x).prev ∧ (mem2 x).next = (mem x).next)
    (hb : (mem2 b).next = (mem b).next) (hp : (mem2 b).prev = p2) :
    Seg mem2 p2 (b :: r) q := by
  obtain ⟨_, h2, h3⟩ := h
  exact ⟨hp, by rw [hb, h2], Seg_congr h3 hc⟩

theorem mem_nodes {xs : List Nat} {p : Ptr} : p ∈ nodes xs ↔ ∃ i ∈ xs, p = .main i := by
  simp [nodes, eq_comm]

theorem main_mem_nodes {xs : List Nat} {i : Nat} : Ptr.main i ∈ nodes xs ↔ i ∈ xs := by
  simp [nodes]

theorem other_not_mem_nodes {xs : List Nat} {i : Nat} : Ptr.other i ∉ nodes xs := by
  simp [nodes]

theorem main_injective : Function.Injective Ptr.main := fun _ _ h => by cases h; rfl

theorem nodes_nodup {xs : List Nat} (h : xs.Nodup) : (nodes xs).Nodup :=
  h.map main_injective

theorem nodes_append (l r : List Nat) : nodes (l ++ r) = nodes l ++ nodes r := by
  simp [nodes]

theorem nodes_cons (x : Nat) (r : List Nat) : nodes (x :: r) = Ptr.main x :: nodes r := rfl

/-- Following `next` through a well-linked list finds exactly the members. -/
theorem search_loop_seg (mem : Ptr → Node) (k : Nat) (xs : List Nat) (p : Option Ptr)
    (fuel : Nat) (hs : Seg mem p (nodes xs) none)
    (hid : ∀ i ∈ xs, (mem (.main i)).frame_id = (i : Int)) (hf : xs.length < fuel) :
    search_loop mem k fuel (firstOr (nodes xs) none) =
      .ok (if k ∈ xs then some (.main k) else none) := by
  induction xs generalizing p fuel with
  | nil => cases fuel <;> simp [nodes, firstOr, search_loop]
  | cons x xs ih =>
    cases fuel with
    | zero => simp at hf
    | succ n =>
      obtain ⟨_, h2, h3⟩ := hs
      have hx := hid x (by simp)
      simp only [nodes_cons, firstOr, search_loop, hx]
      by_cases hk : (x : Int) = (k : Int)
      · have : x = k := by exact_mod_cast hk
        simp [this]
      · have hne : ¬ k = x := fun h => hk (by rw [h])
        rw [if_neg hk, h2]
        have e := ih (some (.main x)) n h3 (fun i hi => hid i (List.mem_cons_of_mem _ hi))
          (by simpa using hf)
        simp only [nodes] at e
        rw [e]
        simp [hne]

theorem firstOr_mem {r : List Ptr} {y : Ptr} (h : firstOr r none = some y) : y ∈ r := by
  cases r with
  | nil => simp [firstOr] at h
  | cons b r => simp only [firstOr, Option.some.injEq] at h; simp [h]

theorem lastOr_mem {l : List Ptr} {y : Ptr} (h : lastOr l none = some y) : y ∈ l := by
  cases l with
  | nil => simp [lastOr] at h
  | cons b l =>
    obtain ⟨a, h1, h2⟩ := lastOr_cons_ne_none b l none
    rw [h1] at h
    cases h
    exact h2

theorem lastOr_cons_irrel (x : Ptr) (l : List Ptr) (p p2 : Option Ptr) :
    lastOr (x :: l) p = lastOr (x :: l) p2 := rfl

theorem firstOr_cons_irrel (x : Ptr) (l : List Ptr) (p p2 : Option Ptr) :
    firstOr (x :: l) p = firstOr (x :: l) p2 := rfl

theorem eq_nil_or_snoc {α : Type} (l : List α) : l = [] ∨ ∃ l0 a, l = l0 ++ [a] := by
  rcases List.eq_nil_or_concat l with h | ⟨l0, a, h⟩
  · exact Or.inl h
  · exact Or.inr ⟨l0, a, by simpa using h⟩

/-- Removing the node `x` from a well-linked list: it is enough that the
neighbours of `x` are linked to each other and all other links are kept. -/
theorem Seg_unlink {mem mem2 : Ptr → Node} {l r : List Ptr} {x : Ptr}
    (hnd : (l ++ x :: r).Nodup) (h : Seg mem none (l ++ x :: r) none)
    (h1 : ∀ y, y ≠ x → lastOr l none ≠ some y → (mem2 y).next = (mem y).next)
    (h2 : ∀ y, lastOr l none = some y → (mem2 y).next = firstOr r none)
    (h3 : ∀ y, y ≠ x → firstOr r none ≠ some y → (mem2 y).prev = (mem y).prev)
    (h4 : ∀ y, firstOr r none = some y → (mem2 y).prev = lastOr l none) :
    Seg mem2 none (l ++ r) none := by
  have hdisj : ∀ y, y ∈ l → y ∈ r → False := by
    intro y hl hr
    rw [List.nodup_append] at hnd
    exact hnd.2.2 hl (List.mem_cons_of_mem _ hr)
  have hxl : ∀ y, y ∈ l → y ≠ x := by
    intro y hl e
    rw [List.nodup_append] at hnd
    exact hnd.2.2 hl (by simp [e])
  have hxr : ∀ y, y ∈ r → y ≠ x := by
    intro y hr e
    have := (List.nodup_append.1 hnd).2.1
    simp only [List.nodup_cons] at this
    exact this.1 (e ▸ hr)
  rw [Seg_append] at h
  obtain ⟨hl, hx⟩ := h
  rw [Seg_append]
  constructor
  · rcases eq_nil_or_snoc l with rfl | ⟨l0, a, rfl⟩
    · trivial
    · have hnd0 : (l0 ++ [a]).Nodup := (List.nodup_append.1 hnd).1
      have ha0 : a ∉ l0 := by
        intro hm
        rw [List.nodup_append] at hnd0
        exact hnd0.2.2 hm (by simp)
      have hlast : lastOr (l0 ++ [a]) none = some a := lastOr_concat _ _ _
      have har : a ∉ r := fun hm => hdisj a (by simp) hm
      refine Seg_concat_relink hl ?_ ?_ ?_
      · intro y hy
        have hya : y ≠ a := fun e => ha0 (e ▸ hy)
        have hyr : y ∉ r := fun hm => hdisj y (by simp [hy]) hm
        constructor
        · exact h3 y (hxl y (by simp [hy])) (fun e => hyr (firstOr_mem e))
        · exact h1 y (hxl y (by simp [hy])) (by rw [hlast]; simpa using hya.symm)
      · exact h3 a (hxl a (by simp)) (fun e => har (firstOr_mem e))
      · exact h2 a hlast
  · cases r with
    | nil => trivial
    | cons b r0 =>
      have hb : b ∉ r0 := by
        have := (List.nodup_append.1 hnd).2.1
        simp only [List.nodup_cons] at this
        exact this.2.1
      have hbl : b ∉ l := fun hm => hdisj b hm (by simp)
      obtain ⟨_, _, hr⟩ := hx
      refine Seg_cons_relink hr ?_ ?_ ?_
      · intro y hy
        have hyb : y ≠ b := fun e => hb (e ▸ hy)
        have hyl : y ∉ l := fun hm => hdisj y hm (by simp [hy])
        constructor
        · exact h3 y (hxr y (by simp [hy])) (by simpa [firstOr] using hyb.symm)
        · exact h1 y (hxr y (by simp [hy])) (fun e => hyl (lastOr_mem e))
      · exact h1 b (hxr b (by simp)) (fun e => hbl (lastOr_mem e))
      · exact h4 b rfl

/-- The search loop started at the head of a segment finds exactly its
members. -/
theorem search_isSeg (mem : Ptr → Node) (info : Info) (xs : List Nat) (k fuel : Nat)
    (h : IsSeg mem info xs) (hf : xs.length < fuel) :
    (if info.head = none then (.ok none : Except Fault (Option Ptr))
      else search_loop mem k fuel info.head) =
      .ok (if k ∈ xs then some (.main k) else none) := by
  rcases h with ⟨_, hid, hs, hh, _⟩ | ⟨rfl, ht, hg⟩
  · cases xs with
    | nil => simp [hh, nodes, firstOr]
    | cons x xs =>
      rw [hh, if_neg (by simp [nodes, firstOr])]
      exact search_loop_seg mem k (x :: xs) none fuel hs hid hf
  · cases hhd : info.head with
    | none => simp [hhd] at hg
    | some g =>
      rw [hhd] at hg
      obtain ⟨n, rfl⟩ : ∃ n, fuel = n + 1 := ⟨fuel - 1, by simp at hf; omega⟩
      have hne : ¬ (mem g).frame_id = (k : Int) := by
        have := hg.1; omega
      simp [search_loop, hne, hg.2]

/-! ## Frame conditions -/

theorem LinksOnly.refl (T : List Ptr) (s : State) : LinksOnly T s s := by
  constructor <;> intros <;> rfl

theorem LinksOnly.setPrev {T : List Ptr} {s s2 : State} (h : LinksOnly T s s2) {p : Ptr}
    (hp : p ∈ T) (v : Option Ptr) : LinksOnly T s (s2.setPrev p v) := by
  refine ⟨h.1, h.2, h.3, h.4, h.5, h.6, ?_, ?_, ?_, ?_, ?_⟩
  · intro q hq
    have : q ≠ p := fun e => hq (e ▸ hp)
    simp [State.setPrev, Function.update_apply, this, h.outside q hq]
  all_goals
    intro q
    simp only [State.setPrev, Function.update_apply]
    split_ifs with e
    · subst e; first | exact h.frame_id q | exact h.time_array_0 q | exact h.time_array_1 q | exact h.sanity_check q
    · first | exact h.frame_id q | exact h.time_array_0 q | exact h.time_array_1 q | exact h.sanity_check q

theorem LinksOnly.setNext {T : List Ptr} {s s2 : State} (h : LinksOnly T s s2) {p : Ptr}
    (hp : p ∈ T) (v : Option Ptr) : LinksOnly T s (s2.setNext p v) := by
  refine ⟨h.1, h.2, h.3, h.4, h.5, h.6, ?_, ?_, ?_, ?_, ?_⟩
  · intro q hq
    have : q ≠ p := fun e => hq (e ▸ hp)
    simp [State.setNext, Function.update_apply, this, h.outside q hq]
  all_goals
    intro q
    simp only [State.setNext, Function.update_apply]
    split_ifs with e
    · subst e; first | exact h.frame_id q | exact h.time_array_0 q | exact h.time_array_1 q | exact h.sanity_check q
    · first | exact h.frame_id q | exact h.time_array_0 q | exact h.time_array_1 q | exact h.sanity_check q

theorem LinksOnly.setHead {T : List Ptr} {s s2 : State} (h : LinksOnly T s s2)
    (v : Option Ptr) : LinksOnly T s (s2.setHead v) :=
  ⟨h.1, h.2, h.3, h.4, h.5, h.6, h.7, h.8, h.9, h.10, h.11⟩

theorem LinksOnly.setTail {T : List Ptr} {s s2 : State} (h : LinksOnly T s s2)
    (v : Option Ptr) : LinksOnly T s (s2.setTail v) :=
  ⟨h.1, h.2, h.3, h.4, h.5, h.6, h.7, h.8, h.9, h.10, h.11⟩

theorem LinksOnly.setOtherHead {T : List Ptr} {s s2 : State} (h : LinksOnly T s s2)
    (v : Option Ptr) : LinksOnly T s (s2.setOtherHead v) :=
  ⟨h.1, h.2, h.3, h.4, h.5, h.6, h.7, h.8, h.9, h.10, h.11⟩

theorem LinksOnly.setOtherTail {T : List Ptr} {s s2 : State} (h : LinksOnly T s s2)
    (v : Option Ptr) : LinksOnly T s (s2.setOtherTail v) :=
  ⟨h.1, h.2, h.3, h.4, h.5, h.6, h.7, h.8, h.9, h.10, h.11⟩

theorem LinksOnly.mono {T T2 : List Ptr} {s s2 : State} (h : LinksOnly T s s2)
    (hsub : ∀ p ∈ T, p ∈ T2) : LinksOnly T2 s s2 :=
  ⟨h.1, h.2, h.3, h.4, h.5, h.6, fun p hp => h.outside p (fun hm => hp (hsub p hm)),
    h.8, h.9, h.10, h.11⟩

theorem LinksOnly.trans {T : List Ptr} {s s2 s3 : State} (h : LinksOnly T s s2)
    (h2 : LinksOnly T s2 s3) : LinksOnly T s s3 :=
  ⟨h2.1.trans h.1, h2.2.trans h.2, h2.3.trans h.3, h2.4.trans h.4, h2.5.trans h.5,
    h2.6.trans h.6, fun p hp => (h2.outside p hp).trans (h.outside p hp),
    fun p => (h2.frame_id p).trans (h.frame_id p),
    fun p => (h2.time_array_0 p).trans (h.time_array_0 p),
    fun p => (h2.time_array_1 p).trans (h.time_array_1 p),
    fun p => (h2.sanity_check p).trans (h.sanity_check p)⟩

/-! ## Removing a frame from a segment -/

@[simp] theorem nodes_nil : nodes [] = [] := rfl

theorem firstOr_append_ne_nil {l : List Ptr} (hl : l ≠ []) (r : List Ptr) (q : Option Ptr) :
    firstOr (l ++ r) q = firstOr l none := by
  cases l with
  | nil => exact absurd rfl hl
  | cons a l => rfl

theorem lastOr_append_cons (l : List Ptr) (b : Ptr) (r : List Ptr) (p : Option Ptr) :
    lastOr (l ++ b :: r) p = lastOr (b :: r) none := by
  rw [lastOr_append]; rfl

theorem lastOr_ne_nil {l : List Ptr} (hl : l ≠ []) (p : Option Ptr) :
    lastOr l p = lastOr l none := by
  cases l with
  | nil => exact absurd rfl hl
  | cons a l => rfl

theorem delete_arbitrarily_proper (fuel : Nat) (s : State) (xs : List Nat) (k : Nat)
    (h : Proper s.mem s.linkedListInfo xs) (hk : k ∈ xs) (hf : xs.length < fuel) :
    ∃ s2, delete_arbitrarily fuel s k = .ok s2 ∧
      Proper s2.mem s2.linkedListInfo (xs.erase k) ∧
      s2.otherLinkedListInfo = s.otherLinkedListInfo ∧ LinksOnly (nodes xs) s s2 := by
  have hsearch : search_for_frame fuel s k = .ok (some (.main k)) := by
    unfold search_for_frame
    rw [search_isSeg s.mem s.linkedListInfo xs k fuel (Or.inl h) hf, if_pos hk]
  obtain ⟨hnd, hid, hs, hh, ht⟩ := h
  have hkT : Ptr.main k ∈ nodes xs := main_mem_nodes.2 hk
  obtain ⟨l, r, rfl⟩ := List.append_of_mem hk
  have hkl : k ∉ l := by
    intro hm
    rw [List.nodup_append] at hnd
    exact hnd.2.2 hm (by simp)
  have hkr : k ∉ r := by
    have := (List.nodup_append.1 hnd).2.1
    simp only [List.nodup_cons] at this
    exact this.1
  have herase : (l ++ k :: r).erase k = l ++ r := by
    rw [List.erase_append_right _ hkl, List.erase_cons_head]
  have hnd2 : (l ++ r).Nodup := by
    rw [← herase]; exact hnd.erase k
  rw [herase]
  have hndp : (nodes l ++ Ptr.main k :: nodes r).Nodup := by
    have := nodes_nodup hnd
    rwa [nodes_append, nodes_cons] at this
  have hs2 : Seg s.mem none (nodes l ++ Ptr.main k :: nodes r) none := by
    rwa [nodes_append, nodes_cons] at hs
  obtain ⟨hprev, hnext, -⟩ := ((Seg_append _ _ _ _ _).1 hs2).2
  -- it suffices to produce a state with the right links
  suffices hmain : ∃ s2, delete_arbitrarily fuel s k = .ok s2 ∧
      LinksOnly (nodes (l ++ k :: r)) s s2 ∧ s2.otherLinkedListInfo = s.otherLinkedListInfo ∧
      Seg s2.mem none (nodes l ++ nodes r) none ∧
      s2.linkedListInfo.head = firstOr (nodes l ++ nodes r) none ∧
      s2.linkedListInfo.tail = lastOr (nodes l ++ nodes r) none by
    obtain ⟨s2, h1, h2, h3, h4, h5, h6⟩ := hmain
    refine ⟨s2, h1, ⟨hnd2, ?_, ?_, ?_, ?_⟩, h3, h2⟩
    · intro i hi
      rw [h2.frame_id]
      exact hid i (by simp at hi ⊢; tauto)
    · rwa [nodes_append]
    · rwa [nodes_append]
    · rwa [nodes_append]
  have hL0 := LinksOnly.refl (nodes (l ++ k :: r)) s
  unfold delete_arbitrarily
  rw [hsearch]
  rw [nodes_append, nodes_cons] at hh ht
  rcases eq_nil_or_snoc l with rfl | ⟨l0, a, rfl⟩
  · have hh2 : s.linkedListInfo.head = some (Ptr.main k) := by simpa using hh
    cases r with
    | nil =>
      have hnext2 : (s.mem (Ptr.main k)).next = none := by simpa [nodes] using hnext
      simp only [hh2, hnext2, if_true]
      refine ⟨_, rfl, ?_, rfl, ?_, rfl, rfl⟩
      · exact ((((hL0.setHead none).setTail none).setNext hkT none).setPrev hkT none)
      · simp [nodes, Seg]
    | cons b r0 =>
      have hbk : b ≠ k := fun e => hkr (by simp [e])
      have hbT : Ptr.main b ∈ nodes ([] ++ k :: b :: r0) := by simp [nodes]
      have hnext2 : (s.mem (Ptr.main k)).next = some (Ptr.main b) := by simpa [nodes] using hnext
      simp only [hh2, hnext2, if_true]
      refine ⟨_, rfl, ?_, rfl, ?_, ?_, ?_⟩
      · exact ((((hL0.setHead _).setPrev hbT none).setNext hkT none).setPrev hkT none)
      · refine Seg_unlink hndp hs2 ?_ ?_ ?_ ?_
        · intro y hy _; simp [hy]
        · intro y hy; simp [nodes] at hy
        · intro y hy hb
          have : y ≠ Ptr.main b := by simpa [nodes, eq_comm] using hb
          simp [hy, this]
        · intro y hy
          obtain rfl : Ptr.main b = y := by simpa [nodes] using hy
          simp [hbk, nodes]
      · simp [State.setPrev, State.setNext, State.setHead, nodes]
      · simp [State.setPrev, State.setNext, State.setHead, nodes, ht]
  · have hane : nodes (l0 ++ [a]) ≠ [] := by simp [nodes]
    have hak : a ≠ k := fun e => hkl (by simp [e])
    have haT : Ptr.main a ∈ nodes (l0 ++ [a] ++ k :: r) := by simp [nodes]
    have hh2 : s.linkedListInfo.head = firstOr (nodes (l0 ++ [a])) none := by
      rw [hh, firstOr_append_ne_nil hane]
    have hhne : ¬ s.linkedListInfo.head = some (Ptr.main k) := by
      intro e
      rw [hh2] at e
      exact hkl (main_mem_nodes.1 (firstOr_mem e))
    have hprev2 : (s.mem (Ptr.main k)).prev = some (Ptr.main a) := by
      rw [hprev, nodes_append]; exact lastOr_concat _ _ _
    have hlast : lastOr (nodes (l0 ++ [a])) none = some (Ptr.main a) := by
      rw [nodes_append]; exact lastOr_concat _ _ _
    cases r with
    | nil =>
      have ht2 : s.linkedListInfo.tail = some (Ptr.main k) := by
        rw [ht]; exact lastOr_concat _ _ _
      simp only [if_neg hhne, ht2, hprev2, if_true]
      refine ⟨_, rfl, ?_, rfl, ?_, ?_, ?_⟩
      · exact ((((hL0.setTail _).setNext haT none).setNext hkT none).setPrev hkT none)
      · refine Seg_unlink hndp hs2 ?_ ?_ ?_ ?_
        · intro y hy hb
          have : y ≠ Ptr.main a := by rw [hlast] at hb; simpa [eq_comm] using hb
          simp [hy, this]
        · intro y hy
          obtain rfl : Ptr.main a = y := by rw [hlast] at hy; simpa using hy
          simp [hak, nodes]
        · intro y hy _; simp [hy]
        · intro y hy; simp [nodes] at hy
      · simp only [State.setPrev, State.setNext, State.setTail, nodes_nil,
          List.append_nil]
        exact hh2
      · simp only [State.setPrev, State.setNext, State.setTail, List.append_nil, hlast,
          nodes_nil]
    | cons b r0 =>
      have hbk : b ≠ k := fun e => hkr (by simp [e])
      have hab : a ≠ b := by
        intro e
        rw [List.nodup_append] at hnd2
        exact hnd2.2.2 (show a ∈ l0 ++ [a] by simp) (show a ∈ b :: r0 by simp [e])
      have hbT : Ptr.main b ∈ nodes (l0 ++ [a] ++ k :: b :: r0) := by simp [nodes]
      have hnext2 : (s.mem (Ptr.main k)).next = some (Ptr.main b) := by simpa [nodes] using hnext
      have htne : ¬ s.linkedListInfo.tail = some (Ptr.main k) := by
        intro e
        rw [ht, lastOr_append_cons, nodes_cons] at e
        have hm : Ptr.main k ∈ nodes (b :: r0) :=
          lastOr_mem (l := nodes (b :: r0)) (y := Ptr.main k) e
        exact hkr (main_mem_nodes.1 hm)
      simp only [if_neg hhne, if_neg htne, hprev2, hnext2, next_setNext,
        prev_setNext, Ptr.main.injEq, if_neg hak.symm]
      refine ⟨_, rfl, ?_, rfl, ?_, ?_, ?_⟩
      · exact (((hL0.setNext haT _).setPrev hbT _).setNext hkT none).setPrev hkT none
      · refine Seg_unlink hndp hs2 ?_ ?_ ?_ ?_
        · intro y hy hb
          have : y ≠ Ptr.main a := by rw [hlast] at hb; simpa [eq_comm] using hb
          simp [hy, this]
        · intro y hy
          obtain rfl : Ptr.main a = y := by rw [hlast] at hy; simpa using hy
          simp [hak, nodes_cons]
        · intro y hy hb
          have : y ≠ Ptr.main b := by simpa [nodes_cons, eq_comm] using hb
          simp [hy, this]
        · intro y hy
          obtain rfl : Ptr.main b = y := by simpa [nodes_cons] using hy
          simp [hbk, hlast]
      · simp only [State.setPrev, State.setNext]
        rw [hh2, firstOr_append_ne_nil hane]
      · simp only [State.setPrev, State.setNext]
        rw [ht, lastOr_append_cons, nodes_cons, lastOr_append_cons]
        rfl

theorem delete_other_arbitrarily_proper (fuel : Nat) (s : State) (xs : List Nat) (k : Nat)
    (h : Proper s.mem s.otherLinkedListInfo xs) (hk : k ∈ xs) (hf : xs.length < fuel) :
    ∃ s2, delete_other_arbitrarily fuel s k = .ok s2 ∧
      Proper s2.mem s2.otherLinkedListInfo (xs.erase k) ∧
      s2.linkedListInfo = s.linkedListInfo ∧ LinksOnly (nodes xs) s s2 := by
  have hsearch : search_for_frame_b2 fuel s k = .ok (some (.main k)) := by
    unfold search_for_frame_b2
    rw [search_isSeg s.mem s.otherLinkedListInfo xs k fuel (Or.inl h) hf, if_pos hk]
  obtain ⟨hnd, hid, hs, hh, ht⟩ := h
  have hkT : Ptr.main k ∈ nodes xs := main_mem_nodes.2 hk
  obtain ⟨l, r, rfl⟩ := List.append_of_mem hk
  have hkl : k ∉ l := by
    intro hm
    rw [List.nodup_append] at hnd
    exact hnd.2.2 hm (by simp)
  have hkr : k ∉ r := by
    have := (List.nodup_append.1 hnd).2.1
    simp only [List.nodup_cons] at this
    exact this.1
  have herase : (l ++ k :: r).erase k = l ++ r := by
    rw [List.erase_append_right _ hkl, List.erase_cons_head]
  have hnd2 : (l ++ r).Nodup := by
    rw [← herase]; exact hnd.erase k
  rw [herase]
  have hndp : (nodes l ++ Ptr.main k :: nodes r).Nodup := by
    have := nodes_nodup hnd
    rwa [nodes_append, nodes_cons] at this
  have hs2 : Seg s.mem none (nodes l ++ Ptr.main k :: nodes r) none := by
    rwa [nodes_append, nodes_cons] at hs
  obtain ⟨hprev, hnext, -⟩ := ((Seg_append _ _ _ _ _).1 hs2).2
  -- it suffices to produce a state with the right links
  suffices hmain : ∃ s2, delete_other_arbitrarily fuel s k = .ok s2 ∧
      LinksOnly (nodes (l ++ k :: r)) s s2 ∧ s2.linkedListInfo = s.linkedListInfo ∧
      Seg s2.mem none (nodes l ++ nodes r) none ∧
      s2.otherLinkedListInfo.head = firstOr (nodes l ++ nodes r) none ∧
      s2.otherLinkedListInfo.tail = lastOr (nodes l ++ nodes r) none by
    obtain ⟨s2, h1, h2, h3, h4, h5, h6⟩ := hmain
    refine ⟨s2, h1, ⟨hnd2, ?_, ?_, ?_, ?_⟩, h3, h2⟩
    · intro i hi
      rw [h2.frame_id]
      exact hid i (by simp at hi ⊢; tauto)
    · rwa [nodes_append]
    · rwa [nodes_append]
    · rwa [nodes_append]
  have hL0 := LinksOnly.refl (nodes (l ++ k :: r)) s
  unfold delete_other_arbitrarily
  rw [hsearch]
  rw [nodes_append, nodes_cons] at hh ht
  rcases eq_nil_or_snoc l with rfl | ⟨l0, a, rfl⟩
  · have hh2 : s.otherLinkedListInfo.head = some (Ptr.main k) := by simpa using hh
    cases r with
    | nil =>
      have hnext2 : (s.mem (Ptr.main k)).next = none := by simpa [nodes] using hnext
      simp only [hh2, hnext2, if_true]
      refine ⟨_, rfl, ?_, rfl, ?_, rfl, rfl⟩
      · exact ((hL0.setOtherHead none).setOtherTail none)
      · simp [nodes, Seg]
    | cons b r0 =>
      have hbk : b ≠ k := fun e => hkr (by simp [e])
      have hbT : Ptr.main b ∈ nodes ([] ++ k :: b :: r0) := by simp [nodes]
      have hnext2 : (s.mem (Ptr.main k)).next = some (Ptr.main b) := by simpa [nodes] using hnext
      simp only [hh2, hnext2, if_true]
      refine ⟨_, rfl, ?_, rfl, ?_, ?_, ?_⟩
      · exact ((hL0.setOtherHead _).setPrev hbT none)
      · refine Seg_unlink hndp hs2 ?_ ?_ ?_ ?_
        · intro y hy _; simp [hy]
        · intro y hy; simp [nodes] at hy
        · intro y hy hb
          have : y ≠ Ptr.main b := by simpa [nodes, eq_comm] using hb
          simp [hy, this]
        · intro y hy
          obtain rfl : Ptr.main b = y := by simpa [nodes] using hy
          simp [hbk, nodes]
      · simp [State.setPrev, State.setNext, State.setOtherHead, nodes]
      · simp [State.setPrev, State.setNext, State.setOtherHead, nodes, ht]
  · have hane : nodes (l0 ++ [a]) ≠ [] := by simp [nodes]
    have hak : a ≠ k := fun e => hkl (by simp [e])
    have haT : Ptr.main a ∈ nodes (l0 ++ [a] ++ k :: r) := by simp [nodes]
    have hh2 : s.otherLinkedListInfo.head = firstOr (nodes (l0 ++ [a])) none := by
      rw [hh, firstOr_append_ne_nil hane]
    have hhne : ¬ s.otherLinkedListInfo.head = some (Ptr.main k) := by
      intro e
      rw [hh2] at e
      exact hkl (main_mem_nodes.1 (firstOr_mem e))
    have hprev2 : (s.mem (Ptr.main k)).prev = some (Ptr.main a) := by
      rw [hprev, nodes_append]; exact lastOr_concat _ _ _
    have hlast : lastOr (nodes (l0 ++ [a])) none = some (Ptr.main a) := by
      rw [nodes_append]; exact lastOr_concat _ _ _
    cases r with
    | nil =>
      have ht2 : s.otherLinkedListInfo.tail = some (Ptr.main k) := by
        rw [ht]; exact lastOr_concat _ _ _
      simp only [if_neg hhne, ht2, hprev2, if_true]
      refine ⟨_, rfl, ?_, rfl, ?_, ?_, ?_⟩
      · exact ((hL0.setOtherTail _).setNext haT none)
      · refine Seg_unlink hndp hs2 ?_ ?_ ?_ ?_
        · intro y hy hb
          have : y ≠ Ptr.main a := by rw [hlast] at hb; simpa [eq_comm] using hb
          simp [hy, this]
        · intro y hy
          obtain rfl : Ptr.main a = y := by rw [hlast] at hy; simpa using hy
          simp [hak, nodes]
        · intro y hy _; simp [hy]
        · intro y hy; simp [nodes] at hy
      · simp only [State.setPrev, State.setNext, State.setOtherTail, nodes_nil,
          List.append_nil]
        exact hh2
      · simp only [State.setPrev, State.setNext, State.setOtherTail, List.append_nil, hlast,
          nodes_nil]
    | cons b r0 =>
      have hbk : b ≠ k := fun e => hkr (by simp [e])
      have hab : a ≠ b := by
        intro e
        rw [List.nodup_append] at hnd2
        exact hnd2.2.2 (show a ∈ l0 ++ [a] by simp) (show a ∈ b :: r0 by simp [e])
      have hbT : Ptr.main b ∈ nodes (l0 ++ [a] ++ k :: b :: r0) := by simp [nodes]
      have hnext2 : (s.mem (Ptr.main k)).next = some (Ptr.main b) := by simpa [nodes] using hnext
      have htne : ¬ s.otherLinkedListInfo.tail = some (Ptr.main k) := by
        intro e
        rw [ht, lastOr_append_cons, nodes_cons] at e
        have hm : Ptr.main k ∈ nodes (b :: r0) :=
          lastOr_mem (l := nodes (b :: r0)) (y := Ptr.main k) e
        exact hkr (main_mem_nodes.1 hm)
      simp only [if_neg hhne, if_neg htne, repair_links, hprev2, hnext2, next_setNext,
        prev_setNext, Ptr.main.injEq, if_neg hak.symm]
      refine ⟨_, rfl, ?_, rfl, ?_, ?_, ?_⟩
      · exact (((hL0.setNext haT _).setPrev hbT _).setNext hkT none).setPrev hkT none
      · refine Seg_unlink hndp hs2 ?_ ?_ ?_ ?_
        · intro y hy hb
          have : y ≠ Ptr.main a := by rw [hlast] at hb; simpa [eq_comm] using hb
          simp [hy, this]
        · intro y hy
          obtain rfl : Ptr.main a = y := by rw [hlast] at hy; simpa using hy
          simp [hak, nodes_cons]
        · intro y hy hb
          have : y ≠ Ptr.main b := by simpa [nodes_cons, eq_comm] using hb
          simp [hy, this]
        · intro y hy
          obtain rfl : Ptr.main b = y := by simpa [nodes_cons] using hy
          simp [hbk, hlast]
      · simp only [State.setPrev, State.setNext]
        rw [hh2, firstOr_append_ne_nil hane]
      · simp only [State.setPrev, State.setNext]
        rw [ht, lastOr_append_cons, nodes_cons, lastOr_append_cons]
        rfl

/-- A segment only depends on the links and ids of its nodes (and, in the
pristine state, of the slot its head points at). -/
theorem IsSeg.congr_seg {mem mem2 : Ptr → Node} {info : Info} {xs : List Nat}
    (h : IsSeg mem info xs)
    (hc : ∀ p, (p ∈ nodes xs ∨ (mem p).frame_id < 0) →
      (mem2 p).prev = (mem p).prev ∧ (mem2 p).next = (mem p).next ∧
      (mem2 p).frame_id = (mem p).frame_id) :
    IsSeg mem2 info xs := by
  rcases h with ⟨hnd, hid, hs, hh, ht⟩ | ⟨rfl, ht, hg⟩
  · left
    refine ⟨hnd, ?_, ?_, hh, ht⟩
    · intro i hi
      rw [(hc _ (Or.inl (main_mem_nodes.2 hi))).2.2]
      exact hid i hi
    · exact Seg_congr hs (fun x hx => ⟨(hc x (Or.inl hx)).1, (hc x (Or.inl hx)).2.1⟩)
  · right
    refine ⟨rfl, ht, ?_⟩
    cases hhd : info.head with
    | none => simp [hhd] at hg
    | some g =>
      rw [hhd] at hg
      have := hc g (Or.inr hg.1)
      exact ⟨by rw [this.2.2]; exact hg.1, by rw [this.2.1]; exact hg.2⟩

/-- Members of a segment carry non-negative ids. -/
theorem IsSeg.frame_id_nonneg {mem : Ptr → Node} {info : Info} {xs : List Nat}
    (h : IsSeg mem info xs) {p : Ptr} (hp : p ∈ nodes xs) : 0 ≤ (mem p).frame_id := by
  obtain ⟨i, hi, rfl⟩ := mem_nodes.1 hp
  rcases h with ⟨_, hid, _⟩ | ⟨rfl, _⟩
  · rw [hid i hi]; exact Int.natCast_nonneg i
  · simp at hi

/-- Changing links of nodes that carry non-negative ids and lie outside a
segment leaves the segment alone. -/
theorem IsSeg.of_linksOnly {s s2 : State} {T : List Ptr} {info : Info} {xs : List Nat}
    (h : IsSeg s.mem info xs) (hl : LinksOnly T s s2)
    (hd : ∀ p ∈ T, p ∉ nodes xs ∧ 0 ≤ (s.mem p).frame_id) : IsSeg s2.mem info xs := by
  refine h.congr_seg (fun p hp => ?_)
  have hpT : p ∉ T := by
    intro hm
    rcases hp with hp | hp
    · exact (hd p hm).1 hp
    · have := (hd p hm).2; omega
  rw [hl.outside p hpT]
  exact ⟨rfl, rfl, rfl⟩

theorem delete_arbitrarily_isSeg (fuel : Nat) (s : State) (xs : List Nat) (k : Nat)
    (h : IsSeg s.mem s.linkedListInfo xs) (hf : xs.length < fuel) :
    ∃ s2, delete_arbitrarily fuel s k = .ok s2 ∧
      IsSeg s2.mem s2.linkedListInfo (xs.erase k) ∧
      s2.otherLinkedListInfo = s.otherLinkedListInfo ∧ LinksOnly (nodes xs) s s2 ∧
      (k ∉ xs → s2 = s) := by
  by_cases hk : k ∈ xs
  · rcases h with h | ⟨rfl, _⟩
    · obtain ⟨s2, h1, h2, h3, h4⟩ := delete_arbitrarily_proper fuel s xs k h hk hf
      exact ⟨s2, h1, Or.inl h2, h3, h4, fun hn => absurd hk hn⟩
    · simp at hk
  · have hsearch : search_for_frame fuel s k = .ok none := by
      unfold search_for_frame
      rw [search_isSeg s.mem s.linkedListInfo xs k fuel h hf, if_neg hk]
    refine ⟨s, ?_, ?_, rfl, LinksOnly.refl _ _, fun _ => rfl⟩
    · unfold delete_arbitrarily; rw [hsearch]
    · rwa [List.erase_of_not_mem hk]

theorem delete_other_arbitrarily_isSeg (fuel : Nat) (s : State) (xs : List Nat) (k : Nat)
    (h : IsSeg s.mem s.otherLinkedListInfo xs) (hf : xs.length < fuel) :
    ∃ s2, delete_other_arbitrarily fuel s k = .ok s2 ∧
      IsSeg s2.mem s2.otherLinkedListInfo (xs.erase k) ∧
      s2.linkedListInfo = s.linkedListInfo ∧ LinksOnly (nodes xs) s s2 ∧
      (k ∉ xs → s2 = s) := by
  by_cases hk : k ∈ xs
  · rcases h with h | ⟨rfl, _⟩
    · obtain ⟨s2, h1, h2, h3, h4⟩ := delete_other_arbitrarily_proper fuel s xs k h hk hf
      exact ⟨s2, h1, Or.inl h2, h3, h4, fun hn => absurd hk hn⟩
    · simp at hk
  · have hsearch : search_for_frame_b2 fuel s k = .ok none := by
      unfold search_for_frame_b2
      rw [search_isSeg s.mem s.otherLinkedListInfo xs k fuel h hf, if_neg hk]
    refine ⟨s, ?_, ?_, rfl, LinksOnly.refl _ _, fun _ => rfl⟩
    · unfold delete_other_arbitrarily; rw [hsearch]
    · rwa [List.erase_of_not_mem hk]

/-! ## Inserting a frame -/

theorem update_time_eq (s : State) (f : Ptr) :
    update_time s f = { s with mem := Function.update s.mem f (stamp (s.mem f) s.counter) } := by
  unfold update_time stamp
  by_cases h : (s.mem f).time_array_0 = 0 ∧ (s.mem f).time_array_1 = 0
  · simp [h, State.setTime1]
  · simp [h, State.setTime1, State.setTime0]

theorem update_time_mem (s : State) (f p : Ptr) :
    (update_time s f).mem p = if p = f then stamp (s.mem f) s.counter else s.mem p := by
  rw [update_time_eq]; simp [Function.update_apply]

theorem stamp_links (n : Node) (c : Nat) :
    (stamp n c).prev = n.prev ∧ (stamp n c).next = n.next ∧
      (stamp n c).frame_id = n.frame_id ∧ (stamp n c).sanity_check = n.sanity_check := by
  unfold stamp; split_ifs <;> simp

theorem update_time_links (s : State) (f p : Ptr) :
    ((update_time s f).mem p).prev = (s.mem p).prev ∧
      ((update_time s f).mem p).next = (s.mem p).next ∧
      ((update_time s f).mem p).frame_id = (s.mem p).frame_id := by
  rw [update_time_mem]
  split_ifs with h
  · subst h; exact ⟨(stamp_links _ _).1, (stamp_links _ _).2.1, (stamp_links _ _).2.2.1⟩
  · exact ⟨rfl, rfl, rfl⟩

theorem update_time_fields (s : State) (f : Ptr) :
    (update_time s f).linkedListInfo = s.linkedListInfo ∧
      (update_time s f).otherLinkedListInfo = s.otherLinkedListInfo ∧
      (update_time s f).counter = s.counter ∧
      (update_time s f).firstFreeBuffer = s.firstFreeBuffer ∧
      (update_time s f).lastFreeBuffer = s.lastFreeBuffer ∧
      (update_time s f).freeNext = s.freeNext ∧
      (update_time s f).refcount = s.refcount ∧
      (update_time s f).usagecount = s.usagecount := by
  rw [update_time_eq]; simp

theorem IsSeg.stamp_seg {s : State} {info : Info} {xs : List Nat}
    (h : IsSeg s.mem info xs) (f : Ptr) : IsSeg (update_time s f).mem info xs :=
  h.congr_seg (fun p _ => update_time_links s f p)

/-- `insert_at_head` pushes a fresh frame on the head of B1. -/
theorem insert_at_head_spec (s : State) (xs : List Nat) (k : Nat)
    (h : IsSeg s.mem s.linkedListInfo xs) (hk : k ∉ xs)
    (hid : (s.mem (.main k)).frame_id = (k : Int)) :
    Proper (insert_at_head s (.main k)).mem (insert_at_head s (.main k)).linkedListInfo
        (k :: xs) ∧
      (insert_at_head s (.main k)).otherLinkedListInfo = s.otherLinkedListInfo ∧
      LinksOnly (Ptr.main k :: nodes xs) (update_time s (.main k))
        (insert_at_head s (.main k)) := by
  have h0 := h.stamp_seg (.main k)
  have hi0 := (update_time_fields s (.main k)).1
  have ho0 := (update_time_fields s (.main k)).2.1
  have hid0 : ((update_time s (.main k)).mem (.main k)).frame_id = (k : Int) := by
    rw [(update_time_links s _ _).2.2, hid]
  rw [← hi0] at h0
  rw [← ho0]
  unfold insert_at_head
  simp only []
  generalize update_time s (.main k) = t at h0 hid0 ⊢
  have hL0 := LinksOnly.refl (Ptr.main k :: nodes xs) t
  have hkT : Ptr.main k ∈ Ptr.main k :: nodes xs := by simp
  rcases h0 with ⟨hnd, hids, hs, hh, ht⟩ | ⟨rfl, ht, hg⟩
  · cases xs with
    | nil =>
      have hh2 : t.linkedListInfo.head = none := by simpa using hh
      have ht2 : t.linkedListInfo.tail = none := by simpa using ht
      simp only [linkedListInfo_setNext, linkedListInfo_setPrev, head_setHead, tail_setHead,
        hh2, ht2, if_true, otherLinkedListInfo_setNext, otherLinkedListInfo_setPrev,
        otherLinkedListInfo_setHead, otherLinkedListInfo_setTail]
      have hL := ((((hL0.setNext hkT none).setHead (some (.main k))).setTail
        (some (.main k))).setNext hkT none).setPrev hkT none
      refine ⟨⟨by simp, ?_, ?_, rfl, rfl⟩, trivial, hL⟩
      · intro i hi
        obtain rfl : i = k := by simpa using hi
        rw [hL.frame_id]; exact hid0
      · simp [nodes, Seg]
    | cons b r =>
      have hbk : b ≠ k := fun e => hk (by simp [e])
      have hbT : Ptr.main b ∈ Ptr.main k :: nodes (b :: r) := by simp [nodes]
      have hh2 : t.linkedListInfo.head = some (.main b) := by simpa [nodes] using hh
      obtain ⟨tl, htl, -⟩ := lastOr_cons_ne_none (Ptr.main b) (nodes r) none
      have ht2 : t.linkedListInfo.tail = some tl := by rw [ht, nodes_cons, htl]
      simp only [linkedListInfo_setNext, linkedListInfo_setPrev, head_setHead, tail_setHead,
        hh2, ht2, if_false, otherLinkedListInfo_setNext, otherLinkedListInfo_setPrev,
        otherLinkedListInfo_setHead, otherLinkedListInfo_setTail, reduceCtorEq]
      have hL := (((hL0.setNext hkT (some (.main b))).setPrev hbT (some (.main k))).setHead
        (some (.main k))).setPrev hkT none
      refine ⟨⟨by simp [hnd, hk], ?_, ?_, rfl, ?_⟩, trivial, hL⟩
      · intro i hi
        rw [hL.frame_id]
        rcases List.mem_cons.1 hi with rfl | hi
        · exact hid0
        · exact hids i hi
      · rw [nodes_cons]
        refine ⟨by simp, by simp [nodes, hbk.symm], ?_⟩
        rw [nodes_cons] at hs ⊢
        have hbr : Ptr.main b ∉ nodes r := by
          rw [main_mem_nodes]; exact (List.nodup_cons.1 hnd).1
        refine Seg_cons_relink hs ?_ ?_ ?_
        · intro x hx
          have h1 : x ≠ Ptr.main k := by
            rintro rfl; exact hk (List.mem_cons_of_mem _ (main_mem_nodes.1 hx))
          have h2 : x ≠ Ptr.main b := by
            rintro rfl; exact hbr hx
          simp [h1, h2]
        · simp [hbk]
        · simp [hbk]
      · simp only [tail_setHead, linkedListInfo_setPrev, linkedListInfo_setNext, ht2]
        rw [nodes_cons, lastOr_cons, nodes_cons, ← htl]
        rfl
  · cases hhd : t.linkedListInfo.head with
    | none => simp [hhd] at hg
    | some g =>
      simp only [linkedListInfo_setNext, linkedListInfo_setPrev, head_setHead, tail_setHead,
        hhd, ht, if_true, otherLinkedListInfo_setNext, otherLinkedListInfo_setPrev,
        otherLinkedListInfo_setHead, otherLinkedListInfo_setTail]
      have hL := ((((hL0.setNext hkT (some g)).setHead (some (.main k))).setTail
        (some (.main k))).setNext hkT none).setPrev hkT none
      refine ⟨⟨by simp, ?_, ?_, rfl, rfl⟩, trivial, hL⟩
      · intro i hi
        obtain rfl : i = k := by simpa using hi
        rw [hL.frame_id]; exact hid0
      · simp [nodes, Seg]

/-- Linking the node `x` into a well-linked list between `l` and `r`. -/
theorem Seg_link {mem mem2 : Ptr → Node} {l r : List Ptr} {x : Ptr}
    (hnd : (l ++ r).Nodup) (hx : x ∉ l ++ r) (h : Seg mem none (l ++ r) none)
    (h1 : ∀ y, y ≠ x → lastOr l none ≠ some y → (mem2 y).next = (mem y).next)
    (h2 : ∀ y, lastOr l none = some y → (mem2 y).next = some x)
    (h3 : ∀ y, y ≠ x → firstOr r none ≠ some y → (mem2 y).prev = (mem y).prev)
    (h4 : ∀ y, firstOr r none = some y → (mem2 y).prev = some x)
    (h5 : (mem2 x).prev = lastOr l none) (h6 : (mem2 x).next = firstOr r none) :
    Seg mem2 none (l ++ x :: r) none := by
  have hdisj : ∀ y, y ∈ l → y ∈ r → False := by
    intro y hl hr
    rw [List.nodup_append] at hnd
    exact hnd.2.2 hl hr
  have hxl : ∀ y, y ∈ l → y ≠ x := by
    rintro y hl rfl; exact hx (by simp [hl])
  have hxr : ∀ y, y ∈ r → y ≠ x := by
    rintro y hr rfl; exact hx (by simp [hr])
  rw [Seg_append] at h
  obtain ⟨hl, hr⟩ := h
  rw [Seg_append]
  constructor
  · rcases eq_nil_or_snoc l with rfl | ⟨l0, a, rfl⟩
    · trivial
    · have hnd0 : (l0 ++ [a]).Nodup := (List.nodup_append.1 hnd).1
      have ha0 : a ∉ l0 := by
        intro hm
        rw [List.nodup_append] at hnd0
        exact hnd0.2.2 hm (by simp)
      have hlast : lastOr (l0 ++ [a]) none = some a := lastOr_concat _ _ _
      have har : a ∉ r := fun hm => hdisj a (by simp) hm
      refine Seg_concat_relink hl ?_ ?_ ?_
      · intro y hy
        have hya : y ≠ a := fun e => ha0 (e ▸ hy)
        have hyr : y ∉ r := fun hm => hdisj y (by simp [hy]) hm
        constructor
        · exact h3 y (hxl y (by simp [hy])) (fun e => hyr (firstOr_mem e))
        · exact h1 y (hxl y (by simp [hy])) (by rw [hlast]; simpa using hya.symm)
      · exact h3 a (hxl a (by simp)) (fun e => har (firstOr_mem e))
      · exact h2 a hlast
  · refine ⟨h5, h6, ?_⟩
    cases r with
    | nil => trivial
    | cons b r0 =>
      have hb : b ∉ r0 := by
        have := (List.nodup_append.1 hnd).2.1
        exact (List.nodup_cons.1 this).1
      have hbl : b ∉ l := fun hm => hdisj b hm (by simp)
      refine Seg_cons_relink hr ?_ ?_ ?_
      · intro y hy
        have hyb : y ≠ b := fun e => hb (e ▸ hy)
        have hyl : y ∉ l := fun hm => hdisj y hm (by simp [hy])
        constructor
        · exact h3 y (hxr y (by simp [hy])) (by simpa [firstOr] using hyb.symm)
        · exact h1 y (hxr y (by simp [hy])) (fun e => hyl (lastOr_mem e))
      · exact h1 b (hxr b (by simp)) (fun e => hbl (lastOr_mem e))
      · exact h4 b rfl

/-- The ranked scan of `insert_into_b2`, started inside a non-empty B2 at the
first node of `r`, links the frame in at its rank within `r`. -/
theorem insert_rank_loop_spec (s : State) (k : Nat) (r l : List Nat) (fuel : Nat)
    (hP : Proper s.mem s.otherLinkedListInfo (l ++ r)) (hne : l ++ r ≠ [])
    (hk : k ∉ l ++ r) (hf : r.length < fuel) :
    ∃ s2, insert_rank_loop s (.main k) fuel (firstOr (nodes r) none) = .ok s2 ∧
      Seg s2.mem none (nodes (l ++ rankInsert (secondLastTouch s) k r)) none ∧
      s2.otherLinkedListInfo.head =
        firstOr (nodes (l ++ rankInsert (secondLastTouch s) k r)) none ∧
      s2.otherLinkedListInfo.tail =
        lastOr (nodes (l ++ rankInsert (secondLastTouch s) k r)) none ∧
      s2.linkedListInfo = s.linkedListInfo ∧
      LinksOnly (Ptr.main k :: nodes (l ++ r)) s s2 := by
  induction r generalizing l fuel with
  | nil =>
    rw [List.append_nil] at hP hne hk ⊢
    obtain ⟨hnd, hid, hs, hh, ht⟩ := hP
    rcases eq_nil_or_snoc l with rfl | ⟨l0, a, rfl⟩
    · exact absurd rfl hne
    have hak : a ≠ k := fun e => hk (by simp [e])
    have hlast : lastOr (nodes (l0 ++ [a])) none = some (Ptr.main a) := by
      rw [nodes_append]; exact lastOr_concat _ _ _
    have ht2 : s.otherLinkedListInfo.tail = some (Ptr.main a) := by rw [ht, hlast]
    have hloop : insert_rank_loop s (.main k) fuel none =
        .ok ((((s.setNext (.main a) (some (.main k))).setPrev (.main k)
          (some (.main a))).setNext (.main k) none).setOtherTail (some (.main k))) := by
      cases fuel <;> simp [insert_rank_loop, ht2]
    have hL0 := LinksOnly.refl (Ptr.main k :: nodes (l0 ++ [a])) s
    have hkT : Ptr.main k ∈ Ptr.main k :: nodes (l0 ++ [a]) := by simp
    have haT : Ptr.main a ∈ Ptr.main k :: nodes (l0 ++ [a]) := by simp [nodes]
    have hkn : Ptr.main k ∉ nodes (l0 ++ [a]) ++ [] := by
      rw [List.append_nil, main_mem_nodes]; exact hk
    refine ⟨_, hloop, ?_, ?_, ?_, rfl, ?_⟩
    · have hs0 : Seg s.mem none (nodes (l0 ++ [a]) ++ []) none := by rwa [List.append_nil]
      have : Seg ((((s.setNext (.main a) (some (.main k))).setPrev (.main k)
          (some (.main a))).setNext (.main k) none).setOtherTail (some (.main k))).mem none
          (nodes (l0 ++ [a]) ++ Ptr.main k :: []) none :=
        Seg_link (by rw [List.append_nil]; exact nodes_nodup hnd) hkn hs0
          ?_ ?_ ?_ ?_ ?_ ?_
      · simpa [rankInsert, nodes_append] using this
      · intro y hy hb
        have : y ≠ Ptr.main a := by rw [hlast] at hb; simpa [eq_comm] using hb
        simp [hy, this]
      · intro y hy
        obtain rfl : Ptr.main a = y := by rw [hlast] at hy; simpa using hy
        simp [hak]
      · intro y hy _; simp [hy]
      · intro y hy; simp at hy
      · simp [hlast]
      · simp
    · have hane : nodes (l0 ++ [a]) ≠ [] := by simp [nodes]
      simp only [rankInsert, otherLinkedListInfo_setNext,
        otherLinkedListInfo_setPrev, head_setOtherTail]
      rw [hh, nodes_append (l0 ++ [a]) [k], firstOr_append_ne_nil hane]
    · simp only [rankInsert, nodes_append, tail_setOtherTail]
      rw [lastOr_append]; rfl
    · exact (((hL0.setNext haT _).setPrev hkT _).setNext hkT _).setOtherTail _
  | cons m r ih =>
    obtain ⟨n, rfl⟩ : ∃ n, fuel = n + 1 := ⟨fuel - 1, by simp at hf; omega⟩
    have hmk : m ≠ k := fun e => hk (by simp [e])
    have hP0 := hP
    obtain ⟨hnd, hid, hs, hh, ht⟩ := hP
    have hs2 : Seg s.mem none (nodes l ++ nodes (m :: r)) none := by rwa [nodes_append] at hs
    have hndp : (nodes l ++ nodes (m :: r)).Nodup := by
      rw [← nodes_append]; exact nodes_nodup hnd
    have hkn : Ptr.main k ∉ nodes l ++ nodes (m :: r) := by
      rw [← nodes_append, main_mem_nodes]; exact hk
    obtain ⟨hmprev, hmnext, -⟩ := ((Seg_append _ _ _ _ _).1 hs2).2
    rw [nodes_cons, firstOr_cons]
    unfold insert_rank_loop
    by_cases hle : (s.mem (.main m)).time_array_0 ≤ (s.mem (.main k)).time_array_0
    · have hri : rankInsert (secondLastTouch s) k (m :: r) = k :: m :: r := by
        simp [rankInsert, secondLastTouch, hle]
      rw [if_pos hle, hri]
      have hL0 := LinksOnly.refl (Ptr.main k :: nodes (l ++ m :: r)) s
      have hkT : Ptr.main k ∈ Ptr.main k :: nodes (l ++ m :: r) := by simp
      have hmT : Ptr.main m ∈ Ptr.main k :: nodes (l ++ m :: r) := by simp [nodes]
      have htail : lastOr (nodes (l ++ k :: m :: r)) none = lastOr (nodes (l ++ m :: r)) none := by
        rw [nodes_append, nodes_append, nodes_cons, nodes_cons, lastOr_append_cons,
          lastOr_append_cons]
        rfl
      rcases eq_nil_or_snoc l with rfl | ⟨l0, a, rfl⟩
      · have hmprev2 : (s.mem (.main m)).prev = none := by simpa using hmprev
        simp only [hmprev2]
        refine ⟨_, rfl, ?_, rfl, ?_, rfl, ?_⟩
        · rw [nodes_append, nodes_cons]
          refine Seg_link hndp hkn hs2 ?_ ?_ ?_ ?_ ?_ ?_
          · intro y hy _; simp [hy]
          · intro y hy; simp at hy
          · intro y hy hb
            have : y ≠ Ptr.main m := by simpa [nodes_cons, eq_comm] using hb
            simp [hy, this]
          · intro y hy
            obtain rfl : Ptr.main m = y := by simpa [nodes_cons] using hy
            simp
          · simp [hmk.symm]
          · simp [hmk.symm, nodes_cons]
        · simp only [otherLinkedListInfo_setNext, otherLinkedListInfo_setPrev,
            tail_setOtherHead]
          rw [ht, htail]
        · exact (((hL0.setOtherHead _).setPrev hkT _).setNext hkT _).setPrev hmT _
      · have hak : a ≠ k := fun e => hk (by simp [e])
        have ham : a ≠ m := by
          intro e
          rw [List.nodup_append] at hnd
          exact hnd.2.2 (show a ∈ l0 ++ [a] by simp) (show a ∈ m :: r by simp [e])
        have haT : Ptr.main a ∈ Ptr.main k :: nodes (l0 ++ [a] ++ m :: r) := by simp [nodes]
        have hlast : lastOr (nodes (l0 ++ [a])) none = some (Ptr.main a) := by
          rw [nodes_append]; exact lastOr_concat _ _ _
        have hane : nodes (l0 ++ [a]) ≠ [] := by simp [nodes]
        have hmprev2 : (s.mem (.main m)).prev = some (.main a) := by rw [hmprev, hlast]
        simp only [hmprev2]
        refine ⟨_, rfl, ?_, ?_, ?_, rfl, ?_⟩
        · rw [nodes_append, nodes_cons]
          refine Seg_link hndp hkn hs2 ?_ ?_ ?_ ?_ ?_ ?_
          · intro y hy hb
            have : y ≠ Ptr.main a := by rw [hlast] at hb; simpa [eq_comm] using hb
            simp [hy, this]
          · intro y hy
            obtain rfl : Ptr.main a = y := by rw [hlast] at hy; simpa using hy
            simp [hak, ham]
          · intro y hy hb
            have : y ≠ Ptr.main m := by simpa [nodes_cons, eq_comm] using hb
            simp [hy, this]
          · intro y hy
            obtain rfl : Ptr.main m = y := by simpa [nodes_cons] using hy
            simp
          · simp [hmk.symm, hlast]
          · simp [hmk.symm, nodes_cons]
        · simp only [otherLinkedListInfo_setNext, otherLinkedListInfo_setPrev]
          rw [hh, nodes_append (l0 ++ [a]) (m :: r), nodes_append (l0 ++ [a]) (k :: m :: r),
            firstOr_append_ne_nil hane, firstOr_append_ne_nil hane]
        · simp only [otherLinkedListInfo_setNext, otherLinkedListInfo_setPrev]
          rw [ht, htail]
        · exact (((hL0.setNext haT _).setPrev hkT _).setNext hkT _).setPrev hmT _
    · have hri : rankInsert (secondLastTouch s) k (m :: r) =
          m :: rankInsert (secondLastTouch s) k r := by
        simp [rankInsert, secondLastTouch, hle]
      rw [if_neg hle, hri, hmnext]
      have e1 : l ++ m :: r = (l ++ [m]) ++ r := by simp
      have e2 : l ++ m :: rankInsert (secondLastTouch s) k r =
          (l ++ [m]) ++ rankInsert (secondLastTouch s) k r := by simp
      rw [e1, e2]
      exact ih (l ++ [m]) n (by rw [← e1]; exact hP0) (by simp) (by rw [← e1]; exact hk)
        (by simpa using hf)

theorem IsSeg.nodup {mem : Ptr → Node} {info : Info} {xs : List Nat}
    (h : IsSeg mem info xs) : xs.Nodup := by
  rcases h with ⟨hnd, _⟩ | ⟨rfl, _⟩
  · exact hnd
  · exact List.nodup_nil

theorem IsSeg.frame_id_eq {mem : Ptr → Node} {info : Info} {xs : List Nat}
    (h : IsSeg mem info xs) {i : Nat} (hi : i ∈ xs) : (mem (.main i)).frame_id = (i : Int) := by
  rcases h with ⟨_, hid, _⟩ | ⟨rfl, _⟩
  · exact hid i hi
  · simp at hi

/-- A segment whose tail pointer is `NULL` is empty. -/
theorem IsSeg.eq_nil_of_tail {mem : Ptr → Node} {info : Info} {xs : List Nat}
    (h : IsSeg mem info xs) (ht : info.tail = none) : xs = [] := by
  rcases h with ⟨_, _, _, _, ht2⟩ | ⟨rfl, _⟩
  · cases xs with
    | nil => rfl
    | cons x xs =>
      obtain ⟨a, ha, -⟩ := lastOr_cons_ne_none (Ptr.main x) (nodes xs) none
      rw [ht, nodes_cons, ha] at ht2
      cases ht2
  · rfl

/-- A segment whose tail pointer is set is a proper, non-empty list. -/
theorem IsSeg.proper_of_tail {mem : Ptr → Node} {info : Info} {xs : List Nat}
    (h : IsSeg mem info xs) (ht : info.tail ≠ none) : Proper mem info xs ∧ xs ≠ [] := by
  rcases h with h | ⟨rfl, ht2, _⟩
  · refine ⟨h, ?_⟩
    rintro rfl
    exact ht (by simpa using h.2.2.2.2)
  · exact absurd ht2 ht

theorem stamp_times (n n2 : Node) (c : Nat) (h0 : n2.time_array_0 = n.time_array_0)
    (h1 : n2.time_array_1 = n.time_array_1) :
    (stamp n2 c).time_array_0 = (stamp n c).time_array_0 ∧
      (stamp n2 c).time_array_1 = (stamp n c).time_array_1 := by
  unfold stamp
  rw [h0, h1]
  split_ifs <;> simp [h0, h1]

/-- Link changes commute with `update_time`. -/
theorem LinksOnly.stamp_both {T : List Ptr} {s s2 : State} (h : LinksOnly T s s2)
    (f : Ptr) : LinksOnly T (update_time s f) (update_time s2 f) := by
  have e1 := update_time_fields s f
  have e2 := update_time_fields s2 f
  refine ⟨?_, ?_, ?_, ?_, ?_, ?_, ?_, ?_, ?_, ?_, ?_⟩
  · rw [e1.2.2.1, e2.2.2.1, h.counter]
  · rw [e1.2.2.2.1, e2.2.2.2.1, h.firstFreeBuffer]
  · rw [e1.2.2.2.2.1, e2.2.2.2.2.1, h.lastFreeBuffer]
  · rw [e1.2.2.2.2.2.1, e2.2.2.2.2.2.1, h.freeNext]
  · rw [e1.2.2.2.2.2.2.1, e2.2.2.2.2.2.2.1, h.refcount]
  · rw [e1.2.2.2.2.2.2.2, e2.2.2.2.2.2.2.2, h.usagecount]
  · intro p hp
    rw [update_time_mem, update_time_mem, h.counter]
    split_ifs with e
    · subst e; rw [h.outside p hp]
    · exact h.outside p hp
  · intro p
    rw [(update_time_links s2 f p).2.2, (update_time_links s f p).2.2, h.frame_id]
  · intro p
    rw [update_time_mem, update_time_mem, h.counter]
    split_ifs with e
    · exact (stamp_times _ _ _ (h.time_array_0 f) (h.time_array_1 f)).1
    · exact h.time_array_0 p
  · intro p
    rw [update_time_mem, update_time_mem, h.counter]
    split_ifs with e
    · exact (stamp_times _ _ _ (h.time_array_0 f) (h.time_array_1 f)).2
    · exact h.time_array_1 p
  · intro p
    rw [update_time_mem, update_time_mem]
    split_ifs with e
    · rw [(stamp_links _ _).2.2.2, (stamp_links _ _).2.2.2, h.sanity_check]
    · exact h.sanity_check p

theorem secondLastTouch_linksOnly {T : List Ptr} {s s2 : State} (h : LinksOnly T s s2) :
    secondLastTouch s2 = secondLastTouch s := by
  funext i; exact h.time_array_0 _

theorem lastTouch_linksOnly {T : List Ptr} {s s2 : State} (h : LinksOnly T s s2) :
    lastTouch s2 = lastTouch s := by
  funext i; exact h.time_array_1 _

theorem mem_rankInsert (key : Nat → Nat) (f i : Nat) (ys : List Nat) :
    i ∈ rankInsert key f ys ↔ i = f ∨ i ∈ ys := by
  induction ys with
  | nil => simp [rankInsert]
  | cons m ms ih =>
    unfold rankInsert
    split_ifs
    · simp
    · simp [ih]; tauto

theorem nodup_rankInsert (key : Nat → Nat) (f : Nat) (ys : List Nat) (hf : f ∉ ys)
    (h : ys.Nodup) : (rankInsert key f ys).Nodup := by
  induction ys with
  | nil => simp [rankInsert]
  | cons m ms ih =>
    have hm := List.nodup_cons.1 h
    unfold rankInsert
    split_ifs
    · exact List.nodup_cons.2 ⟨hf, h⟩
    · refine List.nodup_cons.2 ⟨?_, ih (fun hm2 => hf (List.mem_cons_of_mem _ hm2)) hm.2⟩
      rw [mem_rankInsert]
      rintro (rfl | h2)
      · exact hf (by simp)
      · exact hm.1 h2

/-- Ranked insertion puts `f` right after the longest prefix of members with
a strictly larger key. -/
theorem rankInsert_eq_takeWhile (key : Nat → Nat) (f : Nat) (ys : List Nat) :
    rankInsert key f ys =
      ys.takeWhile (fun m => decide (key f < key m)) ++ f ::
        ys.dropWhile (fun m => decide (key f < key m)) := by
  induction ys with
  | nil => rfl
  | cons m ms ih =>
    unfold rankInsert
    by_cases h : key m ≤ key f
    · have : ¬ key f < key m := by omega
      simp [h, List.takeWhile, List.dropWhile, this]
    · have : key f < key m := by omega
      simp [h, List.takeWhile, List.dropWhile, this, ih]

theorem erase_rankInsert (key : Nat → Nat) (f : Nat) (ys : List Nat) (hf : f ∉ ys) :
    (rankInsert key f ys).erase f = ys := by
  induction ys with
  | nil => simp [rankInsert]
  | cons m ms ih =>
    have hmf : m ≠ f := fun e => hf (by simp [e])
    unfold rankInsert
    split_ifs
    · simp
    · rw [List.erase_cons_tail (by simpa using hmf), ih (fun h => hf (List.mem_cons_of_mem _ h))]

/-- `insert_into_b2` on a node that carries its own index: the frame leaves
B1, and is (re-)inserted into B2 by rank. -/
theorem insert_into_b2_spec (fuel : Nat) (s : State) (b1 b2 : List Nat) (k : Nat)
    (hinv : Inv s b1 b2) (hidk : (s.mem (.main k)).frame_id = (k : Int))
    (hf : b1.length + b2.length < fuel) :
    ∃ s2, insert_into_b2 fuel s (.main k) = .ok s2 ∧
      Inv s2 (b1.erase k) (rankInsert (secondLastTouch s2) k (b2.erase k)) ∧
      LinksOnly (Ptr.main k :: (nodes b1 ++ nodes b2)) (update_time s (.main k)) s2 := by
  obtain ⟨h1, h2, hd⟩ := hinv
  have hF := update_time_fields s (.main k)
  have hid0 : ((update_time s (.main k)).mem (.main k)).frame_id = (k : Int) := by
    rw [(update_time_links s _ _).2.2, hidk]
  have h1a : IsSeg (update_time s (.main k)).mem (update_time s (.main k)).linkedListInfo b1 := by
    rw [hF.1]; exact h1.stamp_seg _
  have h2a : IsSeg (update_time s (.main k)).mem
      (update_time s (.main k)).otherLinkedListInfo b2 := by
    rw [hF.2.1]; exact h2.stamp_seg _
  unfold insert_into_b2
  simp only []
  generalize update_time s (.main k) = s0 at hid0 h1a h2a ⊢
  rw [hid0]
  obtain ⟨s1, e1, hB2, hi1, hL1, -⟩ :=
    delete_other_arbitrarily_isSeg fuel s0 b2 k h2a (by omega)
  rw [e1]
  simp only []
  have hB1 : IsSeg s1.mem s1.linkedListInfo b1 := by
    rw [hi1]
    refine h1a.of_linksOnly hL1 (fun p hp => ⟨?_, h2a.frame_id_nonneg hp⟩)
    obtain ⟨i, hi, rfl⟩ := mem_nodes.1 hp
    rw [main_mem_nodes]
    exact fun hm => hd i hm hi
  have hid1 : (s1.mem (.main k)).frame_id = (k : Int) := by rw [hL1.frame_id, hid0]
  rw [hid1]
  obtain ⟨s2, e2, hB1b, hi2, hL2, -⟩ :=
    delete_arbitrarily_isSeg fuel s1 b1 k hB1 (by omega)
  rw [e2]
  simp only []
  have hB2b : IsSeg s2.mem s2.otherLinkedListInfo (b2.erase k) := by
    rw [hi2]
    refine hB2.of_linksOnly hL2 (fun p hp => ⟨?_, hB1.frame_id_nonneg hp⟩)
    obtain ⟨i, hi, rfl⟩ := mem_nodes.1 hp
    rw [main_mem_nodes]
    exact fun hm => hd i hi (List.mem_of_mem_erase hm)
  have hk1 : k ∉ b1.erase k := fun hm => (h1.nodup.mem_erase_iff.1 hm).1 rfl
  have hk2 : k ∉ b2.erase k := fun hm => (h2.nodup.mem_erase_iff.1 hm).1 rfl
  have hid2 : (s2.mem (.main k)).frame_id = (k : Int) := by rw [hL2.frame_id, hid1]
  have hL02 : LinksOnly (Ptr.main k :: (nodes b1 ++ nodes b2)) s0 s2 :=
    (hL1.mono (by intro p hp; simp [hp])).trans (hL2.mono (by intro p hp; simp [hp]))
  have hframe : ∀ {s3 : State} {T : List Ptr}, LinksOnly T s2 s3 →
      (∀ p ∈ T, p = Ptr.main k ∨ p ∈ nodes (b2.erase k)) →
      IsSeg s3.mem s2.linkedListInfo (b1.erase k) := by
    intro s3 T hL hT
    refine hB1b.of_linksOnly hL (fun p hp => ?_)
    rcases hT p hp with rfl | hp2
    · exact ⟨by rw [main_mem_nodes]; exact hk1, by rw [hid2]; exact Int.natCast_nonneg k⟩
    · refine ⟨?_, hB2b.frame_id_nonneg hp2⟩
      obtain ⟨i, hi, rfl⟩ := mem_nodes.1 hp2
      rw [main_mem_nodes]
      exact fun hm => hd i (List.mem_of_mem_erase hm) (List.mem_of_mem_erase hi)
  by_cases htl : s2.otherLinkedListInfo.tail = none
  · have hnil := hB2b.eq_nil_of_tail htl
    rw [if_pos htl, hnil]
    have hkT : Ptr.main k ∈ [Ptr.main k] := by simp
    have hL3 := ((((LinksOnly.refl [Ptr.main k] s2).setOtherTail (some (.main k))).setOtherHead
      (some (.main k))).setNext hkT none).setPrev hkT none
    refine ⟨_, rfl, ⟨?_, ?_, ?_⟩, ?_⟩
    · exact hframe hL3 (by intro p hp; left; simpa using hp)
    · left
      refine ⟨by simp [rankInsert], ?_, by simp [rankInsert, nodes, Seg], rfl, rfl⟩
      intro i hi
      obtain rfl : i = k := by simpa [rankInsert] using hi
      rw [hL3.frame_id]; exact hid2
    · intro i hi
      simp only [rankInsert, List.mem_singleton]
      rintro rfl
      exact hk1 hi
    · exact hL02.trans (hL3.mono (by intro p hp; simp at hp; simp [hp]))
  · rw [if_neg htl]
    obtain ⟨hP, hne⟩ := hB2b.proper_of_tail htl
    obtain ⟨s3, e3, hs3, hh3, ht3, hi3, hL3⟩ :=
      insert_rank_loop_spec s2 k (b2.erase k) [] fuel (by simpa using hP) (by simpa using hne)
        (by simpa using hk2) (by have := List.length_erase_le k b2; omega)
    have hhd : s2.otherLinkedListInfo.head = firstOr (nodes (b2.erase k)) none := hP.2.2.2.1
    rw [hhd, e3]
    simp only [List.nil_append] at hs3 hh3 ht3 hL3
    have hkey : secondLastTouch s3 = secondLastTouch s2 := secondLastTouch_linksOnly hL3
    refine ⟨s3, rfl, ?_, ?_⟩
    rw [hkey]
    refine ⟨?_, ?_, ?_⟩
    · rw [hi3]
      exact hframe hL3 (by intro p hp; simpa using hp)
    · left
      refine ⟨nodup_rankInsert _ _ _ hk2 hP.1, ?_, hs3, hh3, ht3⟩
      intro i hi
      rw [hL3.frame_id]
      rcases (mem_rankInsert _ _ _ _).1 hi with rfl | hi
      · exact hid2
      · exact hP.2.1 i hi
    · intro i hi
      rw [mem_rankInsert]
      rintro (rfl | h3)
      · exact hk1 hi
      · exact hd i (List.mem_of_mem_erase hi) (List.mem_of_mem_erase h3)
    · refine hL02.trans (hL3.mono ?_)
      intro p hp
      rcases List.mem_cons.1 hp with rfl | hp
      · simp
      · obtain ⟨i, hi, rfl⟩ := mem_nodes.1 hp
        simp [nodes, List.mem_of_mem_erase hi]

/-- `move_to_head` on a node that carries its own index: the frame leaves
both segments and becomes the head of B1. -/
theorem move_to_head_spec (fuel : Nat) (s : State) (b1 b2 : List Nat) (k : Nat)
    (hinv : Inv s b1 b2) (hidk : (s.mem (.main k)).frame_id = (k : Int))
    (hf : b1.length + b2.length < fuel) :
    ∃ s2, move_to_head fuel s (.main k) = .ok s2 ∧
      Inv s2 (k :: b1.erase k) (b2.erase k) ∧
      LinksOnly (Ptr.main k :: (nodes b1 ++ nodes b2)) (update_time s (.main k)) s2 := by
  obtain ⟨h1, h2, hd⟩ := hinv
  unfold move_to_head
  rw [hidk]
  obtain ⟨s1, e1, hB1, hi1, hL1, -⟩ := delete_arbitrarily_isSeg fuel s b1 k h1 (by omega)
  rw [e1]
  simp only []
  have hB2 : IsSeg s1.mem s1.otherLinkedListInfo b2 := by
    rw [hi1]
    refine h2.of_linksOnly hL1 (fun p hp => ⟨?_, h1.frame_id_nonneg hp⟩)
    obtain ⟨i, hi, rfl⟩ := mem_nodes.1 hp
    rw [main_mem_nodes]
    exact hd i hi
  have hid1 : (s1.mem (.main k)).frame_id = (k : Int) := by rw [hL1.frame_id, hidk]
  rw [hid1]
  obtain ⟨s2, e2, hB2b, hi2, hL2, -⟩ :=
    delete_other_arbitrarily_isSeg fuel s1 b2 k hB2 (by omega)
  rw [e2]
  simp only []
  have hB1b : IsSeg s2.mem s2.linkedListInfo (b1.erase k) := by
    rw [hi2]
    refine hB1.of_linksOnly hL2 (fun p hp => ⟨?_, hB2.frame_id_nonneg hp⟩)
    obtain ⟨i, hi, rfl⟩ := mem_nodes.1 hp
    rw [main_mem_nodes]
    exact fun hm => hd i (List.mem_of_mem_erase hm) hi
  have hk1 : k ∉ b1.erase k := fun hm => (h1.nodup.mem_erase_iff.1 hm).1 rfl
  have hk2 : k ∉ b2.erase k := fun hm => (h2.nodup.mem_erase_iff.1 hm).1 rfl
  have hid2 : (s2.mem (.main k)).frame_id = (k : Int) := by rw [hL2.frame_id, hid1]
  have hL02 : LinksOnly (Ptr.main k :: (nodes b1 ++ nodes b2)) s s2 :=
    (hL1.mono (by intro p hp; simp [hp])).trans (hL2.mono (by intro p hp; simp [hp]))
  obtain ⟨hP, hio, hL3⟩ := insert_at_head_spec s2 (b1.erase k) k hB1b hk1 hid2
  refine ⟨_, rfl, ⟨Or.inl hP, ?_, ?_⟩, ?_⟩
  · rw [hio]
    have hB2c := hB2b.stamp_seg (s := s2) (.main k)
    refine hB2c.of_linksOnly hL3 (fun p hp => ?_)
    rcases List.mem_cons.1 hp with rfl | hp
    · refine ⟨by rw [main_mem_nodes]; exact hk2, ?_⟩
      rw [(update_time_links s2 _ _).2.2, hid2]; exact Int.natCast_nonneg k
    · refine ⟨?_, ?_⟩
      · obtain ⟨i, hi, rfl⟩ := mem_nodes.1 hp
        rw [main_mem_nodes]
        exact fun hm => hd i (List.mem_of_mem_erase hi) (List.mem_of_mem_erase hm)
      · rw [(update_time_links s2 _ _).2.2]; exact hB1b.frame_id_nonneg hp
  · intro i hi
    rcases List.mem_cons.1 hi with rfl | hi
    · exact hk2
    · exact fun hm => hd i (List.mem_of_mem_erase hi) (List.mem_of_mem_erase hm)
  · refine (hL02.stamp_both (.main k)).trans (hL3.mono ?_)
    intro p hp
    rcases List.mem_cons.1 hp with rfl | hp
    · simp
    · obtain ⟨i, hi, rfl⟩ := mem_nodes.1 hp
      simp [nodes, List.mem_of_mem_erase hi]

/-- `delete_arbitrarily` for an id that is not a member of B1, also in the
state where the pristine head slot has just received this id. -/
theorem delete_arbitrarily_fresh (fuel : Nat) (s : State) (xs : List Nat) (k : Nat)
    (h : IsSeg s.mem s.linkedListInfo xs ∨ (xs = [] ∧ GhostAt s.mem s.linkedListInfo k))
    (hk : k ∉ xs) (hidk : (s.mem (.main k)).frame_id = (k : Int)) (hf : xs.length < fuel) :
    ∃ s2, delete_arbitrarily fuel s k = .ok s2 ∧
      IsSeg s2.mem s2.linkedListInfo xs ∧
      s2.otherLinkedListInfo = s.otherLinkedListInfo ∧ LinksOnly [Ptr.main k] s s2 ∧
      ((s.mem (.main k)).next = none → (s2.mem (.main k)).next = none) := by
  rcases h with h | ⟨rfl, ht, hh, hn⟩
  · obtain ⟨s2, e, h2, h3, -, h5⟩ := delete_arbitrarily_isSeg fuel s xs k h hf
    have := h5 hk
    subst this
    exact ⟨s2, e, h, rfl, LinksOnly.refl _ _, fun h => h⟩
  · obtain ⟨n, rfl⟩ : ∃ n, fuel = n + 1 := ⟨fuel - 1, by simp at hf; omega⟩
    have hsearch : search_for_frame (n + 1) s k = .ok (some (.main k)) := by
      simp [search_for_frame, hh, search_loop, hidk]
    unfold delete_arbitrarily
    rw [hsearch]
    simp only [hh, hn, if_true]
    have hkT : Ptr.main k ∈ [Ptr.main k] := by simp
    refine ⟨_, rfl, Or.inl ⟨by simp, by simp, trivial, rfl, rfl⟩, rfl, ?_, fun _ => by simp⟩
    exact ((((LinksOnly.refl _ s).setHead none).setTail none).setNext hkT none).setPrev hkT none

/-- `delete_other_arbitrarily` for an id that is not a member of B2, also in
the state where the pristine head slot has just received this id. -/
theorem delete_other_arbitrarily_fresh (fuel : Nat) (s : State) (xs : List Nat) (k : Nat)
    (h : IsSeg s.mem s.otherLinkedListInfo xs ∨
      (xs = [] ∧ GhostAt s.mem s.otherLinkedListInfo k))
    (hk : k ∉ xs) (hidk : (s.mem (.main k)).frame_id = (k : Int)) (hf : xs.length < fuel) :
    ∃ s2, delete_other_arbitrarily fuel s k = .ok s2 ∧
      IsSeg s2.mem s2.otherLinkedListInfo xs ∧
      s2.linkedListInfo = s.linkedListInfo ∧ LinksOnly [Ptr.main k] s s2 := by
  rcases h with h | ⟨rfl, ht, hh, hn⟩
  · obtain ⟨s2, e, h2, h3, -, h5⟩ := delete_other_arbitrarily_isSeg fuel s xs k h hf
    have := h5 hk
    subst this
    exact ⟨s2, e, h, rfl, LinksOnly.refl _ _⟩
  · obtain ⟨n, rfl⟩ : ∃ n, fuel = n + 1 := ⟨fuel - 1, by simp at hf; omega⟩
    have hsearch : search_for_frame_b2 (n + 1) s k = .ok (some (.main k)) := by
      simp [search_for_frame_b2, hh, search_loop, hidk]
    unfold delete_other_arbitrarily
    rw [hsearch]
    simp only [hh, hn, if_true]
    refine ⟨_, rfl, Or.inl ⟨by simp, by simp, trivial, rfl, rfl⟩, rfl, ?_⟩
    exact ((LinksOnly.refl _ s).setOtherHead none).setOtherTail none

/-- `move_to_head` on a frame that is in neither segment (the `None` path of
`StrategyAccessBuffer`): the frame becomes the head of B1. -/
theorem move_to_head_fresh (fuel : Nat) (s : State) (b1 b2 : List Nat) (k : Nat)
    (h1 : IsSeg s.mem s.linkedListInfo b1 ∨ (b1 = [] ∧ GhostAt s.mem s.linkedListInfo k))
    (h2 : IsSeg s.mem s.otherLinkedListInfo b2 ∨
      (b2 = [] ∧ GhostAt s.mem s.otherLinkedListInfo k))
    (hd : ∀ i ∈ b1, i ∉ b2) (hk1 : k ∉ b1) (hk2 : k ∉ b2)
    (hidk : (s.mem (.main k)).frame_id = (k : Int))
    (hf : b1.length + b2.length < fuel) :
    ∃ s2, move_to_head fuel s (.main k) = .ok s2 ∧ Inv s2 (k :: b1) b2 ∧
      LinksOnly (Ptr.main k :: (nodes b1 ++ nodes b2)) (update_time s (.main k)) s2 := by
  unfold move_to_head
  rw [hidk]
  obtain ⟨s1, e1, hB1, hi1, hL1, hn1⟩ := delete_arbitrarily_fresh fuel s b1 k h1 hk1 hidk (by omega)
  rw [e1]
  simp only []
  have hid1 : (s1.mem (.main k)).frame_id = (k : Int) := by rw [hL1.frame_id, hidk]
  have hkge : ∀ p ∈ [Ptr.main k], 0 ≤ (s.mem p).frame_id := by
    intro p hp
    obtain rfl : p = Ptr.main k := by simpa using hp
    rw [hidk]; exact Int.natCast_nonneg k
  have h2b : IsSeg s1.mem s1.otherLinkedListInfo b2 ∨
      (b2 = [] ∧ GhostAt s1.mem s1.otherLinkedListInfo k) := by
    rw [hi1]
    rcases h2 with h2 | ⟨rfl, ht, hh, hn⟩
    · left
      refine h2.of_linksOnly hL1 (fun p hp => ⟨?_, hkge p hp⟩)
      obtain rfl : p = Ptr.main k := by simpa using hp
      rw [main_mem_nodes]; exact hk2
    · exact Or.inr ⟨rfl, ht, hh, hn1 hn⟩
  rw [hid1]
  obtain ⟨s2, e2, hB2, hi2, hL2⟩ :=
    delete_other_arbitrarily_fresh fuel s1 b2 k h2b hk2 hid1 (by omega)
  rw [e2]
  simp only []
  have hB1b : IsSeg s2.mem s2.linkedListInfo b1 := by
    rw [hi2]
    refine hB1.of_linksOnly hL2 (fun p hp => ?_)
    obtain rfl : p = Ptr.main k := by simpa using hp
    exact ⟨by rw [main_mem_nodes]; exact hk1, by rw [hid1]; exact Int.natCast_nonneg k⟩
  have hid2 : (s2.mem (.main k)).frame_id = (k : Int) := by rw [hL2.frame_id, hid1]
  have hL02 : LinksOnly (Ptr.main k :: (nodes b1 ++ nodes b2)) s s2 :=
    (hL1.mono (by intro p hp; simp at hp; simp [hp])).trans
      (hL2.mono (by intro p hp; simp at hp; simp [hp]))
  obtain ⟨hP, hio, hL3⟩ := insert_at_head_spec s2 b1 k hB1b hk1 hid2
  refine ⟨_, rfl, ⟨Or.inl hP, ?_, ?_⟩, ?_⟩
  · rw [hio]
    have hB2c := hB2.stamp_seg (s := s2) (.main k)
    refine hB2c.of_linksOnly hL3 (fun p hp => ?_)
    rcases List.mem_cons.1 hp with rfl | hp
    · refine ⟨by rw [main_mem_nodes]; exact hk2, ?_⟩
      rw [(update_time_links s2 _ _).2.2, hid2]; exact Int.natCast_nonneg k
    · refine ⟨?_, ?_⟩
      · obtain ⟨i, hi, rfl⟩ := mem_nodes.1 hp
        rw [main_mem_nodes]
        exact hd i hi
      · rw [(update_time_links s2 _ _).2.2]; exact hB1b.frame_id_nonneg hp
  · intro i hi
    rcases List.mem_cons.1 hi with rfl | hi
    · exact hk2
    · exact hd i hi
  · refine (hL02.stamp_both (.main k)).trans (hL3.mono ?_)
    intro p hp
    rcases List.mem_cons.1 hp with rfl | hp
    · simp
    · simp [hp]

/-! ## `StrategyAccessBuffer` -/

theorem Proper.congr_proper {mem mem2 : Ptr → Node} {info : Info} {xs : List Nat}
    (h : Proper mem info xs)
    (hc : ∀ p ∈ nodes xs, (mem2 p).prev = (mem p).prev ∧ (mem2 p).next = (mem p).next ∧
      (mem2 p).frame_id = (mem p).frame_id) :
    Proper mem2 info xs := by
  obtain ⟨hnd, hid, hs, hh, ht⟩ := h
  refine ⟨hnd, ?_, ?_, hh, ht⟩
  · intro i hi
    rw [(hc _ (main_mem_nodes.2 hi)).2.2]
    exact hid i hi
  · exact Seg_congr hs (fun x hx => ⟨(hc x hx).1, (hc x hx).2.1⟩)

/-- Writing the data fields of `doubleLinkedList[k]` for a frame `k` outside
the segment keeps the segment, except that a pristine head slot that is this
very node now carries the id `k`. -/
theorem IsSeg.fresh {mem mem2 : Ptr → Node} {info : Info} {xs : List Nat} {k : Nat}
    (h : IsSeg mem info xs) (hk : k ∉ xs)
    (ho : ∀ p, p ≠ Ptr.main k → mem2 p = mem p)
    (hn : (mem2 (.main k)).next = (mem (.main k)).next) :
    IsSeg mem2 info xs ∨ (xs = [] ∧ GhostAt mem2 info k) := by
  rcases h with h | ⟨rfl, ht, hg⟩
  · left; left
    refine h.congr_proper (fun p hp => ?_)
    have : p ≠ Ptr.main k := by
      rintro rfl; exact hk (main_mem_nodes.1 hp)
    rw [ho p this]
    exact ⟨rfl, rfl, rfl⟩
  · cases hhd : info.head with
    | none => simp [hhd] at hg
    | some g =>
      rw [hhd] at hg
      by_cases hgk : g = Ptr.main k
      · subst hgk
        exact Or.inr ⟨rfl, ht, hhd, by rw [hn]; exact hg.2⟩
      · left; right
        refine ⟨rfl, ht, ?_⟩
        rw [hhd]
        show (mem2 g).frame_id < 0 ∧ (mem2 g).next = none
        rw [ho g hgk]
        exact hg

theorem OnlyFrame.then_links {k : Nat} {T : List Ptr} {s s0 s2 : State}
    (h0 : OnlyFrame k s s0) (hL : LinksOnly T s0 s2) : OnlyFrame k s s2 :=
  ⟨hL.firstFreeBuffer.trans h0.firstFreeBuffer, hL.lastFreeBuffer.trans h0.lastFreeBuffer,
    hL.freeNext.trans h0.freeNext, hL.refcount.trans h0.refcount,
    hL.usagecount.trans h0.usagecount,
    fun i hi => (hL.frame_id _).trans (h0.frame_id i hi),
    fun i hi => (hL.time_array_0 _).trans (h0.time_array_0 i hi),
    fun i hi => (hL.time_array_1 _).trans (h0.time_array_1 i hi)⟩

theorem OnlyFrame.trans_only {k : Nat} {s s0 s2 : State}
    (h0 : OnlyFrame k s s0) (h : OnlyFrame k s0 s2) : OnlyFrame k s s2 :=
  ⟨h.firstFreeBuffer.trans h0.firstFreeBuffer, h.lastFreeBuffer.trans h0.lastFreeBuffer,
    h.freeNext.trans h0.freeNext, h.refcount.trans h0.refcount,
    h.usagecount.trans h0.usagecount,
    fun p hp => (h.frame_id p hp).trans (h0.frame_id p hp),
    fun p hp => (h.time_array_0 p hp).trans (h0.time_array_0 p hp),
    fun p hp => (h.time_array_1 p hp).trans (h0.time_array_1 p hp)⟩

theorem OnlyFrame.stamp_only (k : Nat) (s : State) :
    OnlyFrame k s (update_time s (.main k)) := by
  have hF := update_time_fields s (.main k)
  refine ⟨hF.2.2.2.1, hF.2.2.2.2.1, hF.2.2.2.2.2.1, hF.2.2.2.2.2.2.1, hF.2.2.2.2.2.2.2,
    ?_, ?_, ?_⟩ <;>
  · intro i hi
    rw [update_time_mem, if_neg (by simpa using hi)]

/-- The `None` path of `touch`: a frame that is in neither segment becomes
the head of B1 with first-touch timestamps. -/
theorem touch_new_spec (fuel : Nat) (s : State) (b1 b2 : List Nat) (k : Nat)
    (hinv : Inv s b1 b2) (hk1 : k ∉ b1) (hk2 : k ∉ b2)
    (hf : b1.length + b2.length < fuel) :
    ∃ s2, StrategyAccessBuffer fuel s k false = .ok s2 ∧ Inv s2 (k :: b1) b2 ∧
      s2.counter = (s.counter + 1) % UINT64_MOD ∧
      lastTouch s2 k = s2.counter ∧ secondLastTouch s2 k = 0 ∧ OnlyFrame k s s2 := by
  obtain ⟨h1, h2, hd⟩ := hinv
  have hs1 : search_for_frame fuel s.tick k = .ok none := by
    unfold search_for_frame
    rw [show s.tick.linkedListInfo = s.linkedListInfo from rfl,
      show s.tick.mem = s.mem from rfl,
      search_isSeg s.mem s.linkedListInfo b1 k fuel h1 (by omega), if_neg hk1]
  have hs2 : search_for_frame_b2 fuel s.tick k = .ok none := by
    unfold search_for_frame_b2
    rw [show s.tick.otherLinkedListInfo = s.otherLinkedListInfo from rfl,
      show s.tick.mem = s.mem from rfl,
      search_isSeg s.mem s.otherLinkedListInfo b2 k fuel h2 (by omega), if_neg hk2]
  unfold StrategyAccessBuffer
  simp only [hs1, hs2, Bool.false_eq_true, if_false]
  obtain ⟨s4, hs4⟩ : ∃ s4, s4 = (((s.tick.setFrameId (.main k) k).setTime0 (.main k) 0).setTime1
      (.main k) 0).setSanity (.main k) 42069 := ⟨_, rfl⟩
  rw [← hs4]
  have hm4 : ∀ p, p ≠ Ptr.main k → s4.mem p = s.mem p := by
    intro p hp
    rw [hs4]
    simp [State.setFrameId, State.setTime0, State.setTime1, State.setSanity, State.tick,
      Function.update_apply, hp]
  have hk4 : s4.mem (.main k) = { s.mem (.main k) with
      frame_id := k, time_array_0 := 0, time_array_1 := 0, sanity_check := 42069 } := by
    rw [hs4]
    simp [State.setFrameId, State.setTime0, State.setTime1, State.setSanity, State.tick]
  have hi4 : s4.linkedListInfo = s.linkedListInfo := by rw [hs4]; rfl
  have ho4 : s4.otherLinkedListInfo = s.otherLinkedListInfo := by rw [hs4]; rfl
  have hc4 : s4.counter = (s.counter + 1) % UINT64_MOD := by rw [hs4]; rfl
  have hO4 : OnlyFrame k s s4 := by
    refine ⟨by rw [hs4]; rfl, by rw [hs4]; rfl, by rw [hs4]; rfl, by rw [hs4]; rfl,
      by rw [hs4]; rfl, ?_, ?_, ?_⟩ <;>
    · intro i hi
      rw [hm4 _ (by simpa using hi)]
  have h1b : IsSeg s4.mem s.linkedListInfo b1 ∨ (b1 = [] ∧ GhostAt s4.mem s.linkedListInfo k) :=
    h1.fresh hk1 hm4 (by rw [hk4])
  have h2b : IsSeg s4.mem s.otherLinkedListInfo b2 ∨
      (b2 = [] ∧ GhostAt s4.mem s.otherLinkedListInfo k) :=
    h2.fresh hk2 hm4 (by rw [hk4])
  rw [← hi4] at h1b
  rw [← ho4] at h2b
  obtain ⟨s5, e5, hinv5, hL5⟩ :=
    move_to_head_fresh fuel s4 b1 b2 k h1b h2b hd hk1 hk2 (by rw [hk4]) hf
  refine ⟨s5, e5, hinv5, ?_, ?_, ?_, ?_⟩
  · rw [hL5.counter, (update_time_fields _ _).2.2.1, hc4]
  · show (s5.mem (.main k)).time_array_1 = s5.counter
    rw [hL5.time_array_1, hL5.counter, update_time_mem, if_pos rfl,
      (update_time_fields _ _).2.2.1]
    unfold stamp; split_ifs <;> rfl
  · show (s5.mem (.main k)).time_array_0 = 0
    rw [hL5.time_array_0, update_time_mem, if_pos rfl, hk4]
    simp [stamp]
  · exact (hO4.trans_only (OnlyFrame.stamp_only k s4)).then_links hL5

theorem stamp_time_array_1 (n : Node) (c : Nat) : (stamp n c).time_array_1 = c := by
  unfold stamp; split_ifs <;> rfl

/-- `update_time` always leaves the old last access time in the second slot:
in the first-update case both are zero. -/
theorem stamp_time_array_0 (n : Node) (c : Nat) : (stamp n c).time_array_0 = n.time_array_1 := by
  unfold stamp
  split_ifs with h
  · show n.time_array_0 = n.time_array_1
    rw [h.1, h.2]
  · rfl

/-- The `B1` and `B2` paths of `touch`: a member of either segment is stamped
and (re-)inserted into B2 by rank. -/
theorem touch_member_spec (fuel : Nat) (s : State) (b1 b2 : List Nat) (k : Nat)
    (hinv : Inv s b1 b2) (hmem : k ∈ b1 ∨ k ∈ b2) (hf : b1.length + b2.length < fuel) :
    ∃ s2, StrategyAccessBuffer fuel s k false = .ok s2 ∧
      Inv s2 (b1.erase k) (rankInsert (secondLastTouch s2) k (b2.erase k)) ∧
      s2.counter = (s.counter + 1) % UINT64_MOD ∧
      lastTouch s2 k = s2.counter ∧ secondLastTouch s2 k = lastTouch s k ∧
      OnlyFrame k s s2 := by
  have hinv2 : Inv s.tick b1 b2 := hinv
  have hidk : (s.tick.mem (.main k)).frame_id = (k : Int) := by
    rcases hmem with hm | hm
    · exact hinv.1.frame_id_eq hm
    · exact hinv.2.1.frame_id_eq hm
  obtain ⟨s2, e2, hinv3, hL⟩ := insert_into_b2_spec fuel s.tick b1 b2 k hinv2 hidk hf
  have hcall : StrategyAccessBuffer fuel s k false = insert_into_b2 fuel s.tick (.main k) := by
    obtain ⟨h1, h2, hd⟩ := hinv
    unfold StrategyAccessBuffer
    have hs1 : search_for_frame fuel s.tick k =
        .ok (if k ∈ b1 then some (.main k) else none) := by
      unfold search_for_frame
      rw [show s.tick.linkedListInfo = s.linkedListInfo from rfl,
        show s.tick.mem = s.mem from rfl,
        search_isSeg s.mem s.linkedListInfo b1 k fuel h1 (by omega)]
    have hs2 : search_for_frame_b2 fuel s.tick k =
        .ok (if k ∈ b2 then some (.main k) else none) := by
      unfold search_for_frame_b2
      rw [show s.tick.otherLinkedListInfo = s.otherLinkedListInfo from rfl,
        show s.tick.mem = s.mem from rfl,
        search_isSeg s.mem s.otherLinkedListInfo b2 k fuel h2 (by omega)]
    simp only [hs1, hs2, Bool.false_eq_true, if_false]
    by_cases hk1 : k ∈ b1
    · simp [hk1]
    · have hk2 : k ∈ b2 := hmem.resolve_left hk1
      simp [hk1, hk2]
  rw [hcall]
  have hc : s2.counter = (s.counter + 1) % UINT64_MOD := by
    rw [hL.counter, (update_time_fields _ _).2.2.1]; rfl
  refine ⟨s2, e2, hinv3, hc, ?_, ?_, ?_⟩
  · show (s2.mem (.main k)).time_array_1 = s2.counter
    rw [hL.time_array_1, hL.counter, update_time_mem, if_pos rfl,
      (update_time_fields _ _).2.2.1, stamp_time_array_1]
  · show (s2.mem (.main k)).time_array_0 = (s.mem (.main k)).time_array_1
    rw [hL.time_array_0, update_time_mem, if_pos rfl, stamp_time_array_0]
    rfl
  · have h0 : OnlyFrame k s s.tick := by
      refine ⟨rfl, rfl, rfl, rfl, rfl, ?_, ?_, ?_⟩ <;> intros <;> rfl
    exact (h0.trans_only (OnlyFrame.stamp_only k s.tick)).then_links hL

/-! ## `StrategyGetBuffer` -/

theorem scan_b1_none (fuel : Nat) (s : State) (n : Nat) :
    scan_b1 fuel s n none = scan_b2 fuel s fuel s.otherLinkedListInfo.tail := by
  cases n <;> rfl

theorem scan_b2_none (fuel : Nat) (s : State) (n : Nat) :
    scan_b2 fuel s n none = .ok (.noUnpinnedBuffers, s) := by
  cases n <;> rfl

theorem scan_b1_pinned (fuel : Nat) (s : State) (n : Nat) (p : Ptr) (a : Nat)
    (hid : (s.mem p).frame_id = (a : Int)) (hr : s.refcount a ≠ 0) :
    scan_b1 fuel s (n + 1) (some p) = scan_b1 fuel s n (s.mem p).prev := by
  have hneg : ¬ ((a : Int) < 0) := by omega
  rw [scan_b1]
  simp only [hid, Int.toNat_ofNat, hr, if_false, hneg]

theorem scan_b2_pinned (fuel : Nat) (s : State) (n : Nat) (p : Ptr) (a : Nat)
    (hid : (s.mem p).frame_id = (a : Int)) (hr : s.refcount a ≠ 0) :
    scan_b2 fuel s (n + 1) (some p) = scan_b2 fuel s n (s.mem p).prev := by
  have hneg : ¬ ((a : Int) < 0) := by omega
  rw [scan_b2]
  simp only [hid, Int.toNat_ofNat, hr, if_false, hneg]

/-- The B1 scan walks over a pinned suffix of the list. -/
theorem scan_b1_skip (fuel : Nat) (s : State) (pre r : List Nat) (n : Nat) (q : Option Ptr)
    (hs : Seg s.mem none (nodes (pre ++ r)) q)
    (hid : ∀ i ∈ r, (s.mem (.main i)).frame_id = (i : Int))
    (hr : ∀ i ∈ r, s.refcount i ≠ 0) :
    scan_b1 fuel s (n + r.length) (lastOr (nodes (pre ++ r)) none) =
      scan_b1 fuel s n (lastOr (nodes pre) none) := by
  induction r using List.reverseRecOn generalizing n q with
  | nil => simp
  | append_singleton r0 a ih =>
    have hs2 : Seg s.mem none (nodes (pre ++ r0) ++ [Ptr.main a]) q := by
      rw [← List.append_assoc, nodes_append] at hs; exact hs
    have hprev : (s.mem (.main a)).prev = lastOr (nodes (pre ++ r0)) none :=
      ((Seg_append _ _ _ _ _).1 hs2).2.1
    have hlast : lastOr (nodes (pre ++ (r0 ++ [a]))) none = some (Ptr.main a) := by
      rw [← List.append_assoc, nodes_append]; exact lastOr_concat _ _ _
    rw [hlast, List.length_append, List.length_singleton, ← Nat.add_assoc,
      scan_b1_pinned fuel s _ _ a (hid a (by simp)) (hr a (by simp)), hprev]
    exact ih n _ ((Seg_append _ _ _ _ _).1 hs2).1 (fun i hi => hid i (by simp [hi]))
      (fun i hi => hr i (by simp [hi]))

/-- The B2 scan walks over a pinned suffix of the list. -/
theorem scan_b2_skip (fuel : Nat) (s : State) (pre r : List Nat) (n : Nat) (q : Option Ptr)
    (hs : Seg s.mem none (nodes (pre ++ r)) q)
    (hid : ∀ i ∈ r, (s.mem (.main i)).frame_id = (i : Int))
    (hr : ∀ i ∈ r, s.refcount i ≠ 0) :
    scan_b2 fuel s (n + r.length) (lastOr (nodes (pre ++ r)) none) =
      scan_b2 fuel s n (lastOr (nodes pre) none) := by
  induction r using List.reverseRecOn generalizing n q with
  | nil => simp
  | append_singleton r0 a ih =>
    have hs2 : Seg s.mem none (nodes (pre ++ r0) ++ [Ptr.main a]) q := by
      rw [← List.append_assoc, nodes_append] at hs; exact hs
    have hprev : (s.mem (.main a)).prev = lastOr (nodes (pre ++ r0)) none :=
      ((Seg_append _ _ _ _ _).1 hs2).2.1
    have hlast : lastOr (nodes (pre ++ (r0 ++ [a]))) none = some (Ptr.main a) := by
      rw [← List.append_assoc, nodes_append]; exact lastOr_concat _ _ _
    rw [hlast, List.length_append, List.length_singleton, ← Nat.add_assoc,
      scan_b2_pinned fuel s _ _ a (hid a (by simp)) (hr a (by simp)), hprev]
    exact ih n _ ((Seg_append _ _ _ _ _).1 hs2).1 (fun i hi => hid i (by simp [hi]))
      (fun i hi => hr i (by simp [hi]))

theorem IsSeg.tail_eq {mem : Ptr → Node} {info : Info} {xs : List Nat}
    (h : IsSeg mem info xs) : info.tail = lastOr (nodes xs) none := by
  rcases h with ⟨_, _, _, _, ht⟩ | ⟨rfl, ht, _⟩
  · exact ht
  · exact ht

theorem IsSeg.seg {mem : Ptr → Node} {info : Info} {xs : List Nat}
    (h : IsSeg mem info xs) : Seg mem none (nodes xs) none := by
  rcases h with ⟨_, _, hs, _⟩ | ⟨rfl, _⟩
  · exact hs
  · trivial

theorem OnlyFrame.tick (k : Nat) (s : State) : OnlyFrame k s s.tick := by
  refine ⟨rfl, rfl, rfl, rfl, rfl, ?_, ?_, ?_⟩ <;> intros <;> rfl

/-- The B1 scan when B1 has an unpinned member: the member `v` closest to
the tail is returned and moved to the head of B1. -/
theorem scan_b1_hit (fuel : Nat) (s : State) (b2 l r : List Nat) (v : Nat)
    (hinv : Inv s (l ++ v :: r) b2) (hv : s.refcount v = 0)
    (hr : ∀ i ∈ r, s.refcount i ≠ 0) (hf : (l ++ v :: r).length + b2.length < fuel) :
    ∃ s2, scan_b1 fuel s fuel s.linkedListInfo.tail = .ok (.buf v, s2) ∧
      Inv s2 (v :: (l ++ r)) b2 ∧
      LinksOnly (Ptr.main v :: (nodes (l ++ v :: r) ++ nodes b2)) (update_time s (.main v)) s2 := by
  obtain ⟨h1, h2, hd⟩ := hinv
  have hvb1 : v ∈ l ++ v :: r := by simp
  have hvb2 : v ∉ b2 := hd v hvb1
  have hidv := h1.frame_id_eq hvb1
  have hnd := h1.nodup
  have hvl : v ∉ l := by
    intro hm
    rw [List.nodup_append] at hnd
    exact hnd.2.2 hm (by simp)
  have herase : (l ++ v :: r).erase v = l ++ r := by
    rw [List.erase_append_right _ hvl, List.erase_cons_head]
  obtain ⟨n, hn⟩ : ∃ n, fuel = (n + 1) + r.length := by
    refine ⟨fuel - r.length - 1, ?_⟩
    simp only [List.length_append, List.length_cons] at hf
    omega
  have e1 : l ++ v :: r = (l ++ [v]) ++ r := by simp
  have hskip : scan_b1 fuel s fuel s.linkedListInfo.tail =
      scan_b1 fuel s (n + 1) (some (.main v)) := by
    have hsk := scan_b1_skip fuel s (l ++ [v]) r (n + 1) none (by rw [← e1]; exact h1.seg)
      (fun i hi => h1.frame_id_eq (by simp [hi])) hr
    rw [← hn, ← e1, nodes_append l [v]] at hsk
    rw [h1.tail_eq, hsk]
    exact congrArg _ (lastOr_concat (nodes l) (Ptr.main v) none)
  have hs1 : search_for_frame fuel s v = .ok (some (.main v)) := by
    unfold search_for_frame
    rw [search_isSeg s.mem s.linkedListInfo _ v fuel h1 (by omega), if_pos hvb1]
  obtain ⟨s1, e2, -, -, -, hsame⟩ := delete_other_arbitrarily_isSeg fuel s b2 v h2 (by omega)
  have := hsame hvb2
  subst this
  obtain ⟨s2, e3, hinv2, hL⟩ := move_to_head_spec fuel s1 (l ++ v :: r) b2 v ⟨h1, h2, hd⟩ hidv hf
  have hneg : ¬ ((v : Int) < 0) := by omega
  refine ⟨s2, ?_, ?_, hL⟩
  · rw [hskip, scan_b1]
    simp only [hidv, Int.toNat_ofNat, hv, if_true, hneg, if_false, hs1, e2, e3]
  · rw [herase, List.erase_of_not_mem hvb2] at hinv2
    exact hinv2

theorem SameFrames.of_links {T : List Ptr} {s s2 : State} (h : LinksOnly T s s2) :
    SameFrames s s2 :=
  ⟨h.counter, h.firstFreeBuffer, h.lastFreeBuffer, h.freeNext, h.refcount, h.usagecount,
    fun _ => h.frame_id _, fun _ => h.time_array_0 _, fun _ => h.time_array_1 _⟩

theorem SameFrames.trans_same {s s1 s2 : State} (h : SameFrames s s1) (h2 : SameFrames s1 s2) :
    SameFrames s s2 :=
  ⟨h2.counter.trans h.counter, h2.firstFreeBuffer.trans h.firstFreeBuffer,
    h2.lastFreeBuffer.trans h.lastFreeBuffer, h2.freeNext.trans h.freeNext,
    h2.refcount.trans h.refcount, h2.usagecount.trans h.usagecount,
    fun i => (h2.frame_id i).trans (h.frame_id i),
    fun i => (h2.time_array_0 i).trans (h.time_array_0 i),
    fun i => (h2.time_array_1 i).trans (h.time_array_1 i)⟩

theorem Stamped.of_stamp_links {T : List Ptr} {v : Nat} {s s2 : State}
    (h : LinksOnly T (update_time s (.main v)) s2) : Stamped v s s2 := by
  have hF := update_time_fields s (.main v)
  refine ⟨(OnlyFrame.stamp_only v s).then_links h, ?_, ?_, ?_, ?_⟩
  · rw [h.counter, hF.2.2.1]
  · rw [h.frame_id, (update_time_links s _ _).2.2]
  · show (s2.mem (.main v)).time_array_1 = s.counter
    rw [h.time_array_1, update_time_mem, if_pos rfl, stamp_time_array_1]
  · show (s2.mem (.main v)).time_array_0 = (s.mem (.main v)).time_array_1
    rw [h.time_array_0, update_time_mem, if_pos rfl, stamp_time_array_0]

theorem Stamped.of_sameFrames {v : Nat} {s s1 s2 : State} (h0 : SameFrames s s1)
    (h : Stamped v s1 s2) : Stamped v s s2 := by
  refine ⟨⟨?_, ?_, ?_, ?_, ?_, ?_, ?_, ?_⟩, ?_, ?_, ?_, ?_⟩
  · exact h.only.firstFreeBuffer.trans h0.firstFreeBuffer
  · exact h.only.lastFreeBuffer.trans h0.lastFreeBuffer
  · exact h.only.freeNext.trans h0.freeNext
  · exact h.only.refcount.trans h0.refcount
  · exact h.only.usagecount.trans h0.usagecount
  · exact fun i hi => (h.only.frame_id i hi).trans (h0.frame_id i)
  · exact fun i hi => (h.only.time_array_0 i hi).trans (h0.time_array_0 i)
  · exact fun i hi => (h.only.time_array_1 i hi).trans (h0.time_array_1 i)
  · exact h.counter.trans h0.counter
  · exact h.frame_id.trans (h0.frame_id v)
  · exact h.last.trans h0.counter
  · exact h.secondLast.trans (h0.time_array_1 v)

/-- Writes to slots of `otherDoubleLinkedList` that leave a negative id and
no successor behind do not disturb a segment. -/
theorem IsSeg.other_write {mem mem2 : Ptr → Node} {info : Info} {xs : List Nat}
    (h : IsSeg mem info xs) (hm : ∀ i, mem2 (.main i) = mem (.main i))
    (ho : ∀ i, mem2 (.other i) = mem (.other i) ∨
      ((mem2 (.other i)).frame_id < 0 ∧ (mem2 (.other i)).next = none)) :
    IsSeg mem2 info xs := by
  rcases h with h | ⟨rfl, ht, hg⟩
  · left
    refine h.congr_proper (fun p hp => ?_)
    obtain ⟨i, -, rfl⟩ := mem_nodes.1 hp
    rw [hm i]
    exact ⟨rfl, rfl, rfl⟩
  · right
    refine ⟨rfl, ht, ?_⟩
    cases hhd : info.head with
    | none => simp [hhd] at hg
    | some g =>
      rw [hhd] at hg
      show (mem2 g).frame_id < 0 ∧ (mem2 g).next = none
      cases g with
      | main i => rw [hm i]; exact hg
      | other i =>
        rcases ho i with e | e
        · rw [e]; exact hg
        · exact e

theorem reset_other_slot_spec (s : State) (v : Nat)
    (hid : (s.mem (.main v)).frame_id = (v : Int)) :
    ∃ s2, reset_other_slot s (.main v) = .ok s2 ∧
      s2.linkedListInfo = s.linkedListInfo ∧
      s2.otherLinkedListInfo = s.otherLinkedListInfo ∧ SameFrames s s2 ∧
      (∀ i, s2.mem (.main i) = s.mem (.main i)) ∧
      (∀ i, s2.mem (.other i) = s.mem (.other i) ∨
        ((s2.mem (.other i)).frame_id < 0 ∧ (s2.mem (.other i)).next = none)) := by
  have hneg : ¬ ((v : Int) < 0) := by omega
  have key : ∀ (t : State) (w : State → Ptr → State),
      (t.mem (.main v)).frame_id = (v : Int) →
      write_other_slot t (.main v) w = .ok (w t (.other v)) := by
    intro t w ht
    unfold write_other_slot
    rw [ht, if_neg hneg, Int.toNat_ofNat]
  have hmain : ∀ i, ((((((s.setNext (.other v) none).setPrev (.other v) none).setFrameId
      (.other v) (-1)).setTime0 (.other v) 0).setTime1 (.other v) 0).setSanity
      (.other v) 42069).mem (.main i) = s.mem (.main i) := by
    intro i
    simp [State.setNext, State.setPrev, State.setFrameId, State.setTime0, State.setTime1,
      State.setSanity, Function.update_apply]
  refine ⟨(((((s.setNext (.other v) none).setPrev (.other v) none).setFrameId
      (.other v) (-1)).setTime0 (.other v) 0).setTime1 (.other v) 0).setSanity
      (.other v) 42069, ?_, rfl, rfl, ?_, hmain, ?_⟩
  · unfold reset_other_slot
    simp only [bind, Except.bind]
    rw [key _ _ hid]
    simp only []
    rw [key _ _ (by simpa [State.setNext, Function.update_apply] using hid)]
    simp only []
    rw [key _ _ (by simpa [State.setNext, State.setPrev, Function.update_apply] using hid)]
    simp only []
    rw [key _ _ (by simpa [State.setNext, State.setPrev, State.setFrameId,
      Function.update_apply] using hid)]
    simp only []
    rw [key _ _ (by simpa [State.setNext, State.setPrev, State.setFrameId, State.setTime0,
      Function.update_apply] using hid)]
    simp only []
    rw [key _ _ (by simpa [State.setNext, State.setPrev, State.setFrameId, State.setTime0,
      State.setTime1, Function.update_apply] using hid)]
  · refine ⟨rfl, rfl, rfl, rfl, rfl, rfl, ?_, ?_, ?_⟩ <;>
    · intro i
      rw [hmain i]
  · intro i
    by_cases hi : i = v
    · subst hi
      right
      simp [State.setNext, State.setPrev, State.setFrameId, State.setTime0, State.setTime1,
        State.setSanity, Function.update_apply]
    · left
      simp [State.setNext, State.setPrev, State.setFrameId, State.setTime0, State.setTime1,
        State.setSanity, Function.update_apply, hi]

/-- The B1 scan runs off the list when every member of B1 is pinned. -/
theorem scan_b1_all_pinned (fuel : Nat) (s : State) (b1 : List Nat)
    (h1 : IsSeg s.mem s.linkedListInfo b1) (hp : ∀ i ∈ b1, s.refcount i ≠ 0)
    (hf : b1.length < fuel) :
    scan_b1 fuel s fuel s.linkedListInfo.tail =
      scan_b2 fuel s fuel s.otherLinkedListInfo.tail := by
  obtain ⟨n, hn⟩ : ∃ n, fuel = n + b1.length := ⟨fuel - b1.length, by omega⟩
  have hsk := scan_b1_skip fuel s [] b1 n none (by simpa using h1.seg)
    (fun i hi => h1.frame_id_eq hi) hp
  rw [← hn, List.nil_append] at hsk
  rw [h1.tail_eq, hsk]
  exact scan_b1_none fuel s n

/-- The B2 scan raises the error when every member of B2 is pinned. -/
theorem scan_b2_all_pinned (fuel : Nat) (s : State) (b2 : List Nat)
    (h2 : IsSeg s.mem s.otherLinkedListInfo b2) (hp : ∀ i ∈ b2, s.refcount i ≠ 0)
    (hf : b2.length < fuel) :
    scan_b2 fuel s fuel s.otherLinkedListInfo.tail = .ok (.noUnpinnedBuffers, s) := by
  obtain ⟨n, hn⟩ : ∃ n, fuel = n + b2.length := ⟨fuel - b2.length, by omega⟩
  have hsk := scan_b2_skip fuel s [] b2 n none (by simpa using h2.seg)
    (fun i hi => h2.frame_id_eq hi) hp
  rw [← hn, List.nil_append] at hsk
  rw [h2.tail_eq, hsk]
  exact scan_b2_none fuel s n

/-- The B2 scan when B2 has an unpinned member: the member `v` closest to
the tail is returned, removed from B2 and put on the head of B1. -/
theorem scan_b2_hit (fuel : Nat) (s : State) (b1 l r : List Nat) (v : Nat)
    (hinv : Inv s b1 (l ++ v :: r)) (hv : s.refcount v = 0)
    (hr : ∀ i ∈ r, s.refcount i ≠ 0) (hf : b1.length + (l ++ v :: r).length < fuel) :
    ∃ s2, scan_b2 fuel s fuel s.otherLinkedListInfo.tail = .ok (.buf v, s2) ∧
      Inv s2 (v :: b1) (l ++ r) ∧ Stamped v s s2 := by
  obtain ⟨h1, h2, hd⟩ := hinv
  have hvb2 : v ∈ l ++ v :: r := by simp
  have hvb1 : v ∉ b1 := fun hm => hd v hm hvb2
  have hidv := h2.frame_id_eq hvb2
  have hnd := h2.nodup
  have hvl : v ∉ l := by
    intro hm
    rw [List.nodup_append] at hnd
    exact hnd.2.2 hm (by simp)
  have herase : (l ++ v :: r).erase v = l ++ r := by
    rw [List.erase_append_right _ hvl, List.erase_cons_head]
  have hvlr : v ∉ l ++ r := by
    rw [← herase]; exact fun hm => (hnd.mem_erase_iff.1 hm).1 rfl
  obtain ⟨n, hn⟩ : ∃ n, fuel = (n + 1) + r.length := by
    refine ⟨fuel - r.length - 1, ?_⟩
    simp only [List.length_append, List.length_cons] at hf
    omega
  have e1 : l ++ v :: r = (l ++ [v]) ++ r := by simp
  have hskip : scan_b2 fuel s fuel s.otherLinkedListInfo.tail =
      scan_b2 fuel s (n + 1) (some (.main v)) := by
    have hsk := scan_b2_skip fuel s (l ++ [v]) r (n + 1) none (by rw [← e1]; exact h2.seg)
      (fun i hi => h2.frame_id_eq (by simp [hi])) hr
    rw [← hn, ← e1, nodes_append l [v]] at hsk
    rw [h2.tail_eq, hsk]
    exact congrArg _ (lastOr_concat (nodes l) (Ptr.main v) none)
  have hs1 : search_for_frame_b2 fuel s v = .ok (some (.main v)) := by
    unfold search_for_frame_b2
    rw [search_isSeg s.mem s.otherLinkedListInfo _ v fuel h2 (by omega), if_pos hvb2]
  obtain ⟨s1, e2, hB2, hi1, hL1, -⟩ :=
    delete_other_arbitrarily_isSeg fuel s (l ++ v :: r) v h2 (by omega)
  rw [herase] at hB2
  have hB1 : IsSeg s1.mem s1.linkedListInfo b1 := by
    rw [hi1]
    refine h1.of_linksOnly hL1 (fun p hp => ⟨?_, h2.frame_id_nonneg hp⟩)
    obtain ⟨i, hi, rfl⟩ := mem_nodes.1 hp
    rw [main_mem_nodes]
    exact fun hm => hd i hm hi
  have hid1 : (s1.mem (.main v)).frame_id = (v : Int) := by rw [hL1.frame_id, hidv]
  obtain ⟨s2, e3, hi2, ho2, hS2, hm2, hw2⟩ := reset_other_slot_spec s1 v hid1
  have hinv2 : Inv s2 b1 (l ++ r) := by
    refine ⟨?_, ?_, fun i hi hm => hd i hi ?_⟩
    · rw [hi2]; exact hB1.other_write hm2 hw2
    · rw [ho2]; exact hB2.other_write hm2 hw2
    · rw [← herase] at hm; exact List.mem_of_mem_erase hm
  have hid2 : (s2.mem (.main v)).frame_id = (v : Int) := by rw [hm2, hid1]
  obtain ⟨s3, e4, hinv3, hL3⟩ := move_to_head_spec fuel s2 b1 (l ++ r) v hinv2 hid2
    (by simp only [List.length_append, List.length_cons] at hf ⊢; omega)
  have hneg : ¬ ((v : Int) < 0) := by omega
  refine ⟨s3, ?_, ?_, ?_⟩
  · rw [hskip, scan_b2]
    simp only [hidv, Int.toNat_ofNat, hv, if_true, hneg, if_false, hs1, e2, e3, e4]
  · rw [List.erase_of_not_mem hvb1, List.erase_of_not_mem hvlr] at hinv3
    exact hinv3
  · exact Stamped.of_sameFrames ((SameFrames.of_links hL1).trans_same hS2)
      (Stamped.of_stamp_links hL3)

/-! ## The pin state is read-only -/

theorem delete_arbitrarily_refcount {fuel : Nat} {s s2 : State} {k : Int}
    (h : delete_arbitrarily fuel s k = .ok s2) : s2.refcount = s.refcount := by
  unfold delete_arbitrarily at h
  cases hs : search_for_frame fuel s k with
  | error e => rw [hs] at h; cases h
  | ok r =>
    rw [hs] at h
    cases r with
    | none => cases h; rfl
    | some frame =>
      simp only [] at h
      split at h
      · cases h
      · rename_i s3 hu
        cases h
        show s3.refcount = s.refcount
        split_ifs at hu
        · split at hu <;> (cases hu; rfl)
        · split at hu
          · cases hu
          · cases hu; rfl
        · split at hu
          · cases hu
          · split at hu
            · cases hu
            · cases hu; rfl

theorem repair_links_refcount {fuel : Nat} {s s2 : State} {f : Ptr} {k : Int}
    (h : repair_links fuel s f k = .ok s2) : s2.refcount = s.refcount := by
  unfold repair_links at h
  split at h
  · cases h; rfl
  · split at h
    · cases h
    · cases h; rfl
  · split at h
    · cases h
    · cases h; rfl
  · cases h; rfl

theorem delete_other_arbitrarily_refcount {fuel : Nat} {s s2 : State} {k : Int}
    (h : delete_other_arbitrarily fuel s k = .ok s2) : s2.refcount = s.refcount := by
  unfold delete_other_arbitrarily at h
  cases hs : search_for_frame_b2 fuel s k with
  | error e => rw [hs] at h; cases h
  | ok r =>
    rw [hs] at h
    cases r with
    | none => cases h; rfl
    | some frame =>
      simp only [] at h
      split_ifs at h
      · split at h <;> (cases h; rfl)
      · split at h
        · cases h
        · cases h; rfl
      · split at h
        · cases h
        · rename_i s0 hr
          have e0 := repair_links_refcount hr
          split at h
          · cases h
          · split at h
            · cases h
            · cases h; exact e0

theorem update_time_refcount (s : State) (f : Ptr) : (update_time s f).refcount = s.refcount :=
  (update_time_fields s f).2.2.2.2.2.2.1

theorem insert_at_head_refcount (s : State) (f : Ptr) :
    (insert_at_head s f).refcount = s.refcount := by
  unfold insert_at_head
  simp only []
  split <;> split <;> exact update_time_refcount s f

theorem move_to_head_refcount {fuel : Nat} {s s2 : State} {f : Ptr}
    (h : move_to_head fuel s f = .ok s2) : s2.refcount = s.refcount := by
  unfold move_to_head at h
  split at h
  · cases h
  · rename_i s1 e1
    split at h
    · cases h
    · rename_i s3 e3
      cases h
      rw [insert_at_head_refcount, delete_other_arbitrarily_refcount e3,
        delete_arbitrarily_refcount e1]

theorem insert_rank_loop_refcount {s s2 : State} {f : Ptr} {n : Nat} {p : Option Ptr}
    (h : insert_rank_loop s f n p = .ok s2) : s2.refcount = s.refcount := by
  induction n generalizing p with
  | zero =>
    cases p with
    | none =>
      unfold insert_rank_loop at h
      split at h
      · cases h
      · cases h; rfl
    | some q => cases h
  | succ n ih =>
    cases p with
    | none =>
      unfold insert_rank_loop at h
      split at h
      · cases h
      · cases h; rfl
    | some q =>
      unfold insert_rank_loop at h
      split at h
      · cases h
        split <;> rfl
      · exact ih h

theorem insert_into_b2_refcount {fuel : Nat} {s s2 : State} {f : Ptr}
    (h : insert_into_b2 fuel s f = .ok s2) : s2.refcount = s.refcount := by
  unfold insert_into_b2 at h
  simp only [] at h
  split at h
  · cases h
  · rename_i s1 e1
    split at h
    · cases h
    · rename_i s3 e3
      have e := (delete_arbitrarily_refcount e3).trans
        ((delete_other_arbitrarily_refcount e1).trans (update_time_refcount s f))
      split at h
      · cases h; exact e
      · exact (insert_rank_loop_refcount h).trans e

theorem StrategyAccessBuffer_refcount {fuel : Nat} {s s2 : State} {k : Nat} {d : Bool}
    (h : StrategyAccessBuffer fuel s k d = .ok s2) : s2.refcount = s.refcount := by
  unfold StrategyAccessBuffer at h
  simp only [] at h
  split at h
  · split at h
    · cases h
    · rename_i s1 e1
      exact (delete_other_arbitrarily_refcount h).trans
        (delete_arbitrarily_refcount e1 : s1.refcount = s.tick.refcount)
  · split at h
    · cases h
    · exact (insert_into_b2_refcount h : s2.refcount = s.tick.refcount)
    · split at h
      · cases h
      · exact (insert_into_b2_refcount h : s2.refcount = s.tick.refcount)
      · exact (move_to_head_refcount h : s2.refcount = _)

theorem reset_other_slot_refcount {s s2 : State} {f : Ptr}
    (h : reset_other_slot s f = .ok s2) : s2.refcount = s.refcount := by
  have key : ∀ (t t2 : State) (w : State → Ptr → State),
      write_other_slot t f w = .ok t2 →
      (∀ u q, (w u q).refcount = u.refcount) → t2.refcount = t.refcount := by
    intro t t2 w ht hw
    unfold write_other_slot at ht
    split_ifs at ht
    cases ht
    exact hw _ _
  unfold reset_other_slot at h
  simp only [bind, Except.bind] at h
  split at h
  · cases h
  · rename_i t1 h1
    split at h
    · cases h
    · rename_i t2 h2
      split at h
      · cases h
      · rename_i t3 h3
        split at h
        · cases h
        · rename_i t4 h4
          split at h
          · cases h
          · rename_i t5 h5
            have k6 := key _ _ _ h (fun _ _ => rfl)
            have k5 := key _ _ _ h5 (fun _ _ => rfl)
            have k4 := key _ _ _ h4 (fun _ _ => rfl)
            have k3 := key _ _ _ h3 (fun _ _ => rfl)
            have k2 := key _ _ _ h2 (fun _ _ => rfl)
            have k1 := key _ _ _ h1 (fun _ _ => rfl)
            rw [k6, k5, k4, k3, k2, k1]

/-- A buffer returned by the B2 scan has zero reference count. -/
theorem scan_b2_unpinned {fuel : Nat} {s s2 : State} {n : Nat} {p : Option Ptr} {v : Nat}
    (h : scan_b2 fuel s n p = .ok (.buf v, s2)) : s.refcount v = 0 ∧ s2.refcount = s.refcount := by
  induction n generalizing p with
  | zero =>
    cases p with
    | none => rw [scan_b2_none] at h; cases h
    | some q => cases h
  | succ n ih =>
    cases p with
    | none => rw [scan_b2_none] at h; cases h
    | some q =>
      rw [scan_b2] at h
      split_ifs at h with h1 h2
      · split at h
        · cases h
        · cases h
        · split at h
          · cases h
          · rename_i s1 e1
            split at h
            · cases h
            · rename_i s3 e3
              split at h
              · cases h
              · rename_i s4 e4
                cases h
                exact ⟨h2, (move_to_head_refcount e4).trans
                  ((reset_other_slot_refcount e3).trans
                    (delete_other_arbitrarily_refcount e1))⟩
      · exact ih h

/-- A buffer returned by the B1/B2 scan has zero reference count. -/
theorem scan_b1_unpinned {fuel : Nat} {s s2 : State} {n : Nat} {p : Option Ptr} {v : Nat}
    (h : scan_b1 fuel s n p = .ok (.buf v, s2)) : s.refcount v = 0 ∧ s2.refcount = s.refcount := by
  induction n generalizing p with
  | zero =>
    cases p with
    | none => rw [scan_b1_none] at h; exact scan_b2_unpinned h
    | some q => cases h
  | succ n ih =>
    cases p with
    | none => rw [scan_b1_none] at h; exact scan_b2_unpinned h
    | some q =>
      rw [scan_b1] at h
      split_ifs at h with h1 h2
      · split at h
        · cases h
        · split at h
          · cases h
          · rename_i s1 e1
            split at h
            · cases h
            · split at h
              · cases h
              · rename_i s4 e4
                cases h
                exact ⟨h2, (move_to_head_refcount e4).trans
                  (delete_other_arbitrarily_refcount e1)⟩
      · exact ih h

/-- A buffer returned from the free list has zero reference count. -/
theorem freelist_loop_unpinned {fuel : Nat} {s s2 : State} {n : Nat} {b : Option Nat}
    (h : freelist_loop fuel n s = .ok (b, s2)) :
    s2.refcount = s.refcount ∧ ∀ v, b = some v → s.refcount v = 0 := by
  induction n generalizing s with
  | zero => cases h
  | succ n ih =>
    rw [freelist_loop] at h
    simp only [] at h
    split_ifs at h with h1 h2
    · cases h
      exact ⟨rfl, fun v hv => by cases hv⟩
    · split at h
      · cases h
      · rename_i s3 e3
        cases h
        refine ⟨(StrategyAccessBuffer_refcount e3 : s2.refcount = _), fun v hv => ?_⟩
        cases hv
        exact h2.1
    · exact (ih h : s2.refcount = _ ∧ _)

/-! ## More fuel never changes a result -/

theorem search_loop_mono {mem : Ptr → Node} {d : Int} {n m : Nat} {p r : Option Ptr}
    (hnm : n ≤ m) (h : search_loop mem d n p = .ok r) : search_loop mem d m p = .ok r := by
  induction n generalizing m p with
  | zero =>
    cases p with
    | none => cases m <;> exact h
    | some q => cases h
  | succ n ih =>
    cases p with
    | none => cases m <;> exact h
    | some q =>
      obtain ⟨m, rfl⟩ : ∃ k, m = k + 1 := ⟨m - 1, by omega⟩
      rw [search_loop] at h ⊢
      split_ifs at h ⊢ with hq
      · exact h
      · exact ih (by omega) h

theorem search_for_frame_mono {n m : Nat} {s : State} {d : Int} {r : Option Ptr}
    (hnm : n ≤ m) (h : search_for_frame n s d = .ok r) : search_for_frame m s d = .ok r := by
  unfold search_for_frame at h ⊢
  split_ifs at h ⊢
  · exact h
  · exact search_loop_mono hnm h

theorem search_for_frame_b2_mono {n m : Nat} {s : State} {d : Int} {r : Option Ptr}
    (hnm : n ≤ m) (h : search_for_frame_b2 n s d = .ok r) :
    search_for_frame_b2 m s d = .ok r := by
  unfold search_for_frame_b2 at h ⊢
  split_ifs at h ⊢
  · exact h
  · exact search_loop_mono hnm h

theorem search_before_loop_mono {mem : Ptr → Node} {d : Int} {n m : Nat} {p r : Option Ptr}
    (hnm : n ≤ m) (h : search_before_loop mem d n p = .ok r) :
    search_before_loop mem d m p = .ok r := by
  induction n generalizing m p with
  | zero =>
    cases p with
    | none => cases m <;> exact h
    | some q => cases h
  | succ n ih =>
    cases p with
    | none => cases m <;> exact h
    | some q =>
      obtain ⟨m, rfl⟩ : ∃ k, m = k + 1 := ⟨m - 1, by omega⟩
      rw [search_before_loop] at h ⊢
      split at h
      · exact h
      · split_ifs at h ⊢
        · exact h
        · exact ih (by omega) h

theorem search_after_loop_mono {mem : Ptr → Node} {d : Int} {n m : Nat} {p r : Option Ptr}
    (hnm : n ≤ m) (h : search_after_loop mem d n p = .ok r) :
    search_after_loop mem d m p = .ok r := by
  induction n generalizing m p with
  | zero =>
    cases p with
    | none => cases m <;> exact h
    | some q => cases h
  | succ n ih =>
    cases p with
    | none => cases m <;> exact h
    | some q =>
      obtain ⟨m, rfl⟩ : ∃ k, m = k + 1 := ⟨m - 1, by omega⟩
      rw [search_after_loop] at h ⊢
      split at h
      · exact h
      · split_ifs at h ⊢
        · exact h
        · exact ih (by omega) h

theorem repair_links_mono {n m : Nat} {s r : State} {f : Ptr} {k : Int}
    (hnm : n ≤ m) (h : repair_links n s f k = .ok r) : repair_links m s f k = .ok r := by
  unfold repair_links at h ⊢
  split at h
  · exact h
  · cases hs : search_for_frame_after n s k with
    | error e => rw [hs] at h; cases h
    | ok x =>
      have hs2 : search_for_frame_after m s k = .ok x := by
        unfold search_for_frame_after at hs ⊢
        split_ifs at hs ⊢
        · exact hs
        · exact search_after_loop_mono hnm hs
      rw [hs] at h; rw [hs2]; exact h
  · cases hs : search_for_frame_before n s k with
    | error e => rw [hs] at h; cases h
    | ok x =>
      have hs2 : search_for_frame_before m s k = .ok x := by
        unfold search_for_frame_before at hs ⊢
        split_ifs at hs ⊢
        · exact hs
        · exact search_before_loop_mono hnm hs
      rw [hs] at h; rw [hs2]; exact h
  · exact h

theorem delete_arbitrarily_mono {n m : Nat} {s r : State} {k : Int}
    (hnm : n ≤ m) (h : delete_arbitrarily n s k = .ok r) : delete_arbitrarily m s k = .ok r := by
  unfold delete_arbitrarily at h ⊢
  cases hs : search_for_frame n s k with
  | error e => rw [hs] at h; cases h
  | ok x => rw [hs] at h; rw [search_for_frame_mono hnm hs]; exact h

theorem delete_other_arbitrarily_mono {n m : Nat} {s r : State} {k : Int}
    (hnm : n ≤ m) (h : delete_other_arbitrarily n s k = .ok r) :
    delete_other_arbitrarily m s k = .ok r := by
  unfold delete_other_arbitrarily at h ⊢
  cases hs : search_for_frame_b2 n s k with
  | error e => rw [hs] at h; cases h
  | ok x =>
    rw [hs] at h; rw [search_for_frame_b2_mono hnm hs]
    cases x with
    | none => exact h
    | some frame =>
      simp only [] at h ⊢
      split_ifs at h ⊢
      · exact h
      · exact h
      · cases hr : repair_links n s frame k with
        | error e => rw [hr] at h; cases h
        | ok s0 => rw [hr] at h; rw [repair_links_mono hnm hr]; exact h

theorem move_to_head_mono {n m : Nat} {s r : State} {f : Ptr}
    (hnm : n ≤ m) (h : move_to_head n s f = .ok r) : move_to_head m s f = .ok r := by
  unfold move_to_head at h ⊢
  cases h1 : delete_arbitrarily n s (s.mem f).frame_id with
  | error e => rw [h1] at h; cases h
  | ok s1 =>
    rw [h1] at h; rw [delete_arbitrarily_mono hnm h1]
    simp only [] at h ⊢
    cases h2 : delete_other_arbitrarily n s1 (s1.mem f).frame_id with
    | error e => rw [h2] at h; cases h
    | ok s2 => rw [h2] at h; rw [delete_other_arbitrarily_mono hnm h2]; exact h

theorem insert_rank_loop_mono {s r : State} {f : Ptr} {n m : Nat} {p : Option Ptr}
    (hnm : n ≤ m) (h : insert_rank_loop s f n p = .ok r) :
    insert_rank_loop s f m p = .ok r := by
  induction n generalizing m p with
  | zero =>
    cases p with
    | none => cases m <;> exact h
    | some q => cases h
  | succ n ih =>
    cases p with
    | none => cases m <;> exact h
    | some q =>
      obtain ⟨m, rfl⟩ : ∃ k, m = k + 1 := ⟨m - 1, by omega⟩
      rw [insert_rank_loop] at h ⊢
      split_ifs at h ⊢
      · exact h
      · exact ih (by omega) h

theorem insert_into_b2_mono {n m : Nat} {s r : State} {f : Ptr}
    (hnm : n ≤ m) (h : insert_into_b2 n s f = .ok r) : insert_into_b2 m s f = .ok r := by
  unfold insert_into_b2 at h ⊢
  simp only [] at h ⊢
  cases h1 : delete_other_arbitrarily n (update_time s f) ((update_time s f).mem f).frame_id with
  | error e => rw [h1] at h; cases h
  | ok s1 =>
    rw [h1] at h; rw [delete_other_arbitrarily_mono hnm h1]
    simp only [] at h ⊢
    cases h2 : delete_arbitrarily n s1 (s1.mem f).frame_id with
    | error e => rw [h2] at h; cases h
    | ok s2 =>
      rw [h2] at h; rw [delete_arbitrarily_mono hnm h2]
      simp only [] at h ⊢
      split_ifs at h ⊢
      · exact h
      · exact insert_rank_loop_mono hnm h

theorem StrategyAccessBuffer_mono {n m : Nat} {s r : State} {k : Nat} {d : Bool}
    (hnm : n ≤ m) (h : StrategyAccessBuffer n s k d = .ok r) :
    StrategyAccessBuffer m s k d = .ok r := by
  unfold StrategyAccessBuffer at h ⊢
  simp only [] at h ⊢
  split_ifs at h ⊢
  · cases h1 : delete_arbitrarily n s.tick k with
    | error e => rw [h1] at h; cases h
    | ok s1 =>
      rw [h1] at h; rw [delete_arbitrarily_mono hnm h1]
      exact delete_other_arbitrarily_mono hnm h
  · cases h1 : search_for_frame n s.tick k with
    | error e => rw [h1] at h; cases h
    | ok x =>
      rw [h1] at h; rw [search_for_frame_mono hnm h1]
      cases x with
      | some frame => exact insert_into_b2_mono hnm h
      | none =>
        simp only [] at h ⊢
        cases h2 : search_for_frame_b2 n s.tick k with
        | error e => rw [h2] at h; cases h
        | ok y =>
          rw [h2] at h; rw [search_for_frame_b2_mono hnm h2]
          cases y with
          | some frame => exact insert_into_b2_mono hnm h
          | none => exact move_to_head_mono hnm h

theorem scan_b2_mono {f g : Nat} {s : State} {n m : Nat} {p : Option Ptr}
    {r : GetResult × State} (hfg : f ≤ g) (hnm : n ≤ m)
    (h : scan_b2 f s n p = .ok r) : scan_b2 g s m p = .ok r := by
  induction n generalizing m p with
  | zero =>
    cases p with
    | none => rw [scan_b2_none] at h ⊢; exact h
    | some q => cases h
  | succ n ih =>
    cases p with
    | none => rw [scan_b2_none] at h ⊢; exact h
    | some q =>
      obtain ⟨m, rfl⟩ : ∃ k, m = k + 1 := ⟨m - 1, by omega⟩
      rw [scan_b2] at h ⊢
      split_ifs at h ⊢
      · cases h1 : search_for_frame_b2 f s (s.mem q).frame_id with
        | error e => rw [h1] at h; cases h
        | ok x =>
          rw [h1] at h; rw [search_for_frame_b2_mono hfg h1]
          cases x with
          | none => exact h
          | some fr =>
            simp only [] at h ⊢
            cases h2 : delete_other_arbitrarily f s (s.mem fr).frame_id with
            | error e => rw [h2] at h; cases h
            | ok s1 =>
              rw [h2] at h; rw [delete_other_arbitrarily_mono hfg h2]
              simp only [] at h ⊢
              cases h3 : reset_other_slot s1 fr with
              | error e => rw [h3] at h; cases h
              | ok s2 =>
                rw [h3] at h
                simp only [] at h ⊢
                cases h4 : move_to_head f s2 fr with
                | error e => rw [h4] at h; cases h
                | ok s3 => rw [h4] at h; rw [move_to_head_mono hfg h4]; exact h
      · exact ih (by omega) h

theorem scan_b1_mono {f g : Nat} {s : State} {n m : Nat} {p : Option Ptr}
    {r : GetResult × State} (hfg : f ≤ g) (hnm : n ≤ m)
    (h : scan_b1 f s n p = .ok r) : scan_b1 g s m p = .ok r := by
  induction n generalizing m p with
  | zero =>
    cases p with
    | none => rw [scan_b1_none] at h ⊢; exact scan_b2_mono hfg hfg h
    | some q => cases h
  | succ n ih =>
    cases p with
    | none => rw [scan_b1_none] at h ⊢; exact scan_b2_mono hfg hfg h
    | some q =>
      obtain ⟨m, rfl⟩ : ∃ k, m = k + 1 := ⟨m - 1, by omega⟩
      rw [scan_b1] at h ⊢
      split_ifs at h ⊢
      · cases h1 : search_for_frame f s (s.mem q).frame_id with
        | error e => rw [h1] at h; cases h
        | ok x =>
          rw [h1] at h; rw [search_for_frame_mono hfg h1]
          simp only [] at h ⊢
          cases h2 : delete_other_arbitrarily f s (s.mem q).frame_id with
          | error e => rw [h2] at h; cases h
          | ok s1 =>
            rw [h2] at h; rw [delete_other_arbitrarily_mono hfg h2]
            cases x with
            | none => exact h
            | some fr =>
              simp only [] at h ⊢
              cases h4 : move_to_head f s1 fr with
              | error e => rw [h4] at h; cases h
              | ok s3 => rw [h4] at h; rw [move_to_head_mono hfg h4]; exact h
      · exact ih (by omega) h

theorem freelist_loop_mono {f g : Nat} {n m : Nat} {s : State} {r : Option Nat × State}
    (hfg : f ≤ g) (hnm : n ≤ m) (h : freelist_loop f n s = .ok r) :
    freelist_loop g m s = .ok r := by
  induction n generalizing m s with
  | zero => cases h
  | succ n ih =>
    obtain ⟨m, rfl⟩ : ∃ k, m = k + 1 := ⟨m - 1, by omega⟩
    rw [freelist_loop] at h ⊢
    simp only [] at h ⊢
    split_ifs at h ⊢
    · exact h
    · split at h
      · cases h
      · rename_i s2 e2
        rw [StrategyAccessBuffer_mono hfg e2]
        exact h
    · exact ih (by omega) h

theorem StrategyGetBuffer_mono {n m : Nat} {s : State} {r : GetResult × State}
    (hnm : n ≤ m) (h : StrategyGetBuffer n s = .ok r) : StrategyGetBuffer m s = .ok r := by
  unfold StrategyGetBuffer at h ⊢
  simp only [] at h ⊢
  split_ifs at h ⊢
  · cases h1 : freelist_loop n n s.tick with
    | error e => rw [h1] at h; cases h
    | ok x =>
      rw [h1] at h; rw [freelist_loop_mono hnm hnm h1]
      obtain ⟨b, s1⟩ := x
      cases b with
      | some b => exact h
      | none => exact scan_b1_mono hnm hnm h
  · exact scan_b1_mono hnm hnm h

theorem StrategyFreeBuffer_mono {n m : Nat} {s r : State} {b : Nat}
    (hnm : n ≤ m) (h : StrategyFreeBuffer n s b = .ok r) : StrategyFreeBuffer m s b = .ok r := by
  unfold StrategyFreeBuffer at h ⊢
  split_ifs at h ⊢
  · exact StrategyAccessBuffer_mono hnm h
  · exact h

/-! ## Claims about `StrategyGetBuffer` (acquireVictim) -/

theorem exists_last_unpinned (rc : Nat → Nat) (b : List Nat) (h : ∃ i ∈ b, rc i = 0) :
    ∃ l v r, b = l ++ v :: r ∧ rc v = 0 ∧ ∀ i ∈ r, rc i ≠ 0 := by
  induction b with
  | nil => simp at h
  | cons x b ih =>
    by_cases hb : ∃ i ∈ b, rc i = 0
    · obtain ⟨l, v, r, e, hv, hr⟩ := ih hb
      exact ⟨x :: l, v, r, by rw [e]; rfl, hv, hr⟩
    · obtain ⟨i, hi, h0⟩ := h
      rcases List.mem_cons.1 hi with rfl | hi
      · exact ⟨[], i, b, rfl, h0, fun j hj hj0 => hb ⟨j, hj, hj0⟩⟩
      · exact absurd ⟨i, hi, h0⟩ hb

theorem getBuffer_eq_scan (fuel : Nat) (s : State) (hres : s.firstFreeBuffer < 0) :
    StrategyGetBuffer fuel s = scan_b1 fuel s.tick fuel s.tick.linkedListInfo.tail := by
  unfold StrategyGetBuffer
  have : ¬ (0 ≤ s.tick.firstFreeBuffer) := by
    show ¬ (0 ≤ s.firstFreeBuffer); omega
  simp only [this, if_false]

/-! ## Every reachable state is well formed -/

/-- `purge`: the frame leaves whichever segment holds it; nothing else about
the frames changes. -/
theorem purge_spec (fuel : Nat) (s : State) (b1 b2 : List Nat) (k : Nat)
    (hinv : Inv s b1 b2) (hf : b1.length + b2.length < fuel) :
    ∃ s2, StrategyAccessBuffer fuel s k true = .ok s2 ∧
      Inv s2 (b1.erase k) (b2.erase k) ∧ SameFrames s.tick s2 ∧
      (k ∉ b1 → k ∉ b2 → s2 = s.tick) := by
  have hinv2 : Inv s.tick b1 b2 := hinv
  obtain ⟨h1, h2, hd⟩ := hinv2
  unfold StrategyAccessBuffer
  simp only [if_true]
  obtain ⟨s1, e1, hB1, hi1, hL1, hsame1⟩ := delete_arbitrarily_isSeg fuel s.tick b1 k h1 (by omega)
  rw [e1]
  simp only []
  have hB2 : IsSeg s1.mem s1.otherLinkedListInfo b2 := by
    rw [hi1]
    refine h2.of_linksOnly hL1 (fun p hp => ⟨?_, h1.frame_id_nonneg hp⟩)
    obtain ⟨i, hi, rfl⟩ := mem_nodes.1 hp
    rw [main_mem_nodes]
    exact hd i hi
  obtain ⟨s2, e2, hB2b, hi2, hL2, hsame2⟩ :=
    delete_other_arbitrarily_isSeg fuel s1 b2 k hB2 (by omega)
  refine ⟨s2, e2, ⟨?_, hB2b, ?_⟩, (SameFrames.of_links hL1).trans_same (SameFrames.of_links hL2),
    ?_⟩
  · rw [hi2]
    refine hB1.of_linksOnly hL2 (fun p hp => ⟨?_, hB2.frame_id_nonneg hp⟩)
    obtain ⟨i, hi, rfl⟩ := mem_nodes.1 hp
    rw [main_mem_nodes]
    exact fun hm => hd i (List.mem_of_mem_erase hm) hi
  · exact fun i hi hm => hd i (List.mem_of_mem_erase hi) (List.mem_of_mem_erase hm)
  · intro hk1 hk2
    rw [hsame2 hk2, hsame1 hk1]

theorem access_wellFormed {fuel : Nat} {s s2 : State} {k : Nat} {d : Bool} {b1 b2 : List Nat}
    (h : StrategyAccessBuffer fuel s k d = .ok s2) (hinv : Inv s b1 b2) :
    ∃ c1 c2, Inv s2 c1 c2 := by
  have h2 := StrategyAccessBuffer_mono (Nat.le_max_left fuel (b1.length + b2.length + 1)) h
  have hF : b1.length + b2.length < max fuel (b1.length + b2.length + 1) := by
    have := Nat.le_max_right fuel (b1.length + b2.length + 1); omega
  cases d with
  | true =>
    obtain ⟨s3, e3, hi3, -⟩ := purge_spec _ s b1 b2 k hinv hF
    rw [e3] at h2; cases h2
    exact ⟨_, _, hi3⟩
  | false =>
    by_cases hm : k ∈ b1 ∨ k ∈ b2
    · obtain ⟨s3, e3, hi3, -⟩ := touch_member_spec _ s b1 b2 k hinv hm hF
      rw [e3] at h2; cases h2
      exact ⟨_, _, hi3⟩
    · obtain ⟨s3, e3, hi3, -⟩ := touch_new_spec _ s b1 b2 k hinv (fun h => hm (Or.inl h))
        (fun h => hm (Or.inr h)) hF
      rw [e3] at h2; cases h2
      exact ⟨_, _, hi3⟩

theorem scan_wellFormed {fuel : Nat} {s s2 : State} {r : GetResult} {b1 b2 : List Nat}
    (hinv : Inv s b1 b2) (hf : b1.length + b2.length < fuel)
    (h : scan_b1 fuel s fuel s.linkedListInfo.tail = .ok (r, s2)) :
    ∃ c1 c2, Inv s2 c1 c2 := by
  by_cases hp1 : ∀ i ∈ b1, s.refcount i ≠ 0
  · rw [scan_b1_all_pinned fuel s b1 hinv.1 hp1 (by omega)] at h
    by_cases hp2 : ∀ i ∈ b2, s.refcount i ≠ 0
    · rw [scan_b2_all_pinned fuel s b2 hinv.2.1 hp2 (by omega)] at h
      cases h
      exact ⟨_, _, hinv⟩
    · have hp : ∃ i ∈ b2, s.refcount i = 0 := by
        by_contra hc
        exact hp2 (fun i hi h0 => hc ⟨i, hi, h0⟩)
      obtain ⟨l, v, r2, rfl, hv, hr⟩ := exists_last_unpinned s.refcount b2 hp
      obtain ⟨s3, e3, hi3, -⟩ := scan_b2_hit fuel s b1 l r2 v hinv hv hr hf
      rw [e3] at h; cases h
      exact ⟨_, _, hi3⟩
  · have hp : ∃ i ∈ b1, s.refcount i = 0 := by
      by_contra hc
      exact hp1 (fun i hi h0 => hc ⟨i, hi, h0⟩)
    obtain ⟨l, v, r2, rfl, hv, hr⟩ := exists_last_unpinned s.refcount b1 hp
    obtain ⟨s3, e3, hi3, -⟩ := scan_b1_hit fuel s b2 l r2 v hinv hv hr hf
    rw [e3] at h; cases h
    exact ⟨_, _, hi3⟩

theorem freelist_loop_wellFormed {fuel n : Nat} {s s2 : State} {o : Option Nat}
    {b1 b2 : List Nat} (h : freelist_loop fuel n s = .ok (o, s2))
    (hinv : Inv s b1 b2) :
    (o = none → Inv s2 b1 b2) ∧ ∃ c1 c2, Inv s2 c1 c2 := by
  induction n generalizing s with
  | zero => cases h
  | succ n ih =>
    rw [freelist_loop] at h
    simp only [] at h
    split_ifs at h
    · cases h
      exact ⟨fun _ => hinv, _, _, hinv⟩
    · split at h
      · cases h
      · rename_i s3 e3
        cases h
        refine ⟨fun hn => (by cases hn), ?_⟩
        exact access_wellFormed e3 hinv
    · exact ih h hinv

theorem getBuffer_wellFormed {fuel : Nat} {s s2 : State} {r : GetResult} {b1 b2 : List Nat}
    (hinv : Inv s b1 b2) (h : StrategyGetBuffer fuel s = .ok (r, s2)) :
    ∃ c1 c2, Inv s2 c1 c2 := by
  have h2 := StrategyGetBuffer_mono (Nat.le_max_left fuel (b1.length + b2.length + 1)) h
  have hF : b1.length + b2.length < max fuel (b1.length + b2.length + 1) := by
    have := Nat.le_max_right fuel (b1.length + b2.length + 1); omega
  generalize max fuel (b1.length + b2.length + 1) = F at h2 hF
  have hinv2 : Inv s.tick b1 b2 := hinv
  unfold StrategyGetBuffer at h2
  simp only [] at h2
  split_ifs at h2
  · split at h2
    · cases h2
    · rename_i b s1 e1
      cases h2
      exact (freelist_loop_wellFormed e1 hinv2).2
    · rename_i s1 e1
      exact scan_wellFormed ((freelist_loop_wellFormed e1 hinv2).1 rfl) hF h2
  · exact scan_wellFormed hinv2 hF h2

theorem freeBuffer_wellFormed {fuel : Nat} {s s2 : State} {b : Nat} {b1 b2 : List Nat}
    (hinv : Inv s b1 b2) (h : StrategyFreeBuffer fuel s b = .ok s2) :
    ∃ c1 c2, Inv s2 c1 c2 := by
  unfold StrategyFreeBuffer at h
  split_ifs at h
  · simp only [] at h
    split_ifs at h <;> exact access_wellFormed h hinv
  · cases h
    exact ⟨_, _, hinv⟩

/-- Every reachable state is well formed: B1 and B2 are lists of distinct
frames with consistent links, and no frame is in both. -/
theorem reachable_wellFormed {s : State} (h : Reachable s) : ∃ b1 b2, Inv s b1 b2 := by
  induction h with
  | init N fn rc uc =>
    refine ⟨[], [], Or.inr ⟨rfl, rfl, ?_⟩, Or.inr ⟨rfl, rfl, ?_⟩, by simp⟩
    · refine ⟨?_, rfl⟩
      show (-1 : Int) < 0
      decide
    · refine ⟨?_, rfl⟩
      show (-1 : Int) < 0
      decide
  | access fuel f d _ e ih =>
    obtain ⟨b1, b2, hinv⟩ := ih
    exact access_wellFormed e hinv
  | get fuel r _ e ih =>
    obtain ⟨b1, b2, hinv⟩ := ih
    exact getBuffer_wellFormed hinv e
  | free fuel b _ e ih =>
    obtain ⟨b1, b2, hinv⟩ := ih
    exact freeBuffer_wellFormed hinv e
  | pins rc uc _ ih =>
    obtain ⟨b1, b2, hinv⟩ := ih
    exact ⟨b1, b2, hinv⟩

/-- C1: whenever `StrategyGetBuffer` (acquireVictim) returns a buffer, the pin
predicate reports zero references for it, both in the state the call
started from and in the state it returns; this holds in every state, for the
free-list path, the B1 scan and the B2 scan. -/
theorem getBuffer_returns_unpinned (fuel : Nat) (s s2 : State) (v : Nat)
    (h : StrategyGetBuffer fuel s = .ok (.buf v, s2)) :
    s.refcount v = 0 ∧ s2.refcount v = 0 := by
  have key : s.refcount v = 0 ∧ s2.refcount = s.refcount := by
    unfold StrategyGetBuffer at h
    simp only [] at h
    split_ifs at h
    · split at h
      · cases h
      · rename_i b s1 e1
        cases h
        have := freelist_loop_unpinned e1
        exact ⟨this.2 v rfl, this.1⟩
      · rename_i s1 e1
        have h1 := freelist_loop_unpinned e1
        have h2 := scan_b1_unpinned h
        have e : s1.refcount = s.refcount := h1.1
        exact ⟨by rw [← e]; exact h2.1, h2.2.trans e⟩
    · exact (scan_b1_unpinned h : s.tick.refcount v = 0 ∧ s2.refcount = s.tick.refcount)
  exact ⟨key.1, by rw [key.2]; exact key.1⟩

/-- Worked instance of C1: from B1 = [2], B2 = [1, 0] with nothing pinned the
call returns buffer 2, which is unpinned. -/
theorem getBuffer_returns_unpinned_witness :
    StrategyGetBuffer 8 exTwoSegments =
        .ok (.buf 2, getState (StrategyGetBuffer 8 exTwoSegments) exTwoSegments) ∧
      (exTwoSegments.refcount 2 = 0 ∧
        (getState (StrategyGetBuffer 8 exTwoSegments) exTwoSegments).refcount 2 = 0) :=
  ⟨rfl, getBuffer_returns_unpinned 8 exTwoSegments _ 2 rfl⟩

/-- C2: with the free list empty and B1 = `b1`, B2 = `b2` well formed, if B1
has an unpinned member the call returns the unpinned member of B1 closest to
its tail (`v` with only pinned frames behind it); if every member of B1 is
pinned (or B1 is empty) and B2 has an unpinned member, it returns the
unpinned member of B2 closest to the tail of B2. -/
theorem getBuffer_picks_tailmost_unpinned (fuel : Nat) (s : State) (b1 b2 : List Nat)
    (hres : s.firstFreeBuffer < 0) (hinv : Inv s b1 b2)
    (hf : b1.length + b2.length < fuel) :
    (∀ l v r, b1 = l ++ v :: r → s.refcount v = 0 → (∀ i ∈ r, s.refcount i ≠ 0) →
      getResult (StrategyGetBuffer fuel s) = some (.buf v)) ∧
    (∀ l v r, (∀ i ∈ b1, s.refcount i ≠ 0) → b2 = l ++ v :: r → s.refcount v = 0 →
      (∀ i ∈ r, s.refcount i ≠ 0) →
      getResult (StrategyGetBuffer fuel s) = some (.buf v)) := by
  have hinv2 : Inv s.tick b1 b2 := hinv
  rw [getBuffer_eq_scan fuel s hres]
  constructor
  · rintro l v r rfl hv hr
    obtain ⟨s2, e, -, -⟩ := scan_b1_hit fuel s.tick b2 l r v hinv2 hv hr hf
    rw [e]; rfl
  · rintro l v r hp rfl hv hr
    rw [scan_b1_all_pinned fuel s.tick b1 hinv2.1 hp (by omega)]
    obtain ⟨s2, e, -, -⟩ := scan_b2_hit fuel s.tick b1 l r v hinv2 hv hr hf
    rw [e]; rfl

/-- Worked instance of C2, on two states with an empty free list.  In
`exPinnedTail` B1 = [2, 1, 0] and only the tail 0 is pinned: frames 2 and 1 are
both unpinned and the call returns 1, the one closer to the tail.  In
`exPinnedEnds` B1 = [3] is pinned throughout, B2 = [2, 1, 0] and its tail 0 is
pinned: frames 2 and 1 are both unpinned and the call returns 1. -/
theorem getBuffer_picks_tailmost_unpinned_witness :
    (exPinnedTail.firstFreeBuffer < 0 ∧ Inv exPinnedTail [2, 1, 0] [] ∧
      [2, 1, 0].length + ([] : List Nat).length < 8 ∧
      exPinnedTail.refcount 2 = 0 ∧ exPinnedTail.refcount 1 = 0 ∧
      (∀ i ∈ [0], exPinnedTail.refcount i ≠ 0) ∧
      getResult (StrategyGetBuffer 8 exPinnedTail) = some (.buf 1)) ∧
    (exPinnedEnds.firstFreeBuffer < 0 ∧ Inv exPinnedEnds [3] [2, 1, 0] ∧
      [3].length + [2, 1, 0].length < 8 ∧
      (∀ i ∈ [3], exPinnedEnds.refcount i ≠ 0) ∧
      exPinnedEnds.refcount 2 = 0 ∧ exPinnedEnds.refcount 1 = 0 ∧
      (∀ i ∈ [0], exPinnedEnds.refcount i ≠ 0) ∧
      getResult (StrategyGetBuffer 8 exPinnedEnds) = some (.buf 1)) :=
  ⟨⟨by decide, by decide, by decide, by decide, by decide, by decide,
      (getBuffer_picks_tailmost_unpinned 8 exPinnedTail [2, 1, 0] [] (by decide) (by decide)
        (by decide)).1 [2] 1 [0] rfl (by decide) (by decide)⟩,
    ⟨by decide, by decide, by decide, by decide, by decide, by decide, by decide,
      (getBuffer_picks_tailmost_unpinned 8 exPinnedEnds [3] [2, 1, 0] (by decide) (by decide)
        (by decide)).2 [2] 1 [0] (by decide) rfl (by decide) (by decide)⟩⟩

/-- C3: with the free list empty and B1, B2 well formed, `StrategyGetBuffer`
raises "no unpinned buffers available" exactly when every member of B1 and
every member of B2 is pinned (both segments empty included); when it does,
the node memory and both segments are untouched (so B1, B2 and every
timestamp are unchanged; only the counter has advanced). -/
theorem getBuffer_fails_iff_all_pinned (fuel : Nat) (s : State) (b1 b2 : List Nat)
    (hres : s.firstFreeBuffer < 0) (hinv : Inv s b1 b2)
    (hf : b1.length + b2.length < fuel) :
    (getResult (StrategyGetBuffer fuel s) = some .noUnpinnedBuffers ↔
      ((∀ i ∈ b1, s.refcount i ≠ 0) ∧ ∀ i ∈ b2, s.refcount i ≠ 0)) ∧
    (∀ s2, StrategyGetBuffer fuel s = .ok (.noUnpinnedBuffers, s2) →
      s2.mem = s.mem ∧ s2.linkedListInfo = s.linkedListInfo ∧
      s2.otherLinkedListInfo = s.otherLinkedListInfo ∧ Inv s2 b1 b2) := by
  have hinv2 : Inv s.tick b1 b2 := hinv
  have hall : ((∀ i ∈ b1, s.refcount i ≠ 0) ∧ ∀ i ∈ b2, s.refcount i ≠ 0) →
      StrategyGetBuffer fuel s = .ok (.noUnpinnedBuffers, s.tick) := by
    rintro ⟨hp1, hp2⟩
    rw [getBuffer_eq_scan fuel s hres, scan_b1_all_pinned fuel s.tick b1 hinv2.1 hp1 (by omega),
      scan_b2_all_pinned fuel s.tick b2 hinv2.2.1 hp2 (by omega)]
  have hsome : ¬ ((∀ i ∈ b1, s.refcount i ≠ 0) ∧ ∀ i ∈ b2, s.refcount i ≠ 0) →
      ∃ v s2, StrategyGetBuffer fuel s = .ok (.buf v, s2) := by
    intro hn
    rw [getBuffer_eq_scan fuel s hres]
    by_cases hp1 : ∀ i ∈ b1, s.refcount i ≠ 0
    · have hp2 : ∃ i ∈ b2, s.refcount i = 0 := by
        by_contra hc
        exact hn ⟨hp1, fun i hi h0 => hc ⟨i, hi, h0⟩⟩
      obtain ⟨l, v, r, rfl, hv, hr⟩ := exists_last_unpinned s.refcount b2 hp2
      obtain ⟨s2, e, -, -⟩ := scan_b2_hit fuel s.tick b1 l r v hinv2 hv hr hf
      rw [scan_b1_all_pinned fuel s.tick b1 hinv2.1 hp1 (by omega)]
      exact ⟨v, s2, e⟩
    · have hp : ∃ i ∈ b1, s.refcount i = 0 := by
        by_contra hc
        exact hp1 (fun i hi h0 => hc ⟨i, hi, h0⟩)
      obtain ⟨l, v, r, rfl, hv, hr⟩ := exists_last_unpinned s.refcount b1 hp
      obtain ⟨s2, e, -, -⟩ := scan_b1_hit fuel s.tick b2 l r v hinv2 hv hr hf
      exact ⟨v, s2, e⟩
  have hiff : ∀ s2, StrategyGetBuffer fuel s = .ok (.noUnpinnedBuffers, s2) →
      ((∀ i ∈ b1, s.refcount i ≠ 0) ∧ ∀ i ∈ b2, s.refcount i ≠ 0) := by
    intro s2 e
    by_contra hn
    obtain ⟨v, s3, e3⟩ := hsome hn
    rw [e3] at e
    cases e
  refine ⟨⟨?_, fun h => by rw [hall h]; rfl⟩, ?_⟩
  · intro h
    by_contra hn
    obtain ⟨v, s3, e3⟩ := hsome hn
    rw [e3] at h
    cases h
  · intro s2 e
    have e2 := hall (hiff s2 e)
    rw [e2] at e
    cases e
    exact ⟨rfl, rfl, rfl, hinv2⟩

/-- Worked instance of C3 (scenario D): B1 = [2], B2 = [1, 0], every buffer
pinned, free list empty. -/
theorem getBuffer_fails_iff_all_pinned_witness :
    exAllPinned.firstFreeBuffer < 0 ∧ Inv exAllPinned [2] [1, 0] ∧
      [2].length + [1, 0].length < 8 ∧
      getResult (StrategyGetBuffer 8 exAllPinned) = some .noUnpinnedBuffers :=
  ⟨by decide, by decide, by decide,
    (getBuffer_fails_iff_all_pinned 8 exAllPinned [2] [1, 0] (by decide) (by decide)
      (by decide)).1.2 (by decide)⟩

/-- C4: when `StrategyGetBuffer` takes its victim `v` by scanning, afterwards
`v` is the head of B1 and is not in B2, and every other frame is in the
segment it was in, in the same relative order: a B1 victim turns
B1 = l ++ v :: r into v :: l ++ r and leaves B2 alone, a B2 victim turns
B2 = l ++ v :: r into l ++ r and B1 into v :: B1. -/
theorem getBuffer_moves_victim_to_b1_head (fuel : Nat) (s : State) (b1 b2 : List Nat)
    (hres : s.firstFreeBuffer < 0) (hinv : Inv s b1 b2)
    (hf : b1.length + b2.length < fuel) :
    (∀ l v r, b1 = l ++ v :: r → s.refcount v = 0 → (∀ i ∈ r, s.refcount i ≠ 0) →
      ∃ s2, StrategyGetBuffer fuel s = .ok (.buf v, s2) ∧
        Inv s2 (v :: (l ++ r)) b2 ∧ v ∉ b2) ∧
    (∀ l v r, (∀ i ∈ b1, s.refcount i ≠ 0) → b2 = l ++ v :: r → s.refcount v = 0 →
      (∀ i ∈ r, s.refcount i ≠ 0) →
      ∃ s2, StrategyGetBuffer fuel s = .ok (.buf v, s2) ∧
        Inv s2 (v :: b1) (l ++ r) ∧ v ∉ l ++ r) := by
  have hinv2 : Inv s.tick b1 b2 := hinv
  rw [getBuffer_eq_scan fuel s hres]
  constructor
  · rintro l v r rfl hv hr
    obtain ⟨s2, e, hi, -⟩ := scan_b1_hit fuel s.tick b2 l r v hinv2 hv hr hf
    exact ⟨s2, e, hi, hi.2.2 v (by simp)⟩
  · rintro l v r hp rfl hv hr
    rw [scan_b1_all_pinned fuel s.tick b1 hinv2.1 hp (by omega)]
    obtain ⟨s2, e, hi, -⟩ := scan_b2_hit fuel s.tick b1 l r v hinv2 hv hr hf
    exact ⟨s2, e, hi, hi.2.2 v (by simp)⟩

/-- Worked instance of C4 (scenario E): B1 empty, B2 = [1, 0] with tail 0
unpinned; the call returns 0 and leaves B1 = [0], B2 = [1]. -/
theorem getBuffer_moves_victim_to_b1_head_witness :
    exOnlyB2.firstFreeBuffer < 0 ∧ Inv exOnlyB2 [] [1, 0] ∧
      ([] : List Nat).length + [1, 0].length < 8 ∧
      (∃ s2, StrategyGetBuffer 8 exOnlyB2 = .ok (.buf 0, s2) ∧
        Inv s2 [0] [1] ∧ 0 ∉ [1]) :=
  ⟨by decide, by decide, by decide,
    (getBuffer_moves_victim_to_b1_head 8 exOnlyB2 [] [1, 0] (by decide) (by decide)
      (by decide)).2 [1] 0 [] (by decide) rfl (by decide) (by decide)⟩

/-- C5 (what the code does at the failing inputs): a victim taken by scanning
is not given first-touch timestamps.  From B1 = [2, 1, 0] (frame 0 last
touched at 2) the call returns frame 0 with last access time 7 and second-last
access time 2, not 0; from B1 = [], B2 = [1, 0] (frame 0 with history 8, 2)
it returns frame 0 with last access time 10 and second-last access time 8. -/
theorem getBuffer_victim_keeps_history :
    (lastTouch exDrained 0 = 2 ∧ secondLastTouch exDrained 0 = 0 ∧
      observeGet (StrategyGetBuffer 8 exDrained) 0 = some (.buf 0, 7, 7, 2)) ∧
    (lastTouch exOnlyB2 0 = 8 ∧ secondLastTouch exOnlyB2 0 = 2 ∧
      observeGet (StrategyGetBuffer 8 exOnlyB2) 0 = some (.buf 0, 10, 10, 8)) := by
  decide

/-! ## Claims about `StrategyAccessBuffer` (touch) -/

/-- C6: in every well-formed state (B1 = `b1`, B2 = `b2`; every reachable
state is one, by `reachable_wellFormed`), touching a frame `f` that is in
neither segment makes B1 = f :: b1, leaves B2 = `b2`, sets `f.lastTouch` to the
incremented counter and leaves `f.secondLastTouch` = 0. -/
theorem touch_new_frame_enters_b1_head (fuel : Nat) (s : State) (b1 b2 : List Nat) (f : Nat)
    (hinv : Inv s b1 b2) (hf1 : f ∉ b1) (hf2 : f ∉ b2)
    (hfuel : b1.length + b2.length < fuel) :
    ∃ s2, StrategyAccessBuffer fuel s f false = .ok s2 ∧ Inv s2 (f :: b1) b2 ∧
      s2.counter = (s.counter + 1) % UINT64_MOD ∧
      lastTouch s2 f = s2.counter ∧ secondLastTouch s2 f = 0 := by
  obtain ⟨s2, e, hi, hc, hl, hsl, -⟩ := touch_new_spec fuel s b1 b2 f hinv hf1 hf2 hfuel
  exact ⟨s2, e, hi, hc, hl, hsl⟩

/-- Worked instance of C6 (scenario A): from the initial state,
`touch 0; touch 1` gives B1 = [1, 0]; then `touch 2` gives B1 = [2, 1, 0],
B2 = []. -/
theorem touch_new_frame_enters_b1_head_witness :
    Inv (runAccess 8 [(0, false), (1, false)] exInit) [1, 0] [] ∧ 2 ∉ [1, 0] ∧
      2 ∉ ([] : List Nat) ∧ [1, 0].length + ([] : List Nat).length < 8 ∧
      (∃ s2, StrategyAccessBuffer 8 (runAccess 8 [(0, false), (1, false)] exInit) 2 false =
          .ok s2 ∧ Inv s2 [2, 1, 0] [] ∧
        s2.counter = ((runAccess 8 [(0, false), (1, false)] exInit).counter + 1) % UINT64_MOD ∧
        lastTouch s2 2 = s2.counter ∧ secondLastTouch s2 2 = 0) :=
  ⟨by decide, by decide, by decide, by decide,
    touch_new_frame_enters_b1_head 8 _ [1, 0] [] 2 (by decide) (by decide) (by decide)
      (by decide)⟩

/-- C7: in every well-formed state (every reachable state is one, by
`reachable_wellFormed`), touching a member `f` of B1 removes it
from B1 (the other members keep their order) and inserts it into B2 at its
ranked position (the other members of B2 keep their order). -/
theorem touch_b1_member_promotes_to_b2 (fuel : Nat) (s : State) (b1 b2 : List Nat) (f : Nat)
    (hinv : Inv s b1 b2) (hf1 : f ∈ b1) (hfuel : b1.length + b2.length < fuel) :
    ∃ s2, StrategyAccessBuffer fuel s f false = .ok s2 ∧
      Inv s2 (b1.erase f) (rankInsert (secondLastTouch s2) f b2) ∧
      f ∉ b1.erase f ∧ f ∈ rankInsert (secondLastTouch s2) f b2 ∧
      (rankInsert (secondLastTouch s2) f b2).erase f = b2 := by
  have hf2 : f ∉ b2 := hinv.2.2 f hf1
  obtain ⟨s2, e, hi, -⟩ := touch_member_spec fuel s b1 b2 f hinv (Or.inl hf1) hfuel
  rw [List.erase_of_not_mem hf2] at hi
  exact ⟨s2, e, hi, fun hm => (hinv.1.nodup.mem_erase_iff.1 hm).1 rfl,
    (mem_rankInsert _ _ _ _).2 (Or.inl rfl), erase_rankInsert _ _ _ hf2⟩

/-- Worked instance of C7 (scenario B): from B1 = [2, 1, 0], B2 = [] the
call `touch 1` gives B1 = [2, 0], B2 = [1]. -/
theorem touch_b1_member_promotes_to_b2_witness :
    Inv exDrained [2, 1, 0] [] ∧ 1 ∈ [2, 1, 0] ∧
      [2, 1, 0].length + ([] : List Nat).length < 8 ∧
      (∃ s2, StrategyAccessBuffer 8 exDrained 1 false = .ok s2 ∧
        Inv s2 [2, 0] [1] ∧ 1 ∉ [2, 0] ∧ 1 ∈ [1] ∧ [1].erase 1 = []) :=
  ⟨by decide, by decide, by decide,
    touch_b1_member_promotes_to_b2 8 exDrained [2, 1, 0] [] 1 (by decide) (by decide)
      (by decide)⟩

/-- C8: in every well-formed state (every reachable state is one, by
`reachable_wellFormed`), touching a member `f` of B2 leaves B1
unchanged and makes B2 the ranked insertion of `f` (with its updated
second-last access time) into the old B2 without `f`; `f` is a member of B2
exactly once. -/
theorem touch_b2_member_reranks (fuel : Nat) (s : State) (b1 b2 : List Nat) (f : Nat)
    (hinv : Inv s b1 b2) (hf2 : f ∈ b2) (hfuel : b1.length + b2.length < fuel) :
    ∃ s2, StrategyAccessBuffer fuel s f false = .ok s2 ∧
      Inv s2 b1 (rankInsert (secondLastTouch s2) f (b2.erase f)) ∧
      (rankInsert (secondLastTouch s2) f (b2.erase f)).count f = 1 := by
  have hf1 : f ∉ b1 := fun hm => hinv.2.2 f hm hf2
  obtain ⟨s2, e, hi, -⟩ := touch_member_spec fuel s b1 b2 f hinv (Or.inr hf2) hfuel
  rw [List.erase_of_not_mem hf1] at hi
  exact ⟨s2, e, hi, List.count_eq_one_of_mem hi.2.1.nodup
    ((mem_rankInsert _ _ _ _).2 (Or.inl rfl))⟩

/-- Worked instance of C8: B1 = [2], B2 = [1, 0]; `touch 0` moves frame 0 to
its new rank in B2. -/
theorem touch_b2_member_reranks_witness :
    Inv exTwoSegments [2] [1, 0] ∧ 0 ∈ [1, 0] ∧ [2].length + [1, 0].length < 8 ∧
      (∃ s2, StrategyAccessBuffer 8 exTwoSegments 0 false = .ok s2 ∧
        Inv s2 [2] (rankInsert (secondLastTouch s2) 0 ([1, 0].erase 0)) ∧
        (rankInsert (secondLastTouch s2) 0 ([1, 0].erase 0)).count 0 = 1) ∧
      Inv (okState (StrategyAccessBuffer 8 exTwoSegments 0 false) exTwoSegments) [2] [0, 1] :=
  ⟨by decide, by decide, by decide,
    touch_b2_member_reranks 8 exTwoSegments [2] [1, 0] 0 (by decide) (by decide) (by decide),
    by decide⟩

/-- C9 fails as stated: after `touch 0; purge 0` frame 0 is in neither segment
and has last access time 1 (not a first-ever touch), the counter reads 2;
the next `touch 0` moves the counter to 3 and leaves frame 0 with last access
time 3 and second-last access time 0, not the old last access time 1. -/
theorem touch_after_purge_clears_history :
    Inv exPurged [] [] ∧ exPurged.counter = 2 ∧ lastTouch exPurged 0 = 1 ∧
      secondLastTouch exPurged 0 = 0 ∧
      observe (StrategyAccessBuffer 8 exPurged 0 false) 0 = some (3, 3, 0) ∧
      observe (StrategyAccessBuffer 8 exPurged 0 false) 0 ≠
        some (3, 3, lastTouch exPurged 0) := by
  decide

/-- C9 as amended: every `touch f` in a well-formed state advances the 64-bit
counter by one to a value `v` and sets `f.lastTouch = v`.  If `f` is a member
of B1 or B2 its history is updated as claimed: when both timestamps were 0
only `lastTouch` changes, otherwise `secondLastTouch` becomes the old
`lastTouch`.  If `f` is in neither segment its history is cleared first, so
`secondLastTouch` ends up 0 whatever it was. -/
theorem touch_updates_history (fuel : Nat) (s : State) (b1 b2 : List Nat) (f : Nat)
    (hinv : Inv s b1 b2) (hfuel : b1.length + b2.length < fuel) :
    ∃ s2, StrategyAccessBuffer fuel s f false = .ok s2 ∧
      s2.counter = (s.counter + 1) % UINT64_MOD ∧
      (s.counter + 1 < UINT64_MOD → s2.counter = s.counter + 1) ∧
      lastTouch s2 f = s2.counter ∧
      ((f ∈ b1 ∨ f ∈ b2) → lastTouch s f = 0 ∧ secondLastTouch s f = 0 →
        secondLastTouch s2 f = secondLastTouch s f) ∧
      ((f ∈ b1 ∨ f ∈ b2) → ¬ (lastTouch s f = 0 ∧ secondLastTouch s f = 0) →
        secondLastTouch s2 f = lastTouch s f) ∧
      (f ∉ b1 → f ∉ b2 → secondLastTouch s2 f = 0) := by
  by_cases hm : f ∈ b1 ∨ f ∈ b2
  · obtain ⟨s2, e, -, hc, hl, hsl, -⟩ := touch_member_spec fuel s b1 b2 f hinv hm hfuel
    refine ⟨s2, e, hc, fun h => by rw [hc, Nat.mod_eq_of_lt h], hl, ?_, fun _ _ => hsl, ?_⟩
    · intro _ h0
      rw [hsl, h0.1, h0.2]
    · intro h1 h2
      exact absurd hm (by tauto)
  · have h1 : f ∉ b1 := fun h => hm (Or.inl h)
    have h2 : f ∉ b2 := fun h => hm (Or.inr h)
    obtain ⟨s2, e, -, hc, hl, hsl, -⟩ := touch_new_spec fuel s b1 b2 f hinv h1 h2 hfuel
    exact ⟨s2, e, hc, fun h => by rw [hc, Nat.mod_eq_of_lt h], hl,
      fun h => absurd h hm, fun h => absurd h hm, fun _ _ => hsl⟩

/-- Worked instance of the amended C9: B1 = [2, 1, 0], `touch 1`. -/
theorem touch_updates_history_witness :
    Inv exDrained [2, 1, 0] [] ∧ [2, 1, 0].length + ([] : List Nat).length < 8 ∧
      observe (StrategyAccessBuffer 8 exDrained 1 false) 1 = some (7, 7, 4) ∧
      (∃ s2, StrategyAccessBuffer 8 exDrained 1 false = .ok s2 ∧
        s2.counter = (exDrained.counter + 1) % UINT64_MOD ∧
        (exDrained.counter + 1 < UINT64_MOD → s2.counter = exDrained.counter + 1) ∧
        lastTouch s2 1 = s2.counter ∧
        ((1 ∈ [2, 1, 0] ∨ 1 ∈ ([] : List Nat)) →
          lastTouch exDrained 1 = 0 ∧ secondLastTouch exDrained 1 = 0 →
          secondLastTouch s2 1 = secondLastTouch exDrained 1) ∧
        ((1 ∈ [2, 1, 0] ∨ 1 ∈ ([] : List Nat)) →
          ¬ (lastTouch exDrained 1 = 0 ∧ secondLastTouch exDrained 1 = 0) →
          secondLastTouch s2 1 = lastTouch exDrained 1) ∧
        (1 ∉ [2, 1, 0] → 1 ∉ ([] : List Nat) → secondLastTouch s2 1 = 0)) :=
  ⟨by decide, by decide, by decide,
    touch_updates_history 8 exDrained [2, 1, 0] [] 1 (by decide) (by decide)⟩

/-! ## Claims about `insert_into_b2` -/

/-- C10: for every well-formed B2 = `b2` not containing `f`, `insert_into_b2`
puts `f` right behind the longest prefix of members whose second-last access
time is strictly larger than that of `f` (measured after `update_time`), that
is, immediately before the first member `m` with
`m.secondLastTouch <= f.secondLastTouch`, or at the tail when there is none;
an empty B2 becomes [f]. -/
theorem insert_into_b2_ranked_position (fuel : Nat) (s : State) (b1 b2 : List Nat) (f : Nat)
    (hinv : Inv s b1 b2) (hf2 : f ∉ b2)
    (hid : (s.mem (.main f)).frame_id = (f : Int))
    (hfuel : b1.length + b2.length < fuel) :
    ∃ s2, insert_into_b2 fuel s (.main f) = .ok s2 ∧
      Inv s2 (b1.erase f)
        (b2.takeWhile (fun m => decide (secondLastTouch s2 f < secondLastTouch s2 m)) ++
          f :: b2.dropWhile (fun m => decide (secondLastTouch s2 f < secondLastTouch s2 m))) ∧
      (∀ m ∈ b2.takeWhile (fun m => decide (secondLastTouch s2 f < secondLastTouch s2 m)),
        secondLastTouch s2 f < secondLastTouch s2 m) ∧
      (∀ m ∈ (b2.dropWhile
          (fun m => decide (secondLastTouch s2 f < secondLastTouch s2 m))).head?,
        secondLastTouch s2 m ≤ secondLastTouch s2 f) ∧
      (b2 = [] → Inv s2 (b1.erase f) [f]) := by
  obtain ⟨s2, e, hi, -⟩ := insert_into_b2_spec fuel s b1 b2 f hinv hid hfuel
  rw [List.erase_of_not_mem hf2, rankInsert_eq_takeWhile] at hi
  refine ⟨s2, e, hi, ?_, ?_, ?_⟩
  · intro m hm
    simpa using List.mem_takeWhile_imp hm
  · intro m hm
    have := List.head?_dropWhile_not
      (fun m => decide (secondLastTouch s2 f < secondLastTouch s2 m)) b2
    rw [Option.mem_def] at hm
    rw [hm] at this
    simp only [decide_eq_true_eq, Bool.not_eq_true] at this
    simpa using this
  · rintro rfl
    simpa using hi

/-- Worked instance of C10: B1 = [2], B2 = [1, 0] with second-last access
times 4 and 2; inserting frame 2 (second-last access time 6 after the
stamp) puts it in front: B2 = [2, 1, 0]. -/
theorem insert_into_b2_ranked_position_witness :
    Inv exTwoSegments [2] [1, 0] ∧ 2 ∉ [1, 0] ∧
      (exTwoSegments.mem (.main 2)).frame_id = ((2 : Nat) : Int) ∧
      [2].length + [1, 0].length < 8 ∧
      Inv (okState (insert_into_b2 8 exTwoSegments (.main 2)) exTwoSegments) [] [2, 1, 0] ∧
      (∃ s2, insert_into_b2 8 exTwoSegments (.main 2) = .ok s2 ∧
        Inv s2 ([2].erase 2)
          ([1, 0].takeWhile (fun m => decide (secondLastTouch s2 2 < secondLastTouch s2 m)) ++
            2 :: [1, 0].dropWhile
              (fun m => decide (secondLastTouch s2 2 < secondLastTouch s2 m))) ∧
        (∀ m ∈ [1, 0].takeWhile
            (fun m => decide (secondLastTouch s2 2 < secondLastTouch s2 m)),
          secondLastTouch s2 2 < secondLastTouch s2 m) ∧
        (∀ m ∈ ([1, 0].dropWhile
            (fun m => decide (secondLastTouch s2 2 < secondLastTouch s2 m))).head?,
          secondLastTouch s2 m ≤ secondLastTouch s2 2) ∧
        (([1, 0] : List Nat) = [] → Inv s2 ([2].erase 2) [2])) :=
  ⟨by decide, by decide, by decide, by decide, by decide,
    insert_into_b2_ranked_position 8 exTwoSegments [2] [1, 0] 2 (by decide) (by decide)
      (by decide) (by decide)⟩

/-! ## Effects of the entry points on well-formed states -/

theorem Ext.inv {s s2 : State} {b1 b2 : List Nat} (h : Ext s s2) (hinv : Inv s b1 b2) :
    Inv s2 b1 b2 := by
  unfold Inv at hinv ⊢
  rw [h.mem, h.linkedListInfo, h.otherLinkedListInfo]
  exact hinv

theorem Ext.refl_ext (s : State) : Ext s s := ⟨rfl, rfl, rfl, rfl⟩

theorem Ext.trans_ext {s s1 s2 : State} (h : Ext s s1) (h2 : Ext s1 s2) : Ext s s2 :=
  ⟨h2.mem.trans h.mem, h2.linkedListInfo.trans h.linkedListInfo,
    h2.otherLinkedListInfo.trans h.otherLinkedListInfo, h2.counter.trans h.counter⟩

theorem Ext.tick_ext {s s2 : State} (h : Ext s s2) : Ext s.tick s2.tick :=
  ⟨h.mem, h.linkedListInfo, h.otherLinkedListInfo, by
    show (s2.counter + 1) % UINT64_MOD = (s.counter + 1) % UINT64_MOD
    rw [h.counter]⟩

theorem Effect.counter_eq {s s2 : State} {b1 b2 c1 c2 : List Nat}
    (h : Effect s b1 b2 s2 c1 c2) : s2.counter = (s.counter + 1) % UINT64_MOD := by
  cases h with
  | purge k h => exact h.counter
  | enter k _ _ h => exact h.counter
  | promote k _ h => exact h.counter
  | victim v _ h => exact h.counter

theorem OnlyFrame.of_tick {k : Nat} {s s2 : State} (h : OnlyFrame k s s2) :
    OnlyFrame k s.tick s2 :=
  ⟨h.firstFreeBuffer, h.lastFreeBuffer, h.freeNext, h.refcount, h.usagecount, h.frame_id,
    h.time_array_0, h.time_array_1⟩

theorem access_effect {fuel : Nat} {s s2 : State} {k : Nat} {d : Bool} {b1 b2 : List Nat}
    (h : StrategyAccessBuffer fuel s k d = .ok s2) (hinv : Inv s b1 b2) :
    ∃ c1 c2, Inv s2 c1 c2 ∧ Effect s b1 b2 s2 c1 c2 := by
  have h2 := StrategyAccessBuffer_mono (Nat.le_max_left fuel (b1.length + b2.length + 1)) h
  have hF : b1.length + b2.length < max fuel (b1.length + b2.length + 1) := by
    have := Nat.le_max_right fuel (b1.length + b2.length + 1); omega
  cases d with
  | true =>
    obtain ⟨s3, e3, hi3, hs, -⟩ := purge_spec _ s b1 b2 k hinv hF
    rw [e3] at h2; cases h2
    exact ⟨_, _, hi3, Effect.purge k hs⟩
  | false =>
    by_cases hm : k ∈ b1 ∨ k ∈ b2
    · obtain ⟨s3, e3, hi3, hc, hl, hsl, ho⟩ := touch_member_spec _ s b1 b2 k hinv hm hF
      rw [e3] at h2; cases h2
      refine ⟨_, _, hi3, Effect.promote k hm ⟨ho.of_tick, hc, ?_, ?_, hsl⟩⟩
      · have e2 : (s2.mem (.main k)).frame_id = (k : Int) :=
          hi3.2.1.frame_id_eq ((mem_rankInsert _ _ _ _).2 (Or.inl rfl))
        have e1 : (s.mem (.main k)).frame_id = (k : Int) := by
          rcases hm with hm | hm
          · exact hinv.1.frame_id_eq hm
          · exact hinv.2.1.frame_id_eq hm
        exact e2.trans e1.symm
      · rw [hl, hc]; rfl
    · obtain ⟨s3, e3, hi3, hc, hl, hsl, ho⟩ := touch_new_spec _ s b1 b2 k hinv
        (fun h => hm (Or.inl h)) (fun h => hm (Or.inr h)) hF
      rw [e3] at h2; cases h2
      exact ⟨_, _, hi3, Effect.enter k (fun h => hm (Or.inl h)) (fun h => hm (Or.inr h))
        ⟨ho.of_tick, hc, by rw [hl, hc]; rfl, hsl⟩⟩
theorem Ext.untick {s t1 : State} (h : Ext s.tick t1) : ∃ s1, Ext s s1 ∧ s1.tick = t1 := by
  refine ⟨{ t1 with counter := s.counter }, ⟨h.mem, h.linkedListInfo, h.otherLinkedListInfo, rfl⟩,
    ?_⟩
  have hc : t1.counter = (s.counter + 1) % UINT64_MOD := h.counter
  cases t1
  simp only [State.tick] at hc ⊢
  rw [hc]

theorem scan_effect {fuel : Nat} {s s2 : State} {r : GetResult} {b1 b2 : List Nat}
    (hinv : Inv s b1 b2) (hf : b1.length + b2.length < fuel)
    (h : scan_b1 fuel s fuel s.linkedListInfo.tail = .ok (r, s2)) :
    (r = .noUnpinnedBuffers ∧ s2 = s) ∨
    ∃ v, r = .buf v ∧ (v ∈ b1 ∨ v ∈ b2) ∧ s.refcount v = 0 ∧
      Inv s2 (v :: b1.erase v) (b2.erase v) ∧ Stamped v s s2 := by
  by_cases hp1 : ∀ i ∈ b1, s.refcount i ≠ 0
  · rw [scan_b1_all_pinned fuel s b1 hinv.1 hp1 (by omega)] at h
    by_cases hp2 : ∀ i ∈ b2, s.refcount i ≠ 0
    · rw [scan_b2_all_pinned fuel s b2 hinv.2.1 hp2 (by omega)] at h
      cases h
      exact Or.inl ⟨rfl, rfl⟩
    · have hp : ∃ i ∈ b2, s.refcount i = 0 := by
        by_contra hc
        exact hp2 (fun i hi h0 => hc ⟨i, hi, h0⟩)
      obtain ⟨l, v, r2, rfl, hv, hr⟩ := exists_last_unpinned s.refcount b2 hp
      obtain ⟨s3, e3, hi3, hst⟩ := scan_b2_hit fuel s b1 l r2 v hinv hv hr hf
      rw [e3] at h; cases h
      have hnd := hinv.2.1.nodup
      have hvl : v ∉ l := fun hm => (List.nodup_append.1 hnd).2.2 hm (List.mem_cons_self _ _)
      have hv1 : v ∉ b1 := fun hm => hinv.2.2 v hm (by simp)
      refine Or.inr ⟨v, rfl, Or.inr (by simp), hv, ?_, hst⟩
      rw [List.erase_of_not_mem hv1, List.erase_append_right _ hvl, List.erase_cons_head]
      exact hi3
  · have hp : ∃ i ∈ b1, s.refcount i = 0 := by
      by_contra hc
      exact hp1 (fun i hi h0 => hc ⟨i, hi, h0⟩)
    obtain ⟨l, v, r2, rfl, hv, hr⟩ := exists_last_unpinned s.refcount b1 hp
    obtain ⟨s3, e3, hi3, hst⟩ := scan_b1_hit fuel s b2 l r2 v hinv hv hr hf
    rw [e3] at h; cases h
    have hnd := hinv.1.nodup
    have hvl : v ∉ l := fun hm => (List.nodup_append.1 hnd).2.2 hm (List.mem_cons_self _ _)
    have hv2 : v ∉ b2 := hinv.2.2 v (by simp)
    refine Or.inr ⟨v, rfl, Or.inl (by simp), hv, ?_, Stamped.of_stamp_links hst⟩
    rw [List.erase_of_not_mem hv2, List.erase_append_right _ hvl, List.erase_cons_head]
    exact hi3

theorem freelist_loop_effect {fuel n : Nat} {s s2 : State} {o : Option Nat}
    {b1 b2 : List Nat} (h : freelist_loop fuel n s = .ok (o, s2)) (hinv : Inv s b1 b2) :
    (o = none ∧ Ext s s2 ∧ s2.refcount = s.refcount) ∨
    ∃ b s1, o = some b ∧ Ext s s1 ∧ ∃ c1 c2, Inv s2 c1 c2 ∧ Effect s1 b1 b2 s2 c1 c2 := by
  induction n generalizing s with
  | zero => cases h
  | succ n ih =>
    rw [freelist_loop] at h
    simp only [] at h
    split_ifs at h
    · cases h
      exact Or.inl ⟨rfl, Ext.refl_ext _, rfl⟩
    · split at h
      · cases h
      · rename_i s3 e3
        cases h
        obtain ⟨c1, c2, hi, he⟩ := access_effect e3 hinv
        refine Or.inr ⟨_, _, rfl, ?_, c1, c2, hi, he⟩
        exact ⟨rfl, rfl, rfl, rfl⟩
    · rcases ih h hinv with ⟨ho, he, hr⟩ | ⟨b, s1, ho, he, hx⟩
      · exact Or.inl ⟨ho, ⟨he.mem, he.linkedListInfo, he.otherLinkedListInfo, he.counter⟩, hr⟩
      · exact Or.inr ⟨b, s1, ho,
          ⟨he.mem, he.linkedListInfo, he.otherLinkedListInfo, he.counter⟩, hx⟩
theorem scan_victim_effect {fuel : Nat} {s1 s2 : State} {r : GetResult} {b1 b2 : List Nat}
    (hinv : Inv s1 b1 b2) (hf : b1.length + b2.length < fuel)
    (h : scan_b1 fuel s1.tick fuel s1.tick.linkedListInfo.tail = .ok (r, s2)) :
    (r = .noUnpinnedBuffers ∧ s2 = s1.tick) ∨
      ∃ c1 c2, Inv s2 c1 c2 ∧ Effect s1 b1 b2 s2 c1 c2 := by
  have hinv2 : Inv s1.tick b1 b2 := hinv
  rcases scan_effect hinv2 hf h with hn | ⟨v, -, hv, -, hi, hst⟩
  · exact Or.inl hn
  · exact Or.inr ⟨_, _, hi, Effect.victim v hv hst⟩

theorem getBuffer_effect {fuel : Nat} {s s2 : State} {r : GetResult} {b1 b2 : List Nat}
    (h : StrategyGetBuffer fuel s = .ok (r, s2)) (hinv : Inv s b1 b2) :
    ∃ s1, Ext s s1 ∧
      ((r = .noUnpinnedBuffers ∧ s2 = s1.tick) ∨
        (∃ c1 c2, Inv s2 c1 c2 ∧ Effect s1 b1 b2 s2 c1 c2) ∨
        (∃ c1 c2, Inv s2 c1 c2 ∧ Effect s1.tick b1 b2 s2 c1 c2)) := by
  have h2 := StrategyGetBuffer_mono (Nat.le_max_left fuel (b1.length + b2.length + 1)) h
  have hF : b1.length + b2.length < max fuel (b1.length + b2.length + 1) := by
    have := Nat.le_max_right fuel (b1.length + b2.length + 1); omega
  generalize max fuel (b1.length + b2.length + 1) = F at h2 hF
  have hinv2 : Inv s.tick b1 b2 := hinv
  unfold StrategyGetBuffer at h2
  simp only [] at h2
  split_ifs at h2
  · split at h2
    · cases h2
    · rename_i b t1 e1
      cases h2
      rcases freelist_loop_effect e1 hinv2 with ⟨ho, -⟩ | ⟨b3, t2, -, he, c1, c2, hi, hx⟩
      · cases ho
      · obtain ⟨s1, hs1, rfl⟩ := he.untick
        exact ⟨s1, hs1, Or.inr (Or.inr ⟨c1, c2, hi, hx⟩)⟩
    · rename_i t1 e1
      rcases freelist_loop_effect e1 hinv2 with ⟨-, he, -⟩ | ⟨b3, t2, ho, -⟩
      · obtain ⟨s1, hs1, rfl⟩ := he.untick
        rcases scan_victim_effect (hs1.inv hinv) hF h2 with hn | hv
        · exact ⟨s1, hs1, Or.inl hn⟩
        · exact ⟨s1, hs1, Or.inr (Or.inl hv)⟩
      · cases ho
  · rcases scan_victim_effect hinv hF h2 with hn | hv
    · exact ⟨s, Ext.refl_ext s, Or.inl hn⟩
    · exact ⟨s, Ext.refl_ext s, Or.inr (Or.inl hv)⟩

theorem freeBuffer_effect {fuel : Nat} {s s2 : State} {b : Nat} {b1 b2 : List Nat}
    (h : StrategyFreeBuffer fuel s b = .ok s2) (hinv : Inv s b1 b2) :
    s2 = s ∨ ∃ s1, Ext s s1 ∧ ∃ c1 c2, Inv s2 c1 c2 ∧ Effect s1 b1 b2 s2 c1 c2 := by
  unfold StrategyFreeBuffer at h
  split_ifs at h
  · simp only [] at h
    right
    split_ifs at h
    · obtain ⟨c1, c2, hi, he⟩ := access_effect h hinv
      refine ⟨_, ?_, c1, c2, hi, he⟩
      exact ⟨rfl, rfl, rfl, rfl⟩
    · obtain ⟨c1, c2, hi, he⟩ := access_effect h hinv
      refine ⟨_, ?_, c1, c2, hi, he⟩
      exact ⟨rfl, rfl, rfl, rfl⟩
  · cases h
    exact Or.inl rfl

/-- Induction over the reachable states, one case per kind of step: a
property of (state, B1, B2) that holds initially and is kept by a counter
increment, by changes outside the nodes and by each `Effect` holds in every
reachable state. -/
theorem reachable_induction (P : State → List Nat → List Nat → Prop)
    (hinit : ∀ N fn rc uc, P (StrategyInitialize N fn rc uc) [] [])
    (htick : ∀ s b1 b2, Inv s b1 b2 → P s b1 b2 → P s.tick b1 b2)
    (hext : ∀ s s2 b1 b2, Inv s b1 b2 → P s b1 b2 → Ext s s2 → P s2 b1 b2)
    (heff : ∀ s s2 b1 b2 c1 c2, Inv s b1 b2 → P s b1 b2 → Inv s2 c1 c2 →
      Effect s b1 b2 s2 c1 c2 → P s2 c1 c2)
    {s : State} (h : Reachable s) : ∃ b1 b2, Inv s b1 b2 ∧ P s b1 b2 := by
  induction h with
  | init N fn rc uc =>
    obtain ⟨b1, b2, hinv⟩ := reachable_wellFormed (Reachable.init N fn rc uc)
    have e1 : b1 = [] := hinv.1.eq_nil_of_tail rfl
    have e2 : b2 = [] := hinv.2.1.eq_nil_of_tail rfl
    subst e1 e2
    exact ⟨[], [], hinv, hinit N fn rc uc⟩
  | access fuel f d _ e ih =>
    obtain ⟨b1, b2, hinv, hP⟩ := ih
    obtain ⟨c1, c2, hi, he⟩ := access_effect e hinv
    exact ⟨c1, c2, hi, heff _ _ _ _ _ _ hinv hP hi he⟩
  | get fuel r _ e ih =>
    obtain ⟨b1, b2, hinv, hP⟩ := ih
    obtain ⟨s1, hs1, hn | ⟨c1, c2, hi, he⟩ | ⟨c1, c2, hi, he⟩⟩ := getBuffer_effect e hinv
    · obtain ⟨-, rfl⟩ := hn
      have hi1 := hs1.inv hinv
      exact ⟨b1, b2, hi1, htick _ _ _ hi1 (hext _ _ _ _ hinv hP hs1)⟩
    · exact ⟨c1, c2, hi, heff _ _ _ _ _ _ (hs1.inv hinv) (hext _ _ _ _ hinv hP hs1) hi he⟩
    · have hi1 := hs1.inv hinv
      have hi2 : Inv s1.tick b1 b2 := hi1
      exact ⟨c1, c2, hi,
        heff _ _ _ _ _ _ hi2 (htick _ _ _ hi1 (hext _ _ _ _ hinv hP hs1)) hi he⟩
  | free fuel b _ e ih =>
    obtain ⟨b1, b2, hinv, hP⟩ := ih
    rcases freeBuffer_effect e hinv with rfl | ⟨s1, hs1, c1, c2, hi, he⟩
    · exact ⟨b1, b2, hinv, hP⟩
    · exact ⟨c1, c2, hi, heff _ _ _ _ _ _ (hs1.inv hinv) (hext _ _ _ _ hinv hP hs1) hi he⟩
  | pins rc uc _ ih =>
    obtain ⟨b1, b2, hinv, hP⟩ := ih
    exact ⟨b1, b2, hinv, hext _ _ _ _ hinv hP ⟨rfl, rfl, rfl, rfl⟩⟩

/-! ## The lists represented by a state are unique -/

theorem Seg_unique (mem : Ptr → Node) :
    ∀ (xs ys : List Nat) (p q : Option Ptr), Seg mem p (nodes xs) none →
      Seg mem q (nodes ys) none → firstOr (nodes xs) none = firstOr (nodes ys) none →
      xs = ys
  | [], [], _, _, _, _, _ => rfl
  | [], y :: ys, _, _, _, _, h => by cases h
  | x :: xs, [], _, _, _, _, h => by cases h
  | x :: xs, y :: ys, p, q, h1, h2, h => by
    have e : x = y := by
      have : Ptr.main x = Ptr.main y := Option.some.inj h
      cases this; rfl
    subst e
    obtain ⟨-, n1, t1⟩ := h1
    obtain ⟨-, n2, t2⟩ := h2
    have := Seg_unique mem xs ys _ _ t1 t2 (n1.symm.trans n2)
    rw [this]

theorem IsSeg.unique {mem : Ptr → Node} {info : Info} {xs ys : List Nat}
    (h1 : IsSeg mem info xs) (h2 : IsSeg mem info ys) : xs = ys := by
  by_cases ht : info.tail = none
  · rw [h1.eq_nil_of_tail ht, h2.eq_nil_of_tail ht]
  · obtain ⟨⟨-, -, s1, e1, -⟩, -⟩ := h1.proper_of_tail ht
    obtain ⟨⟨-, -, s2, e2, -⟩, -⟩ := h2.proper_of_tail ht
    exact Seg_unique mem xs ys _ _ s1 s2 (e1.symm.trans e2)

/-- A state represents at most one pair of lists. -/
theorem Inv_unique {s : State} {b1 b2 c1 c2 : List Nat} (h : Inv s b1 b2)
    (h2 : Inv s c1 c2) : b1 = c1 ∧ b2 = c2 :=
  ⟨h.1.unique h2.1, h.2.1.unique h2.2.1⟩

/-! ## B2 stays ranked -/

theorem pairwise_rankInsert (key : Nat → Nat) (f : Nat) :
    ∀ ys : List Nat, ys.Pairwise (fun a b => key b ≤ key a) →
      (rankInsert key f ys).Pairwise (fun a b => key b ≤ key a)
  | [], _ => List.pairwise_singleton _ _
  | m :: ms, h => by
    obtain ⟨hm, hms⟩ := List.pairwise_cons.1 h
    unfold rankInsert
    split_ifs with hle
    · refine List.pairwise_cons.2 ⟨?_, h⟩
      intro x hx
      rcases List.mem_cons.1 hx with rfl | hx
      · exact hle
      · exact (hm x hx).trans hle
    · refine List.pairwise_cons.2 ⟨?_, pairwise_rankInsert key f ms hms⟩
      intro x hx
      rcases (mem_rankInsert key f x ms).1 hx with rfl | hx
      · omega
      · exact hm x hx

theorem Ranked.congr_ranked {s s2 : State} {b2 : List Nat}
    (hk : ∀ i ∈ b2, secondLastTouch s2 i = secondLastTouch s i) (h : Ranked s b2) :
    Ranked s2 b2 := by
  unfold Ranked at h ⊢
  refine h.imp_of_mem ?_
  intro a b ha hb hab
  rw [hk a ha, hk b hb]
  exact hab

theorem Ranked.erase_ranked {s : State} {b2 : List Nat} (k : Nat) (h : Ranked s b2) :
    Ranked s (b2.erase k) :=
  List.Pairwise.sublist (List.erase_sublist k b2) h

theorem Ranked.effect {s s2 : State} {b1 b2 c1 c2 : List Nat} (hinv : Inv s b1 b2)
    (h : Ranked s b2) (he : Effect s b1 b2 s2 c1 c2) : Ranked s2 c2 := by
  have hnd := hinv.2.1.nodup
  cases he with
  | purge k hs =>
    exact Ranked.congr_ranked (fun i _ => hs.time_array_0 i) (h.erase_ranked k)
  | enter k hk1 hk2 hen =>
    refine Ranked.congr_ranked (fun i hi => hen.only.time_array_0 i ?_) h
    rintro rfl
    exact hk2 hi
  | promote k hm hst =>
    refine pairwise_rankInsert _ k _ ?_
    refine Ranked.congr_ranked (fun i hi => hst.only.time_array_0 i ?_) (h.erase_ranked k)
    exact (hnd.mem_erase_iff.1 hi).1
  | victim v hm hst =>
    refine Ranked.congr_ranked (fun i hi => hst.only.time_array_0 i ?_) (h.erase_ranked v)
    exact (hnd.mem_erase_iff.1 hi).1

theorem reachable_ranked {s : State} (h : Reachable s) :
    ∃ b1 b2, Inv s b1 b2 ∧ Ranked s b2 := by
  refine reachable_induction (fun s _ b2 => Ranked s b2) ?_ ?_ ?_ ?_ h
  · intro N fn rc uc
    exact List.Pairwise.nil
  · intro s b1 b2 _ hP
    exact hP
  · intro s s2 b1 b2 _ hP hx
    exact Ranked.congr_ranked (fun i _ => by unfold secondLastTouch; rw [hx.mem]) hP
  · intro s s2 b1 b2 c1 c2 hinv hP _ he
    exact Ranked.effect hinv hP he

/-! ## Reachability of the worked examples -/

theorem Reachable.okState_reachable {s : State} (h : Reachable s) (fuel f : Nat) (d : Bool) :
    Reachable (okState (StrategyAccessBuffer fuel s f d) s) := by
  cases e : StrategyAccessBuffer fuel s f d with
  | error x => exact h
  | ok s2 => exact Reachable.access fuel f d h e

theorem Reachable.getState_reachable {s : State} (h : Reachable s) (fuel : Nat) :
    Reachable (getState (StrategyGetBuffer fuel s) s) := by
  cases e : StrategyGetBuffer fuel s with
  | error x => exact h
  | ok p =>
    obtain ⟨r, s2⟩ := p
    exact Reachable.get fuel r h e

theorem Reachable.runAccess_all (fuel : Nat) :
    ∀ (ops : List (Nat × Bool)) {s : State}, Reachable s → Reachable (runAccess fuel ops s)
  | [], _, h => h
  | (f, d) :: r, _, h => Reachable.runAccess_all fuel r (h.okState_reachable fuel f d)

theorem reachable_exInit : Reachable exInit := Reachable.init 3 exFreeNext _ _

theorem reachable_exDrained : Reachable exDrained :=
  ((reachable_exInit.getState_reachable 8).getState_reachable 8).getState_reachable 8

theorem reachable_exTwoSegments : Reachable exTwoSegments :=
  Reachable.runAccess_all 8 _ reachable_exDrained

/-! ## Claims about the invariants of the two segments -/

/-- C11: in every reachable state (any sequence of touch, purge,
`StrategyGetBuffer`, `StrategyFreeBuffer` calls and pin changes after
`StrategyInitialize`), the second-last access times of the members of B2,
read from head to tail, never increase.  The lists `b1`, `b2` that a state
represents are unique (`Inv_unique`). -/
theorem reachable_b2_sorted_by_secondLastTouch (s : State) (h : Reachable s) :
    ∃ b1 b2, Inv s b1 b2 ∧ (b2.map (secondLastTouch s)).Sorted (fun x y => x ≥ y) := by
  obtain ⟨b1, b2, hinv, hr⟩ := reachable_ranked h
  exact ⟨b1, b2, hinv, List.pairwise_map.2 hr⟩

/-- Worked instance of C11: after three allocations and `touch 1; touch 0`
B2 is [1, 0] with second-last access times 4 and 2. -/
theorem reachable_b2_sorted_by_secondLastTouch_witness :
    Reachable exTwoSegments ∧ Inv exTwoSegments [2] [1, 0] ∧
      [1, 0].map (secondLastTouch exTwoSegments) = [4, 2] ∧
      ∃ b1 b2, Inv exTwoSegments b1 b2 ∧
        (b2.map (secondLastTouch exTwoSegments)).Sorted (fun x y => x ≥ y) :=
  ⟨reachable_exTwoSegments, by decide, by decide,
    reachable_b2_sorted_by_secondLastTouch exTwoSegments reachable_exTwoSegments⟩

/-- C12: in every reachable state no frame is a member of both B1 and B2 and
no frame occurs twice in B1 or twice in B2; the code's own membership tests
(`search_for_frame`, `search_for_frame_b2`) find a frame exactly when it is
in the respective list, so every frame is in exactly one of the three
situations: in neither segment, in B1 only, in B2 only. -/
theorem reachable_membership_exclusive (s : State) (h : Reachable s) :
    ∃ b1 b2, Inv s b1 b2 ∧ b1.Nodup ∧ b2.Nodup ∧ (∀ f, ¬ (f ∈ b1 ∧ f ∈ b2)) ∧
      ∀ fuel f : Nat, b1.length + b2.length < fuel →
        search_for_frame fuel s f = .ok (if f ∈ b1 then some (.main f) else none) ∧
        search_for_frame_b2 fuel s f = .ok (if f ∈ b2 then some (.main f) else none) ∧
        (b1.count f + b2.count f ≤ 1) := by
  obtain ⟨b1, b2, hinv⟩ := reachable_wellFormed h
  refine ⟨b1, b2, hinv, hinv.1.nodup, hinv.2.1.nodup, fun f hf => hinv.2.2 f hf.1 hf.2, ?_⟩
  intro fuel f hf
  refine ⟨search_isSeg s.mem s.linkedListInfo b1 f fuel hinv.1 (by omega),
    search_isSeg s.mem s.otherLinkedListInfo b2 f fuel hinv.2.1 (by omega), ?_⟩
  by_cases h1 : f ∈ b1
  · have h2 : f ∉ b2 := hinv.2.2 f h1
    rw [List.count_eq_one_of_mem hinv.1.nodup h1, List.count_eq_zero_of_not_mem h2]
  · rw [List.count_eq_zero_of_not_mem h1]
    have := List.nodup_iff_count_le_one.1 hinv.2.1.nodup f
    omega

/-- Worked instance of C12: B1 = [2], B2 = [1, 0]. -/
theorem reachable_membership_exclusive_witness :
    Reachable exTwoSegments ∧ Inv exTwoSegments [2] [1, 0] ∧
      ∃ b1 b2, Inv exTwoSegments b1 b2 ∧ b1.Nodup ∧ b2.Nodup ∧
        (∀ f, ¬ (f ∈ b1 ∧ f ∈ b2)) ∧
        ∀ fuel f : Nat, b1.length + b2.length < fuel →
          search_for_frame fuel exTwoSegments f =
            .ok (if f ∈ b1 then some (.main f) else none) ∧
          search_for_frame_b2 fuel exTwoSegments f =
            .ok (if f ∈ b2 then some (.main f) else none) ∧
          (b1.count f + b2.count f ≤ 1) :=
  ⟨reachable_exTwoSegments, by decide,
    reachable_membership_exclusive exTwoSegments reachable_exTwoSegments⟩

/-! ## States reached without counter wrap-around -/

theorem ReachableNoWrap.reachable {s : State} (h : ReachableNoWrap s) : Reachable s := by
  induction h with
  | init N fn rc uc => exact Reachable.init N fn rc uc
  | access fuel f d _ e _ ih => exact Reachable.access fuel f d ih e
  | get fuel r _ e _ ih => exact Reachable.get fuel r ih e
  | free fuel b _ e _ ih => exact Reachable.free fuel b ih e
  | pins rc uc _ ih => exact Reachable.pins rc uc ih

theorem tick_counter_lt (s : State) : s.tick.counter < UINT64_MOD :=
  Nat.mod_lt _ (by unfold UINT64_MOD; positivity)

/-- The counter is always a 64-bit value. -/
theorem reachable_counter_lt {s : State} (h : Reachable s) : s.counter < UINT64_MOD := by
  obtain ⟨b1, b2, -, hP⟩ := reachable_induction (fun s _ _ => s.counter < UINT64_MOD)
    (fun _ _ _ _ => by show 0 < UINT64_MOD; unfold UINT64_MOD; positivity)
    (fun s _ _ _ _ => tick_counter_lt s)
    (fun s s2 _ _ _ hP hx => by
      show s2.counter < UINT64_MOD
      rw [hx.counter]; exact hP)
    (fun s s2 _ _ _ _ _ _ _ he => by
      show s2.counter < UINT64_MOD
      rw [he.counter_eq]; exact tick_counter_lt s) h
  exact hP

theorem no_wrap_one {c : Nat} (hc : c < UINT64_MOD) (h : c ≤ (c + 1) % UINT64_MOD) :
    c + 1 < UINT64_MOD := by
  unfold UINT64_MOD at *
  norm_num at *
  omega

theorem no_wrap_two {c : Nat} (hc : c < UINT64_MOD)
    (h : c ≤ ((c + 1) % UINT64_MOD + 1) % UINT64_MOD) : c + 2 < UINT64_MOD := by
  unfold UINT64_MOD at *
  norm_num at *
  omega

theorem tick_counter_of_lt {s : State} (h : s.counter + 1 < UINT64_MOD) :
    s.tick.counter = s.counter + 1 :=
  Nat.mod_eq_of_lt h

/-- Induction over the states reached without counter wrap-around: as
`reachable_induction`, but the property only has to survive counter
increments that do not wrap. -/
theorem reachableNoWrap_induction (P : State → List Nat → List Nat → Prop)
    (hinit : ∀ N fn rc uc, P (StrategyInitialize N fn rc uc) [] [])
    (htick : ∀ s b1 b2, Inv s b1 b2 → s.counter + 1 < UINT64_MOD → P s b1 b2 →
      P s.tick b1 b2)
    (hext : ∀ s s2 b1 b2, Inv s b1 b2 → P s b1 b2 → Ext s s2 → P s2 b1 b2)
    (heff : ∀ s s2 b1 b2 c1 c2, Inv s b1 b2 → s.counter + 1 < UINT64_MOD → P s b1 b2 →
      Inv s2 c1 c2 → Effect s b1 b2 s2 c1 c2 → P s2 c1 c2)
    {s : State} (h : ReachableNoWrap s) : ∃ b1 b2, Inv s b1 b2 ∧ P s b1 b2 := by
  induction h with
  | init N fn rc uc =>
    obtain ⟨b1, b2, hinv⟩ := reachable_wellFormed (Reachable.init N fn rc uc)
    have e1 : b1 = [] := hinv.1.eq_nil_of_tail rfl
    have e2 : b2 = [] := hinv.2.1.eq_nil_of_tail rfl
    subst e1 e2
    exact ⟨[], [], hinv, hinit N fn rc uc⟩
  | access fuel f d hr e hmono ih =>
    obtain ⟨b1, b2, hinv, hP⟩ := ih
    have hlt := reachable_counter_lt hr.reachable
    obtain ⟨c1, c2, hi, he⟩ := access_effect e hinv
    rw [he.counter_eq] at hmono
    exact ⟨c1, c2, hi, heff _ _ _ _ _ _ hinv (no_wrap_one hlt hmono) hP hi he⟩
  | get fuel r hr e hmono ih =>
    obtain ⟨b1, b2, hinv, hP⟩ := ih
    have hlt := reachable_counter_lt hr.reachable
    obtain ⟨s1, hs1, hn | ⟨c1, c2, hi, he⟩ | ⟨c1, c2, hi, he⟩⟩ := getBuffer_effect e hinv
    · obtain ⟨-, rfl⟩ := hn
      have hi1 := hs1.inv hinv
      have hc : s1.tick.counter = (s1.counter + 1) % UINT64_MOD := rfl
      rw [hc, hs1.counter] at hmono
      refine ⟨b1, b2, hi1, htick _ _ _ hi1 ?_ (hext _ _ _ _ hinv hP hs1)⟩
      rw [hs1.counter]
      exact no_wrap_one hlt hmono
    · rw [he.counter_eq, hs1.counter] at hmono
      refine ⟨c1, c2, hi, heff _ _ _ _ _ _ (hs1.inv hinv) ?_ (hext _ _ _ _ hinv hP hs1) hi he⟩
      rw [hs1.counter]
      exact no_wrap_one hlt hmono
    · have hi1 := hs1.inv hinv
      have hi2 : Inv s1.tick b1 b2 := hi1
      have hc : s1.tick.counter = (s1.counter + 1) % UINT64_MOD := rfl
      rw [he.counter_eq, hc, hs1.counter] at hmono
      have h2 := no_wrap_two hlt hmono
      have h1 : s1.counter + 1 < UINT64_MOD := by rw [hs1.counter]; omega
      refine ⟨c1, c2, hi, heff _ _ _ _ _ _ hi2 ?_
        (htick _ _ _ hi1 h1 (hext _ _ _ _ hinv hP hs1)) hi he⟩
      rw [tick_counter_of_lt h1, hs1.counter]
      exact h2
  | free fuel b hr e hmono ih =>
    obtain ⟨b1, b2, hinv, hP⟩ := ih
    have hlt := reachable_counter_lt hr.reachable
    rcases freeBuffer_effect e hinv with rfl | ⟨s1, hs1, c1, c2, hi, he⟩
    · exact ⟨b1, b2, hinv, hP⟩
    · rw [he.counter_eq, hs1.counter] at hmono
      refine ⟨c1, c2, hi, heff _ _ _ _ _ _ (hs1.inv hinv) ?_ (hext _ _ _ _ hinv hP hs1) hi he⟩
      rw [hs1.counter]
      exact no_wrap_one hlt hmono
  | pins rc uc _ ih =>
    obtain ⟨b1, b2, hinv, hP⟩ := ih
    exact ⟨b1, b2, hinv, hext _ _ _ _ hinv hP ⟨rfl, rfl, rfl, rfl⟩⟩

/-! ## Timestamp invariants that hold until the counter wraps -/

theorem Recency.congr_recency {s s2 : State} {b1 : List Nat}
    (hk : ∀ i ∈ b1, lastTouch s2 i = lastTouch s i) (h : Recency s b1) : Recency s2 b1 := by
  unfold Recency at h ⊢
  refine h.imp_of_mem ?_
  intro a b ha hb hab
  rw [hk a ha, hk b hb]
  exact hab

theorem Recency.erase_recency {s : State} {b1 : List Nat} (k : Nat) (h : Recency s b1) :
    Recency s (b1.erase k) :=
  List.Pairwise.sublist (List.erase_sublist k b1) h

theorem timed_effect {s s2 : State} {b1 b2 c1 c2 : List Nat} (hinv : Inv s b1 b2)
    (hw : s.counter + 1 < UINT64_MOD) (hC : Clocked s b1 b2) (hR : Recency s b1)
    (hT : TwiceTouched s b2) (he : Effect s b1 b2 s2 c1 c2) :
    Clocked s2 c1 c2 ∧ Recency s2 c1 ∧ TwiceTouched s2 c2 := by
  obtain ⟨-, hcl⟩ := hC
  have htc : s.tick.counter = s.counter + 1 := Nat.mod_eq_of_lt hw
  have hc2 : s2.counter = s.counter + 1 := by rw [he.counter_eq]; exact Nat.mod_eq_of_lt hw
  have hn1 := hinv.1.nodup
  have hn2 := hinv.2.1.nodup
  cases he with
  | purge k hs =>
    have hl : ∀ i, lastTouch s2 i = lastTouch s i := fun i => hs.time_array_1 i
    have h0 : ∀ i, secondLastTouch s2 i = secondLastTouch s i := fun i => hs.time_array_0 i
    refine ⟨⟨by rw [hc2]; exact hw, ?_⟩, (hR.erase_recency k).congr_recency (fun i _ => hl i), ?_⟩
    · intro i hi
      have hi2 : i ∈ b1 ∨ i ∈ b2 := hi.imp List.mem_of_mem_erase List.mem_of_mem_erase
      have := hcl i hi2
      rw [hl i, hc2]
      omega
    · intro i hi
      rw [h0 i, hl i]
      exact hT i (List.mem_of_mem_erase hi)
  | enter k hk1 hk2 hen =>
    have hl : ∀ i, i ≠ k → lastTouch s2 i = lastTouch s i := hen.only.time_array_1
    have h0 : ∀ i, i ≠ k → secondLastTouch s2 i = secondLastTouch s i := hen.only.time_array_0
    have hlk : lastTouch s2 k = s.counter + 1 := hen.last.trans htc
    refine ⟨⟨by rw [hc2]; exact hw, ?_⟩, List.pairwise_cons.2 ⟨?_, ?_⟩, ?_⟩
    · intro i hi
      by_cases hik : i = k
      · subst hik
        rw [hlk, hc2]
        omega
      · have hi2 : i ∈ b1 ∨ i ∈ b2 := hi.imp_left (fun h => (List.mem_cons.1 h).resolve_left hik)
        have := hcl i hi2
        rw [hl i hik, hc2]
        omega
    · intro x hx
      have hxk : x ≠ k := fun e => hk1 (e ▸ hx)
      have := hcl x (Or.inl hx)
      rw [hl x hxk, hlk]
      omega
    · exact hR.congr_recency (fun i hi => hl i (fun e => hk1 (e ▸ hi)))
    · intro i hi
      have hik : i ≠ k := fun e => hk2 (e ▸ hi)
      rw [h0 i hik, hl i hik]
      exact hT i hi
  | promote k hm hst =>
    have hl : ∀ i, i ≠ k → lastTouch s2 i = lastTouch s i := hst.only.time_array_1
    have h0 : ∀ i, i ≠ k → secondLastTouch s2 i = secondLastTouch s i := hst.only.time_array_0
    have hlk : lastTouch s2 k = s.counter + 1 := hst.last.trans htc
    have h0k : secondLastTouch s2 k = lastTouch s k := hst.secondLast
    have hk := hcl k hm
    refine ⟨⟨by rw [hc2]; exact hw, ?_⟩, ?_, ?_⟩
    · intro i hi
      by_cases hik : i = k
      · subst hik
        rw [hlk, hc2]
        omega
      · have hi2 : i ∈ b1 ∨ i ∈ b2 := by
          rcases hi with hi | hi
          · exact Or.inl (List.mem_of_mem_erase hi)
          · exact Or.inr (List.mem_of_mem_erase
              (((mem_rankInsert _ _ _ _).1 hi).resolve_left hik))
        have := hcl i hi2
        rw [hl i hik, hc2]
        omega
    · exact (hR.erase_recency k).congr_recency (fun i hi => hl i (hn1.mem_erase_iff.1 hi).1)
    · intro i hi
      rcases (mem_rankInsert _ _ _ _).1 hi with rfl | hi
      · rw [h0k, hlk]
        omega
      · have hik : i ≠ k := (hn2.mem_erase_iff.1 hi).1
        rw [h0 i hik, hl i hik]
        exact hT i (List.mem_of_mem_erase hi)
  | victim v hm hst =>
    have hl : ∀ i, i ≠ v → lastTouch s2 i = lastTouch s i := hst.only.time_array_1
    have h0 : ∀ i, i ≠ v → secondLastTouch s2 i = secondLastTouch s i := hst.only.time_array_0
    have hlk : lastTouch s2 v = s.counter + 1 := hst.last.trans htc
    refine ⟨⟨by rw [hc2]; exact hw, ?_⟩, List.pairwise_cons.2 ⟨?_, ?_⟩, ?_⟩
    · intro i hi
      by_cases hik : i = v
      · subst hik
        rw [hlk, hc2]
        omega
      · have hi2 : i ∈ b1 ∨ i ∈ b2 := by
          rcases hi with hi | hi
          · exact Or.inl (List.mem_of_mem_erase ((List.mem_cons.1 hi).resolve_left hik))
          · exact Or.inr (List.mem_of_mem_erase hi)
        have := hcl i hi2
        rw [hl i hik, hc2]
        omega
    · intro x hx
      have hxk : x ≠ v := (hn1.mem_erase_iff.1 hx).1
      have := hcl x (Or.inl (List.mem_of_mem_erase hx))
      rw [hl x hxk, hlk]
      omega
    · exact (hR.erase_recency v).congr_recency (fun i hi => hl i (hn1.mem_erase_iff.1 hi).1)
    · intro i hi
      have hik : i ≠ v := (hn2.mem_erase_iff.1 hi).1
      rw [h0 i hik, hl i hik]
      exact hT i (List.mem_of_mem_erase hi)

theorem reachableNoWrap_timed {s : State} (h : ReachableNoWrap s) :
    ∃ b1 b2, Inv s b1 b2 ∧ Clocked s b1 b2 ∧ Recency s b1 ∧ TwiceTouched s b2 := by
  refine reachableNoWrap_induction
    (fun s b1 b2 => Clocked s b1 b2 ∧ Recency s b1 ∧ TwiceTouched s b2) ?_ ?_ ?_ ?_ h
  · intro N fn rc uc
    refine ⟨⟨?_, ?_⟩, List.Pairwise.nil, ?_⟩
    · show 0 < UINT64_MOD
      unfold UINT64_MOD; positivity
    · intro i hi
      simp at hi
    · intro i hi
      simp at hi
  · rintro s b1 b2 - hw ⟨⟨-, hcl⟩, hR, hT⟩
    refine ⟨⟨tick_counter_lt s, ?_⟩, hR, hT⟩
    intro i hi
    have := hcl i hi
    rw [tick_counter_of_lt hw]
    exact ⟨this.1, by show lastTouch s i ≤ _; omega⟩
  · rintro s s2 b1 b2 - ⟨⟨hlt, hcl⟩, hR, hT⟩ hx
    have hl : ∀ i, lastTouch s2 i = lastTouch s i := fun i => by
      unfold lastTouch; rw [hx.mem]
    have h0 : ∀ i, secondLastTouch s2 i = secondLastTouch s i := fun i => by
      unfold secondLastTouch; rw [hx.mem]
    refine ⟨⟨by rw [hx.counter]; exact hlt, ?_⟩, hR.congr_recency (fun i _ => hl i), ?_⟩
    · intro i hi
      rw [hl i, hx.counter]
      exact hcl i hi
    · intro i hi
      rw [h0 i, hl i]
      exact hT i hi
  · rintro s s2 b1 b2 c1 c2 hinv hw ⟨hC, hR, hT⟩ - he
    exact timed_effect hinv hw hC hR hT he

/-! ## States on both sides of a counter wrap-around -/

theorem exAtCounter_inv (c : Nat) : Inv (exAtCounter c) [] [] := by
  have h : Inv exInit [] [] := by decide
  exact h

theorem exAtCounter_tick (c : Nat) (h : c + 1 < UINT64_MOD) :
    (exAtCounter c).tick = exAtCounter (c + 1) := by
  unfold exAtCounter State.tick
  simp only [Nat.mod_eq_of_lt h]

/-- Every counter value is reachable: `c` purges of a frame that is in
neither segment advance the counter from 0 to `c` and change nothing else. -/
theorem reachable_exAtCounter : ∀ c, c < UINT64_MOD → Reachable (exAtCounter c)
  | 0, _ => reachable_exInit
  | c + 1, h => by
    have ih := reachable_exAtCounter c (by omega)
    obtain ⟨s2, e, -, -, hs⟩ := purge_spec 1 (exAtCounter c) [] [] 0 (exAtCounter_inv c)
      (by decide)
    rw [hs (by simp) (by simp), exAtCounter_tick c h] at e
    exact Reachable.access 1 0 true ih e

theorem reachable_exWrappedB2 : Reachable exWrappedB2 :=
  Reachable.runAccess_all 8 _ (reachable_exAtCounter _ (by decide))

theorem reachable_exWrappedB1 : Reachable exWrappedB1 :=
  Reachable.runAccess_all 8 _ (reachable_exAtCounter _ (by decide))

theorem ReachableNoWrap.okState_noWrap {s : State} (h : ReachableNoWrap s) (fuel f : Nat)
    (d : Bool) (hm : s.counter ≤ (okState (StrategyAccessBuffer fuel s f d) s).counter) :
    ReachableNoWrap (okState (StrategyAccessBuffer fuel s f d) s) := by
  cases e : StrategyAccessBuffer fuel s f d with
  | error x => exact h
  | ok s2 =>
    rw [e] at hm
    exact ReachableNoWrap.access fuel f d h e hm

theorem ReachableNoWrap.getState_noWrap {s : State} (h : ReachableNoWrap s) (fuel : Nat)
    (hm : s.counter ≤ (getState (StrategyGetBuffer fuel s) s).counter) :
    ReachableNoWrap (getState (StrategyGetBuffer fuel s) s) := by
  cases e : StrategyGetBuffer fuel s with
  | error x => exact h
  | ok p =>
    obtain ⟨r, s2⟩ := p
    rw [e] at hm
    exact ReachableNoWrap.get fuel r h e hm

theorem reachableNoWrap_exInit : ReachableNoWrap exInit :=
  ReachableNoWrap.init 3 exFreeNext _ _

theorem reachableNoWrap_exDrained : ReachableNoWrap exDrained :=
  ((reachableNoWrap_exInit.getState_noWrap 8 (by decide)).getState_noWrap 8
    (by decide)).getState_noWrap 8 (by decide)

theorem reachableNoWrap_exTwoSegments : ReachableNoWrap exTwoSegments :=
  ((reachableNoWrap_exDrained.okState_noWrap 8 1 false (by decide)).okState_noWrap 8 0 false
    (by decide))

/-- C13 fails as stated: the state after `2 ^ 64 - 1` purges of an absent
frame followed by `touch 0; touch 0` is reachable; the first touch wraps the
counter to 0 and stamps frame 0 with 0, so the second touch (the promotion to
B2) finds an all-zero history and records only the last access time.  B2 is
then [0] and its member has second-last access time 0. -/
theorem b2_member_after_wrap_has_zero_secondLastTouch :
    Reachable exWrappedB2 ∧ Inv exWrappedB2 [] [0] ∧
      ¬ (∀ i ∈ [0], secondLastTouch exWrappedB2 i ≠ 0 ∧
          secondLastTouch exWrappedB2 i < lastTouch exWrappedB2 i) :=
  ⟨reachable_exWrappedB2, by decide, by decide⟩

/-- C13 as amended: in every state reached without wrap-around of the 64-bit
counter, every member of B2 has a second-last access time that is not 0 and
is smaller than its last access time (it has been stamped twice since its
history was last cleared). -/
theorem noWrap_b2_members_touched_twice (s : State) (h : ReachableNoWrap s) :
    ∃ b1 b2, Inv s b1 b2 ∧
      ∀ i ∈ b2, secondLastTouch s i ≠ 0 ∧ secondLastTouch s i < lastTouch s i := by
  obtain ⟨b1, b2, hinv, -, -, hT⟩ := reachableNoWrap_timed h
  exact ⟨b1, b2, hinv, hT⟩

/-- Worked instance of amended C13: B2 = [1, 0] after three allocations and
`touch 1; touch 0`; frame 1 has history (4, 7), frame 0 has history (2, 8). -/
theorem noWrap_b2_members_touched_twice_witness :
    ReachableNoWrap exTwoSegments ∧ Inv exTwoSegments [2] [1, 0] ∧
      [1, 0].map (fun i => (secondLastTouch exTwoSegments i, lastTouch exTwoSegments i)) =
        [(4, 7), (2, 8)] ∧
      ∃ b1 b2, Inv exTwoSegments b1 b2 ∧
        ∀ i ∈ b2, secondLastTouch exTwoSegments i ≠ 0 ∧
          secondLastTouch exTwoSegments i < lastTouch exTwoSegments i :=
  ⟨reachableNoWrap_exTwoSegments, by decide, by decide,
    noWrap_b2_members_touched_twice exTwoSegments reachableNoWrap_exTwoSegments⟩

/-- C14 fails as stated: the state after `2 ^ 64 - 2` purges of an absent
frame followed by `touch 0; touch 1` is reachable; the second touch wraps the
counter to 0, so B1 = [1, 0] has last access times 0 and `2 ^ 64 - 1` from
head to tail, which is not decreasing. -/
theorem b1_after_wrap_not_most_recent_first :
    Reachable exWrappedB1 ∧ Inv exWrappedB1 [1, 0] [] ∧
      [1, 0].map (lastTouch exWrappedB1) = [0, UINT64_MOD - 1] ∧
      ¬ ([1, 0].map (lastTouch exWrappedB1)).Sorted (fun x y => x > y) :=
  ⟨reachable_exWrappedB1, by decide, by decide, by decide⟩

/-- C14 as amended: in every state reached without wrap-around of the 64-bit
counter, B1 is in most-recently-touched-first order: from head to tail the
last access times strictly decrease. -/
theorem noWrap_b1_most_recent_first (s : State) (h : ReachableNoWrap s) :
    ∃ b1 b2, Inv s b1 b2 ∧ (b1.map (lastTouch s)).Sorted (fun x y => x > y) := by
  obtain ⟨b1, b2, hinv, -, hR, -⟩ := reachableNoWrap_timed h
  exact ⟨b1, b2, hinv, List.pairwise_map.2 hR⟩

/-- Worked instance of amended C14: after three allocations B1 = [2, 1, 0]
with last access times 6, 4, 2. -/
theorem noWrap_b1_most_recent_first_witness :
    ReachableNoWrap exDrained ∧ Inv exDrained [2, 1, 0] [] ∧
      [2, 1, 0].map (lastTouch exDrained) = [6, 4, 2] ∧
      ∃ b1 b2, Inv exDrained b1 b2 ∧
        (b1.map (lastTouch exDrained)).Sorted (fun x y => x > y) :=
  ⟨reachableNoWrap_exDrained, by decide, by decide,
    noWrap_b1_most_recent_first exDrained reachableNoWrap_exDrained⟩

/-! ## Claims about purge -/

/-- C15: in every well-formed state (every reachable state is one, by
`reachable_wellFormed`), `purge f` leaves `f` in neither segment, every other
frame in its segment and in the same relative order (each list loses exactly
`f`), and changes no node and no head or tail pointer when `f` was in neither
segment. -/
theorem purge_removes_frame_only (fuel : Nat) (s : State) (b1 b2 : List Nat) (f : Nat)
    (hinv : Inv s b1 b2) (hfuel : b1.length + b2.length < fuel) :
    ∃ s2, StrategyAccessBuffer fuel s f true = .ok s2 ∧
      Inv s2 (b1.filter (fun i => i != f)) (b2.filter (fun i => i != f)) ∧
      f ∉ b1.filter (fun i => i != f) ∧ f ∉ b2.filter (fun i => i != f) ∧
      (f ∉ b1 → f ∉ b2 → Inv s2 b1 b2 ∧ s2.mem = s.mem ∧
        s2.linkedListInfo = s.linkedListInfo ∧
        s2.otherLinkedListInfo = s.otherLinkedListInfo) := by
  obtain ⟨s2, e, hi, -, hs⟩ := purge_spec fuel s b1 b2 f hinv hfuel
  rw [hinv.1.nodup.erase_eq_filter, hinv.2.1.nodup.erase_eq_filter] at hi
  refine ⟨s2, e, hi, by simp, by simp, ?_⟩
  intro h1 h2
  rw [hs h1 h2]
  exact ⟨hinv, rfl, rfl, rfl⟩

/-- Worked instance of C15: from B1 = [2], B2 = [1, 0] the call `purge 1`
leaves B1 = [2], B2 = [0]. -/
theorem purge_removes_frame_only_witness :
    Inv exTwoSegments [2] [1, 0] ∧ [2].length + [1, 0].length < 8 ∧
      ∃ s2, StrategyAccessBuffer 8 exTwoSegments 1 true = .ok s2 ∧
        Inv s2 [2] [0] ∧ 1 ∉ [2] ∧ 1 ∉ [0] ∧
        (1 ∉ [2] → 1 ∉ [1, 0] → Inv s2 [2] [1, 0] ∧ s2.mem = exTwoSegments.mem ∧
          s2.linkedListInfo = exTwoSegments.linkedListInfo ∧
          s2.otherLinkedListInfo = exTwoSegments.otherLinkedListInfo) :=
  ⟨by decide, by decide,
    purge_removes_frame_only 8 exTwoSegments [2] [1, 0] 1 (by decide) (by decide)⟩

/-- C16 fails as stated: after `touch 0` from the initial state frame 0 has
last access time 1; `purge 0` returns with the counter at 2 and frame 0 still
has last access time 1, not 0. -/
theorem purge_does_not_clear_timestamps :
    lastTouch (runAccess 8 [(0, false)] exInit) 0 = 1 ∧
      observe (StrategyAccessBuffer 8 (runAccess 8 [(0, false)] exInit) 0 true) 0 =
        some (2, 1, 0) := by
  decide

/-- C16 as amended: in every well-formed state `purge f` leaves the last and
second-last access time of `f`, and of every other frame, as they were. -/
theorem purge_keeps_timestamps (fuel : Nat) (s : State) (b1 b2 : List Nat) (f : Nat)
    (hinv : Inv s b1 b2) (hfuel : b1.length + b2.length < fuel) :
    ∃ s2, StrategyAccessBuffer fuel s f true = .ok s2 ∧
      ∀ i, lastTouch s2 i = lastTouch s i ∧ secondLastTouch s2 i = secondLastTouch s i := by
  obtain ⟨s2, e, -, hs, -⟩ := purge_spec fuel s b1 b2 f hinv hfuel
  exact ⟨s2, e, fun i => ⟨hs.time_array_1 i, hs.time_array_0 i⟩⟩

/-- Worked instance of amended C16: `purge 1` with B1 = [2], B2 = [1, 0];
frame 1 keeps its history (4, 7). -/
theorem purge_keeps_timestamps_witness :
    Inv exTwoSegments [2] [1, 0] ∧ [2].length + [1, 0].length < 8 ∧
      (secondLastTouch exTwoSegments 1, lastTouch exTwoSegments 1) = (4, 7) ∧
      ∃ s2, StrategyAccessBuffer 8 exTwoSegments 1 true = .ok s2 ∧
        ∀ i, lastTouch s2 i = lastTouch exTwoSegments i ∧
          secondLastTouch s2 i = secondLastTouch exTwoSegments i :=
  ⟨by decide, by decide, by decide,
    purge_keeps_timestamps 8 exTwoSegments [2] [1, 0] 1 (by decide) (by decide)⟩

/-- C17 fails as stated: the counter is part of the observable state and every
purge increments it.  From B1 = [2], B2 = [1, 0] with the counter at 8, one
`purge 1` leaves the counter at 9 and two leave it at 10. -/
theorem purge_twice_advances_counter_twice :
    exTwoSegments.counter = 8 ∧
      (runAccess 8 [(1, true)] exTwoSegments).counter = 9 ∧
      (runAccess 8 [(1, true), (1, true)] exTwoSegments).counter = 10 ∧
      observe (StrategyAccessBuffer 8 exTwoSegments 1 true) 1 = some (9, 7, 4) ∧
      observe (StrategyAccessBuffer 8 (runAccess 8 [(1, true)] exTwoSegments) 1 true) 1 =
        some (10, 7, 4) := by
  decide

/-- C17 as amended: in every well-formed state, a second `purge f` right after
the first changes nothing but the counter, which it increments once more: the
nodes (hence every timestamp), both head and tail pointers, B1 and B2 are
those left by the first purge. -/
theorem purge_twice_differs_only_in_counter (fuel : Nat) (s : State) (b1 b2 : List Nat)
    (f : Nat) (hinv : Inv s b1 b2) (hfuel : b1.length + b2.length < fuel) :
    ∃ s2 s3, StrategyAccessBuffer fuel s f true = .ok s2 ∧
      StrategyAccessBuffer fuel s2 f true = .ok s3 ∧
      Inv s2 (b1.erase f) (b2.erase f) ∧ Inv s3 (b1.erase f) (b2.erase f) ∧
      s3.mem = s2.mem ∧ s3.linkedListInfo = s2.linkedListInfo ∧
      s3.otherLinkedListInfo = s2.otherLinkedListInfo ∧
      s3.counter = (s2.counter + 1) % UINT64_MOD ∧
      s3 = s2.tick := by
  obtain ⟨s2, e, hi, -, -⟩ := purge_spec fuel s b1 b2 f hinv hfuel
  have hl : (b1.erase f).length + (b2.erase f).length < fuel := by
    have h1 := List.length_erase_le f b1
    have h2 := List.length_erase_le f b2
    omega
  obtain ⟨s3, e3, -, -, hs⟩ := purge_spec fuel s2 _ _ f hi hl
  have h1 : f ∉ b1.erase f := fun h => (hinv.1.nodup.mem_erase_iff.1 h).1 rfl
  have h2 : f ∉ b2.erase f := fun h => (hinv.2.1.nodup.mem_erase_iff.1 h).1 rfl
  have e4 := hs h1 h2
  subst e4
  exact ⟨s2, _, e, e3, hi, hi, rfl, rfl, rfl, rfl, rfl⟩

/-- Worked instance of amended C17: `purge 1; purge 1` with B1 = [2],
B2 = [1, 0]. -/
theorem purge_twice_differs_only_in_counter_witness :
    Inv exTwoSegments [2] [1, 0] ∧ [2].length + [1, 0].length < 8 ∧
      ∃ s2 s3, StrategyAccessBuffer 8 exTwoSegments 1 true = .ok s2 ∧
        StrategyAccessBuffer 8 s2 1 true = .ok s3 ∧
        Inv s2 [2] [0] ∧ Inv s3 [2] [0] ∧
        s3.mem = s2.mem ∧ s3.linkedListInfo = s2.linkedListInfo ∧
        s3.otherLinkedListInfo = s2.otherLinkedListInfo ∧
        s3.counter = (s2.counter + 1) % UINT64_MOD ∧
        s3 = s2.tick :=
  ⟨by decide, by decide,
    purge_twice_differs_only_in_counter 8 exTwoSegments [2] [1, 0] 1 (by decide) (by decide)⟩

/-! ## Claims about the initial state and the worked scenarios -/

theorem touchAll_fresh (fuel : Nat) :
    ∀ (fs : List Nat) (s : State) (b1 b2 : List Nat), Inv s b1 b2 → fs.Nodup →
      (∀ f ∈ fs, f ∉ b1 ∧ f ∉ b2) → b1.length + b2.length + fs.length < fuel →
      ∃ s2, touchAll fuel fs s = .ok s2 ∧ Inv s2 (fs.reverse ++ b1) b2
  | [], s, b1, b2, hinv, _, _, _ => ⟨s, rfl, hinv⟩
  | f :: fs, s, b1, b2, hinv, hnd, hfr, hf => by
    obtain ⟨hf1, hf2⟩ := hfr f (List.mem_cons_self _ _)
    obtain ⟨hfs, hnd2⟩ := List.nodup_cons.1 hnd
    have hlen : (f :: fs).length = fs.length + 1 := rfl
    obtain ⟨s1, e1, hi1, -⟩ := touch_new_spec fuel s b1 b2 f hinv hf1 hf2 (by omega)
    obtain ⟨s2, e2, hi2⟩ := touchAll_fresh fuel fs s1 (f :: b1) b2 hi1 hnd2
      (fun g hg => ⟨fun hm => by
        rcases List.mem_cons.1 hm with rfl | hm
        · exact hfs hg
        · exact (hfr g (List.mem_cons_of_mem _ hg)).1 hm,
        (hfr g (List.mem_cons_of_mem _ hg)).2⟩)
      (by simp only [List.length_cons]; omega)
    refine ⟨s2, ?_, ?_⟩
    · rw [touchAll, e1]
      exact e2
    · rw [List.reverse_cons, List.append_assoc]
      exact hi2

/-- C18: right after `StrategyInitialize` both segments are empty, both tail
pointers are `NULL`, the membership tests find no frame and the tail-to-head
victim scan visits nothing; touching pairwise distinct frames `fs` in order
then gives B1 = `fs` reversed (the first frame touched is the tail) and
B2 = []. -/
theorem init_then_touch_distinct_frames (NBuffers : Nat) (freeNext : Nat → Int)
    (refcount usagecount : Nat → Nat) (fuel : Nat) (fs : List Nat) (hnd : fs.Nodup)
    (hfuel : fs.length < fuel) :
    Inv (StrategyInitialize NBuffers freeNext refcount usagecount) [] [] ∧
      (StrategyInitialize NBuffers freeNext refcount usagecount).linkedListInfo.tail = none ∧
      (StrategyInitialize NBuffers freeNext refcount usagecount).otherLinkedListInfo.tail =
        none ∧
      (∀ f : Nat,
        search_for_frame fuel (StrategyInitialize NBuffers freeNext refcount usagecount) f =
          .ok none ∧
        search_for_frame_b2 fuel (StrategyInitialize NBuffers freeNext refcount usagecount) f =
          .ok none) ∧
      scan_b1 fuel (StrategyInitialize NBuffers freeNext refcount usagecount) fuel
          (StrategyInitialize NBuffers freeNext refcount usagecount).linkedListInfo.tail =
        .ok (.noUnpinnedBuffers, StrategyInitialize NBuffers freeNext refcount usagecount) ∧
      ∃ s2, touchAll fuel fs (StrategyInitialize NBuffers freeNext refcount usagecount) =
          .ok s2 ∧
        Inv s2 fs.reverse [] ∧ s2.linkedListInfo.tail = fs.head?.map Ptr.main := by
  obtain ⟨b1, b2, hinv⟩ := reachable_wellFormed
    (Reachable.init NBuffers freeNext refcount usagecount)
  have e1 : b1 = [] := hinv.1.eq_nil_of_tail rfl
  have e2 : b2 = [] := hinv.2.1.eq_nil_of_tail rfl
  subst e1 e2
  refine ⟨hinv, rfl, rfl, ?_, ?_, ?_⟩
  · intro f
    have h1 := search_isSeg _ _ [] f fuel hinv.1 (by simp only [List.length_nil]; omega)
    have h2 := search_isSeg _ _ [] f fuel hinv.2.1 (by simp only [List.length_nil]; omega)
    simp only [List.not_mem_nil, if_false] at h1 h2
    exact ⟨h1, h2⟩
  · show scan_b1 fuel _ fuel none = _
    rw [scan_b1_none]
    show scan_b2 fuel _ fuel none = _
    rw [scan_b2_none]
  · obtain ⟨s2, e, hi⟩ := touchAll_fresh fuel fs _ [] [] hinv hnd (fun f _ => by simp)
      (by simp only [List.length_nil]; omega)
    rw [List.append_nil] at hi
    refine ⟨s2, e, hi, ?_⟩
    rw [hi.1.tail_eq]
    cases fs with
    | nil => rfl
    | cons f fs =>
      rw [List.reverse_cons, nodes_append fs.reverse [f]]
      exact lastOr_concat _ _ _

/-- Worked instance of C18 (scenario A): capacity 3,
`touch 0; touch 1; touch 2` gives B1 = [2, 1, 0] with tail 0, B2 = []. -/
theorem init_then_touch_distinct_frames_witness :
    [0, 1, 2].Nodup ∧ [0, 1, 2].length < 8 ∧
      ∃ s2, touchAll 8 [0, 1, 2] exInit = .ok s2 ∧ Inv s2 [2, 1, 0] [] ∧
        s2.linkedListInfo.tail = some (.main 0) :=
  ⟨by decide, by decide,
    (init_then_touch_distinct_frames 3 exFreeNext (fun _ => 0) (fun _ => 0) 8 [0, 1, 2]
      (by decide) (by decide)).2.2.2.2.2⟩

/-- C19 fails as stated: the sequence `touch 0; touch 1; touch 2; touch 1;
touch 0` from the initial state returns normally, but frame 0 does not have second-last access time 2,
frame 1 does not have second-last access time 1, and B2 is not [0, 1]. -/
theorem scenario_C_values_differ :
    (observe (touchAll 8 [0, 1, 2, 1, 0] exInit) 0).isSome = true ∧
      secondLastTouch (okState (touchAll 8 [0, 1, 2, 1, 0] exInit) exInit) 0 ≠ 2 ∧
      secondLastTouch (okState (touchAll 8 [0, 1, 2, 1, 0] exInit) exInit) 1 ≠ 1 ∧
      ¬ Inv (okState (touchAll 8 [0, 1, 2, 1, 0] exInit) exInit) [2] [0, 1] := by
  decide

/-- C19 as amended: from the initial state the sequence
`touch 0; touch 1; touch 2; touch 1; touch 0` uses the counter values 1 to 5
(the counter reads 3 after the first three touches, 4 after the fourth and 5
at the end) and ends with frame 0 having last access time 5 and second-last
access time 1, frame 1 having last access time 4 and second-last access time
2, frame 2 having last access time 3, B2 = [1, 0] (head to tail) and
B1 = [2]. -/
theorem scenario_C_as_computed :
    observe (touchAll 8 [0, 1, 2] exInit) 2 = some (3, 3, 0) ∧
      Inv (okState (touchAll 8 [0, 1, 2] exInit) exInit) [2, 1, 0] [] ∧
      observe (touchAll 8 [0, 1, 2, 1] exInit) 1 = some (4, 4, 2) ∧
      Inv (okState (touchAll 8 [0, 1, 2, 1] exInit) exInit) [2, 0] [1] ∧
      observe (touchAll 8 [0, 1, 2, 1, 0] exInit) 0 = some (5, 5, 1) ∧
      observe (touchAll 8 [0, 1, 2, 1, 0] exInit) 1 = some (5, 4, 2) ∧
      observe (touchAll 8 [0, 1, 2, 1, 0] exInit) 2 = some (5, 3, 0) ∧
      Inv (okState (touchAll 8 [0, 1, 2, 1, 0] exInit) exInit) [2] [1, 0] := by
  decide

/-- C20 fails as stated: with capacity 3 the call `touch 7` does not fail; it
returns with frame 7 at the head of B1 and slot 7 stamped with the counter
value 1, and `purge 7` returns as well. -/
theorem access_with_invalid_id_returns :
    lastTouch exInit 7 = 0 ∧
      observe (StrategyAccessBuffer 8 exInit 7 false) 7 = some (1, 1, 0) ∧
      Inv (okState (StrategyAccessBuffer 8 exInit 7 false) exInit) [7] [] ∧
      observe (StrategyAccessBuffer 8 exInit 7 true) 7 = some (1, 0, 0) := by
  decide

/-- C20 as amended: `StrategyAccessBuffer` does not check the frame id against
the capacity `C`.  In a well-formed state whose members are all below `C`, a
call with an id `f >= C` returns normally: with `delete = false` the id is
treated as a new frame (it becomes the head of B1, B2 is unchanged and its
slot is stamped with the new counter value), with `delete = true` only the
counter changes. -/
theorem access_does_not_validate_frame_id (fuel : Nat) (s : State) (b1 b2 : List Nat)
    (C f : Nat) (hinv : Inv s b1 b2) (hC : ∀ i ∈ b1 ++ b2, i < C) (hf : C ≤ f)
    (hfuel : b1.length + b2.length < fuel) :
    (∃ s2, StrategyAccessBuffer fuel s f false = .ok s2 ∧ Inv s2 (f :: b1) b2 ∧
      s2.counter = (s.counter + 1) % UINT64_MOD ∧
      lastTouch s2 f = s2.counter ∧ secondLastTouch s2 f = 0) ∧
    StrategyAccessBuffer fuel s f true = .ok s.tick := by
  have h1 : f ∉ b1 := fun h => by have := hC f (List.mem_append.2 (Or.inl h)); omega
  have h2 : f ∉ b2 := fun h => by have := hC f (List.mem_append.2 (Or.inr h)); omega
  constructor
  · obtain ⟨s2, e, hi, hc, hl, hsl, -⟩ := touch_new_spec fuel s b1 b2 f hinv h1 h2 hfuel
    exact ⟨s2, e, hi, hc, hl, hsl⟩
  · obtain ⟨s3, e, -, -, hs⟩ := purge_spec fuel s b1 b2 f hinv hfuel
    rw [hs h1 h2] at e
    exact e

/-- Worked instance of amended C20: capacity 3, B1 = [2], B2 = [1, 0], frame
id 7. -/
theorem access_does_not_validate_frame_id_witness :
    Inv exTwoSegments [2] [1, 0] ∧ (∀ i ∈ [2] ++ [1, 0], i < 3) ∧ 3 ≤ 7 ∧
      [2].length + [1, 0].length < 8 ∧
      (∃ s2, StrategyAccessBuffer 8 exTwoSegments 7 false = .ok s2 ∧
        Inv s2 [7, 2] [1, 0] ∧
        s2.counter = (exTwoSegments.counter + 1) % UINT64_MOD ∧
        lastTouch s2 7 = s2.counter ∧ secondLastTouch s2 7 = 0) ∧
      StrategyAccessBuffer 8 exTwoSegments 7 true = .ok exTwoSegments.tick :=
  ⟨by decide, by decide, by decide, by decide,
    access_does_not_validate_frame_id 8 exTwoSegments [2] [1, 0] 3 7 (by decide) (by decide)
      (by decide) (by decide)⟩

/-! ## Frame conditions of the entry points -/

theorem SameFrames.onlyFrame {s s2 : State} (k : Nat) (h : SameFrames s s2) :
    OnlyFrame k s s2 :=
  ⟨h.firstFreeBuffer, h.lastFreeBuffer, h.freeNext, h.refcount, h.usagecount,
    fun i _ => h.frame_id i, fun i _ => h.time_array_0 i, fun i _ => h.time_array_1 i⟩

theorem OnlyFrame.un_tick {k : Nat} {s s2 : State} (h : OnlyFrame k s.tick s2) :
    OnlyFrame k s s2 :=
  ⟨h.firstFreeBuffer, h.lastFreeBuffer, h.freeNext, h.refcount, h.usagecount, h.frame_id,
    h.time_array_0, h.time_array_1⟩

theorem access_onlyFrame {fuel : Nat} {s s2 : State} {k : Nat} {d : Bool} {b1 b2 : List Nat}
    (h : StrategyAccessBuffer fuel s k d = .ok s2) (hinv : Inv s b1 b2) :
    OnlyFrame k s s2 := by
  have h2 := StrategyAccessBuffer_mono (Nat.le_max_left fuel (b1.length + b2.length + 1)) h
  have hF : b1.length + b2.length < max fuel (b1.length + b2.length + 1) := by
    have := Nat.le_max_right fuel (b1.length + b2.length + 1); omega
  cases d with
  | true =>
    obtain ⟨s3, e3, -, hs, -⟩ := purge_spec _ s b1 b2 k hinv hF
    rw [e3] at h2; cases h2
    exact (hs.onlyFrame k).un_tick
  | false =>
    by_cases hm : k ∈ b1 ∨ k ∈ b2
    · obtain ⟨s3, e3, -, -, -, -, ho⟩ := touch_member_spec _ s b1 b2 k hinv hm hF
      rw [e3] at h2; cases h2
      exact ho
    · obtain ⟨s3, e3, -, -, -, -, ho⟩ := touch_new_spec _ s b1 b2 k hinv
        (fun h => hm (Or.inl h)) (fun h => hm (Or.inr h)) hF
      rw [e3] at h2; cases h2
      exact ho

theorem Popped.refl_popped (s : State) : Popped s s := ⟨rfl, rfl, rfl, rfl, rfl, rfl, rfl⟩

theorem Popped.inv_popped {s s2 : State} {b1 b2 : List Nat} (h : Popped s s2) (hinv : Inv s b1 b2) :
    Inv s2 b1 b2 := by
  unfold Inv at hinv ⊢
  rw [h.mem, h.linkedListInfo, h.otherLinkedListInfo]
  exact hinv

/-- The free-list loop, whatever the shape of the free list: it changes only
`firstFreeBuffer` and `freeNext` before it either runs out of entries or
touches the usable entry it returns. -/
theorem freelist_loop_popped {fuel n : Nat} {s s2 : State} {o : Option Nat}
    (h : freelist_loop fuel n s = .ok (o, s2)) :
    ∃ s1, Popped s s1 ∧
      ((o = none ∧ s2 = s1 ∧ s1.firstFreeBuffer < 0) ∨
        ∃ b, o = some b ∧ Usable s b ∧ StrategyAccessBuffer fuel s1 b false = .ok s2) := by
  induction n generalizing s with
  | zero => cases h
  | succ n ih =>
    rw [freelist_loop] at h
    simp only [] at h
    split_ifs at h with h1 h2
    · cases h
      exact ⟨_, Popped.refl_popped _, Or.inl ⟨rfl, rfl, h1⟩⟩
    · split at h
      · cases h
      · rename_i s3 e3
        cases h
        refine ⟨_, ?_, Or.inr ⟨_, rfl, h2, e3⟩⟩
        exact ⟨rfl, rfl, rfl, rfl, rfl, rfl, rfl⟩
    · obtain ⟨s1, hp, hx⟩ := ih h
      refine ⟨s1, ⟨hp.mem, hp.linkedListInfo, hp.otherLinkedListInfo, hp.counter,
        hp.lastFreeBuffer, hp.refcount, hp.usagecount⟩, ?_⟩
      rcases hx with hx | ⟨b, hb, hu, hx⟩
      · exact Or.inl hx
      · exact Or.inr ⟨b, hb, hu, hx⟩

/-- What a successful `StrategyGetBuffer` leaves alone: the pin state and the
identity and timestamps of every frame but the returned one; the free list
too when the call found it empty. -/
theorem getBuffer_frame {fuel : Nat} {s s2 : State} {v : Nat} {b1 b2 : List Nat}
    (h : StrategyGetBuffer fuel s = .ok (.buf v, s2)) (hinv : Inv s b1 b2) :
    s2.refcount = s.refcount ∧ s2.usagecount = s.usagecount ∧
      s2.lastFreeBuffer = s.lastFreeBuffer ∧
      (∀ i, i ≠ v → (s2.mem (.main i)).frame_id = (s.mem (.main i)).frame_id ∧
        lastTouch s2 i = lastTouch s i ∧ secondLastTouch s2 i = secondLastTouch s i) ∧
      (s.firstFreeBuffer < 0 → OnlyFrame v s s2) := by
  have h2 := StrategyGetBuffer_mono (Nat.le_max_left fuel (b1.length + b2.length + 1)) h
  have hF : b1.length + b2.length < max fuel (b1.length + b2.length + 1) := by
    have := Nat.le_max_right fuel (b1.length + b2.length + 1); omega
  generalize max fuel (b1.length + b2.length + 1) = F at h2 hF
  have hinv2 : Inv s.tick b1 b2 := hinv
  have key : ∀ s1, Popped s.tick s1 → OnlyFrame v s1 s2 →
      s2.refcount = s.refcount ∧ s2.usagecount = s.usagecount ∧
      s2.lastFreeBuffer = s.lastFreeBuffer ∧
      (∀ i, i ≠ v → (s2.mem (.main i)).frame_id = (s.mem (.main i)).frame_id ∧
        lastTouch s2 i = lastTouch s i ∧ secondLastTouch s2 i = secondLastTouch s i) := by
    intro s1 hp ho
    refine ⟨ho.refcount.trans hp.refcount, ho.usagecount.trans hp.usagecount,
      ho.lastFreeBuffer.trans hp.lastFreeBuffer, fun i hi => ⟨?_, ?_, ?_⟩⟩
    · rw [ho.frame_id i hi, hp.mem]; rfl
    · unfold lastTouch; rw [ho.time_array_1 i hi, hp.mem]; rfl
    · unfold secondLastTouch; rw [ho.time_array_0 i hi, hp.mem]; rfl
  unfold StrategyGetBuffer at h2
  simp only [] at h2
  split_ifs at h2 with h0
  · have hnot : ¬ s.firstFreeBuffer < 0 := by
      have : 0 ≤ s.firstFreeBuffer := h0
      omega
    split at h2
    · cases h2
    · rename_i b t1 e1
      cases h2
      obtain ⟨s1, hp, ⟨ho, -⟩ | ⟨b3, ho, -, hx⟩⟩ := freelist_loop_popped e1
      · cases ho
      · cases ho
        have := key s1 hp (access_onlyFrame hx (hp.inv_popped hinv2))
        exact ⟨this.1, this.2.1, this.2.2.1, this.2.2.2, fun hc => absurd hc hnot⟩
    · rename_i t1 e1
      obtain ⟨s1, hp, ⟨-, rfl, -⟩ | ⟨b3, ho, -⟩⟩ := freelist_loop_popped e1
      · rcases scan_effect (hp.inv_popped hinv2) hF h2 with ⟨hn, -⟩ | ⟨v2, hv, -, -, -, hst⟩
        · cases hn
        · cases hv
          have := key _ hp hst.only
          exact ⟨this.1, this.2.1, this.2.2.1, this.2.2.2, fun hc => absurd hc hnot⟩
      · cases ho
  · rcases scan_effect hinv2 hF h2 with ⟨hn, -⟩ | ⟨v2, hv, -, -, -, hst⟩
    · cases hn
    · cases hv
      have := key _ (Popped.refl_popped _) hst.only
      exact ⟨this.1, this.2.1, this.2.2.1, this.2.2.2, fun _ => hst.only.un_tick⟩

/-! ## Claims about frame effects and about history across a purge -/

/-- C29: in every well-formed state, `touch f`, `purge f` and a
`StrategyGetBuffer` that returns `f` leave the pin state (reference and usage
counts) of every buffer and the identity and timestamps of every frame other
than `f` unchanged; touch, purge and a victim scan (free list empty) also
leave the free list unchanged (`OnlyFrame`), so that apart from `f` itself
only links, head/tail pointers and the counter can differ. -/
theorem operations_change_only_their_frame (fuel : Nat) (s : State) (b1 b2 : List Nat)
    (f : Nat) (hinv : Inv s b1 b2) (hfuel : b1.length + b2.length < fuel) :
    (∃ s2, StrategyAccessBuffer fuel s f false = .ok s2 ∧ OnlyFrame f s s2) ∧
    (∃ s2, StrategyAccessBuffer fuel s f true = .ok s2 ∧ OnlyFrame f s s2) ∧
    (∀ s2, StrategyGetBuffer fuel s = .ok (.buf f, s2) →
      s2.refcount = s.refcount ∧ s2.usagecount = s.usagecount ∧
      (∀ i, i ≠ f → lastTouch s2 i = lastTouch s i ∧
        secondLastTouch s2 i = secondLastTouch s i) ∧
      (s.firstFreeBuffer < 0 → OnlyFrame f s s2)) := by
  refine ⟨?_, ?_, ?_⟩
  · by_cases hm : f ∈ b1 ∨ f ∈ b2
    · obtain ⟨s2, e, -, -, -, -, ho⟩ := touch_member_spec fuel s b1 b2 f hinv hm hfuel
      exact ⟨s2, e, ho⟩
    · obtain ⟨s2, e, -, -, -, -, ho⟩ := touch_new_spec fuel s b1 b2 f hinv
        (fun h => hm (Or.inl h)) (fun h => hm (Or.inr h)) hfuel
      exact ⟨s2, e, ho⟩
  · obtain ⟨s2, e, -, hs, -⟩ := purge_spec fuel s b1 b2 f hinv hfuel
    exact ⟨s2, e, (hs.onlyFrame f).un_tick⟩
  · intro s2 e
    obtain ⟨h1, h2, -, h3, h4⟩ := getBuffer_frame e hinv
    exact ⟨h1, h2, fun i hi => (h3 i hi).2, h4⟩

/-- Worked instance of C29: B1 = [2], B2 = [1, 0], free list empty, frame 2
(the frame `StrategyGetBuffer` returns). -/
theorem operations_change_only_their_frame_witness :
    Inv exTwoSegments [2] [1, 0] ∧ [2].length + [1, 0].length < 8 ∧
      exTwoSegments.firstFreeBuffer < 0 ∧
      getResult (StrategyGetBuffer 8 exTwoSegments) = some (.buf 2) ∧
      ((∃ s2, StrategyAccessBuffer 8 exTwoSegments 2 false = .ok s2 ∧
          OnlyFrame 2 exTwoSegments s2) ∧
        (∃ s2, StrategyAccessBuffer 8 exTwoSegments 2 true = .ok s2 ∧
          OnlyFrame 2 exTwoSegments s2) ∧
        (∀ s2, StrategyGetBuffer 8 exTwoSegments = .ok (.buf 2, s2) →
          s2.refcount = exTwoSegments.refcount ∧ s2.usagecount = exTwoSegments.usagecount ∧
          (∀ i, i ≠ 2 → lastTouch s2 i = lastTouch exTwoSegments i ∧
            secondLastTouch s2 i = secondLastTouch exTwoSegments i) ∧
          (exTwoSegments.firstFreeBuffer < 0 → OnlyFrame 2 exTwoSegments s2))) :=
  ⟨by decide, by decide, by decide, by decide,
    operations_change_only_their_frame 8 exTwoSegments [2] [1, 0] 2 (by decide) (by decide)⟩

/-- C30: in every well-formed state (every reachable state is one), whatever
the segment and the timestamps of `f`, `purge f` followed by `touch f` leaves
`f` at the head of B1 and not in B2, with second-last access time 0 and last
access time equal to the counter, as for a frame that was never touched; the
other frames keep their segment and order. -/
theorem purge_then_touch_is_first_touch (fuel : Nat) (s : State) (b1 b2 : List Nat)
    (f : Nat) (hinv : Inv s b1 b2) (hfuel : b1.length + b2.length < fuel) :
    ∃ s2 s3, StrategyAccessBuffer fuel s f true = .ok s2 ∧
      StrategyAccessBuffer fuel s2 f false = .ok s3 ∧
      Inv s3 (f :: b1.erase f) (b2.erase f) ∧ f ∉ b2.erase f ∧
      secondLastTouch s3 f = 0 ∧ lastTouch s3 f = s3.counter := by
  obtain ⟨s2, e, hi, -, -⟩ := purge_spec fuel s b1 b2 f hinv hfuel
  have hl : (b1.erase f).length + (b2.erase f).length < fuel := by
    have h1 := List.length_erase_le f b1
    have h2 := List.length_erase_le f b2
    omega
  have h1 : f ∉ b1.erase f := fun h => (hinv.1.nodup.mem_erase_iff.1 h).1 rfl
  have h2 : f ∉ b2.erase f := fun h => (hinv.2.1.nodup.mem_erase_iff.1 h).1 rfl
  obtain ⟨s3, e3, hi3, -, hl3, hsl3, -⟩ := touch_new_spec fuel s2 _ _ f hi h1 h2 hl
  exact ⟨s2, s3, e, e3, hi3, h2, hsl3, hl3⟩

/-- Worked instance of C30: B1 = [2], B2 = [1, 0]; frame 1 is in B2 with
history (4, 7); after `purge 1; touch 1` it heads B1 with history (0, 10). -/
theorem purge_then_touch_is_first_touch_witness :
    Inv exTwoSegments [2] [1, 0] ∧ [2].length + [1, 0].length < 8 ∧
      (secondLastTouch exTwoSegments 1, lastTouch exTwoSegments 1) = (4, 7) ∧
      observe (StrategyAccessBuffer 8 (runAccess 8 [(1, true)] exTwoSegments) 1 false) 1 =
        some (10, 10, 0) ∧
      ∃ s2 s3, StrategyAccessBuffer 8 exTwoSegments 1 true = .ok s2 ∧
        StrategyAccessBuffer 8 s2 1 false = .ok s3 ∧
        Inv s3 [1, 2] [0] ∧ 1 ∉ [0] ∧
        secondLastTouch s3 1 = 0 ∧ lastTouch s3 1 = s3.counter :=
  ⟨by decide, by decide, by decide, by decide,
    purge_then_touch_is_first_touch 8 exTwoSegments [2] [1, 0] 1 (by decide) (by decide)⟩

/-! ## The victim is the oldest unpinned frame of its segment -/

theorem scan_position {fuel : Nat} {s s2 : State} {v : Nat} {b1 b2 : List Nat}
    (hinv : Inv s b1 b2) (hf : b1.length + b2.length < fuel)
    (h : scan_b1 fuel s fuel s.linkedListInfo.tail = .ok (.buf v, s2)) :
    (∃ l r, b1 = l ++ v :: r ∧ s.refcount v = 0 ∧ ∀ i ∈ r, s.refcount i ≠ 0) ∨
    ((∀ i ∈ b1, s.refcount i ≠ 0) ∧
      ∃ l r, b2 = l ++ v :: r ∧ s.refcount v = 0 ∧ ∀ i ∈ r, s.refcount i ≠ 0) := by
  by_cases hp1 : ∀ i ∈ b1, s.refcount i ≠ 0
  · rw [scan_b1_all_pinned fuel s b1 hinv.1 hp1 (by omega)] at h
    by_cases hp2 : ∀ i ∈ b2, s.refcount i ≠ 0
    · rw [scan_b2_all_pinned fuel s b2 hinv.2.1 hp2 (by omega)] at h
      cases h
    · have hp : ∃ i ∈ b2, s.refcount i = 0 := by
        by_contra hc
        exact hp2 (fun i hi h0 => hc ⟨i, hi, h0⟩)
      obtain ⟨l, w, r2, rfl, hv, hr⟩ := exists_last_unpinned s.refcount b2 hp
      obtain ⟨s3, e3, -, -⟩ := scan_b2_hit fuel s b1 l r2 w hinv hv hr hf
      rw [e3] at h; cases h
      exact Or.inr ⟨hp1, l, r2, rfl, hv, hr⟩
  · have hp : ∃ i ∈ b1, s.refcount i = 0 := by
      by_contra hc
      exact hp1 (fun i hi h0 => hc ⟨i, hi, h0⟩)
    obtain ⟨l, w, r2, rfl, hv, hr⟩ := exists_last_unpinned s.refcount b1 hp
    obtain ⟨s3, e3, -, -⟩ := scan_b1_hit fuel s b2 l r2 w hinv hv hr hf
    rw [e3] at h; cases h
    exact Or.inl ⟨l, r2, rfl, hv, hr⟩

/-- In a list ordered by `R`, the last element satisfying `unpinned` is
`R`-below every element satisfying it. -/
theorem last_unpinned_is_least {R : Nat → Nat → Prop} {l r : List Nat} {v : Nat}
    {rc : Nat → Nat} (hp : (l ++ v :: r).Pairwise R) (hr : ∀ i ∈ r, rc i ≠ 0)
    (x : Nat) (hx : x ∈ l ++ v :: r) (hx0 : rc x = 0) : x = v ∨ R x v := by
  rcases List.mem_append.1 hx with hl | hvr
  · exact Or.inr ((List.pairwise_append.1 hp).2.2 x hl v (List.mem_cons_self _ _))
  · rcases List.mem_cons.1 hvr with rfl | hxr
    · exact Or.inl rfl
    · exact absurd hx0 (hr x hxr)

theorem reachable_set_counter {s : State} (hr : Reachable s) (hinv : Inv s [] []) :
    ∀ c, s.counter ≤ c → c < UINT64_MOD → Reachable { s with counter := c }
  | 0, h0, _ => by
    have e : s.counter = 0 := by omega
    have : ({ s with counter := 0 } : State) = s := by
      cases s
      simp only at e
      subst e
      rfl
    rw [this]
    exact hr
  | c + 1, h0, h1 => by
    by_cases e : s.counter = c + 1
    · have : ({ s with counter := c + 1 } : State) = s := by
        cases s
        simp only at e
        subst e
        rfl
      rw [this]
      exact hr
    · have ih := reachable_set_counter hr hinv c (by omega) (by omega)
      have hinv2 : Inv { s with counter := c } [] [] := hinv
      obtain ⟨s2, e2, -, -, hs⟩ := purge_spec 1 { s with counter := c } [] [] 0 hinv2
        (by decide)
      rw [hs (by simp) (by simp)] at e2
      have e3 : ({ s with counter := c } : State).tick = { s with counter := c + 1 } := by
        unfold State.tick
        simp only [Nat.mod_eq_of_lt h1]
      rw [e3] at e2
      exact Reachable.access 1 0 true ih e2

theorem reachable_exEmptied : Reachable exEmptied :=
  Reachable.runAccess_all 8 _ reachable_exDrained

theorem reachable_exWrappedVictim : Reachable exWrappedVictim :=
  Reachable.runAccess_all 8 _
    (reachable_set_counter reachable_exEmptied (by decide) _ (by decide) (by decide))

/-- C27 fails as stated: the state `exWrappedVictim` is reachable, its free
list is empty and nothing is pinned; B1 = [1, 0] with last access times 0
(frame 1, stamped right after the counter wrapped) and `2 ^ 64 - 1`
(frame 0).  `StrategyGetBuffer` takes the tail, frame 0, although frame 1 is
an unpinned member of B1 with a smaller last access time. -/
theorem victim_after_wrap_is_not_oldest :
    Reachable exWrappedVictim ∧ exWrappedVictim.firstFreeBuffer < 0 ∧
      Inv exWrappedVictim [1, 0] [] ∧
      getResult (StrategyGetBuffer 8 exWrappedVictim) = some (.buf 0) ∧
      exWrappedVictim.refcount 1 = 0 ∧
      lastTouch exWrappedVictim 1 = 0 ∧ lastTouch exWrappedVictim 0 = UINT64_MOD - 1 ∧
      ¬ (∀ x ∈ [1, 0], exWrappedVictim.refcount x = 0 →
          lastTouch exWrappedVictim 0 ≤ lastTouch exWrappedVictim x) :=
  ⟨reachable_exWrappedVictim, by decide, by decide, by decide, by decide, by decide,
    by decide, by decide⟩

/-- C27 as amended: in every reachable state with the free list empty, when
`StrategyGetBuffer` returns `v`, then `v` was a member of B1 or of B2; if it
was taken from B2 it has the smallest second-last access time among the
unpinned members of B2; if it was taken from B1 and the counter has not
wrapped around, it has the smallest last access time among the unpinned
members of B1. -/
theorem victim_is_oldest_unpinned (fuel : Nat) (s s2 : State) (v : Nat)
    (hr : Reachable s) (hres : s.firstFreeBuffer < 0)
    (h : StrategyGetBuffer fuel s = .ok (.buf v, s2)) :
    ∃ b1 b2, Inv s b1 b2 ∧ (v ∈ b1 ∨ v ∈ b2) ∧ s.refcount v = 0 ∧
      (v ∈ b2 → ∀ x ∈ b2, s.refcount x = 0 → secondLastTouch s v ≤ secondLastTouch s x) ∧
      (v ∈ b1 → ReachableNoWrap s →
        ∀ x ∈ b1, s.refcount x = 0 → lastTouch s v ≤ lastTouch s x) := by
  obtain ⟨b1, b2, hinv, hrank⟩ := reachable_ranked hr
  have h2 := StrategyGetBuffer_mono (Nat.le_max_left fuel (b1.length + b2.length + 1)) h
  have hF : b1.length + b2.length < max fuel (b1.length + b2.length + 1) := by
    have := Nat.le_max_right fuel (b1.length + b2.length + 1); omega
  rw [getBuffer_eq_scan _ s hres] at h2
  have hinv2 : Inv s.tick b1 b2 := hinv
  have hpos := scan_position hinv2 hF h2
  have hrc : ∀ i, s.tick.refcount i = s.refcount i := fun _ => rfl
  refine ⟨b1, b2, hinv, ?_, ?_, ?_, ?_⟩
  · rcases hpos with ⟨l, r, e, -, -⟩ | ⟨-, l, r, e, -, -⟩
    · exact Or.inl (by rw [e]; simp)
    · exact Or.inr (by rw [e]; simp)
  · rcases hpos with ⟨l, r, -, e, -⟩ | ⟨-, l, r, -, e, -⟩
    · exact e
    · exact e
  · intro hv2 x hx hx0
    rcases hpos with ⟨l, r, e, -, -⟩ | ⟨-, l, r, e, -, hpin⟩
    · exact absurd hv2 (hinv.2.2 v (by rw [e]; simp))
    · subst e
      rcases last_unpinned_is_least hrank hpin x hx hx0 with rfl | hle
      · exact le_refl _
      · exact hle
  · intro hv1 hnw x hx hx0
    obtain ⟨c1, c2, hinv3, -, hrec, -⟩ := reachableNoWrap_timed hnw
    obtain ⟨e1, -⟩ := Inv_unique hinv3 hinv
    subst e1
    rcases hpos with ⟨l, r, e, -, hpin⟩ | ⟨-, l, r, e, -, -⟩
    · subst e
      rcases last_unpinned_is_least hrec hpin x hx hx0 with rfl | hlt
      · exact le_refl _
      · exact Nat.le_of_lt hlt
    · exact absurd (by rw [e]; simp) (hinv.2.2 v hv1)

theorem reachable_exPinnedTail : Reachable exPinnedTail :=
  Reachable.pins _ _ reachable_exDrained

theorem reachableNoWrap_exPinnedTail : ReachableNoWrap exPinnedTail :=
  ReachableNoWrap.pins _ _ reachableNoWrap_exDrained

theorem reachable_exInitFour : Reachable exInitFour := Reachable.init 4 exFreeNextFour _ _

theorem reachable_exDrainedFour : Reachable exDrainedFour :=
  (((reachable_exInitFour.getState_reachable 8).getState_reachable 8).getState_reachable
    8).getState_reachable 8

theorem reachable_exFourFrames : Reachable exFourFrames :=
  Reachable.runAccess_all 8 _ reachable_exDrainedFour

theorem reachable_exPinnedEnds : Reachable exPinnedEnds :=
  Reachable.pins _ _ reachable_exFourFrames

theorem reachableNoWrap_exInitFour : ReachableNoWrap exInitFour :=
  ReachableNoWrap.init 4 exFreeNextFour _ _

theorem reachableNoWrap_exDrainedFour : ReachableNoWrap exDrainedFour :=
  (((reachableNoWrap_exInitFour.getState_noWrap 8 (by decide)).getState_noWrap 8
    (by decide)).getState_noWrap 8 (by decide)).getState_noWrap 8 (by decide)

theorem reachableNoWrap_exFourFrames : ReachableNoWrap exFourFrames :=
  ((reachableNoWrap_exDrainedFour.okState_noWrap 8 2 false (by decide)).okState_noWrap 8 1
    false (by decide)).okState_noWrap 8 0 false (by decide)

theorem reachableNoWrap_exPinnedEnds : ReachableNoWrap exPinnedEnds :=
  ReachableNoWrap.pins _ _ reachableNoWrap_exFourFrames

/-- Worked instance of amended C27, on two states that are reachable without
a wrap of the counter and have an empty free list.  In `exPinnedTail`
B1 = [2, 1, 0] with last access times 6, 4, 2 and only frame 0 is pinned: the
call returns frame 1, whose last access time 4 is the smallest among the
unpinned members 2 and 1 (the pinned frame 0 has a smaller one).  In
`exPinnedEnds` B1 = [3] is pinned, B2 = [2, 1, 0] with second-last access
times 6, 4, 2 and frame 0 is pinned: the call returns frame 1 of B2, whose
second-last access time 4 is the smallest among the unpinned members 2 and 1. -/
theorem victim_is_oldest_unpinned_witness :
    (Reachable exPinnedTail ∧ ReachableNoWrap exPinnedTail ∧
      exPinnedTail.firstFreeBuffer < 0 ∧ Inv exPinnedTail [2, 1, 0] [] ∧
      StrategyGetBuffer 8 exPinnedTail =
        .ok (.buf 1, getState (StrategyGetBuffer 8 exPinnedTail) exPinnedTail) ∧
      exPinnedTail.refcount 2 = 0 ∧ exPinnedTail.refcount 1 = 0 ∧
      exPinnedTail.refcount 0 ≠ 0 ∧
      lastTouch exPinnedTail 2 = 6 ∧ lastTouch exPinnedTail 1 = 4 ∧
      lastTouch exPinnedTail 0 = 2 ∧
      (∀ x ∈ [2, 1, 0], exPinnedTail.refcount x = 0 →
        lastTouch exPinnedTail 1 ≤ lastTouch exPinnedTail x)) ∧
    (Reachable exPinnedEnds ∧ ReachableNoWrap exPinnedEnds ∧
      exPinnedEnds.firstFreeBuffer < 0 ∧ Inv exPinnedEnds [3] [2, 1, 0] ∧
      StrategyGetBuffer 8 exPinnedEnds =
        .ok (.buf 1, getState (StrategyGetBuffer 8 exPinnedEnds) exPinnedEnds) ∧
      exPinnedEnds.refcount 3 ≠ 0 ∧ exPinnedEnds.refcount 2 = 0 ∧
      exPinnedEnds.refcount 1 = 0 ∧ exPinnedEnds.refcount 0 ≠ 0 ∧
      secondLastTouch exPinnedEnds 2 = 6 ∧ secondLastTouch exPinnedEnds 1 = 4 ∧
      secondLastTouch exPinnedEnds 0 = 2 ∧
      (∀ x ∈ [2, 1, 0], exPinnedEnds.refcount x = 0 →
        secondLastTouch exPinnedEnds 1 ≤ secondLastTouch exPinnedEnds x)) := by
  refine ⟨⟨reachable_exPinnedTail, reachableNoWrap_exPinnedTail, by decide, by decide, rfl,
    by decide, by decide, by decide, by decide, by decide, by decide, ?_⟩,
    ⟨reachable_exPinnedEnds, reachableNoWrap_exPinnedEnds, by decide, by decide, rfl,
    by decide, by decide, by decide, by decide, by decide, by decide, by decide, ?_⟩⟩
  · obtain ⟨b1, b2, hinv, -, -, -, h1⟩ :=
      victim_is_oldest_unpinned 8 exPinnedTail _ 1 reachable_exPinnedTail (by decide)
        (rfl : StrategyGetBuffer 8 exPinnedTail =
          .ok (.buf 1, getState (StrategyGetBuffer 8 exPinnedTail) exPinnedTail))
    obtain ⟨e1, -⟩ := Inv_unique hinv (by decide : Inv exPinnedTail [2, 1, 0] [])
    subst e1
    exact h1 (by decide) reachableNoWrap_exPinnedTail
  · obtain ⟨b1, b2, hinv, -, -, h2, -⟩ :=
      victim_is_oldest_unpinned 8 exPinnedEnds _ 1 reachable_exPinnedEnds (by decide)
        (rfl : StrategyGetBuffer 8 exPinnedEnds =
          .ok (.buf 1, getState (StrategyGetBuffer 8 exPinnedEnds) exPinnedEnds))
    obtain ⟨-, e2⟩ := Inv_unique hinv (by decide : Inv exPinnedEnds [3] [2, 1, 0])
    subst e2
    exact h2 (by decide)

/-! ## The free-list path of `StrategyGetBuffer` -/

theorem FreeList_congr {fn fn2 : Nat → Int} :
    ∀ (fl : List Nat) (p : Int), (∀ x ∈ fl, fn2 x = fn x) → FreeList fn p fl →
      FreeList fn2 p fl
  | [], _, _, h => h
  | b :: bs, p, hc, h => by
    obtain ⟨h1, h2⟩ := h
    refine ⟨h1, ?_⟩
    rw [hc b (List.mem_cons_self _ _)]
    exact FreeList_congr bs _ (fun x hx => hc x (List.mem_cons_of_mem _ hx)) h2

theorem popAll_nil (s : State) : popAll s [] s.firstFreeBuffer = s := by
  cases s
  simp [popAll]

theorem popAll_step (t : State) (a : Nat) (pre : List Nat) (q : Int) :
    popAll { t with firstFreeBuffer := t.freeNext a,
                    freeNext := Function.update t.freeNext a FREENEXT_NOT_IN_LIST } pre q =
      popAll t (a :: pre) q := by
  unfold popAll
  congr 1
  funext x
  by_cases hx : x = a
  · subst hx
    simp
  · simp [hx, Function.update_noteq hx]

theorem popAll_snoc (t : State) (pre : List Nat) (b : Nat) (q : Int) :
    ({ popAll t pre q with
        firstFreeBuffer := (popAll t pre q).freeNext b,
        freeNext := Function.update (popAll t pre q).freeNext b FREENEXT_NOT_IN_LIST } :
        State) =
      popAll t (pre ++ [b]) ((popAll t pre q).freeNext b) := by
  simp only [popAll, State.mk.injEq, true_and, and_true]
  funext x
  by_cases hx : x = b
  · subst hx
    simp
  · simp [hx, Function.update_noteq hx]

/-- The free-list loop pops a prefix of unusable entries without looking at
anything else. -/
theorem freelist_loop_skips (fuel : Nat) :
    ∀ (pre : List Nat) (n : Nat) (t : State) (rest : List Nat),
      FreeList t.freeNext t.firstFreeBuffer (pre ++ rest) → (pre ++ rest).Nodup →
      (∀ x ∈ pre, ¬ Usable t x) →
      ∃ q, FreeList t.freeNext q rest ∧
        freelist_loop fuel (n + pre.length) t = freelist_loop fuel n (popAll t pre q)
  | [], n, t, rest, hfl, _, _ => ⟨t.firstFreeBuffer, hfl, by rw [popAll_nil]; rfl⟩
  | a :: pre, n, t, rest, hfl, hnd, hpre => by
    obtain ⟨h1, h2⟩ := hfl
    obtain ⟨ha, hnd2⟩ := List.nodup_cons.1 hnd
    have hupd : ∀ x ∈ pre ++ rest,
        Function.update t.freeNext a FREENEXT_NOT_IN_LIST x = t.freeNext x := by
      intro x hx
      exact Function.update_noteq (fun e => ha (by rw [e] at hx; exact hx)) _ _
    obtain ⟨q, hq, e⟩ := freelist_loop_skips fuel pre n
      { t with firstFreeBuffer := t.freeNext a,
               freeNext := Function.update t.freeNext a FREENEXT_NOT_IN_LIST } rest
      (FreeList_congr _ _ hupd h2) hnd2
      (fun x hx => hpre x (List.mem_cons_of_mem _ hx))
    refine ⟨q, FreeList_congr _ _ (fun x hx => (hupd x (List.mem_append_right _ hx)).symm) hq, ?_⟩
    have hlen : n + (a :: pre).length = (n + pre.length) + 1 := by
      simp only [List.length_cons]; omega
    rw [hlen, freelist_loop]
    have hnn : ¬ t.firstFreeBuffer < 0 := by rw [h1]; omega
    have hto : t.firstFreeBuffer.toNat = a := by rw [h1]; simp
    have hnu : ¬ (t.refcount a = 0 ∧ t.usagecount a = 0) := hpre a (List.mem_cons_self _ _)
    simp only [hnn, if_false, hto, hnu]
    rw [e, popAll_step]

theorem FreeList_popAll {t : State} {pre rest : List Nat} {q : Int}
    (hd : ∀ x ∈ rest, x ∉ pre) (h : FreeList t.freeNext q rest) :
    FreeList (popAll t pre q).freeNext (popAll t pre q).firstFreeBuffer rest := by
  refine FreeList_congr rest q ?_ h
  intro x hx
  show (if x ∈ pre then FREENEXT_NOT_IN_LIST else t.freeNext x) = t.freeNext x
  rw [if_neg (hd x hx)]

/-- The free-list loop on a list whose first usable entry is `b`. -/
theorem freelist_loop_hit (fuel n : Nat) (t : State) (pre post : List Nat) (b : Nat)
    (hfl : FreeList t.freeNext t.firstFreeBuffer (pre ++ b :: post))
    (hnd : (pre ++ b :: post).Nodup) (hpre : ∀ x ∈ pre, ¬ Usable t x) (hb : Usable t b) :
    freelist_loop fuel (n + 1 + pre.length) t =
      (match StrategyAccessBuffer fuel (popAll t (pre ++ [b]) (t.freeNext b)) b false with
        | .error e => .error e
        | .ok s2 => .ok (some b, s2)) := by
  obtain ⟨q, hq, e⟩ := freelist_loop_skips fuel pre (n + 1) t (b :: post) hfl hnd hpre
  have hbpre : b ∉ pre := fun hm =>
    (List.nodup_append.1 hnd).2.2 hm (List.mem_cons_self _ _)
  have hfb : (popAll t pre q).freeNext b = t.freeNext b := by
    show (if b ∈ pre then FREENEXT_NOT_IN_LIST else t.freeNext b) = t.freeNext b
    rw [if_neg hbpre]
  rw [e, freelist_loop]
  have h1 : (popAll t pre q).firstFreeBuffer = (b : Int) := hq.1
  have hnn : ¬ (popAll t pre q).firstFreeBuffer < 0 := by rw [h1]; omega
  have hto : (popAll t pre q).firstFreeBuffer.toNat = b := by rw [h1]; simp
  have hu : (popAll t pre q).refcount b = 0 ∧ (popAll t pre q).usagecount b = 0 := hb
  simp only [hnn, if_false, hto, hu, and_self, if_true]
  rw [popAll_snoc, hfb]

/-- The free-list loop on a list without usable entry empties it. -/
theorem freelist_loop_exhaust (fuel n : Nat) (t : State) (fl : List Nat)
    (hfl : FreeList t.freeNext t.firstFreeBuffer fl) (hnd : fl.Nodup)
    (hpre : ∀ x ∈ fl, ¬ Usable t x) :
    ∃ q, q < 0 ∧ freelist_loop fuel (n + 1 + fl.length) t = .ok (none, popAll t fl q) := by
  obtain ⟨q, hq, e⟩ := freelist_loop_skips fuel fl (n + 1) t []
    (by rw [List.append_nil]; exact hfl) (by rw [List.append_nil]; exact hnd) hpre
  refine ⟨q, hq, ?_⟩
  rw [e, freelist_loop]
  have : (popAll t fl q).firstFreeBuffer < 0 := hq
  simp only [this, if_true]

theorem FreeList_append_tail {fn : Nat → Int} {b : Nat} {post : List Nat} :
    ∀ (pre : List Nat) (p : Int), FreeList fn p (pre ++ b :: post) → FreeList fn (fn b) post
  | [], _, h => h.2
  | _ :: pre, _, h => FreeList_append_tail pre _ h.2

theorem FreeList_nonneg {fn : Nat → Int} {p : Int} {x : Nat} {xs : List Nat}
    (h : FreeList fn p (x :: xs)) : 0 ≤ p := by
  rw [h.1]
  omega

theorem touch_returns (fuel : Nat) (s : State) (b1 b2 : List Nat) (k : Nat)
    (hinv : Inv s b1 b2) (hf : b1.length + b2.length < fuel) :
    ∃ s2, StrategyAccessBuffer fuel s k false = .ok s2 ∧ OnlyFrame k s s2 ∧
      (k ∉ b1 → k ∉ b2 → Inv s2 (k :: b1) b2) := by
  by_cases hm : k ∈ b1 ∨ k ∈ b2
  · obtain ⟨s2, e, -, -, -, -, ho⟩ := touch_member_spec fuel s b1 b2 k hinv hm hf
    exact ⟨s2, e, ho, fun h1 h2 => absurd hm (fun h => h.elim h1 h2)⟩
  · obtain ⟨s2, e, hi, -, -, -, ho⟩ := touch_new_spec fuel s b1 b2 k hinv
      (fun h => hm (Or.inl h)) (fun h => hm (Or.inr h)) hf
    exact ⟨s2, e, ho, fun _ _ => hi⟩

/-- `StrategyGetBuffer` on a free list whose first usable entry is `b`. -/
theorem getBuffer_free_hit (fuel : Nat) (s : State) (b1 b2 pre post : List Nat) (b : Nat)
    (hinv : Inv s b1 b2) (hfuel : b1.length + b2.length < fuel)
    (hfl : FreeList s.freeNext s.firstFreeBuffer (pre ++ b :: post))
    (hnd : (pre ++ b :: post).Nodup) (hpre : ∀ x ∈ pre, ¬ Usable s x) (hb : Usable s b)
    (hlen : pre.length < fuel) :
    ∃ s2, StrategyGetBuffer fuel s = .ok (.buf b, s2) ∧
      StrategyAccessBuffer fuel (popAll s.tick (pre ++ [b]) (s.freeNext b)) b false = .ok s2 ∧
      FreeList s2.freeNext s2.firstFreeBuffer post ∧
      (∀ x ∈ pre ++ [b], s2.freeNext x = FREENEXT_NOT_IN_LIST) ∧
      (b ∉ b1 → b ∉ b2 → Inv s2 (b :: b1) b2) := by
  have hinv1 : Inv (popAll s.tick (pre ++ [b]) (s.freeNext b)) b1 b2 := hinv
  obtain ⟨s2, e, ho, hnew⟩ := touch_returns fuel _ b1 b2 b hinv1 hfuel
  have h0 : 0 ≤ s.tick.firstFreeBuffer := by
    show 0 ≤ s.firstFreeBuffer
    cases pre with
    | nil => exact FreeList_nonneg hfl
    | cons a pre => exact FreeList_nonneg hfl
  obtain ⟨n, hn⟩ : ∃ n, fuel = n + 1 + pre.length := ⟨fuel - 1 - pre.length, by omega⟩
  have hloop : freelist_loop fuel (n + 1 + pre.length) s.tick =
      (match StrategyAccessBuffer fuel (popAll s.tick (pre ++ [b]) (s.freeNext b)) b false with
        | .error e => .error e
        | .ok s2 => .ok (some b, s2)) :=
    freelist_loop_hit fuel n s.tick pre post b hfl hnd hpre hb
  rw [← hn, e] at hloop
  refine ⟨s2, ?_, e, ?_, ?_, hnew⟩
  · unfold StrategyGetBuffer
    simp only [h0, if_true, hloop]
  · rw [ho.freeNext, ho.firstFreeBuffer]
    refine FreeList_popAll ?_ (FreeList_append_tail pre _ hfl)
    intro x hx hm
    have h1 := (List.nodup_append.1 hnd)
    rcases List.mem_append.1 hm with hm | hm
    · exact h1.2.2 hm (List.mem_cons_of_mem _ hx)
    · have : x = b := by simpa using hm
      subst this
      exact (List.nodup_cons.1 h1.2.1).1 hx
  · intro x hx
    rw [ho.freeNext]
    show (if x ∈ pre ++ [b] then FREENEXT_NOT_IN_LIST else s.freeNext x) = _
    rw [if_pos hx]

/-- `StrategyGetBuffer` on a free list without usable entry: the list is
emptied and the victim scan runs. -/
theorem getBuffer_free_exhaust (fuel : Nat) (s : State) (fl : List Nat)
    (hfl : FreeList s.freeNext s.firstFreeBuffer fl) (hnd : fl.Nodup)
    (hpre : ∀ x ∈ fl, ¬ Usable s x) (hlen : fl.length < fuel) :
    ∃ q, q < 0 ∧ StrategyGetBuffer fuel s =
      scan_b1 fuel (popAll s.tick fl q) fuel (popAll s.tick fl q).linkedListInfo.tail := by
  cases fl with
  | nil =>
    have hneg : s.firstFreeBuffer < 0 := hfl
    refine ⟨s.firstFreeBuffer, hneg, ?_⟩
    have e : popAll s.tick [] s.firstFreeBuffer = s.tick := popAll_nil s.tick
    rw [e]
    exact getBuffer_eq_scan fuel s hneg
  | cons a fl =>
    have h0 : 0 ≤ s.tick.firstFreeBuffer := FreeList_nonneg hfl
    obtain ⟨n, hn⟩ : ∃ n, fuel = n + 1 + (a :: fl).length :=
      ⟨fuel - 1 - (a :: fl).length, by omega⟩
    obtain ⟨q, hq, hloop⟩ := freelist_loop_exhaust fuel n s.tick (a :: fl) hfl hnd hpre
    rw [← hn] at hloop
    refine ⟨q, hq, ?_⟩
    unfold StrategyGetBuffer
    simp only [h0, if_true, hloop]

/-- C21 fails as stated: with the free list 0, 1, 2 and buffer 0 unpinned
(reference count 0) but with usage count 1, `StrategyGetBuffer` does not
return buffer 0, the first unpinned entry: the validation also requires a zero
usage count, so buffer 0 is popped and dropped and buffer 1 is returned. -/
theorem getBuffer_skips_unpinned_entry_in_use :
    FreeList exUsed.freeNext exUsed.firstFreeBuffer [0, 1, 2] ∧
      exUsed.refcount 0 = 0 ∧ exUsed.usagecount 0 = 1 ∧
      getResult (StrategyGetBuffer 8 exUsed) = some (.buf 1) ∧
      (getState (StrategyGetBuffer 8 exUsed) exUsed).freeNext 0 = FREENEXT_NOT_IN_LIST := by
  decide

/-- C21 as amended: let the free list be `fl` (no entry twice) in a
well-formed state.  If `b` is its first entry with reference count 0 and
usage count 0, `StrategyGetBuffer` returns `b`; the state it leaves is the one
`touch b` produces from the state in which the counter was incremented and
`b` and the entries in front of it were taken off the free list (no victim
scan takes place); the free list is then what followed `b`, every popped
entry is marked `FREENEXT_NOT_IN_LIST`, and a `b` that was in neither segment
is the head of B1.  If no entry passes the validation, the call is the
victim scan on the state with the counter incremented and the free list
emptied. -/
theorem getBuffer_takes_first_usable_free_entry (fuel : Nat) (s : State)
    (b1 b2 fl : List Nat) (hinv : Inv s b1 b2) (hfuel : b1.length + b2.length < fuel)
    (hfl : FreeList s.freeNext s.firstFreeBuffer fl) (hnd : fl.Nodup)
    (hlen : fl.length < fuel) :
    (∀ pre b post, fl = pre ++ b :: post → (∀ x ∈ pre, ¬ Usable s x) → Usable s b →
      ∃ s2, StrategyGetBuffer fuel s = .ok (.buf b, s2) ∧
        StrategyAccessBuffer fuel (popAll s.tick (pre ++ [b]) (s.freeNext b)) b false =
          .ok s2 ∧
        FreeList s2.freeNext s2.firstFreeBuffer post ∧
        (∀ x ∈ pre ++ [b], s2.freeNext x = FREENEXT_NOT_IN_LIST) ∧
        (b ∉ b1 → b ∉ b2 → Inv s2 (b :: b1) b2)) ∧
    ((∀ x ∈ fl, ¬ Usable s x) →
      ∃ q, q < 0 ∧ StrategyGetBuffer fuel s =
        scan_b1 fuel (popAll s.tick fl q) fuel (popAll s.tick fl q).linkedListInfo.tail) := by
  constructor
  · rintro pre b post rfl hpre hb
    refine getBuffer_free_hit fuel s b1 b2 pre post b hinv hfuel hfl hnd hpre hb ?_
    simp only [List.length_append, List.length_cons] at hlen
    omega
  · intro hpre
    exact getBuffer_free_exhaust fuel s fl hfl hnd hpre hlen

/-- Worked instance of amended C21: free list 0, 1, 2 with buffer 0 in use;
the call pops 0 and 1, returns 1 and leaves the free list [2] and B1 = [1]. -/
theorem getBuffer_takes_first_usable_free_entry_witness :
    Inv exUsed [] [] ∧ ([] : List Nat).length + ([] : List Nat).length < 8 ∧
      FreeList exUsed.freeNext exUsed.firstFreeBuffer [0, 1, 2] ∧ [0, 1, 2].Nodup ∧
      [0, 1, 2].length < 8 ∧ (∀ x ∈ [0], ¬ Usable exUsed x) ∧ Usable exUsed 1 ∧
      ∃ s2, StrategyGetBuffer 8 exUsed = .ok (.buf 1, s2) ∧
        StrategyAccessBuffer 8 (popAll exUsed.tick ([0] ++ [1]) (exUsed.freeNext 1)) 1 false =
          .ok s2 ∧
        FreeList s2.freeNext s2.firstFreeBuffer [2] ∧
        (∀ x ∈ [0] ++ [1], s2.freeNext x = FREENEXT_NOT_IN_LIST) ∧
        (1 ∉ ([] : List Nat) → 1 ∉ ([] : List Nat) → Inv s2 [1] []) :=
  ⟨by decide, by decide, by decide, by decide, by decide, by decide, by decide,
    (getBuffer_takes_first_usable_free_entry 8 exUsed [] [] [0, 1, 2] (by decide) (by decide)
      (by decide) (by decide) (by decide)).1 [0] 1 [2] rfl (by decide) (by decide)⟩

end Elru

namespace Lru

/-! ## Linked lists: basic facts -/

@[simp] theorem lru_firstOr_nil (q : Option Nat) : firstOr [] q = q := rfl

@[simp] theorem lru_firstOr_cons (y : Nat) (l : List Nat) (q : Option Nat) :
    firstOr (y :: l) q = some y := rfl

@[simp] theorem lru_lastOr_nil (p : Option Nat) : lastOr [] p = p := rfl

@[simp] theorem lru_lastOr_cons (y : Nat) (l : List Nat) (p : Option Nat) :
    lastOr (y :: l) p = lastOr l (some y) := rfl

theorem lru_firstOr_append (l r : List Nat) (q : Option Nat) :
    firstOr (l ++ r) q = firstOr l (firstOr r q) := by
  cases l <;> rfl

theorem lru_lastOr_append (l r : List Nat) (p : Option Nat) :
    lastOr (l ++ r) p = lastOr r (lastOr l p) := by
  induction l generalizing p with
  | nil => rfl
  | cons x l ih => simpa [lastOr] using ih (some x)

theorem lru_lastOr_concat (l : List Nat) (a : Nat) (p : Option Nat) :
    lastOr (l ++ [a]) p = some a := by
  rw [lru_lastOr_append]; rfl

theorem lru_lastOr_cons_ne_none (x : Nat) (l : List Nat) (p : Option Nat) :
    ∃ a, lastOr (x :: l) p = some a ∧ a ∈ x :: l := by
  induction l generalizing x p with
  | nil => exact ⟨x, rfl, by simp⟩
  | cons y l ih =>
    obtain ⟨a, h1, h2⟩ := ih y (some x)
    exact ⟨a, by simpa [lastOr] using h1, List.mem_cons_of_mem _ h2⟩

theorem lru_Seg_append (mem : Nat → Node) (l r : List Nat) (p q : Option Nat) :
    Seg mem p (l ++ r) q ↔ Seg mem p l (firstOr r q) ∧ Seg mem (lastOr l p) r q := by
  induction l generalizing p with
  | nil => simp [Seg, lastOr]
  | cons x l ih =>
    show ((mem x).prev = p ∧ (mem x).next = firstOr (l ++ r) q ∧ Seg mem (some x) (l ++ r) q) ↔
      ((mem x).prev = p ∧ (mem x).next = firstOr l (firstOr r q) ∧
        Seg mem (some x) l (firstOr r q)) ∧ Seg mem (lastOr l (some x)) r q
    rw [lru_firstOr_append, ih (some x)]
    tauto

/-- A segment only depends on the `prev` and `next` fields of its nodes. -/
theorem lru_Seg_congr {mem mem2 : Nat → Node} {xs : List Nat} {p q : Option Nat}
    (h : Seg mem p xs q)
    (hc : ∀ x ∈ xs, (mem2 x).prev = (mem x).prev ∧ (mem2 x).next = (mem x).next) :
    Seg mem2 p xs q := by
  induction xs generalizing p with
  | nil => trivial
  | cons x xs ih =>
    obtain ⟨h1, h2, h3⟩ := h
    refine ⟨?_, ?_, ih h3 (fun y hy => hc y (List.mem_cons_of_mem _ hy))⟩
    · rw [(hc x (by simp)).1, h1]
    · rw [(hc x (by simp)).2, h2]

/-- Re-point the `next` of the last node of a segment. -/
theorem lru_Seg_concat_relink {mem mem2 : Nat → Node} {l : List Nat} {a : Nat}
    {p q q2 : Option Nat} (h : Seg mem p (l ++ [a]) q)
    (hc : ∀ x ∈ l, (mem2 x).prev = (mem x).prev ∧ (mem2 x).next = (mem x).next)
    (ha : (mem2 a).prev = (mem a).prev) (hn : (mem2 a).next = q2) :
    Seg mem2 p (l ++ [a]) q2 := by
  rw [lru_Seg_append] at h ⊢
  refine ⟨lru_Seg_congr h.1 hc, ?_⟩
  have h2 := h.2
  simp only [Seg, firstOr, and_true] at h2 ⊢
  exact ⟨by rw [ha, h2.1], hn⟩

/-- Re-point the `prev` of the first node of a segment. -/
theorem lru_Seg_cons_relink {mem mem2 : Nat → Node} {r : List Nat} {b : Nat}
    {p p2 q : Option Nat} (h : Seg mem p (b :: r) q)
    (hc : ∀ x ∈ r, (mem2 x).prev = (mem x).prev ∧ (mem2 x).next = (mem x).next)
    (hb : (mem2 b).next = (mem b).next) (hp : (mem2 b).prev = p2) :
    Seg mem2 p2 (b :: r) q := by
  obtain ⟨_, h2, h3⟩ := h
  exact ⟨hp, by rw [hb, h2], lru_Seg_congr h3 hc⟩

theorem lru_firstOr_mem {r : List Nat} {y : Nat} (h : firstOr r none = some y) : y ∈ r := by
  cases r with
  | nil => simp [firstOr] at h
  | cons b r => simp only [firstOr, Option.some.injEq] at h; simp [h]

theorem lru_lastOr_mem {l : List Nat} {y : Nat} (h : lastOr l none = some y) : y ∈ l := by
  cases l with
  | nil => simp [lastOr] at h
  | cons b l =>
    obtain ⟨a, h1, h2⟩ := lru_lastOr_cons_ne_none b l none
    rw [h1] at h
    cases h
    exact h2

/-- Removing the node `x` from a well-linked list: it is enough that the
neighbours of `x` are linked to each other and all other links are kept. -/
theorem lru_Seg_unlink {mem mem2 : Nat → Node} {l r : List Nat} {x : Nat}
    (hnd : (l ++ x :: r).Nodup) (h : Seg mem none (l ++ x :: r) none)
    (h1 : ∀ y, y ≠ x → lastOr l none ≠ some y → (mem2 y).next = (mem y).next)
    (h2 : ∀ y, lastOr l none = some y → (mem2 y).next = firstOr r none)
    (h3 : ∀ y, y ≠ x → firstOr r none ≠ some y → (mem2 y).prev = (mem y).prev)
    (h4 : ∀ y, firstOr r none = some y → (mem2 y).prev = lastOr l none) :
    Seg mem2 none (l ++ r) none := by
  have hdisj : ∀ y, y ∈ l → y ∈ r → False := by
    intro y hl hr
    rw [List.nodup_append] at hnd
    exact hnd.2.2 hl (List.mem_cons_of_mem _ hr)
  have hxl : ∀ y, y ∈ l → y ≠ x := by
    intro y hl e
    rw [List.nodup_append] at hnd
    exact hnd.2.2 hl (by simp [e])
  have hxr : ∀ y, y ∈ r → y ≠ x := by
    intro y hr e
    have := (List.nodup_append.1 hnd).2.1
    simp only [List.nodup_cons] at this
    exact this.1 (e ▸ hr)
  rw [lru_Seg_append] at h
  obtain ⟨hl, hx⟩ := h
  rw [lru_Seg_append]
  constructor
  · rcases Elru.eq_nil_or_snoc l with rfl | ⟨l0, a, rfl⟩
    · trivial
    · have hnd0 : (l0 ++ [a]).Nodup := (List.nodup_append.1 hnd).1
      have ha0 : a ∉ l0 := by
        intro hm
        rw [List.nodup_append] at hnd0
        exact hnd0.2.2 hm (by simp)
      have hlast : lastOr (l0 ++ [a]) none = some a := lru_lastOr_concat _ _ _
      have har : a ∉ r := fun hm => hdisj a (by simp) hm
      refine lru_Seg_concat_relink hl ?_ ?_ ?_
      · intro y hy
        have hya : y ≠ a := fun e => ha0 (e ▸ hy)
        have hyr : y ∉ r := fun hm => hdisj y (by simp [hy]) hm
        constructor
        · exact h3 y (hxl y (by simp [hy])) (fun e => hyr (lru_firstOr_mem e))
        · exact h1 y (hxl y (by simp [hy])) (by rw [hlast]; simpa using hya.symm)
      · exact h3 a (hxl a (by simp)) (fun e => har (lru_firstOr_mem e))
      · exact h2 a hlast
  · cases r with
    | nil => trivial
    | cons b r0 =>
      have hb : b ∉ r0 := by
        have := (List.nodup_append.1 hnd).2.1
        simp only [List.nodup_cons] at this
        exact this.2.1
      have hbl : b ∉ l := fun hm => hdisj b hm (by simp)
      obtain ⟨_, _, hr⟩ := hx
      refine lru_Seg_cons_relink hr ?_ ?_ ?_
      · intro y hy
        have hyb : y ≠ b := fun e => hb (e ▸ hy)
        have hyl : y ∉ l := fun hm => hdisj y hm (by simp [hy])
        constructor
        · exact h3 y (hxr y (by simp [hy])) (by simpa [firstOr] using hyb.symm)
        · exact h1 y (hxr y (by simp [hy])) (fun e => hyl (lru_lastOr_mem e))
      · exact h1 b (hxr b (by simp)) (fun e => hbl (lru_lastOr_mem e))
      · exact h4 b rfl

theorem lru_firstOr_append_ne_nil {l : List Nat} (hl : l ≠ []) (r : List Nat) (q : Option Nat) :
    firstOr (l ++ r) q = firstOr l none := by
  cases l with
  | nil => exact absurd rfl hl
  | cons a l => rfl

theorem lru_lastOr_append_cons (l : List Nat) (b : Nat) (r : List Nat) (p : Option Nat) :
    lastOr (l ++ b :: r) p = lastOr (b :: r) none := by
  rw [lru_lastOr_append]; rfl

theorem lru_lastOr_ne_nil {l : List Nat} (hl : l ≠ []) (p : Option Nat) :
    lastOr l p = lastOr l none := by
  cases l with
  | nil => exact absurd rfl hl
  | cons a l => rfl

@[simp] theorem lru_mem_setHead (s : State) (v : Option Nat) : (s.setHead v).mem = s.mem := rfl

@[simp] theorem lru_mem_setTail (s : State) (v : Option Nat) : (s.setTail v).mem = s.mem := rfl

@[simp] theorem lru_head_setHead (s : State) (v : Option Nat) : (s.setHead v).head = v := rfl

@[simp] theorem lru_tail_setHead (s : State) (v : Option Nat) :
    (s.setHead v).tail = s.tail := rfl

@[simp] theorem lru_head_setTail (s : State) (v : Option Nat) :
    (s.setTail v).head = s.head := rfl

@[simp] theorem lru_tail_setTail (s : State) (v : Option Nat) : (s.setTail v).tail = v := rfl

@[simp] theorem lru_head_setPrev (s : State) (p : Nat) (v : Option Nat) :
    (s.setPrev p v).head = s.head := rfl

@[simp] theorem lru_tail_setPrev (s : State) (p : Nat) (v : Option Nat) :
    (s.setPrev p v).tail = s.tail := rfl

@[simp] theorem lru_head_setNext (s : State) (p : Nat) (v : Option Nat) :
    (s.setNext p v).head = s.head := rfl

@[simp] theorem lru_tail_setNext (s : State) (p : Nat) (v : Option Nat) :
    (s.setNext p v).tail = s.tail := rfl

@[simp] theorem lru_head_setFrameId (s : State) (p : Nat) (v : Int) :
    (s.setFrameId p v).head = s.head := rfl

@[simp] theorem lru_tail_setFrameId (s : State) (p : Nat) (v : Int) :
    (s.setFrameId p v).tail = s.tail := rfl

@[simp] theorem lru_prev_setPrev (s : State) (p q : Nat) (v : Option Nat) :
    ((s.setPrev p v).mem q).prev = if q = p then v else (s.mem q).prev := by
  simp only [State.setPrev, Function.update_apply]; split_ifs with h <;> simp [h]

@[simp] theorem lru_next_setPrev (s : State) (p q : Nat) (v : Option Nat) :
    ((s.setPrev p v).mem q).next = (s.mem q).next := by
  simp only [State.setPrev, Function.update_apply]; split_ifs with h <;> simp [h]

@[simp] theorem lru_frame_id_setPrev (s : State) (p q : Nat) (v : Option Nat) :
    ((s.setPrev p v).mem q).frame_id = (s.mem q).frame_id := by
  simp only [State.setPrev, Function.update_apply]; split_ifs with h <;> simp [h]

@[simp] theorem lru_next_setNext (s : State) (p q : Nat) (v : Option Nat) :
    ((s.setNext p v).mem q).next = if q = p then v else (s.mem q).next := by
  simp only [State.setNext, Function.update_apply]; split_ifs with h <;> simp [h]

@[simp] theorem lru_prev_setNext (s : State) (p q : Nat) (v : Option Nat) :
    ((s.setNext p v).mem q).prev = (s.mem q).prev := by
  simp only [State.setNext, Function.update_apply]; split_ifs with h <;> simp [h]

@[simp] theorem lru_frame_id_setNext (s : State) (p q : Nat) (v : Option Nat) :
    ((s.setNext p v).mem q).frame_id = (s.mem q).frame_id := by
  simp only [State.setNext, Function.update_apply]; split_ifs with h <;> simp [h]

@[simp] theorem lru_prev_setFrameId (s : State) (p q : Nat) (v : Int) :
    ((s.setFrameId p v).mem q).prev = (s.mem q).prev := by
  simp only [State.setFrameId, Function.update_apply]; split_ifs with h <;> simp [h]

@[simp] theorem lru_next_setFrameId (s : State) (p q : Nat) (v : Int) :
    ((s.setFrameId p v).mem q).next = (s.mem q).next := by
  simp only [State.setFrameId, Function.update_apply]; split_ifs with h <;> simp [h]

@[simp] theorem lru_frame_id_setFrameId (s : State) (p q : Nat) (v : Int) :
    ((s.setFrameId p v).mem q).frame_id = if q = p then v else (s.mem q).frame_id := by
  simp only [State.setFrameId, Function.update_apply]; split_ifs with h <;> simp [h]

/-! ## Frame conditions -/

theorem Relinked.refl_relinked (s : State) : Relinked s s := ⟨fun _ => rfl, rfl, rfl, rfl, rfl, rfl⟩

theorem Relinked.trans_relinked {s s1 s2 : State} (h : Relinked s s1) (h2 : Relinked s1 s2) :
    Relinked s s2 :=
  ⟨fun p => (h2.frame_id p).trans (h.frame_id p), h2.firstFreeBuffer.trans h.firstFreeBuffer,
    h2.lastFreeBuffer.trans h.lastFreeBuffer, h2.freeNext.trans h.freeNext,
    h2.refcount.trans h.refcount, h2.usagecount.trans h.usagecount⟩

theorem Relinked.then_setPrev {s s2 : State} (h : Relinked s s2) (p : Nat) (v : Option Nat) :
    Relinked s (s2.setPrev p v) :=
  ⟨fun q => by rw [lru_frame_id_setPrev]; exact h.frame_id q, h.firstFreeBuffer,
    h.lastFreeBuffer, h.freeNext, h.refcount, h.usagecount⟩

theorem Relinked.then_setNext {s s2 : State} (h : Relinked s s2) (p : Nat) (v : Option Nat) :
    Relinked s (s2.setNext p v) :=
  ⟨fun q => by rw [lru_frame_id_setNext]; exact h.frame_id q, h.firstFreeBuffer,
    h.lastFreeBuffer, h.freeNext, h.refcount, h.usagecount⟩

theorem Relinked.then_setHead {s s2 : State} (h : Relinked s s2) (v : Option Nat) :
    Relinked s (s2.setHead v) :=
  ⟨h.frame_id, h.firstFreeBuffer, h.lastFreeBuffer, h.freeNext, h.refcount, h.usagecount⟩

theorem Relinked.then_setTail {s s2 : State} (h : Relinked s s2) (v : Option Nat) :
    Relinked s (s2.setTail v) :=
  ⟨h.frame_id, h.firstFreeBuffer, h.lastFreeBuffer, h.freeNext, h.refcount, h.usagecount⟩

/-! ## Searching -/

/-- The search loop started at the first node of a segment returns the first
node of the segment that carries the id. -/
theorem lru_search_loop_find (mem : Nat → Node) (k : Int) :
    ∀ (L : List Nat) (p : Option Nat) (fuel : Nat), Seg mem p L none → L.length < fuel →
      search_loop mem k fuel (firstOr L none) =
        .ok (L.find? (fun x => decide ((mem x).frame_id = k)))
  | [], _, fuel, _, _ => by cases fuel <;> rfl
  | x :: L, p, 0, _, hf => by simp at hf
  | x :: L, p, n + 1, hs, hf => by
    obtain ⟨-, h2, h3⟩ := hs
    simp only [firstOr, search_loop, List.find?_cons]
    by_cases hk : (mem x).frame_id = k
    · simp [hk]
    · simp only [hk, if_false, decide_False]
      rw [h2]
      exact lru_search_loop_find mem k L (some x) n h3 (by simpa using hf)

theorem lru_search_wf (fuel : Nat) (s : State) (L : List Nat) (k : Int) (h : WF s L)
    (hf : L.length < fuel) :
    search_for_frame fuel s k = .ok (L.find? (fun x => decide ((s.mem x).frame_id = k))) := by
  obtain ⟨-, hs, hh, -⟩ := h
  unfold search_for_frame
  cases L with
  | nil => simp [hh]
  | cons x L =>
    rw [hh, if_neg (by simp)]
    exact lru_search_loop_find s.mem k (x :: L) none fuel hs hf

/-! ## `delete_arbitrarily` -/

/-- `delete_arbitrarily k` on a well-formed list in which `x` is the first
node carrying the id `k`: the node is unlinked, the others keep their
order. -/
theorem lru_delete_found (fuel : Nat) (s : State) (L : List Nat) (k : Int) (x : Nat)
    (h : WF s L) (hx : L.find? (fun y => decide ((s.mem y).frame_id = k)) = some x)
    (hf : L.length < fuel) :
    ∃ s2, delete_arbitrarily fuel s k = .ok s2 ∧ WF s2 (L.erase x) ∧ Relinked s s2 := by
  have hsearch := lru_search_wf fuel s L k h hf
  rw [hx] at hsearch
  obtain ⟨hnd, hs, hh, ht⟩ := h
  obtain ⟨l, r, rfl⟩ := List.append_of_mem (List.mem_of_find?_eq_some hx)
  have hkl : x ∉ l := by
    intro hm
    rw [List.nodup_append] at hnd
    exact hnd.2.2 hm (by simp)
  have hkr : x ∉ r := by
    have := (List.nodup_append.1 hnd).2.1
    simp only [List.nodup_cons] at this
    exact this.1
  have herase : (l ++ x :: r).erase x = l ++ r := by
    rw [List.erase_append_right _ hkl, List.erase_cons_head]
  have hnd2 : (l ++ r).Nodup := by
    rw [← herase]; exact hnd.erase x
  rw [herase]
  obtain ⟨hprev, hnext, -⟩ := ((lru_Seg_append _ _ _ _ _).1 hs).2
  suffices hmain : ∃ s2, delete_arbitrarily fuel s k = .ok s2 ∧ Relinked s s2 ∧
      Seg s2.mem none (l ++ r) none ∧ s2.head = firstOr (l ++ r) none ∧
      s2.tail = lastOr (l ++ r) none by
    obtain ⟨s2, h1, h2, h3, h4, h5⟩ := hmain
    exact ⟨s2, h1, ⟨hnd2, h3, h4, h5⟩, h2⟩
  have hL0 := Relinked.refl_relinked s
  unfold delete_arbitrarily
  rw [hsearch]
  rcases Elru.eq_nil_or_snoc l with rfl | ⟨l0, a, rfl⟩
  · have hh2 : s.head = some x := by simpa using hh
    cases r with
    | nil =>
      have hnext2 : (s.mem x).next = none := by simpa using hnext
      simp only [hh2, hnext2, if_true]
      exact ⟨_, rfl, (hL0.then_setHead none).then_setTail none, trivial, rfl, rfl⟩
    | cons b r0 =>
      have hbk : b ≠ x := fun e => hkr (by simp [e])
      have hnext2 : (s.mem x).next = some b := by simpa using hnext
      simp only [hh2, hnext2, if_true]
      refine ⟨_, rfl, (hL0.then_setHead _).then_setPrev b none, ?_, ?_, ?_⟩
      · refine lru_Seg_unlink hnd hs ?_ ?_ ?_ ?_
        · intro y _ _; simp
        · intro y hy; simp at hy
        · intro y _ hb
          have : y ≠ b := by simpa [eq_comm] using hb
          simp [this]
        · intro y hy
          obtain rfl : b = y := by simpa using hy
          simp
      · simp
      · simp [ht]
  · have hane : l0 ++ [a] ≠ [] := by simp
    have hak : a ≠ x := fun e => hkl (by simp [e])
    have hh2 : s.head = firstOr (l0 ++ [a]) none := by
      rw [hh, lru_firstOr_append_ne_nil hane]
    have hhne : ¬ s.head = some x := by
      intro e
      rw [hh2] at e
      exact hkl (lru_firstOr_mem e)
    have hlast : lastOr (l0 ++ [a]) none = some a := lru_lastOr_concat _ _ _
    have hprev2 : (s.mem x).prev = some a := by rw [hprev, hlast]
    cases r with
    | nil =>
      have ht2 : s.tail = some x := by
        rw [ht]; exact lru_lastOr_concat _ _ _
      simp only [if_neg hhne, ht2, hprev2, if_true]
      refine ⟨_, rfl, (hL0.then_setTail _).then_setNext a none, ?_, ?_, ?_⟩
      · refine lru_Seg_unlink hnd hs ?_ ?_ ?_ ?_
        · intro y _ hb
          have : y ≠ a := by rw [hlast] at hb; simpa [eq_comm] using hb
          simp [this]
        · intro y hy
          obtain rfl : a = y := by rw [hlast] at hy; simpa using hy
          simp
        · intro y _ _; simp
        · intro y hy; simp at hy
      · simp only [lru_head_setNext, lru_head_setTail, List.append_nil]
        exact hh2
      · simp only [lru_tail_setNext, lru_tail_setTail, List.append_nil, hlast]
    | cons b r0 =>
      have hbk : b ≠ x := fun e => hkr (by simp [e])
      have hab : a ≠ b := by
        intro e
        rw [List.nodup_append] at hnd2
        exact hnd2.2.2 (show a ∈ l0 ++ [a] by simp) (show a ∈ b :: r0 by simp [e])
      have hnext2 : (s.mem x).next = some b := by simpa using hnext
      have htne : ¬ s.tail = some x := by
        intro e
        rw [ht, lru_lastOr_append_cons] at e
        have hm : x ∈ b :: r0 := by
          obtain ⟨c, hc1, hc2⟩ := lru_lastOr_cons_ne_none b r0 (some x)
          have e2 : lastOr (x :: b :: r0) none = lastOr (b :: r0) (some x) := rfl
          rw [e2, hc1] at e
          cases e
          exact hc2
        exact hkr hm
      simp only [if_neg hhne, if_neg htne, hprev2, hnext2, lru_next_setNext,
        lru_prev_setNext, if_neg hak.symm]
      refine ⟨_, rfl, (hL0.then_setNext a _).then_setPrev b _, ?_, ?_, ?_⟩
      · refine lru_Seg_unlink hnd hs ?_ ?_ ?_ ?_
        · intro y _ hb
          have : y ≠ a := by rw [hlast] at hb; simpa [eq_comm] using hb
          simp [this]
        · intro y hy
          obtain rfl : a = y := by rw [hlast] at hy; simpa using hy
          simp
        · intro y _ hb
          have : y ≠ b := by simpa [eq_comm] using hb
          simp [this]
        · intro y hy
          obtain rfl : b = y := by simpa using hy
          simp [hlast]
      · simp only [lru_head_setPrev, lru_head_setNext]
        rw [hh2, lru_firstOr_append_ne_nil hane]
      · simp only [lru_tail_setPrev, lru_tail_setNext]
        rw [ht, lru_lastOr_append_cons, lru_lastOr_append_cons]
        rfl

/-- `delete_arbitrarily k` when no node of the list carries the id `k`. -/
theorem lru_delete_absent (fuel : Nat) (s : State) (L : List Nat) (k : Int)
    (h : WF s L) (hx : ∀ y ∈ L, (s.mem y).frame_id ≠ k) (hf : L.length < fuel) :
    delete_arbitrarily fuel s k = .ok s := by
  have hsearch := lru_search_wf fuel s L k h hf
  have hnone : L.find? (fun y => decide ((s.mem y).frame_id = k)) = none := by
    rw [List.find?_eq_none]
    intro y hy
    simpa using hx y hy
  rw [hnone] at hsearch
  unfold delete_arbitrarily
  rw [hsearch]

/-! ## `insert_at_head` and `move_to_head` -/

/-- `insert_at_head f` on a well-formed list that does not contain `f`. -/
theorem lru_insert_at_head_wf (s : State) (L : List Nat) (f : Nat) (h : WF s L)
    (hf : f ∉ L) : WF (insert_at_head s f) (f :: L) ∧ Relinked s (insert_at_head s f) := by
  obtain ⟨hnd, hs, hh, ht⟩ := h
  have hL0 := Relinked.refl_relinked s
  cases L with
  | nil =>
    have hh2 : s.head = none := hh
    have ht2 : s.tail = none := ht
    unfold insert_at_head
    simp only [hh2, ht2, lru_head_setNext, lru_tail_setNext, lru_tail_setHead, if_true]
    refine ⟨⟨by simp, ⟨by simp, by simp, trivial⟩, rfl, rfl⟩, ?_⟩
    exact ((((hL0.then_setNext f none).then_setHead _).then_setTail _).then_setPrev f none)
  | cons b L =>
    have hh2 : s.head = some b := hh
    obtain ⟨t, ht1, -⟩ := lru_lastOr_cons_ne_none b L none
    have ht2 : s.tail = some t := by rw [ht, ht1]
    have hbf : b ≠ f := fun e => hf (by simp [e])
    unfold insert_at_head
    simp only [hh2, ht2, lru_head_setNext, lru_tail_setNext, lru_tail_setHead,
      lru_tail_setPrev, reduceCtorEq, if_false]
    refine ⟨⟨List.nodup_cons.2 ⟨hf, hnd⟩, ⟨by simp, by simp [hbf.symm], ?_⟩, rfl, ?_⟩, ?_⟩
    · refine lru_Seg_cons_relink hs ?_ ?_ ?_
      · intro y hy
        have hyf : y ≠ f := fun e => hf (by simp [← e, hy])
        have hyb : y ≠ b := fun e => (List.nodup_cons.1 hnd).1 (e ▸ hy)
        simp [hyf, hyb]
      · simp [hbf]
      · simp [hbf]
    · simp only [lru_tail_setPrev, lru_tail_setHead, lru_tail_setNext]
      rw [ht2, ← ht1]
      rfl
    · exact ((((hL0.then_setNext f _).then_setPrev b _).then_setHead _).then_setPrev f none)

/-- With pairwise distinct frame ids, the search for the id of a node of the
list finds that node. -/
theorem lru_find_of_ids_nodup (s : State) (L : List Nat) (f : Nat)
    (hids : (ids s L).Nodup) (hf : f ∈ L) :
    L.find? (fun y => decide ((s.mem y).frame_id = (s.mem f).frame_id)) = some f := by
  rw [List.find?_eq_some]
  refine ⟨by simp, ?_⟩
  obtain ⟨l, r, rfl⟩ := List.append_of_mem hf
  refine ⟨l, r, rfl, ?_⟩
  intro a ha
  have hne : (s.mem a).frame_id ≠ (s.mem f).frame_id := by
    intro e
    unfold ids at hids
    rw [List.map_append, List.map_cons, List.nodup_append] at hids
    exact hids.2.2 (List.mem_map.2 ⟨a, ha, rfl⟩) (by simp [e])
  simpa using hne

/-- `move_to_head f` for a node `f` of a well-formed list whose frame ids are
pairwise distinct. -/
theorem lru_move_to_head_wf (fuel : Nat) (s : State) (L : List Nat) (f : Nat) (h : WF s L)
    (hids : (ids s L).Nodup) (hf : f ∈ L) (hfuel : L.length < fuel) :
    ∃ s2, move_to_head fuel s f = .ok s2 ∧ WF s2 (f :: L.erase f) ∧ Relinked s s2 := by
  have hfind := lru_find_of_ids_nodup s L f hids hf
  obtain ⟨s1, e1, hw1, hr1⟩ := lru_delete_found fuel s L _ f h hfind hfuel
  have hnf : f ∉ L.erase f := fun hm => (h.1.mem_erase_iff.1 hm).1 rfl
  obtain ⟨hw2, hr2⟩ := lru_insert_at_head_wf s1 (L.erase f) f hw1 hnf
  refine ⟨_, ?_, hw2, hr1.trans_relinked hr2⟩
  unfold move_to_head
  rw [e1]

/-! ## Claims about the list primitives (`main.c`, `freelist_lru.c`) -/

/-- C23: for every well-formed list `L` (possibly empty) and every node `f`
not in it, `insert_at_head f` yields the well-formed list `f :: L`: the head
is `f`, `f` has no predecessor, the tail is the old tail when `L` is not empty
and `f` when it is; no frame id changes. -/
theorem insert_at_head_yields_cons (s : State) (L : List Nat) (f : Nat) (h : WF s L)
    (hf : f ∉ L) :
    WF (insert_at_head s f) (f :: L) ∧ (insert_at_head s f).head = some f ∧
      ((insert_at_head s f).mem f).prev = none ∧
      (L ≠ [] → (insert_at_head s f).tail = s.tail) ∧
      (L = [] → (insert_at_head s f).tail = some f) ∧
      ∀ p, ((insert_at_head s f).mem p).frame_id = (s.mem p).frame_id := by
  obtain ⟨hw, hr⟩ := lru_insert_at_head_wf s L f h hf
  refine ⟨hw, hw.2.2.1, hw.2.1.1, ?_, ?_, hr.frame_id⟩
  · intro hne
    rw [hw.2.2.2, h.2.2.2]
    cases L with
    | nil => exact absurd rfl hne
    | cons b L => rfl
  · intro he
    rw [hw.2.2.2, he]
    rfl

/-- Worked instance of C23 (the insertion loop of `main`): inserting nodes 0,
1, 2 into the empty list gives [0], [1, 0], [2, 1, 0]. -/
theorem insert_at_head_yields_cons_witness :
    WF exMain [] ∧ WF (insert_at_head exMain 0) [0] ∧
      WF (insert_at_head (insert_at_head exMain 0) 1) [1, 0] ∧ 2 ∉ [1, 0] ∧
      (WF exInserted [2, 1, 0] ∧ exInserted.head = some 2 ∧
        (exInserted.mem 2).prev = none ∧
        ([1, 0] ≠ [] → exInserted.tail = (insert_at_head (insert_at_head exMain 0) 1).tail) ∧
        ([1, 0] = [] → exInserted.tail = some 2) ∧
        ∀ p, (exInserted.mem p).frame_id =
          ((insert_at_head (insert_at_head exMain 0) 1).mem p).frame_id) :=
  ⟨by decide, by decide, by decide, by decide,
    insert_at_head_yields_cons (insert_at_head (insert_at_head exMain 0) 1) [1, 0] 2
      (by decide) (by decide)⟩

/-- C24: for every well-formed list `L` with pairwise distinct frame ids and
every node `f` of it, `move_to_head f` returns and yields the well-formed list
that starts with `f` and continues with the other nodes of `L` in their
order; no frame id changes. -/
theorem move_to_head_yields_front (fuel : Nat) (s : State) (L : List Nat) (f : Nat)
    (h : WF s L) (hids : (ids s L).Nodup) (hf : f ∈ L) (hfuel : L.length < fuel) :
    ∃ s2, move_to_head fuel s f = .ok s2 ∧ WF s2 (f :: L.filter (fun p => p != f)) ∧
      ∀ p, (s2.mem p).frame_id = (s.mem p).frame_id := by
  obtain ⟨s2, e, hw, hr⟩ := lru_move_to_head_wf fuel s L f h hids hf hfuel
  rw [h.1.erase_eq_filter] at hw
  exact ⟨s2, e, hw, hr.frame_id⟩

/-- Worked instance of C24 (the move test of `main`): `move_to_head(&nodes[0])`
on [2, 1, 0] gives [0, 2, 1]. -/
theorem move_to_head_yields_front_witness :
    WF exInserted [2, 1, 0] ∧ (ids exInserted [2, 1, 0]).Nodup ∧ 0 ∈ [2, 1, 0] ∧
      [2, 1, 0].length < 8 ∧
      ∃ s2, move_to_head 8 exInserted 0 = .ok s2 ∧ WF s2 [0, 2, 1] ∧
        ∀ p, (s2.mem p).frame_id = (exInserted.mem p).frame_id :=
  ⟨by decide, by decide, by decide, by decide,
    move_to_head_yields_front 8 exInserted [2, 1, 0] 0 (by decide) (by decide) (by decide)
      (by decide)⟩

/-- C25: for every well-formed list `L` with pairwise distinct frame ids and
every id `k`: if node `x` of `L` carries the id `k`, `delete_arbitrarily k`
returns and yields the well-formed list `L` without `x` (the other nodes in
their order; head and tail are `NULL` when nothing is left); if no node
carries the id, the call changes nothing. -/
theorem delete_arbitrarily_removes_node (fuel : Nat) (s : State) (L : List Nat) (k : Int)
    (h : WF s L) (hids : (ids s L).Nodup) (hfuel : L.length < fuel) :
    (∀ x ∈ L, (s.mem x).frame_id = k →
      ∃ s2, delete_arbitrarily fuel s k = .ok s2 ∧ WF s2 (L.filter (fun p => p != x)) ∧
        (L.filter (fun p => p != x) = [] → s2.head = none ∧ s2.tail = none) ∧
        ∀ p, (s2.mem p).frame_id = (s.mem p).frame_id) ∧
    ((∀ x ∈ L, (s.mem x).frame_id ≠ k) → delete_arbitrarily fuel s k = .ok s) := by
  constructor
  · intro x hx hk
    have hfind := lru_find_of_ids_nodup s L x hids hx
    rw [hk] at hfind
    obtain ⟨s2, e, hw, hr⟩ := lru_delete_found fuel s L k x h hfind hfuel
    rw [h.1.erase_eq_filter] at hw
    refine ⟨s2, e, hw, ?_, hr.frame_id⟩
    intro he
    rw [hw.2.2.1, hw.2.2.2, he]
    exact ⟨rfl, rfl⟩
  · intro hx
    exact lru_delete_absent fuel s L k h hx hfuel

/-- Worked instance of C25 (the delete test of `main`): deleting id 1 from
[0, 2, 1] gives [0, 2]. -/
theorem delete_arbitrarily_removes_node_witness :
    WF exMoved [0, 2, 1] ∧ (ids exMoved [0, 2, 1]).Nodup ∧ [0, 2, 1].length < 8 ∧
      1 ∈ [0, 2, 1] ∧ (exMoved.mem 1).frame_id = 1 ∧
      ∃ s2, delete_arbitrarily 8 exMoved 1 = .ok s2 ∧ WF s2 [0, 2] ∧
        ([0, 2] = [] → s2.head = none ∧ s2.tail = none) ∧
        ∀ p, (s2.mem p).frame_id = (exMoved.mem p).frame_id :=
  ⟨by decide, by decide, by decide, by decide, by decide,
    (delete_arbitrarily_removes_node 8 exMoved [0, 2, 1] 1 (by decide) (by decide)
      (by decide)).1 1 (by decide) (by decide)⟩

/-! ## The LRU stack of `freelist_lru.c` -/

theorem Stack.ids_nodup {s : State} {xs : List Nat} (h : Stack s xs) : (ids s xs).Nodup := by
  have e : ids s xs = xs.map (Nat.cast : Nat → Int) :=
    List.map_congr_left (fun i hi => h.2 i hi)
  rw [e]
  exact h.1.1.map Nat.cast_injective

theorem Stack.find_mem {s : State} {xs : List Nat} {k : Nat} (h : Stack s xs) (hk : k ∈ xs) :
    xs.find? (fun y => decide ((s.mem y).frame_id = (k : Int))) = some k := by
  have := lru_find_of_ids_nodup s xs k h.ids_nodup hk
  rwa [h.2 k hk] at this

theorem Stack.id_ne_of_not_mem {s : State} {xs : List Nat} {k : Nat} (h : Stack s xs)
    (hk : k ∉ xs) : ∀ y ∈ xs, (s.mem y).frame_id ≠ (k : Int) := by
  intro y hy e
  rw [h.2 y hy] at e
  have : y = k := by exact_mod_cast e
  exact hk (this ▸ hy)

theorem Stack.of_relinked {s s2 : State} {xs ys : List Nat} (h : Stack s xs)
    (hw : WF s2 ys) (hr : Relinked s s2) (hsub : ∀ i ∈ ys, i ∈ xs) : Stack s2 ys :=
  ⟨hw, fun i hi => by rw [hr.frame_id]; exact h.2 i (hsub i hi)⟩

/-- `StrategyAccessBuffer(k, true)` on an LRU stack. -/
theorem lru_purge_stack (fuel : Nat) (s : State) (xs : List Nat) (k : Nat)
    (h : Stack s xs) (hf : xs.length < fuel) :
    ∃ s2, StrategyAccessBuffer fuel s k true = .ok s2 ∧ Stack s2 (xs.erase k) ∧
      Relinked s s2 ∧ (k ∉ xs → s2 = s) := by
  unfold StrategyAccessBuffer
  simp only [if_true]
  by_cases hk : k ∈ xs
  · obtain ⟨s2, e, hw, hr⟩ := lru_delete_found fuel s xs k k h.1 (h.find_mem hk) hf
    exact ⟨s2, e, h.of_relinked hw hr (fun i hi => List.mem_of_mem_erase hi), hr,
      fun hn => absurd hk hn⟩
  · have e := lru_delete_absent fuel s xs k h.1 (h.id_ne_of_not_mem hk) hf
    rw [List.erase_of_not_mem hk]
    exact ⟨s, e, h, Relinked.refl_relinked s, fun _ => rfl⟩

/-- `StrategyAccessBuffer(k, false)` on an LRU stack. -/
theorem lru_touch_stack (fuel : Nat) (s : State) (xs : List Nat) (k : Nat)
    (h : Stack s xs) (hf : xs.length < fuel) :
    ∃ s2, StrategyAccessBuffer fuel s k false = .ok s2 ∧ Stack s2 (k :: xs.erase k) ∧
      s2.refcount = s.refcount ∧ s2.firstFreeBuffer = s.firstFreeBuffer ∧
      s2.freeNext = s.freeNext := by
  unfold StrategyAccessBuffer
  simp only [Bool.false_eq_true, if_false]
  rw [lru_search_wf fuel s xs k h.1 hf]
  by_cases hk : k ∈ xs
  · rw [h.find_mem hk]
    obtain ⟨s2, e, hw, hr⟩ := lru_move_to_head_wf fuel s xs k h.1 h.ids_nodup hk hf
    refine ⟨s2, e, h.of_relinked hw hr ?_, hr.refcount, hr.firstFreeBuffer, hr.freeNext⟩
    intro i hi
    rcases List.mem_cons.1 hi with rfl | hi
    · exact hk
    · exact List.mem_of_mem_erase hi
  · have hnone : xs.find? (fun y => decide ((s.mem y).frame_id = (k : Int))) = none := by
      rw [List.find?_eq_none]
      intro y hy
      simpa using h.id_ne_of_not_mem hk y hy
    rw [hnone, List.erase_of_not_mem hk]
    have hw1 : WF (s.setFrameId k k) xs :=
      ⟨h.1.1, lru_Seg_congr h.1.2.1 (fun x _ => by simp), h.1.2.2.1, h.1.2.2.2⟩
    obtain ⟨hw2, hr2⟩ := lru_insert_at_head_wf (s.setFrameId k k) xs k hw1 hk
    refine ⟨_, rfl, ⟨hw2, ?_⟩, hr2.refcount, hr2.firstFreeBuffer, hr2.freeNext⟩
    intro i hi
    rw [hr2.frame_id, lru_frame_id_setFrameId]
    rcases List.mem_cons.1 hi with rfl | hi
    · simp
    · have : i ≠ k := fun e => hk (e ▸ hi)
      rw [if_neg this]
      exact h.2 i hi

/-! ## The victim scan of `freelist_lru.c` -/

theorem lru_scan_none (fuel : Nat) (s : State) (n : Nat) :
    scan fuel s n none = .ok (.noUnpinnedBuffers, s) := by
  cases n <;> rfl

theorem lru_scan_pinned (fuel : Nat) (s : State) (n : Nat) (p a : Nat)
    (hid : (s.mem p).frame_id = (a : Int)) (hr : s.refcount a ≠ 0) :
    scan fuel s (n + 1) (some p) = scan fuel s n (s.mem p).prev := by
  have hneg : ¬ ((a : Int) < 0) := by omega
  rw [scan]
  simp only [hid, Int.toNat_ofNat, hr, if_false, hneg]

/-- The scan walks over a pinned suffix of the stack. -/
theorem lru_scan_skip (fuel : Nat) (s : State) (pre r : List Nat) (n : Nat) (q : Option Nat)
    (hs : Seg s.mem none (pre ++ r) q)
    (hid : ∀ i ∈ r, (s.mem i).frame_id = (i : Int))
    (hr : ∀ i ∈ r, s.refcount i ≠ 0) :
    scan fuel s (n + r.length) (lastOr (pre ++ r) none) =
      scan fuel s n (lastOr pre none) := by
  induction r using List.reverseRecOn generalizing n q with
  | nil => simp
  | append_singleton r0 a ih =>
    have hs2 : Seg s.mem none ((pre ++ r0) ++ [a]) q := by
      rw [← List.append_assoc] at hs; exact hs
    have hprev : (s.mem a).prev = lastOr (pre ++ r0) none :=
      ((lru_Seg_append _ _ _ _ _).1 hs2).2.1
    have hlast : lastOr (pre ++ (r0 ++ [a])) none = some a := by
      rw [← List.append_assoc]; exact lru_lastOr_concat _ _ _
    rw [hlast, List.length_append, List.length_singleton, ← Nat.add_assoc,
      lru_scan_pinned fuel s _ _ a (hid a (by simp)) (hr a (by simp)), hprev]
    exact ih n _ ((lru_Seg_append _ _ _ _ _).1 hs2).1 (fun i hi => hid i (by simp [hi]))
      (fun i hi => hr i (by simp [hi]))

/-- The scan takes the unpinned frame closest to the tail and moves it to the
head. -/
theorem lru_scan_hit (fuel : Nat) (s : State) (l r : List Nat) (v : Nat)
    (h : Stack s (l ++ v :: r)) (hv : s.refcount v = 0)
    (hr : ∀ i ∈ r, s.refcount i ≠ 0) (hf : (l ++ v :: r).length < fuel) :
    ∃ s2, scan fuel s fuel s.tail = .ok (.buf v, s2) ∧ Stack s2 (v :: (l ++ r)) ∧
      Relinked s s2 := by
  have hvb1 : v ∈ l ++ v :: r := by simp
  have hidv := h.2 v hvb1
  have hnd := h.1.1
  have hvl : v ∉ l := by
    intro hm
    rw [List.nodup_append] at hnd
    exact hnd.2.2 hm (by simp)
  have herase : (l ++ v :: r).erase v = l ++ r := by
    rw [List.erase_append_right _ hvl, List.erase_cons_head]
  obtain ⟨n, hn⟩ : ∃ n, fuel = (n + 1) + r.length := by
    refine ⟨fuel - r.length - 1, ?_⟩
    simp only [List.length_append, List.length_cons] at hf
    omega
  have e1 : l ++ v :: r = (l ++ [v]) ++ r := by simp
  have hskip : scan fuel s fuel s.tail = scan fuel s (n + 1) (some v) := by
    have hsk := lru_scan_skip fuel s (l ++ [v]) r (n + 1) none (by rw [← e1]; exact h.1.2.1)
      (fun i hi => h.2 i (by simp [hi])) hr
    rw [← hn, ← e1] at hsk
    rw [h.1.2.2.2, hsk]
    exact congrArg _ (lru_lastOr_concat l v none)
  have hs1 : search_for_frame fuel s v = .ok (some v) := by
    rw [lru_search_wf fuel s _ v h.1 hf, h.find_mem hvb1]
  obtain ⟨s2, e3, hw, hrel⟩ := lru_move_to_head_wf fuel s _ v h.1 h.ids_nodup hvb1 hf
  have hneg : ¬ ((v : Int) < 0) := by omega
  rw [herase] at hw
  refine ⟨s2, ?_, h.of_relinked hw hrel ?_, hrel⟩
  · rw [hskip, scan]
    simp only [hidv, Int.toNat_ofNat, hv, if_true, hneg, if_false, hs1, e3]
  · intro i hi
    simp only [List.mem_cons, List.mem_append] at hi ⊢
    tauto

/-- The scan raises the error when every frame of the stack is pinned. -/
theorem lru_scan_all_pinned (fuel : Nat) (s : State) (xs : List Nat) (h : Stack s xs)
    (hp : ∀ i ∈ xs, s.refcount i ≠ 0) (hf : xs.length < fuel) :
    scan fuel s fuel s.tail = .ok (.noUnpinnedBuffers, s) := by
  obtain ⟨n, hn⟩ : ∃ n, fuel = n + xs.length := ⟨fuel - xs.length, by omega⟩
  have hsk := lru_scan_skip fuel s [] xs n none (by simpa using h.1.2.1)
    (fun i hi => h.2 i hi) hp
  rw [← hn, List.nil_append] at hsk
  rw [h.1.2.2.2, hsk]
  exact lru_scan_none fuel s n

theorem lru_getBuffer_eq_scan (fuel : Nat) (s : State) (hres : s.firstFreeBuffer < 0) :
    StrategyGetBuffer fuel s = scan fuel s fuel s.tail := by
  unfold StrategyGetBuffer
  rw [if_neg (by omega)]

/-! ## Claims about the strategy functions of `freelist_lru.c` -/

/-- C26: for every well-formed LRU stack `xs` (distinct frames, head first):
`StrategyAccessBuffer(id, false)` returns and yields `id` followed by `xs`
without `id`, whether or not `id` was in the stack;
`StrategyAccessBuffer(id, true)` returns and yields `xs` without `id`, and
changes nothing when `id` is absent. -/
theorem lru_access_moves_to_head_or_removes (fuel : Nat) (s : State) (xs : List Nat)
    (id : Nat) (h : Stack s xs) (hfuel : xs.length < fuel) :
    (∃ s2, StrategyAccessBuffer fuel s id false = .ok s2 ∧
      Stack s2 (id :: xs.filter (fun i => i != id))) ∧
    (∃ s3, StrategyAccessBuffer fuel s id true = .ok s3 ∧
      Stack s3 (xs.filter (fun i => i != id)) ∧ (id ∉ xs → s3 = s)) := by
  obtain ⟨s2, e2, h2, -⟩ := lru_touch_stack fuel s xs id h hfuel
  obtain ⟨s3, e3, h3, -, hs⟩ := lru_purge_stack fuel s xs id h hfuel
  rw [h.1.1.erase_eq_filter] at h2 h3
  exact ⟨⟨s2, e2, h2⟩, ⟨s3, e3, h3, hs⟩⟩

/-- Worked instance of C26: on the stack [2, 1, 0], touching 1 gives
[1, 2, 0] and purging 1 gives [2, 0]; touching the absent frame 5 gives
[5, 2, 1, 0]. -/
theorem lru_access_moves_to_head_or_removes_witness :
    Stack exInserted [2, 1, 0] ∧ [2, 1, 0].length < 8 ∧
      Stack (okState (StrategyAccessBuffer 8 exInserted 5 false) exInserted) [5, 2, 1, 0] ∧
      ((∃ s2, StrategyAccessBuffer 8 exInserted 1 false = .ok s2 ∧ Stack s2 [1, 2, 0]) ∧
        (∃ s3, StrategyAccessBuffer 8 exInserted 1 true = .ok s3 ∧ Stack s3 [2, 0] ∧
          (1 ∉ [2, 1, 0] → s3 = exInserted))) :=
  ⟨by decide, by decide, by decide,
    lru_access_moves_to_head_or_removes 8 exInserted [2, 1, 0] 1 (by decide) (by decide)⟩

/-- C28: in `freelist_lru.c`, with the free list empty and a well-formed LRU
stack `xs`: if `v` is the unpinned frame closest to the tail,
`StrategyGetBuffer` returns `v` and leaves the stack `v` followed by the other
frames in their order; the call raises "no unpinned buffers available"
exactly when every frame of the stack is pinned (an empty stack included), and
then the state is unchanged. -/
theorem lru_getBuffer_takes_tailmost_unpinned (fuel : Nat) (s : State) (xs : List Nat)
    (hres : s.firstFreeBuffer < 0) (h : Stack s xs) (hfuel : xs.length < fuel) :
    (∀ l v r, xs = l ++ v :: r → s.refcount v = 0 → (∀ i ∈ r, s.refcount i ≠ 0) →
      ∃ s2, StrategyGetBuffer fuel s = .ok (.buf v, s2) ∧ Stack s2 (v :: (l ++ r))) ∧
    (getResult (StrategyGetBuffer fuel s) = some .noUnpinnedBuffers ↔
      ∀ i ∈ xs, s.refcount i ≠ 0) ∧
    (∀ s2, StrategyGetBuffer fuel s = .ok (.noUnpinnedBuffers, s2) → s2 = s) := by
  rw [lru_getBuffer_eq_scan fuel s hres]
  have hall : (∀ i ∈ xs, s.refcount i ≠ 0) →
      scan fuel s fuel s.tail = .ok (.noUnpinnedBuffers, s) :=
    fun hp => lru_scan_all_pinned fuel s xs h hp hfuel
  have hsome : ¬ (∀ i ∈ xs, s.refcount i ≠ 0) →
      ∃ v s2, scan fuel s fuel s.tail = .ok (.buf v, s2) := by
    intro hn
    have hp : ∃ i ∈ xs, s.refcount i = 0 := by
      by_contra hc
      exact hn (fun i hi h0 => hc ⟨i, hi, h0⟩)
    obtain ⟨l, v, r, rfl, hv, hr⟩ := Elru.exists_last_unpinned s.refcount xs hp
    obtain ⟨s2, e, -, -⟩ := lru_scan_hit fuel s l r v h hv hr hfuel
    exact ⟨v, s2, e⟩
  refine ⟨?_, ⟨?_, fun hp => by rw [hall hp]; rfl⟩, ?_⟩
  · rintro l v r rfl hv hr
    obtain ⟨s2, e, hst, -⟩ := lru_scan_hit fuel s l r v h hv hr hfuel
    exact ⟨s2, e, hst⟩
  · intro hres2
    by_contra hn
    obtain ⟨v, s3, e3⟩ := hsome hn
    rw [e3] at hres2
    cases hres2
  · intro s2 e
    by_cases hp : ∀ i ∈ xs, s.refcount i ≠ 0
    · rw [hall hp] at e
      cases e
      rfl
    · obtain ⟨v, s3, e3⟩ := hsome hp
      rw [e3] at e
      cases e

/-- Worked instance of C28: the stack [2, 1, 0] with frame 0 pinned; the call
returns frame 1 and leaves [1, 2, 0]; with every frame pinned it raises the
error. -/
theorem lru_getBuffer_takes_tailmost_unpinned_witness :
    exTailPinned.firstFreeBuffer < 0 ∧ Stack exTailPinned [2, 1, 0] ∧
      [2, 1, 0].length < 8 ∧
      getResult (StrategyGetBuffer 8 exAllPinned) = some .noUnpinnedBuffers ∧
      ∃ s2, StrategyGetBuffer 8 exTailPinned = .ok (.buf 1, s2) ∧ Stack s2 [1, 2, 0] :=
  ⟨by decide, by decide, by decide, by decide,
    (lru_getBuffer_takes_tailmost_unpinned 8 exTailPinned [2, 1, 0] (by decide) (by decide)
      (by decide)).1 [2] 1 [0] rfl (by decide) (by decide)⟩

/-! ## `StrategyFreeBuffer` of `freelist_lru.c` -/

theorem lru_freeBuffer_eq (fuel : Nat) (s : State) (b : Nat)
    (h : s.freeNext b = FREENEXT_NOT_IN_LIST) :
    StrategyFreeBuffer fuel s b =
      StrategyAccessBuffer fuel
        { s with freeNext := Function.update s.freeNext b s.firstFreeBuffer,
                 lastFreeBuffer := if s.firstFreeBuffer < 0 then (b : Int) else s.lastFreeBuffer,
                 firstFreeBuffer := (b : Int) } b true := by
  unfold StrategyFreeBuffer
  rw [if_pos h]
  simp only [Function.update_same]
  split_ifs <;> rfl

/-- `StrategyFreeBuffer` of `freelist_lru.c` on a buffer that is not in the
free list: it becomes the head of the free list and leaves the stack. -/
theorem lru_freeBuffer_spec (fuel : Nat) (s : State) (xs : List Nat) (b : Nat)
    (h : Stack s xs) (hf : xs.length < fuel) (hb : s.freeNext b = FREENEXT_NOT_IN_LIST) :
    ∃ s2, StrategyFreeBuffer fuel s b = .ok s2 ∧ s2.firstFreeBuffer = (b : Int) ∧
      s2.freeNext b = s.firstFreeBuffer ∧ (∀ x, x ≠ b → s2.freeNext x = s.freeNext x) ∧
      Stack s2 (xs.erase b) := by
  rw [lru_freeBuffer_eq fuel s b hb]
  have h3 : Stack
      { s with freeNext := Function.update s.freeNext b s.firstFreeBuffer,
               lastFreeBuffer := if s.firstFreeBuffer < 0 then (b : Int) else s.lastFreeBuffer,
               firstFreeBuffer := (b : Int) } xs := h
  obtain ⟨s2, e, hst, hr, -⟩ := lru_purge_stack fuel _ xs b h3 hf
  refine ⟨s2, e, hr.firstFreeBuffer, ?_, ?_, hst⟩
  · rw [hr.freeNext]
    exact Function.update_same _ _ _
  · intro x hx
    rw [hr.freeNext]
    exact Function.update_noteq hx _ _

end Lru

namespace Elru

/-! ## Claim about `StrategyFreeBuffer` -/

theorem freeBuffer_eq (fuel : Nat) (s : State) (b : Nat)
    (h : s.freeNext b = FREENEXT_NOT_IN_LIST) :
    StrategyFreeBuffer fuel s b =
      StrategyAccessBuffer fuel
        { s with freeNext := Function.update s.freeNext b s.firstFreeBuffer,
                 lastFreeBuffer := if s.firstFreeBuffer < 0 then (b : Int) else s.lastFreeBuffer,
                 firstFreeBuffer := (b : Int) } b true := by
  unfold StrategyFreeBuffer
  rw [if_pos h]
  simp only [Function.update_same]
  split_ifs <;> rfl

/-- C22: `StrategyFreeBuffer b` on a buffer that is in the free list
(`freeNext` is not `FREENEXT_NOT_IN_LIST`) returns the state unchanged (free
list, B1, B2, timestamps and counter).  On a buffer that is not in the list,
in a well-formed state, it returns with `b` as the head of the free list,
`freeNext b` the old head (so the free list is `b` followed by the old
list), `lastFreeBuffer = b` if the list was empty, no other `freeNext`
changed, and `b` removed from B1 and B2, the other frames keeping segment,
order and timestamps.  `StrategyFreeBuffer` of `freelist_lru.c` does the same
with its single stack. -/
theorem freeBuffer_pushes_and_purges (fuel : Nat) (s : State) (b1 b2 : List Nat) (b : Nat)
    (hinv : Inv s b1 b2) (hfuel : b1.length + b2.length < fuel) :
    (s.freeNext b ≠ FREENEXT_NOT_IN_LIST → StrategyFreeBuffer fuel s b = .ok s) ∧
    (s.freeNext b = FREENEXT_NOT_IN_LIST →
      ∃ s2, StrategyFreeBuffer fuel s b = .ok s2 ∧ s2.firstFreeBuffer = (b : Int) ∧
        s2.freeNext b = s.firstFreeBuffer ∧ (∀ x, x ≠ b → s2.freeNext x = s.freeNext x) ∧
        s2.lastFreeBuffer = (if s.firstFreeBuffer < 0 then (b : Int) else s.lastFreeBuffer) ∧
        (∀ fl, FreeList s.freeNext s.firstFreeBuffer fl → b ∉ fl →
          FreeList s2.freeNext s2.firstFreeBuffer (b :: fl)) ∧
        Inv s2 (b1.erase b) (b2.erase b) ∧
        (∀ i, lastTouch s2 i = lastTouch s i ∧
          secondLastTouch s2 i = secondLastTouch s i)) ∧
    (∀ (t : Lru.State) (xs : List Nat), Lru.Stack t xs → xs.length < fuel →
      (t.freeNext b ≠ Lru.FREENEXT_NOT_IN_LIST → Lru.StrategyFreeBuffer fuel t b = .ok t) ∧
      (t.freeNext b = Lru.FREENEXT_NOT_IN_LIST →
        ∃ t2, Lru.StrategyFreeBuffer fuel t b = .ok t2 ∧ t2.firstFreeBuffer = (b : Int) ∧
          t2.freeNext b = t.firstFreeBuffer ∧ (∀ x, x ≠ b → t2.freeNext x = t.freeNext x) ∧
          Lru.Stack t2 (xs.erase b))) := by
  refine ⟨?_, ?_, ?_⟩
  · intro hb
    unfold StrategyFreeBuffer
    rw [if_neg hb]
  · intro hb
    rw [freeBuffer_eq fuel s b hb]
    have h3 : Inv
        { s with freeNext := Function.update s.freeNext b s.firstFreeBuffer,
                 lastFreeBuffer :=
                   if s.firstFreeBuffer < 0 then (b : Int) else s.lastFreeBuffer,
                 firstFreeBuffer := (b : Int) } b1 b2 := hinv
    obtain ⟨s2, e, hi, hs, -⟩ := purge_spec fuel _ b1 b2 b h3 hfuel
    have hfn : s2.freeNext = Function.update s.freeNext b s.firstFreeBuffer := hs.freeNext
    have hff : s2.firstFreeBuffer = (b : Int) := hs.firstFreeBuffer
    refine ⟨s2, e, hff, ?_, ?_, hs.lastFreeBuffer, ?_, hi,
      fun i => ⟨hs.time_array_1 i, hs.time_array_0 i⟩⟩
    · rw [hfn]
      exact Function.update_same _ _ _
    · intro x hx
      rw [hfn]
      exact Function.update_noteq hx _ _
    · intro fl hfl hbfl
      refine ⟨hff, ?_⟩
      rw [hfn, Function.update_same]
      refine FreeList_congr fl _ ?_ hfl
      intro x hx
      exact Function.update_noteq (fun e => hbfl (by rw [e] at hx; exact hx)) _ _
  · intro t xs ht hlen
    refine ⟨?_, ?_⟩
    · intro hb
      unfold Lru.StrategyFreeBuffer
      rw [if_neg hb]
    · intro hb
      exact Lru.lru_freeBuffer_spec fuel t xs b ht hlen hb

/-- Worked instance of C22: B1 = [2], B2 = [1, 0], free list empty; freeing
buffer 1 makes it the only entry of the free list and leaves B2 = [0]. -/
theorem freeBuffer_pushes_and_purges_witness :
    Inv exTwoSegments [2] [1, 0] ∧ [2].length + [1, 0].length < 8 ∧
      exTwoSegments.freeNext 1 = FREENEXT_NOT_IN_LIST ∧
      FreeList exTwoSegments.freeNext exTwoSegments.firstFreeBuffer [] ∧
      ∃ s2, StrategyFreeBuffer 8 exTwoSegments 1 = .ok s2 ∧ s2.firstFreeBuffer = 1 ∧
        s2.freeNext 1 = exTwoSegments.firstFreeBuffer ∧
        (∀ x, x ≠ 1 → s2.freeNext x = exTwoSegments.freeNext x) ∧
        s2.lastFreeBuffer = 1 ∧
        (∀ fl, FreeList exTwoSegments.freeNext exTwoSegments.firstFreeBuffer fl → 1 ∉ fl →
          FreeList s2.freeNext s2.firstFreeBuffer (1 :: fl)) ∧
        Inv s2 [2] [0] ∧
        (∀ i, lastTouch s2 i = lastTouch exTwoSegments i ∧
          secondLastTouch s2 i = secondLastTouch exTwoSegments i) :=
  ⟨by decide, by decide, by decide, by decide,
    (freeBuffer_pushes_and_purges 8 exTwoSegments [2] [1, 0] 1 (by decide) (by decide)).2.1
      (by decide)⟩

end Elru

namespace Elru

/-! ## The unlink cases never meet a missing neighbour -/

/-- The search loop only returns a node it has walked over. -/
theorem search_loop_found_mem (mem : Ptr → Node) (k : Int) (L : List Ptr) (p : Option Ptr)
    (hs : Seg mem p L none) (fuel : Nat) (frame : Ptr)
    (h : search_loop mem k fuel (firstOr L none) = .ok (some frame)) : frame ∈ L := by
  induction L generalizing p fuel with
  | nil => cases fuel <;> simp [firstOr, search_loop] at h
  | cons x xs ih =>
    cases fuel with
    | zero => simp [firstOr, search_loop] at h
    | succ n =>
      obtain ⟨_, h2, h3⟩ := hs
      simp only [firstOr, search_loop] at h
      split_ifs at h with hx
      · simp only [Except.ok.injEq, Option.some.injEq] at h
        simp [h]
      · rw [h2] at h
        exact List.mem_cons_of_mem _ (ih (some x) h3 n h)

/-- A member of a well-linked list that is not its first node has a
predecessor. -/
theorem Seg_prev_some {mem : Ptr → Node} {L : List Ptr} {p q : Option Ptr} {frame : Ptr}
    (hs : Seg mem p L q) (hm : frame ∈ L) (hh : firstOr L none ≠ some frame) :
    ∃ pv, (mem frame).prev = some pv := by
  induction L generalizing p with
  | nil => simp at hm
  | cons x xs ih =>
    obtain ⟨_, _, h3⟩ := hs
    have hx : x ≠ frame := fun e => hh (by simp [firstOr, e])
    have hm2 : frame ∈ xs := by
      rcases List.mem_cons.1 hm with e | e
      · exact absurd e.symm hx
      · exact e
    cases xs with
    | nil => simp at hm2
    | cons y ys =>
      by_cases hy : y = frame
      · exact ⟨x, by rw [← hy]; exact h3.1⟩
      · exact ih h3 hm2 (by simpa [firstOr] using hy)

/-- A member of a well-linked list that is not its last node has a
successor. -/
theorem Seg_next_some {mem : Ptr → Node} {L : List Ptr} {p q : Option Ptr} {frame : Ptr}
    (hs : Seg mem p L q) (hm : frame ∈ L) (ht : lastOr L none ≠ some frame) :
    ∃ nx, (mem frame).next = some nx := by
  induction L generalizing p with
  | nil => simp at hm
  | cons x xs ih =>
    obtain ⟨_, h2, h3⟩ := hs
    cases xs with
    | nil =>
      have : frame = x := by simpa using hm
      exact absurd (by simp [lastOr, this]) ht
    | cons y ys =>
      by_cases hx : x = frame
      · exact ⟨y, by rw [← hx, h2]; rfl⟩
      · have hm2 : frame ∈ y :: ys := by
          rcases List.mem_cons.1 hm with e | e
          · exact absurd e.symm hx
          · exact e
        exact ih h3 hm2 ht

/-- In a segment, a node found by the search that is not the head has a
predecessor, and one that is not the tail has a successor. -/
theorem IsSeg.found_links {mem : Ptr → Node} {info : Info} {xs : List Nat} {k : Int}
    {fuel : Nat} {frame : Ptr} (h : IsSeg mem info xs)
    (hfound : (if info.head = none then (.ok none : Except Fault (Option Ptr))
      else search_loop mem k fuel info.head) = .ok (some frame)) :
    (info.head ≠ some frame → ∃ pv, (mem frame).prev = some pv) ∧
    (info.head ≠ some frame → info.tail ≠ some frame → ∃ nx, (mem frame).next = some nx) := by
  rcases h with ⟨_, _, hs, hh, ht⟩ | ⟨rfl, ht, hg⟩
  · have hm : frame ∈ nodes xs := by
      cases hx : xs with
      | nil => subst hx; simp [hh, nodes, firstOr] at hfound
      | cons x r =>
        subst hx
        rw [hh, if_neg (by simp [nodes, firstOr])] at hfound
        exact search_loop_found_mem mem k _ none hs fuel frame hfound
    exact ⟨fun h1 => Seg_prev_some hs hm (by rw [← hh]; exact h1),
      fun _ h2 => Seg_next_some hs hm (by rw [← ht]; exact h2)⟩
  · cases hhd : info.head with
    | none => simp [hhd] at hg
    | some g =>
      rw [hhd] at hg hfound
      have : frame = g := by
        cases fuel with
        | zero => simp [search_loop] at hfound
        | succ n =>
          simp only [reduceCtorEq, if_false, search_loop] at hfound
          split_ifs at hfound with hx
          · simp only [Except.ok.injEq, Option.some.injEq] at hfound
            exact hfound.symm
          · rw [hg.2] at hfound
            cases n <;> simp [search_loop] at hfound
      subst this
      exact ⟨fun h1 => absurd rfl h1, fun h1 _ => absurd rfl h1⟩

/-- The search loop dereferences no pointer it has not tested. -/
theorem search_loop_no_null (mem : Ptr → Node) (k : Int) (fuel : Nat) (p : Option Ptr) :
    search_loop mem k fuel p ≠ .error .nullDeref := by
  induction fuel generalizing p with
  | zero => cases p <;> simp [search_loop]
  | succ n ih =>
    cases p with
    | none => simp [search_loop]
    | some x =>
      simp only [search_loop]
      split_ifs
      · simp
      · exact ih _

/-- Once the search has returned, `delete_arbitrarily` returns. -/
theorem delete_arbitrarily_of_search (fuel : Nat) (s : State) (xs : List Nat) (k : Int)
    (h : IsSeg s.mem s.linkedListInfo xs) (r : Option Ptr)
    (hsr : search_for_frame fuel s k = .ok r) :
    ∃ s2, delete_arbitrarily fuel s k = .ok s2 := by
  unfold delete_arbitrarily
  rw [hsr]
  cases r with
  | none => exact ⟨s, rfl⟩
  | some frame =>
    have hl := @IsSeg.found_links _ _ _ k fuel frame h hsr
    simp only []
    by_cases hh : s.linkedListInfo.head = some frame
    · rw [if_pos hh]
      cases (s.mem frame).next <;> exact ⟨_, rfl⟩
    · rw [if_neg hh]
      obtain ⟨pv, hpv⟩ := hl.1 hh
      by_cases ht : s.linkedListInfo.tail = some frame
      · rw [if_pos ht, hpv]; exact ⟨_, rfl⟩
      · rw [if_neg ht, hpv]
        obtain ⟨nx, hnx⟩ := hl.2 hh ht
        have : ((s.setNext pv (s.mem frame).next).mem frame).next = some nx := by
          rw [next_setNext]; split_ifs <;> exact hnx
        simp only [this]
        exact ⟨_, rfl⟩

/-- Once the search has returned, `delete_other_arbitrarily` returns. -/
theorem delete_other_arbitrarily_of_search (fuel : Nat) (s : State) (xs : List Nat) (k : Int)
    (h : IsSeg s.mem s.otherLinkedListInfo xs) (r : Option Ptr)
    (hsr : search_for_frame_b2 fuel s k = .ok r) :
    ∃ s2, delete_other_arbitrarily fuel s k = .ok s2 := by
  unfold delete_other_arbitrarily
  rw [hsr]
  cases r with
  | none => exact ⟨s, rfl⟩
  | some frame =>
    have hl := @IsSeg.found_links _ _ _ k fuel frame h hsr
    simp only []
    by_cases hh : s.otherLinkedListInfo.head = some frame
    · rw [if_pos hh]
      cases (s.mem frame).next <;> exact ⟨_, rfl⟩
    · rw [if_neg hh]
      obtain ⟨pv, hpv⟩ := hl.1 hh
      by_cases ht : s.otherLinkedListInfo.tail = some frame
      · rw [if_pos ht, hpv]; exact ⟨_, rfl⟩
      · rw [if_neg ht]
        obtain ⟨nx, hnx⟩ := hl.2 hh ht
        have hrep : repair_links fuel s frame k = .ok s := by
          simp [repair_links, hpv, hnx]
        rw [hrep]
        simp only [hpv]
        have : ((s.setNext pv (s.mem frame).next).mem frame).next = some nx := by
          rw [next_setNext]; split_ifs <;> exact hnx
        simp only [this]
        exact ⟨_, rfl⟩

theorem delete_arbitrarily_no_null (fuel : Nat) (s : State) (xs : List Nat) (k : Int)
    (h : IsSeg s.mem s.linkedListInfo xs) :
    delete_arbitrarily fuel s k ≠ .error .nullDeref := by
  cases hsr : search_for_frame fuel s k with
  | error e =>
    have : delete_arbitrarily fuel s k = .error e := by
      unfold delete_arbitrarily; rw [hsr]
    rw [this]
    intro he
    simp only [Except.error.injEq] at he
    subst he
    unfold search_for_frame at hsr
    split_ifs at hsr
    exact search_loop_no_null _ _ _ _ hsr
  | ok r =>
    obtain ⟨s2, h2⟩ := delete_arbitrarily_of_search fuel s xs k h r hsr
    rw [h2]; simp

theorem delete_other_arbitrarily_no_null (fuel : Nat) (s : State) (xs : List Nat) (k : Int)
    (h : IsSeg s.mem s.otherLinkedListInfo xs) :
    delete_other_arbitrarily fuel s k ≠ .error .nullDeref := by
  cases hsr : search_for_frame_b2 fuel s k with
  | error e =>
    have : delete_other_arbitrarily fuel s k = .error e := by
      unfold delete_other_arbitrarily; rw [hsr]
    rw [this]
    intro he
    simp only [Except.error.injEq] at he
    subst he
    unfold search_for_frame_b2 at hsr
    split_ifs at hsr
    exact search_loop_no_null _ _ _ _ hsr
  | ok r =>
    obtain ⟨s2, h2⟩ := delete_other_arbitrarily_of_search fuel s xs k h r hsr
    rw [h2]; simp

/-- Walking a well-linked list of `L.length` nodes needs no more fuel than
that. -/
theorem search_loop_returns (mem : Ptr → Node) (k : Int) (L : List Ptr) (p : Option Ptr)
    (hs : Seg mem p L none) (fuel : Nat) (hf : L.length ≤ fuel) :
    ∃ r, search_loop mem k fuel (firstOr L none) = .ok r := by
  induction L generalizing p fuel with
  | nil => cases fuel <;> exact ⟨none, by simp [firstOr, search_loop]⟩
  | cons x xs ih =>
    cases fuel with
    | zero => simp at hf
    | succ n =>
      obtain ⟨_, h2, h3⟩ := hs
      simp only [firstOr, search_loop]
      split_ifs
      · exact ⟨_, rfl⟩
      · rw [h2]
        exact ih (some x) h3 n (by simpa using hf)

/-- The search from the head of a segment returns when the fuel exceeds the
number of members. -/
theorem IsSeg.search_returns {mem : Ptr → Node} {info : Info} {xs : List Nat}
    (h : IsSeg mem info xs) (k : Int) (fuel : Nat) (hf : xs.length < fuel) :
    ∃ r, (if info.head = none then (.ok none : Except Fault (Option Ptr))
      else search_loop mem k fuel info.head) = .ok r := by
  by_cases hn : info.head = none
  · exact ⟨none, by rw [if_pos hn]⟩
  · rw [if_neg hn]
    rcases h with ⟨_, _, hs, hh, _⟩ | ⟨rfl, _, hg⟩
    · rw [hh]
      exact search_loop_returns mem k _ none hs fuel (by simp [nodes]; omega)
    · cases hhd : info.head with
      | none => exact absurd hhd hn
      | some g =>
        rw [hhd] at hg
        obtain ⟨n, rfl⟩ : ∃ n, fuel = n + 1 := ⟨fuel - 1, by simp at hf; omega⟩
        simp only [search_loop]
        split_ifs
        · exact ⟨_, rfl⟩
        · rw [hg.2]; cases n <;> exact ⟨none, by simp [search_loop]⟩

/-- C36: for every well-formed state, a node that `delete_other_arbitrarily`
finds in B2 and that is neither the head nor the tail has both `prev` and
`next` non-NULL, so the link-repair prologue changes nothing
(`search_for_frame_after` / `search_for_frame_before` are not called); a node
that `delete_arbitrarily` finds in B1 and that is not the head has a
predecessor, and a successor too unless it is the tail.  Hence neither
function dereferences NULL, whatever the fuel, and both return normally once
the fuel exceeds the length of the segment. -/
theorem delete_middle_node_has_both_neighbours (fuel : Nat) (s : State) (b1 b2 : List Nat)
    (k : Int) (hinv : Inv s b1 b2) :
    (∀ frame, search_for_frame_b2 fuel s k = .ok (some frame) →
      s.otherLinkedListInfo.head ≠ some frame →
      (∃ pv, (s.mem frame).prev = some pv) ∧
      (s.otherLinkedListInfo.tail ≠ some frame →
        (∃ nx, (s.mem frame).next = some nx) ∧ repair_links fuel s frame k = .ok s)) ∧
    (∀ frame, search_for_frame fuel s k = .ok (some frame) →
      s.linkedListInfo.head ≠ some frame →
      (∃ pv, (s.mem frame).prev = some pv) ∧
      (s.linkedListInfo.tail ≠ some frame → ∃ nx, (s.mem frame).next = some nx)) ∧
    delete_other_arbitrarily fuel s k ≠ .error .nullDeref ∧
    delete_arbitrarily fuel s k ≠ .error .nullDeref ∧
    (b2.length < fuel → ∃ s2, delete_other_arbitrarily fuel s k = .ok s2) ∧
    (b1.length < fuel → ∃ s2, delete_arbitrarily fuel s k = .ok s2) := by
  obtain ⟨h1, h2, _⟩ := hinv
  have hno2 := delete_other_arbitrarily_no_null fuel s b2 k h2
  have hno1 := delete_arbitrarily_no_null fuel s b1 k h1
  refine ⟨?_, ?_, hno2, hno1, ?_, ?_⟩
  · intro frame hsr hh
    have hl := @IsSeg.found_links _ _ _ k fuel frame h2 hsr
    obtain ⟨pv, hpv⟩ := hl.1 hh
    refine ⟨⟨pv, hpv⟩, fun ht => ?_⟩
    obtain ⟨nx, hnx⟩ := hl.2 hh ht
    exact ⟨⟨nx, hnx⟩, by simp [repair_links, hpv, hnx]⟩
  · intro frame hsr hh
    have hl := @IsSeg.found_links _ _ _ k fuel frame h1 hsr
    exact ⟨hl.1 hh, hl.2 hh⟩
  · intro hf
    obtain ⟨r, hr⟩ := h2.search_returns k fuel hf
    exact delete_other_arbitrarily_of_search fuel s b2 k h2 r hr
  · intro hf
    obtain ⟨r, hr⟩ := h1.search_returns k fuel hf
    exact delete_arbitrarily_of_search fuel s b1 k h1 r hr

/-- Worked instance of C36: deleting frame 1, the middle node of B2 = [2, 1, 0]. -/
theorem delete_middle_node_has_both_neighbours_witness :
    Inv exThreeInB2 [] [2, 1, 0] ∧
    search_for_frame_b2 8 exThreeInB2 1 = .ok (some (.main 1)) ∧
    exThreeInB2.otherLinkedListInfo.head ≠ some (.main 1) ∧
    exThreeInB2.otherLinkedListInfo.tail ≠ some (.main 1) ∧
    (∃ nx, (exThreeInB2.mem (.main 1)).next = some nx) ∧
    delete_other_arbitrarily 8 exThreeInB2 1 ≠ .error .nullDeref :=
  have h := delete_middle_node_has_both_neighbours 8 exThreeInB2 [] [2, 1, 0] 1 (by decide)
  ⟨by decide, rfl, by decide, by decide,
    ((h.1 (.main 1) rfl (by decide)).2 (by decide)).1, h.2.2.1⟩

end Elru

namespace Elru

/-! ## Claim about the identity of a victim taken from B2 -/

/-- C31: when `StrategyGetBuffer` (free list empty, every member of B1
pinned) takes its victim `v` from B2 = l ++ v :: r, it returns `v`, the node at
the head of B1 is slot `v` of the frame array and carries `frame_id = v`, no
slot of the frame array (so no node of B1 or B2) has had its `frame_id`
changed, and a following `StrategyAccessBuffer(v, false)` finds `v` in B1 and
moves it into B2 at its ranked position. -/
theorem victim_from_b2_keeps_identity (fuel : Nat) (s : State) (b1 l r : List Nat) (v : Nat)
    (hres : s.firstFreeBuffer < 0) (hinv : Inv s b1 (l ++ v :: r))
    (hp : ∀ i ∈ b1, s.refcount i ≠ 0) (hv : s.refcount v = 0)
    (hr : ∀ i ∈ r, s.refcount i ≠ 0) (hf : b1.length + (l ++ v :: r).length < fuel) :
    ∃ s2, StrategyGetBuffer fuel s = .ok (.buf v, s2) ∧
      Inv s2 (v :: b1) (l ++ r) ∧
      s2.linkedListInfo.head = some (.main v) ∧
      (s2.mem (.main v)).frame_id = (v : Int) ∧
      (∀ i, (s2.mem (.main i)).frame_id = (s.mem (.main i)).frame_id) ∧
      search_for_frame fuel s2.tick v = .ok (some (.main v)) ∧
      ∃ s3, StrategyAccessBuffer fuel s2 v false = .ok s3 ∧
        Inv s3 b1 (rankInsert (secondLastTouch s3) v (l ++ r)) ∧
        v ∉ b1 ∧ v ∈ rankInsert (secondLastTouch s3) v (l ++ r) := by
  have hinv2 : Inv s.tick b1 (l ++ v :: r) := hinv
  rw [getBuffer_eq_scan fuel s hres,
    scan_b1_all_pinned fuel s.tick b1 hinv2.1 hp (by omega)]
  obtain ⟨s2, e, hi, hst⟩ := scan_b2_hit fuel s.tick b1 l r v hinv2 hv hr hf
  have hidv : (s.mem (.main v)).frame_id = (v : Int) := hinv.2.1.frame_id_eq (by simp)
  have hid2 : (s2.mem (.main v)).frame_id = (v : Int) := hi.1.frame_id_eq (by simp)
  have hvb1 : v ∉ b1 := fun hm => hinv.2.2 v hm (by simp)
  have hlen : (v :: b1).length + (l ++ r).length < fuel := by
    simp only [List.length_append, List.length_cons] at hf ⊢; omega
  obtain ⟨s3, e3, hi3, _, hm3, _⟩ :=
    touch_b1_member_promotes_to_b2 fuel s2 (v :: b1) (l ++ r) v hi (by simp) hlen
  refine ⟨s2, e, hi, ?_, hid2, ?_, ?_, s3, e3, ?_, hvb1, hm3⟩
  · rcases hi.1 with ⟨_, _, _, hh, _⟩ | ⟨h0, _⟩
    · exact hh
    · simp at h0
  · intro i
    by_cases hiv : i = v
    · subst hiv; exact hst.frame_id
    · exact hst.only.frame_id i hiv
  · have hi2 : Inv s2.tick (v :: b1) (l ++ r) := hi
    have := search_isSeg s2.tick.mem s2.tick.linkedListInfo (v :: b1) v fuel hi2.1
      (by simp only [List.length_append, List.length_cons] at hf ⊢; omega)
    unfold search_for_frame
    rw [this]; simp
  · simpa using hi3

/-- Worked instance of C31 (scenario E): B1 empty, B2 = [1, 0], nothing pinned. -/
theorem victim_from_b2_keeps_identity_witness :
    exOnlyB2.firstFreeBuffer < 0 ∧ Inv exOnlyB2 [] ([1] ++ 0 :: []) ∧
    ∃ s2, StrategyGetBuffer 8 exOnlyB2 = .ok (.buf 0, s2) ∧
      Inv s2 [0] [1] ∧ s2.linkedListInfo.head = some (.main 0) ∧
      (s2.mem (.main 0)).frame_id = 0 ∧
      ∃ s3, StrategyAccessBuffer 8 s2 0 false = .ok s3 ∧
        Inv s3 [] (rankInsert (secondLastTouch s3) 0 [1]) :=
  have ⟨s2, h1, h2, h3, h4, _, _, s3, h7, h8, _⟩ :=
    victim_from_b2_keeps_identity 8 exOnlyB2 [] [1] [] 0 (by decide) (by decide)
      (by decide) (by decide) (by decide) (by decide)
  ⟨by decide, by decide, s2, h1, h2, h3, h4, s3, h7, h8⟩

end Elru

namespace Lru

/-! ## The first access after `StrategyInitialize` of `freelist_lru.c` -/

/-- C38 (what the code does): after `StrategyInitialize`, a first
`StrategyAccessBuffer(0, false)` leaves the well-formed stack [0] with
`head = tail = node 0` and no successor.  A first
`StrategyAccessBuffer(1, false)` does not: `head = tail = node 1`, but
`insert_at_head` has linked slot 0 (where `head` pointed, an unused node with
`frame_id = 0`) behind node 1, so node 1's `next` is not NULL and the list is
not the well-formed list [1]; a following `StrategyAccessBuffer(0, false)`
finds that slot and dereferences its NULL `next` in `delete_arbitrarily`. -/
theorem lru_first_access_links_unused_slot :
    (Stack (okState (StrategyAccessBuffer 8 exInit 0 false) exInit) [0] ∧
      (okState (StrategyAccessBuffer 8 exInit 0 false) exInit).head = some 0 ∧
      (okState (StrategyAccessBuffer 8 exInit 0 false) exInit).tail = some 0 ∧
      ((okState (StrategyAccessBuffer 8 exInit 0 false) exInit).mem 0).next = none) ∧
    (∃ s1, StrategyAccessBuffer 8 exInit 1 false = .ok s1 ∧
      s1.head = some 1 ∧ s1.tail = some 1 ∧ (s1.mem 1).next = some 0 ∧
      (s1.mem 0).prev = some 1 ∧ (s1.mem 0).frame_id = 0 ∧
      ¬ WF s1 [1] ∧ ¬ Stack s1 [1] ∧
      StrategyAccessBuffer 8 s1 0 false = .error .nullDeref) := by
  refine ⟨by decide, okState (StrategyAccessBuffer 8 exInit 1 false) exInit, rfl, ?_⟩
  refine ⟨by decide, by decide, by decide, by decide, by decide, by decide, by decide, rfl⟩

end Lru

namespace Elru

/-! ## The structural invariant of the two segments -/

theorem walkNext_seg (mem : Ptr → Node) (L : List Ptr) (p : Option Ptr)
    (hs : Seg mem p L none) (fuel : Nat) (hf : L.length < fuel) :
    walkNext mem fuel (firstOr L none) = L := by
  induction L generalizing p fuel with
  | nil =>
    obtain ⟨n, rfl⟩ : ∃ n, fuel = n + 1 := ⟨fuel - 1, by simp at hf; omega⟩
    rfl
  | cons x xs ih =>
    obtain ⟨n, rfl⟩ : ∃ n, fuel = n + 1 := ⟨fuel - 1, by simp at hf; omega⟩
    obtain ⟨_, h2, h3⟩ := hs
    show walkNext mem (n + 1) (some x) = x :: xs
    rw [walkNext, h2, ih (some x) h3 n (by simpa using hf)]

theorem walkPrev_seg (mem : Ptr → Node) (L : List Ptr) (q : Option Ptr)
    (hs : Seg mem none L q) (fuel : Nat) (hf : L.length < fuel) :
    walkPrev mem fuel (lastOr L none) = L.reverse := by
  induction L using List.reverseRecOn generalizing q fuel with
  | nil =>
    obtain ⟨n, rfl⟩ : ∃ n, fuel = n + 1 := ⟨fuel - 1, by simp at hf; omega⟩
    rfl
  | append_singleton l a ih =>
    obtain ⟨n, rfl⟩ : ∃ n, fuel = n + 1 := ⟨fuel - 1, by simp at hf; omega⟩
    rw [Seg_append] at hs
    obtain ⟨hl, ha⟩ := hs
    have hprev : (mem a).prev = lastOr l none := ha.1
    rw [lastOr_concat]
    simp only [walkPrev, hprev, List.reverse_append, List.reverse_cons, List.reverse_nil,
      List.nil_append, List.singleton_append]
    rw [ih _ hl n (by simp at hf; omega)]

theorem Seg_last_next {mem : Ptr → Node} {L : List Ptr} {p q : Option Ptr} {t : Ptr}
    (hs : Seg mem p L q) (ht : lastOr L none = some t) : (mem t).next = q := by
  rcases eq_nil_or_snoc L with rfl | ⟨l, a, rfl⟩
  · simp [lastOr] at ht
  · rw [lastOr_concat] at ht
    cases ht
    rw [Seg_append] at hs
    exact hs.2.2.1

theorem Seg_back_link {mem : Ptr → Node} {L : List Ptr} {p : Option Ptr} {x y : Ptr}
    (hs : Seg mem p L none) (hx : x ∈ L) (hn : (mem x).next = some y) :
    (mem y).prev = some x := by
  induction L generalizing p with
  | nil => simp at hx
  | cons a xs ih =>
    obtain ⟨_, h2, h3⟩ := hs
    by_cases ha : x = a
    · subst ha
      cases xs with
      | nil => rw [h2] at hn; simp [firstOr] at hn
      | cons b ys =>
        rw [h2] at hn
        simp only [firstOr, Option.some.injEq] at hn
        subst hn
        exact h3.1
    · rcases List.mem_cons.1 hx with e | e
      · exact absurd e ha
      · exact ih h3 e

/-- A proper segment satisfies the structural invariant. -/
theorem Proper.linked {mem : Ptr → Node} {info : Info} {xs : List Nat}
    (h : Proper mem info xs) : Linked mem info (nodes xs) := by
  obtain ⟨hnd, hid, hs, hh, ht⟩ := h
  refine ⟨nodes_nodup hnd, ?_, ?_, ?_, ?_, ?_, ?_, ?_⟩
  · intro fuel hf
    rw [hh]; exact walkNext_seg mem _ none hs fuel hf
  · intro fuel hf
    rw [ht]; exact walkPrev_seg mem _ none hs fuel hf
  · intro g hg
    rw [hh] at hg
    cases hx : nodes xs with
    | nil => rw [hx] at hg; simp [firstOr] at hg
    | cons a r =>
      rw [hx] at hg hs
      simp only [firstOr, Option.some.injEq] at hg
      subst hg
      exact hs.1
  · intro t htl
    rw [ht] at htl
    exact Seg_last_next hs htl
  · rw [hh, ht]
    cases hx : nodes xs with
    | nil => simp [firstOr, lastOr]
    | cons a r =>
      obtain ⟨b, hb, _⟩ := lastOr_cons_ne_none a r none
      simp [firstOr, hb]
  · intro p hp q hq
    exact Seg_back_link hs hp hq
  · intro p hp
    obtain ⟨i, hi, rfl⟩ := mem_nodes.1 hp
    exact ⟨i, rfl, hid i hi⟩

/-! ## Unused slots are never linked -/

theorem KeepsUnlinked.refl_keeps (s : State) : KeepsUnlinked s s :=
  fun _ hp => Or.inr ⟨hp, rfl⟩

theorem KeepsUnlinked.trans_keeps {s s1 s2 : State} (h1 : KeepsUnlinked s s1)
    (h2 : KeepsUnlinked s1 s2) : KeepsUnlinked s s2 := by
  intro p hp
  rcases h2 p hp with e | ⟨e1, e2⟩
  · exact Or.inl e
  · rcases h1 p e1 with e | ⟨e3, e4⟩
    · exact Or.inl (e2.trans e)
    · exact Or.inr ⟨e3, e2.trans e4⟩

theorem KeepsUnlinked.unlinked {s s2 : State} (h : KeepsUnlinked s s2)
    (hU : Unlinked s.mem) : Unlinked s2.mem := by
  intro p hp
  rcases h p hp with e | ⟨e1, e2⟩
  · exact e
  · exact e2.trans (hU p e1)

theorem KeepsUnlinked.of_mem {s s2 : State} (h : s2.mem = s.mem) : KeepsUnlinked s s2 := by
  intro p hp
  rw [h] at hp ⊢
  exact Or.inr ⟨hp, rfl⟩

/-- Link surgery on nodes that carry a frame id links no unused slot. -/
theorem KeepsUnlinked.from_links {T : List Ptr} {s s2 : State} (hL : LinksOnly T s s2)
    (hT : ∀ p ∈ T, 0 ≤ (s.mem p).frame_id) : KeepsUnlinked s s2 := by
  intro p hp
  by_cases hm : p ∈ T
  · have := hT p hm
    rw [hL.frame_id] at hp
    omega
  · rw [hL.outside p hm] at hp ⊢
    exact Or.inr ⟨hp, rfl⟩

theorem KeepsUnlinked.of_stamp (s : State) (f : Ptr) : KeepsUnlinked s (update_time s f) := by
  intro p hp
  obtain ⟨e1, _, e3⟩ := update_time_links s f p
  rw [e3] at hp
  exact Or.inr ⟨hp, e1⟩

theorem nodes_frame_id_nonneg {s : State} {b1 b2 : List Nat} (hinv : Inv s b1 b2)
    {p : Ptr} (hp : p ∈ nodes b1 ++ nodes b2) : 0 ≤ (s.mem p).frame_id := by
  rcases List.mem_append.1 hp with h | h
  · exact hinv.1.frame_id_nonneg h
  · exact hinv.2.1.frame_id_nonneg h

/-- `purge` links no unused slot. -/
theorem purge_keeps (fuel : Nat) (s : State) (b1 b2 : List Nat) (k : Nat)
    (hinv : Inv s b1 b2) (hf : b1.length + b2.length < fuel) :
    ∃ s2, StrategyAccessBuffer fuel s k true = .ok s2 ∧ KeepsUnlinked s s2 := by
  have hinv2 : Inv s.tick b1 b2 := hinv
  obtain ⟨h1, h2, hd⟩ := hinv2
  unfold StrategyAccessBuffer
  simp only [if_true]
  obtain ⟨s1, e1, hB1, hi1, hL1, -⟩ := delete_arbitrarily_isSeg fuel s.tick b1 k h1 (by omega)
  rw [e1]
  simp only []
  have hB2 : IsSeg s1.mem s1.otherLinkedListInfo b2 := by
    rw [hi1]
    refine h2.of_linksOnly hL1 (fun p hp => ⟨?_, h1.frame_id_nonneg hp⟩)
    obtain ⟨i, hi, rfl⟩ := mem_nodes.1 hp
    rw [main_mem_nodes]
    exact hd i hi
  obtain ⟨s2, e2, -, -, hL2, -⟩ :=
    delete_other_arbitrarily_isSeg fuel s1 b2 k hB2 (by omega)
  refine ⟨s2, e2, ?_⟩
  have k0 : KeepsUnlinked s s.tick := KeepsUnlinked.of_mem rfl
  have k1 : KeepsUnlinked s.tick s1 :=
    KeepsUnlinked.from_links hL1 (fun p hp => h1.frame_id_nonneg hp)
  have k2 : KeepsUnlinked s1 s2 :=
    KeepsUnlinked.from_links hL2 (fun p hp => hB2.frame_id_nonneg hp)
  exact (k0.trans_keeps k1).trans_keeps k2

/-- A touch of a member of B1 or B2 links no unused slot. -/
theorem touch_member_keeps (fuel : Nat) (s : State) (b1 b2 : List Nat) (k : Nat)
    (hinv : Inv s b1 b2) (hmem : k ∈ b1 ∨ k ∈ b2) (hf : b1.length + b2.length < fuel) :
    ∃ s2, StrategyAccessBuffer fuel s k false = .ok s2 ∧ KeepsUnlinked s s2 := by
  have hinv2 : Inv s.tick b1 b2 := hinv
  have hidk : (s.tick.mem (.main k)).frame_id = (k : Int) := by
    rcases hmem with hm | hm
    · exact hinv.1.frame_id_eq hm
    · exact hinv.2.1.frame_id_eq hm
  obtain ⟨s2, e2, -, hL⟩ := insert_into_b2_spec fuel s.tick b1 b2 k hinv2 hidk hf
  have hcall : StrategyAccessBuffer fuel s k false = insert_into_b2 fuel s.tick (.main k) := by
    obtain ⟨h1, h2, hd⟩ := hinv
    unfold StrategyAccessBuffer
    have hs1 : search_for_frame fuel s.tick k =
        .ok (if k ∈ b1 then some (.main k) else none) := by
      unfold search_for_frame
      rw [show s.tick.linkedListInfo = s.linkedListInfo from rfl,
        show s.tick.mem = s.mem from rfl,
        search_isSeg s.mem s.linkedListInfo b1 k fuel h1 (by omega)]
    have hs2 : search_for_frame_b2 fuel s.tick k =
        .ok (if k ∈ b2 then some (.main k) else none) := by
      unfold search_for_frame_b2
      rw [show s.tick.otherLinkedListInfo = s.otherLinkedListInfo from rfl,
        show s.tick.mem = s.mem from rfl,
        search_isSeg s.mem s.otherLinkedListInfo b2 k fuel h2 (by omega)]
    simp only [hs1, hs2, Bool.false_eq_true, if_false]
    by_cases hk1 : k ∈ b1
    · simp [hk1]
    · have hk2 : k ∈ b2 := hmem.resolve_left hk1
      simp [hk1, hk2]
  rw [hcall]
  refine ⟨s2, e2, ?_⟩
  have k0 : KeepsUnlinked s s.tick := KeepsUnlinked.of_mem rfl
  have k1 := KeepsUnlinked.of_stamp s.tick (.main k)
  have k2 : KeepsUnlinked (update_time s.tick (.main k)) s2 := by
    refine KeepsUnlinked.from_links hL (fun p hp => ?_)
    rw [(update_time_links _ _ _).2.2]
    rcases List.mem_cons.1 hp with rfl | hp
    · rw [hidk]; omega
    · exact nodes_frame_id_nonneg hinv2 hp
  exact (k0.trans_keeps k1).trans_keeps k2

/-- A touch of a frame that is in neither segment links no unused slot. -/
theorem touch_new_keeps (fuel : Nat) (s : State) (b1 b2 : List Nat) (k : Nat)
    (hinv : Inv s b1 b2) (hk1 : k ∉ b1) (hk2 : k ∉ b2)
    (hf : b1.length + b2.length < fuel) :
    ∃ s2, StrategyAccessBuffer fuel s k false = .ok s2 ∧ KeepsUnlinked s s2 := by
  have hinv0 := hinv
  obtain ⟨h1, h2, hd⟩ := hinv
  have hs1 : search_for_frame fuel s.tick k = .ok none := by
    unfold search_for_frame
    rw [show s.tick.linkedListInfo = s.linkedListInfo from rfl,
      show s.tick.mem = s.mem from rfl,
      search_isSeg s.mem s.linkedListInfo b1 k fuel h1 (by omega), if_neg hk1]
  have hs2 : search_for_frame_b2 fuel s.tick k = .ok none := by
    unfold search_for_frame_b2
    rw [show s.tick.otherLinkedListInfo = s.otherLinkedListInfo from rfl,
      show s.tick.mem = s.mem from rfl,
      search_isSeg s.mem s.otherLinkedListInfo b2 k fuel h2 (by omega), if_neg hk2]
  unfold StrategyAccessBuffer
  simp only [hs1, hs2, Bool.false_eq_true, if_false]
  obtain ⟨s4, hs4⟩ : ∃ s4, s4 = (((s.tick.setFrameId (.main k) k).setTime0 (.main k) 0).setTime1
      (.main k) 0).setSanity (.main k) 42069 := ⟨_, rfl⟩
  rw [← hs4]
  have hm4 : ∀ p, p ≠ Ptr.main k → s4.mem p = s.mem p := by
    intro p hp
    rw [hs4]
    simp [State.setFrameId, State.setTime0, State.setTime1, State.setSanity, State.tick,
      Function.update_apply, hp]
  have hk4 : s4.mem (.main k) = { s.mem (.main k) with
      frame_id := k, time_array_0 := 0, time_array_1 := 0, sanity_check := 42069 } := by
    rw [hs4]
    simp [State.setFrameId, State.setTime0, State.setTime1, State.setSanity, State.tick]
  have hi4 : s4.linkedListInfo = s.linkedListInfo := by rw [hs4]; rfl
  have ho4 : s4.otherLinkedListInfo = s.otherLinkedListInfo := by rw [hs4]; rfl
  have h1b : IsSeg s4.mem s.linkedListInfo b1 ∨ (b1 = [] ∧ GhostAt s4.mem s.linkedListInfo k) :=
    h1.fresh hk1 hm4 (by rw [hk4])
  have h2b : IsSeg s4.mem s.otherLinkedListInfo b2 ∨
      (b2 = [] ∧ GhostAt s4.mem s.otherLinkedListInfo k) :=
    h2.fresh hk2 hm4 (by rw [hk4])
  rw [← hi4] at h1b
  rw [← ho4] at h2b
  obtain ⟨s5, e5, -, hL5⟩ :=
    move_to_head_fresh fuel s4 b1 b2 k h1b h2b hd hk1 hk2 (by rw [hk4]) hf
  refine ⟨s5, e5, ?_⟩
  have hne : ∀ p, p ∈ nodes b1 ++ nodes b2 → p ≠ Ptr.main k := by
    rintro p hp rfl
    rcases List.mem_append.1 hp with h | h
    · exact hk1 (main_mem_nodes.1 h)
    · exact hk2 (main_mem_nodes.1 h)
  have k4 : KeepsUnlinked s s4 := by
    intro p hp
    by_cases hpk : p = Ptr.main k
    · subst hpk
      rw [hk4] at hp
      simp only [] at hp
      omega
    · rw [hm4 p hpk] at hp ⊢
      exact Or.inr ⟨hp, rfl⟩
  have k5 := KeepsUnlinked.of_stamp s4 (.main k)
  have k6 : KeepsUnlinked (update_time s4 (.main k)) s5 := by
    refine KeepsUnlinked.from_links hL5 (fun p hp => ?_)
    rw [(update_time_links _ _ _).2.2]
    rcases List.mem_cons.1 hp with rfl | hp
    · rw [hk4]; simp
    · rw [hm4 p (hne p hp)]
      exact nodes_frame_id_nonneg hinv0 hp
  exact (k4.trans_keeps k5).trans_keeps k6

/-- `StrategyAccessBuffer` links no unused slot. -/
theorem access_keeps {fuel : Nat} {s s2 : State} {k : Nat} {d : Bool} {b1 b2 : List Nat}
    (h : StrategyAccessBuffer fuel s k d = .ok s2) (hinv : Inv s b1 b2) :
    KeepsUnlinked s s2 := by
  have h2 := StrategyAccessBuffer_mono (Nat.le_max_left fuel (b1.length + b2.length + 1)) h
  have hF : b1.length + b2.length < max fuel (b1.length + b2.length + 1) := by
    have := Nat.le_max_right fuel (b1.length + b2.length + 1); omega
  cases d with
  | true =>
    obtain ⟨s3, e3, hk⟩ := purge_keeps _ s b1 b2 k hinv hF
    rw [e3] at h2; cases h2
    exact hk
  | false =>
    by_cases hm : k ∈ b1 ∨ k ∈ b2
    · obtain ⟨s3, e3, hk⟩ := touch_member_keeps _ s b1 b2 k hinv hm hF
      rw [e3] at h2; cases h2
      exact hk
    · obtain ⟨s3, e3, hk⟩ := touch_new_keeps _ s b1 b2 k hinv (fun h => hm (Or.inl h))
        (fun h => hm (Or.inr h)) hF
      rw [e3] at h2; cases h2
      exact hk

/-- The six writes of lines 1093-1098 clear the links of the slot they write to
and touch no other node. -/
theorem reset_other_slot_keeps (s : State) (v : Nat)
    (hid : (s.mem (.main v)).frame_id = (v : Int)) :
    ∃ s2, reset_other_slot s (.main v) = .ok s2 ∧ KeepsUnlinked s s2 := by
  have hneg : ¬ ((v : Int) < 0) := by omega
  have key : ∀ (t : State) (w : State → Ptr → State),
      (t.mem (.main v)).frame_id = (v : Int) →
      write_other_slot t (.main v) w = .ok (w t (.other v)) := by
    intro t w ht
    unfold write_other_slot
    rw [ht, if_neg hneg, Int.toNat_ofNat]
  refine ⟨(((((s.setNext (.other v) none).setPrev (.other v) none).setFrameId
      (.other v) (-1)).setTime0 (.other v) 0).setTime1 (.other v) 0).setSanity
      (.other v) 42069, ?_, ?_⟩
  · unfold reset_other_slot
    simp only [bind, Except.bind]
    rw [key _ _ hid]
    simp only []
    rw [key _ _ (by simpa [State.setNext, Function.update_apply] using hid)]
    simp only []
    rw [key _ _ (by simpa [State.setNext, State.setPrev, Function.update_apply] using hid)]
    simp only []
    rw [key _ _ (by simpa [State.setNext, State.setPrev, State.setFrameId,
      Function.update_apply] using hid)]
    simp only []
    rw [key _ _ (by simpa [State.setNext, State.setPrev, State.setFrameId, State.setTime0,
      Function.update_apply] using hid)]
    simp only []
    rw [key _ _ (by simpa [State.setNext, State.setPrev, State.setFrameId, State.setTime0,
      State.setTime1, Function.update_apply] using hid)]
  · intro p hp
    by_cases hpv : p = Ptr.other v
    · subst hpv
      left
      simp [State.setNext, State.setPrev, State.setFrameId, State.setTime0, State.setTime1,
        State.setSanity, Function.update_apply]
    · right
      simp only [State.setNext, State.setPrev, State.setFrameId, State.setTime0,
        State.setTime1, State.setSanity, Function.update_apply, hpv, if_false] at hp ⊢
      exact ⟨hp, trivial⟩

/-- A victim taken from B2 links no unused slot. -/
theorem scan_b2_hit_keeps (fuel : Nat) (s : State) (b1 l r : List Nat) (v : Nat)
    (hinv : Inv s b1 (l ++ v :: r)) (hv : s.refcount v = 0)
    (hr : ∀ i ∈ r, s.refcount i ≠ 0) (hf : b1.length + (l ++ v :: r).length < fuel) :
    ∃ s2, scan_b2 fuel s fuel s.otherLinkedListInfo.tail = .ok (.buf v, s2) ∧
      KeepsUnlinked s s2 := by
  obtain ⟨h1, h2, hd⟩ := hinv
  have hvb2 : v ∈ l ++ v :: r := by simp
  have hvb1 : v ∉ b1 := fun hm => hd v hm hvb2
  have hidv := h2.frame_id_eq hvb2
  have hnd := h2.nodup
  have hvl : v ∉ l := by
    intro hm
    rw [List.nodup_append] at hnd
    exact hnd.2.2 hm (by simp)
  have herase : (l ++ v :: r).erase v = l ++ r := by
    rw [List.erase_append_right _ hvl, List.erase_cons_head]
  obtain ⟨n, hn⟩ : ∃ n, fuel = (n + 1) + r.length := by
    refine ⟨fuel - r.length - 1, ?_⟩
    simp only [List.length_append, List.length_cons] at hf
    omega
  have e1 : l ++ v :: r = (l ++ [v]) ++ r := by simp
  have hskip : scan_b2 fuel s fuel s.otherLinkedListInfo.tail =
      scan_b2 fuel s (n + 1) (some (.main v)) := by
    have hsk := scan_b2_skip fuel s (l ++ [v]) r (n + 1) none (by rw [← e1]; exact h2.seg)
      (fun i hi => h2.frame_id_eq (by simp [hi])) hr
    rw [← hn, ← e1, nodes_append l [v]] at hsk
    rw [h2.tail_eq, hsk]
    exact congrArg _ (lastOr_concat (nodes l) (Ptr.main v) none)
  have hs1 : search_for_frame_b2 fuel s v = .ok (some (.main v)) := by
    unfold search_for_frame_b2
    rw [search_isSeg s.mem s.otherLinkedListInfo _ v fuel h2 (by omega), if_pos hvb2]
  obtain ⟨s1, e2, hB2, hi1, hL1, -⟩ :=
    delete_other_arbitrarily_isSeg fuel s (l ++ v :: r) v h2 (by omega)
  rw [herase] at hB2
  have hB1 : IsSeg s1.mem s1.linkedListInfo b1 := by
    rw [hi1]
    refine h1.of_linksOnly hL1 (fun p hp => ⟨?_, h2.frame_id_nonneg hp⟩)
    obtain ⟨i, hi, rfl⟩ := mem_nodes.1 hp
    rw [main_mem_nodes]
    exact fun hm => hd i hm hi
  have hid1 : (s1.mem (.main v)).frame_id = (v : Int) := by rw [hL1.frame_id, hidv]
  obtain ⟨s2, e3, hi2, ho2, -, hm2, hw2⟩ := reset_other_slot_spec s1 v hid1
  obtain ⟨s2b, e3b, hk2⟩ := reset_other_slot_keeps s1 v hid1
  rw [e3] at e3b
  cases e3b
  have hinv2 : Inv s2 b1 (l ++ r) := by
    refine ⟨?_, ?_, fun i hi hm => hd i hi ?_⟩
    · rw [hi2]; exact hB1.other_write hm2 hw2
    · rw [ho2]; exact hB2.other_write hm2 hw2
    · rw [← herase] at hm; exact List.mem_of_mem_erase hm
  have hid2 : (s2.mem (.main v)).frame_id = (v : Int) := by rw [hm2, hid1]
  obtain ⟨s3, e4, -, hL3⟩ := move_to_head_spec fuel s2 b1 (l ++ r) v hinv2 hid2
    (by simp only [List.length_append, List.length_cons] at hf ⊢; omega)
  have hneg : ¬ ((v : Int) < 0) := by omega
  refine ⟨s3, ?_, ?_⟩
  · rw [hskip, scan_b2]
    simp only [hidv, Int.toNat_ofNat, hv, if_true, hneg, if_false, hs1, e2, e3, e4]
  · have k1 : KeepsUnlinked s s1 :=
      KeepsUnlinked.from_links hL1 (fun p hp => h2.frame_id_nonneg hp)
    have k3 := KeepsUnlinked.of_stamp s2 (.main v)
    have k4 : KeepsUnlinked (update_time s2 (.main v)) s3 := by
      refine KeepsUnlinked.from_links hL3 (fun p hp => ?_)
      rw [(update_time_links _ _ _).2.2]
      rcases List.mem_cons.1 hp with rfl | hp
      · rw [hid2]; omega
      · exact nodes_frame_id_nonneg hinv2 hp
    exact ((k1.trans_keeps hk2).trans_keeps k3).trans_keeps k4

/-- The victim scan links no unused slot. -/
theorem scan_keeps {fuel : Nat} {s s2 : State} {r : GetResult} {b1 b2 : List Nat}
    (hinv : Inv s b1 b2) (hf : b1.length + b2.length < fuel)
    (h : scan_b1 fuel s fuel s.linkedListInfo.tail = .ok (r, s2)) :
    KeepsUnlinked s s2 := by
  by_cases hp1 : ∀ i ∈ b1, s.refcount i ≠ 0
  · rw [scan_b1_all_pinned fuel s b1 hinv.1 hp1 (by omega)] at h
    by_cases hp2 : ∀ i ∈ b2, s.refcount i ≠ 0
    · rw [scan_b2_all_pinned fuel s b2 hinv.2.1 hp2 (by omega)] at h
      cases h
      exact KeepsUnlinked.refl_keeps _
    · have hp : ∃ i ∈ b2, s.refcount i = 0 := by
        by_contra hc
        exact hp2 (fun i hi h0 => hc ⟨i, hi, h0⟩)
      obtain ⟨l, v, r2, rfl, hv, hr⟩ := exists_last_unpinned s.refcount b2 hp
      obtain ⟨s3, e3, hk⟩ := scan_b2_hit_keeps fuel s b1 l r2 v hinv hv hr hf
      rw [e3] at h; cases h
      exact hk
  · have hp : ∃ i ∈ b1, s.refcount i = 0 := by
      by_contra hc
      exact hp1 (fun i hi h0 => hc ⟨i, hi, h0⟩)
    obtain ⟨l, v, r2, rfl, hv, hr⟩ := exists_last_unpinned s.refcount b1 hp
    obtain ⟨s3, e3, -, hL⟩ := scan_b1_hit fuel s b2 l r2 v hinv hv hr hf
    rw [e3] at h; cases h
    have k1 := KeepsUnlinked.of_stamp s (.main v)
    have k2 : KeepsUnlinked (update_time s (.main v)) s2 := by
      refine KeepsUnlinked.from_links hL (fun p hp => ?_)
      rw [(update_time_links _ _ _).2.2]
      rcases List.mem_cons.1 hp with rfl | hp
      · rw [hinv.1.frame_id_eq (by simp)]; omega
      · exact nodes_frame_id_nonneg hinv hp
    exact k1.trans_keeps k2

theorem freelist_loop_keeps {fuel n : Nat} {s s2 : State} {o : Option Nat}
    {b1 b2 : List Nat} (h : freelist_loop fuel n s = .ok (o, s2))
    (hinv : Inv s b1 b2) : KeepsUnlinked s s2 := by
  induction n generalizing s with
  | zero => cases h
  | succ n ih =>
    rw [freelist_loop] at h
    simp only [] at h
    split_ifs at h
    · cases h
      exact KeepsUnlinked.refl_keeps _
    · split at h
      · cases h
      · rename_i s3 e3
        cases h
        have hk := @access_keeps _ _ _ _ _ b1 b2 e3 hinv
        exact hk
    · have hk := @ih _ h hinv
      exact hk

theorem getBuffer_keeps {fuel : Nat} {s s2 : State} {r : GetResult} {b1 b2 : List Nat}
    (hinv : Inv s b1 b2) (h : StrategyGetBuffer fuel s = .ok (r, s2)) :
    KeepsUnlinked s s2 := by
  have h2 := StrategyGetBuffer_mono (Nat.le_max_left fuel (b1.length + b2.length + 1)) h
  have hF : b1.length + b2.length < max fuel (b1.length + b2.length + 1) := by
    have := Nat.le_max_right fuel (b1.length + b2.length + 1); omega
  generalize max fuel (b1.length + b2.length + 1) = F at h2 hF
  have hinv2 : Inv s.tick b1 b2 := hinv
  have k0 : KeepsUnlinked s s.tick := KeepsUnlinked.of_mem rfl
  unfold StrategyGetBuffer at h2
  simp only [] at h2
  split_ifs at h2
  · split at h2
    · cases h2
    · rename_i b s1 e1
      cases h2
      exact k0.trans_keeps (freelist_loop_keeps e1 hinv2)
    · rename_i s1 e1
      exact (k0.trans_keeps (freelist_loop_keeps e1 hinv2)).trans_keeps
        (scan_keeps ((freelist_loop_wellFormed e1 hinv2).1 rfl) hF h2)
  · exact k0.trans_keeps (scan_keeps hinv2 hF h2)

theorem freeBuffer_keeps {fuel : Nat} {s s2 : State} {b : Nat} {b1 b2 : List Nat}
    (hinv : Inv s b1 b2) (h : StrategyFreeBuffer fuel s b = .ok s2) :
    KeepsUnlinked s s2 := by
  unfold StrategyFreeBuffer at h
  split_ifs at h
  · simp only [] at h
    split_ifs at h <;>
    · have hk := @access_keeps _ _ _ _ _ b1 b2 h hinv
      exact hk
  · cases h
    exact KeepsUnlinked.refl_keeps _

/-- In every reachable state no unused slot is linked. -/
theorem reachable_unlinked {s : State} (h : Reachable s) : Unlinked s.mem := by
  induction h with
  | init N fn rc uc =>
    intro p _
    cases p <;> rfl
  | access fuel f d hr e ih =>
    obtain ⟨b1, b2, hinv⟩ := reachable_wellFormed hr
    exact (access_keeps e hinv).unlinked ih
  | get fuel r hr e ih =>
    obtain ⟨b1, b2, hinv⟩ := reachable_wellFormed hr
    exact (getBuffer_keeps hinv e).unlinked ih
  | free fuel b hr e ih =>
    obtain ⟨b1, b2, hinv⟩ := reachable_wellFormed hr
    exact (freeBuffer_keeps hinv e).unlinked ih
  | pins rc uc _ ih => exact ih

/-! ## Claim about the structural invariant -/

/-- C34 (counterexample): the invariant does not hold in every reachable
state.  Right after `StrategyInitialize` B1 has `head` at slot 0 and
`tail = NULL`: the walk along `next` from the head meets slot 0 (whose
`frame_id` is -1, not its index 0), the walk along `prev` from the tail meets
nothing, so no list is both the head-to-tail traversal and the reverse of the
tail-to-head traversal.  After three allocations B1 = [2, 1, 0] is proper, and
B2 is still in that state with its head at `otherDoubleLinkedList[0]`. -/
theorem pristine_segment_breaks_traversal_symmetry :
    Reachable exInit ∧
    (¬ ∃ L : List Ptr,
      (∀ fuel, L.length < fuel → walkNext exInit.mem fuel exInit.linkedListInfo.head = L) ∧
      (∀ fuel, L.length < fuel →
        walkPrev exInit.mem fuel exInit.linkedListInfo.tail = L.reverse)) ∧
    walkNext exInit.mem 8 exInit.linkedListInfo.head = [.main 0] ∧
    walkPrev exInit.mem 8 exInit.linkedListInfo.tail = [] ∧
    (exInit.mem (.main 0)).frame_id = -1 ∧
    Reachable exDrained ∧ Proper exDrained.mem exDrained.linkedListInfo [2, 1, 0] ∧
    walkNext exDrained.mem 8 exDrained.otherLinkedListInfo.head = [.other 0] ∧
    walkPrev exDrained.mem 8 exDrained.otherLinkedListInfo.tail = [] ∧
    (exDrained.mem (.other 0)).frame_id = -1 := by
  refine ⟨reachable_exInit, ?_, by decide, by decide, by decide, reachable_exDrained,
    by decide, by decide, by decide, by decide⟩
  rintro ⟨L, hf, hb⟩
  have h1 := hb (L.length + 1) (by omega)
  have h2 : walkPrev exInit.mem (L.length + 1) exInit.linkedListInfo.tail = [] := rfl
  rw [h2] at h1
  have hL : L = [] := by simpa using h1.symm
  subst hL
  have h3 := hf 1 (by simp)
  exact absurd h3 (by decide)

/-- C34 (amended): in every reachable state B1 and B2 are disjoint lists of
frames, the head of each segment has no predecessor and the tail no successor,
and each segment is either still as `StrategyInitialize` left it (empty, with
`tail = NULL` and `head` at an unused slot that has a negative `frame_id` and
no successor) or satisfies the structural invariant `Linked`: acyclic, the
walk along `next` from the head and the walk along `prev` from the tail are
each other's reverse, `head = NULL` iff `tail = NULL`, every successor points
back, every node carries its index in the frame array as `frame_id`. -/
theorem reachable_segments_linked_unless_pristine {s : State} (h : Reachable s) :
    ∃ b1 b2, Inv s b1 b2 ∧ (∀ i ∈ b1, i ∉ b2) ∧
      (Linked s.mem s.linkedListInfo (nodes b1) ∨
        (b1 = [] ∧ Pristine s.mem s.linkedListInfo)) ∧
      (Linked s.mem s.otherLinkedListInfo (nodes b2) ∨
        (b2 = [] ∧ Pristine s.mem s.otherLinkedListInfo)) ∧
      (∀ g, s.linkedListInfo.head = some g → (s.mem g).prev = none) ∧
      (∀ t, s.linkedListInfo.tail = some t → (s.mem t).next = none) ∧
      (∀ g, s.otherLinkedListInfo.head = some g → (s.mem g).prev = none) ∧
      (∀ t, s.otherLinkedListInfo.tail = some t → (s.mem t).next = none) := by
  obtain ⟨b1, b2, hinv⟩ := reachable_wellFormed h
  have hU := reachable_unlinked h
  have key : ∀ (info : Info) (xs : List Nat), IsSeg s.mem info xs →
      (Linked s.mem info (nodes xs) ∨ (xs = [] ∧ Pristine s.mem info)) ∧
      (∀ g, info.head = some g → (s.mem g).prev = none) ∧
      (∀ t, info.tail = some t → (s.mem t).next = none) := by
    intro info xs hseg
    rcases hseg with hp | ⟨rfl, hpr⟩
    · have hl := hp.linked
      exact ⟨Or.inl hl, hl.head_prev, hl.tail_next⟩
    · refine ⟨Or.inr ⟨rfl, hpr⟩, ?_, ?_⟩
      · intro g hg
        have := hpr.2
        rw [hg] at this
        exact hU g this.1
      · intro t ht
        rw [hpr.1] at ht
        cases ht
  obtain ⟨k1, k2, k3⟩ := key _ _ hinv.1
  obtain ⟨k4, k5, k6⟩ := key _ _ hinv.2.1
  exact ⟨b1, b2, hinv, hinv.2.2, k1, k4, k2, k3, k5, k6⟩

/-- Worked instance of amended C34: after three allocations and `touch 1; touch 0` both
segments satisfy the structural invariant, B1 with the nodes of [2] and B2
with the nodes of [1, 0]. -/
theorem reachable_segments_linked_unless_pristine_witness :
    Reachable exTwoSegments ∧
    Linked exTwoSegments.mem exTwoSegments.linkedListInfo (nodes [2]) ∧
    Linked exTwoSegments.mem exTwoSegments.otherLinkedListInfo (nodes [1, 0]) := by
  obtain ⟨b1, b2, hinv, -, h1, h2, -⟩ :=
    reachable_segments_linked_unless_pristine reachable_exTwoSegments
  have hi : Inv exTwoSegments [2] [1, 0] := by decide
  obtain ⟨e1, e2⟩ := Inv_unique hinv hi
  subst e1 e2
  refine ⟨reachable_exTwoSegments, ?_, ?_⟩
  · rcases h1 with h | ⟨h, -⟩
    · exact h
    · cases h
  · rcases h2 with h | ⟨h, -⟩
    · exact h
    · cases h

end Elru

namespace Elru

/-! ## Timestamps are bounded by the counter and never shared -/

/-- Stamping one frame `k` with a counter value above every timestamp in use
keeps the timestamps of different frames apart. -/
theorem stamps_core (M M2 : Nat → Prop) (L S L2 S2 : Nat → Nat) (k c : Nat)
    (hcl : ∀ i, M i → 0 < L i ∧ L i ≤ c) (hO : ∀ i, M i → S i < L i)
    (hD : ∀ i j, M i → M j → i ≠ j → L i ≠ L j ∧ L i ≠ S j ∧ (S i ≠ 0 → S i ≠ S j))
    (hm : ∀ i, M2 i → i = k ∨ M i)
    (hne : ∀ i, i ≠ k → L2 i = L i ∧ S2 i = S i)
    (hk : L2 k = c + 1) (hk0 : S2 k = 0 ∨ (M k ∧ S2 k = L k)) :
    (∀ i, M2 i → S2 i < L2 i) ∧
    (∀ i j, M2 i → M2 j → i ≠ j →
      L2 i ≠ L2 j ∧ L2 i ≠ S2 j ∧ (S2 i ≠ 0 → S2 i ≠ S2 j)) := by
  have hold : ∀ i, M2 i → i ≠ k → M i := fun i hi hik => (hm i hi).resolve_left hik
  constructor
  · intro i hi
    by_cases hik : i = k
    · subst hik
      rcases hk0 with e | ⟨hM, e⟩
      · omega
      · have := hcl _ hM; omega
    · have := hO i (hold i hi hik)
      rw [(hne i hik).1, (hne i hik).2]
      exact this
  · intro i j hi hj hij
    by_cases hik : i = k
    · subst hik
      have hjk : j ≠ i := fun e => hij e.symm
      have hMj := hold j hj hjk
      have h1 := hcl j hMj
      have h2 := hO j hMj
      rw [(hne j hjk).1, (hne j hjk).2, hk]
      refine ⟨by omega, by omega, ?_⟩
      intro h0
      rcases hk0 with e | ⟨hM, e⟩
      · exact absurd e h0
      · rw [e]
        exact (hD i j hM hMj hij).2.1
    · have hMi := hold i hi hik
      have h1 := hcl i hMi
      rw [(hne i hik).1, (hne i hik).2]
      by_cases hjk : j = k
      · subst hjk
        rw [hk]
        refine ⟨by omega, ?_, ?_⟩
        · rcases hk0 with e | ⟨hM, e⟩
          · rw [e]; omega
          · rw [e]; exact (hD i j hMi hM hij).1
        · intro h0
          rcases hk0 with e | ⟨hM, e⟩
          · rw [e]; exact h0
          · rw [e]
            exact fun e2 => (hD j i hM hMi (fun e3 => hij e3.symm)).2.1 e2.symm
      · have hMj := hold j hj hjk
        rw [(hne j hjk).1, (hne j hjk).2]
        exact hD i j hMi hMj hij

/-- One call keeps the timestamps of the members ordered and apart, as long
as its counter increment does not wrap. -/
theorem stamps_effect {s s2 : State} {b1 b2 c1 c2 : List Nat} (hinv : Inv s b1 b2)
    (hw : s.counter + 1 < UINT64_MOD) (hC : Clocked s b1 b2)
    (hO : SecondBeforeLast s b1 b2) (hD : DistinctStamps s b1 b2)
    (he : Effect s b1 b2 s2 c1 c2) :
    SecondBeforeLast s2 c1 c2 ∧ DistinctStamps s2 c1 c2 := by
  obtain ⟨-, hcl⟩ := hC
  have htc : s.tick.counter = s.counter + 1 := Nat.mod_eq_of_lt hw
  have hn1 := hinv.1.nodup
  have hn2 := hinv.2.1.nodup
  cases he with
  | purge k hs =>
    have hl : ∀ i, lastTouch s2 i = lastTouch s i := fun i => hs.time_array_1 i
    have h0 : ∀ i, secondLastTouch s2 i = secondLastTouch s i := fun i => hs.time_array_0 i
    have hm : ∀ i, i ∈ b1.erase k ∨ i ∈ b2.erase k → i ∈ b1 ∨ i ∈ b2 :=
      fun i hi => hi.imp List.mem_of_mem_erase List.mem_of_mem_erase
    constructor
    · intro i hi
      rw [hl, h0]
      exact hO i (hm i hi)
    · intro i j hi hj hij
      rw [hl, hl, h0, h0]
      exact hD i j (hm i hi) (hm j hj) hij
  | enter k hk1 hk2 hen =>
    exact stamps_core (fun i => i ∈ b1 ∨ i ∈ b2) (fun i => i ∈ k :: b1 ∨ i ∈ b2)
      (lastTouch s) (secondLastTouch s) (lastTouch s2) (secondLastTouch s2) k s.counter
      hcl hO hD
      (fun i hi => by
        rcases hi with hi | hi
        · rcases List.mem_cons.1 hi with e | e
          · exact Or.inl e
          · exact Or.inr (Or.inl e)
        · exact Or.inr (Or.inr hi))
      (fun i hik => ⟨hen.only.time_array_1 i hik, hen.only.time_array_0 i hik⟩)
      (hen.last.trans htc) (Or.inl hen.secondLast)
  | promote k hm hst =>
    exact stamps_core (fun i => i ∈ b1 ∨ i ∈ b2)
      (fun i => i ∈ b1.erase k ∨ i ∈ rankInsert (secondLastTouch s2) k (b2.erase k))
      (lastTouch s) (secondLastTouch s) (lastTouch s2) (secondLastTouch s2) k s.counter
      hcl hO hD
      (fun i hi => by
        rcases hi with hi | hi
        · exact Or.inr (Or.inl (List.mem_of_mem_erase hi))
        · rcases (mem_rankInsert _ _ _ _).1 hi with e | e
          · exact Or.inl e
          · exact Or.inr (Or.inr (List.mem_of_mem_erase e)))
      (fun i hik => ⟨hst.only.time_array_1 i hik, hst.only.time_array_0 i hik⟩)
      (hst.last.trans htc) (Or.inr ⟨hm, hst.secondLast⟩)
  | victim v hm hst =>
    exact stamps_core (fun i => i ∈ b1 ∨ i ∈ b2)
      (fun i => i ∈ v :: b1.erase v ∨ i ∈ b2.erase v)
      (lastTouch s) (secondLastTouch s) (lastTouch s2) (secondLastTouch s2) v s.counter
      hcl hO hD
      (fun i hi => by
        rcases hi with hi | hi
        · rcases List.mem_cons.1 hi with e | e
          · exact Or.inl e
          · exact Or.inr (Or.inl (List.mem_of_mem_erase e))
        · exact Or.inr (Or.inr (List.mem_of_mem_erase hi)))
      (fun i hik => ⟨hst.only.time_array_1 i hik, hst.only.time_array_0 i hik⟩)
      (hst.last.trans htc) (Or.inr ⟨hm, hst.secondLast⟩)

/-- Without counter wrap-around every reachable state has its timestamps in
order: last access times lie between 1 and the counter, second-last access
times are smaller than last access times, B1 is most-recent-first, B2 members
have been touched twice, and no timestamp is shared between two members. -/
theorem reachableNoWrap_stamps {s : State} (h : ReachableNoWrap s) :
    ∃ b1 b2, Inv s b1 b2 ∧ Clocked s b1 b2 ∧ TwiceTouched s b2 ∧
      SecondBeforeLast s b1 b2 ∧ DistinctStamps s b1 b2 := by
  suffices key : ∃ b1 b2, Inv s b1 b2 ∧
      ((Clocked s b1 b2 ∧ Recency s b1 ∧ TwiceTouched s b2) ∧
        SecondBeforeLast s b1 b2 ∧ DistinctStamps s b1 b2) by
    obtain ⟨b1, b2, hinv, ⟨hC, -, hT⟩, hO, hD⟩ := key
    exact ⟨b1, b2, hinv, hC, hT, hO, hD⟩
  refine reachableNoWrap_induction
    (fun s b1 b2 => (Clocked s b1 b2 ∧ Recency s b1 ∧ TwiceTouched s b2) ∧
      SecondBeforeLast s b1 b2 ∧ DistinctStamps s b1 b2) ?_ ?_ ?_ ?_ h
  · intro N fn rc uc
    refine ⟨⟨⟨?_, ?_⟩, List.Pairwise.nil, ?_⟩, ?_, ?_⟩
    · show 0 < UINT64_MOD
      unfold UINT64_MOD; positivity
    · intro i hi
      simp at hi
    · intro i hi
      simp at hi
    · intro i hi
      simp at hi
    · intro i j hi
      simp at hi
  · rintro s b1 b2 - hw ⟨⟨⟨-, hcl⟩, hR, hT⟩, hO, hD⟩
    refine ⟨⟨⟨tick_counter_lt s, ?_⟩, hR, hT⟩, hO, hD⟩
    intro i hi
    have := hcl i hi
    rw [tick_counter_of_lt hw]
    exact ⟨this.1, by show lastTouch s i ≤ _; omega⟩
  · rintro s s2 b1 b2 - ⟨⟨⟨hlt, hcl⟩, hR, hT⟩, hO, hD⟩ hx
    have hl : ∀ i, lastTouch s2 i = lastTouch s i := fun i => by
      unfold lastTouch; rw [hx.mem]
    have h0 : ∀ i, secondLastTouch s2 i = secondLastTouch s i := fun i => by
      unfold secondLastTouch; rw [hx.mem]
    refine ⟨⟨⟨by rw [hx.counter]; exact hlt, ?_⟩, hR.congr_recency (fun i _ => hl i), ?_⟩,
      ?_, ?_⟩
    · intro i hi
      rw [hl i, hx.counter]
      exact hcl i hi
    · intro i hi
      rw [h0 i, hl i]
      exact hT i hi
    · intro i hi
      rw [h0 i, hl i]
      exact hO i hi
    · intro i j hi hj hij
      rw [hl, hl, h0, h0]
      exact hD i j hi hj hij
  · rintro s s2 b1 b2 c1 c2 hinv hw ⟨⟨hC, hR, hT⟩, hO, hD⟩ hi2 he
    exact ⟨timed_effect hinv hw hC hR hT he, stamps_effect hinv hw hC hO hD he⟩

/-! ## Claim about the timestamps of the members -/

/-- C35: in every state reached without counter wrap-around, the last and
second-last access times of the frames in B1 and B2 are at most the counter,
a non-zero timestamp of one member differs from both timestamps of every
other member, the second-last access times of B2 strictly decrease from head
to tail, and a touch of a member `k` never meets a tie in the ranked insert:
the key it is inserted with differs from the key of every member of B2 it is
compared against. -/
theorem noWrap_timestamps_bounded_and_distinct (s : State) (h : ReachableNoWrap s) :
    ∃ b1 b2, Inv s b1 b2 ∧
      (∀ i, i ∈ b1 ∨ i ∈ b2 →
        lastTouch s i ≤ s.counter ∧ secondLastTouch s i ≤ s.counter) ∧
      (∀ i j, i ∈ b1 ∨ i ∈ b2 → j ∈ b1 ∨ j ∈ b2 → i ≠ j →
        ∀ x ∈ [lastTouch s i, secondLastTouch s i],
          ∀ y ∈ [lastTouch s j, secondLastTouch s j], x ≠ 0 → x ≠ y) ∧
      b2.Pairwise (fun a b => secondLastTouch s b < secondLastTouch s a) ∧
      (∀ fuel k s2, StrategyAccessBuffer fuel s k false = .ok s2 → k ∈ b1 ∨ k ∈ b2 →
        ∀ m ∈ b2.erase k, secondLastTouch s2 m ≠ secondLastTouch s2 k) := by
  obtain ⟨b1, b2, hinv, hC, hT, hO, hD⟩ := reachableNoWrap_stamps h
  obtain ⟨c1, c2, hinv2, hR⟩ := reachable_ranked h.reachable
  obtain ⟨-, e2⟩ := Inv_unique hinv2 hinv
  subst e2
  have hn2 := hinv.2.1.nodup
  refine ⟨b1, c2, hinv, ?_, ?_, ?_, ?_⟩
  · intro i hi
    have h1 := (hC.2 i hi).2
    have h2 := hO i hi
    exact ⟨h1, by omega⟩
  · intro i j hi hj hij x hx y hy hx0
    have hij2 := hD i j hi hj hij
    have hji2 := hD j i hj hi (fun e => hij e.symm)
    simp only [List.mem_cons, List.mem_singleton, List.not_mem_nil, or_false] at hx hy
    rcases hx with rfl | rfl <;> rcases hy with rfl | rfl
    · exact hij2.1
    · exact hij2.2.1
    · exact fun e => hji2.2.1 e.symm
    · exact hij2.2.2 hx0
  · have hp := List.Pairwise.and hR hn2
    refine hp.imp_of_mem ?_
    intro a b ha hb hab
    have h1 : secondLastTouch s b ≤ secondLastTouch s a := hab.1
    have h2 := (hD a b (Or.inr ha) (Or.inr hb) hab.2).2.2 (hT a ha).1
    omega
  · intro fuel k s2 e hk m hm
    have e2 := StrategyAccessBuffer_mono (Nat.le_max_left fuel (b1.length + c2.length + 1)) e
    have hF : b1.length + c2.length < max fuel (b1.length + c2.length + 1) := by
      have := Nat.le_max_right fuel (b1.length + c2.length + 1); omega
    obtain ⟨s3, e3, -, -, -, h0k, hon⟩ := touch_member_spec _ s b1 c2 k hinv hk hF
    rw [e3] at e2
    cases e2
    have hmk : m ≠ k := (hn2.mem_erase_iff.1 hm).1
    have hm2 : m ∈ c2 := List.mem_of_mem_erase hm
    rw [h0k]
    show (s2.mem (.main m)).time_array_0 ≠ _
    rw [hon.time_array_0 m hmk]
    exact fun e => (hD k m hk (Or.inr hm2) (fun e2 => hmk e2.symm)).2.1 e.symm

/-- Worked instance of C35: after three allocations and `touch 1; touch 0` (counter
8, no wrap) B2 = [1, 0] has the second-last access times 4 > 2. -/
theorem noWrap_timestamps_bounded_and_distinct_witness :
    ReachableNoWrap exTwoSegments ∧
    [1, 0].Pairwise (fun a b =>
      secondLastTouch exTwoSegments b < secondLastTouch exTwoSegments a) ∧
    secondLastTouch exTwoSegments 1 = 4 ∧ secondLastTouch exTwoSegments 0 = 2 := by
  obtain ⟨b1, b2, hinv, -, -, hp, -⟩ :=
    noWrap_timestamps_bounded_and_distinct exTwoSegments reachableNoWrap_exTwoSegments
  have hi : Inv exTwoSegments [2] [1, 0] := by decide
  obtain ⟨-, e2⟩ := Inv_unique hinv hi
  subst e2
  exact ⟨reachableNoWrap_exTwoSegments, hp, by decide, by decide⟩

end Elru

namespace Elru

/-! ## Lock order -/

theorem holds_append (l : Lock) (h : Bool) (a b : List LockEvent) :
    holds l h (a ++ b) = holds l (holds l h a) b := by
  induction a generalizing h with
  | nil => rfl
  | cons e es ih => cases e <;> exact ih _

theorem CounterInnermost_append (c : Bool) (a b : List LockEvent) :
    CounterInnermost c (a ++ b) ↔
      CounterInnermost c a ∧ CounterInnermost (holds .counter c a) b := by
  induction a generalizing c with
  | nil => simp [CounterInnermost, holds]
  | cons e es ih =>
    cases e with
    | acquire l =>
      show ((l = .b1 ∨ l = .b2 → c = false) ∧
          CounterInnermost (if l = .counter then true else c) (es ++ b)) ↔
        ((l = .b1 ∨ l = .b2 → c = false) ∧
          CounterInnermost (if l = .counter then true else c) es) ∧
        CounterInnermost (holds .counter (if l = .counter then true else c) es) b
      rw [ih, and_assoc]
    | release l =>
      show CounterInnermost (if l = .counter then false else c) (es ++ b) ↔
        CounterInnermost (if l = .counter then false else c) es ∧
        CounterInnermost (holds .counter (if l = .counter then false else c) es) b
      rw [ih]

theorem AcquiredTogether_append (h : Bool) (a b : List LockEvent) :
    AcquiredTogether h (a ++ b) ↔
      AcquiredTogether h a ∧ AcquiredTogether (holds .b1 h a) b := by
  induction a generalizing h with
  | nil => simp [AcquiredTogether, holds]
  | cons e es ih =>
    cases e with
    | acquire l =>
      show ((l = .b2 → h = true) ∧
          AcquiredTogether (if l = .b1 then true else h) (es ++ b)) ↔
        ((l = .b2 → h = true) ∧ AcquiredTogether (if l = .b1 then true else h) es) ∧
        AcquiredTogether (holds .b1 (if l = .b1 then true else h) es) b
      rw [ih, and_assoc]
    | release l =>
      show AcquiredTogether (if l = .b1 then false else h) (es ++ b) ↔
        AcquiredTogether (if l = .b1 then false else h) es ∧
        AcquiredTogether (holds .b1 (if l = .b1 then false else h) es) b
      rw [ih]

theorem B1BeforeB2_append (h : Bool) (a b : List LockEvent) :
    B1BeforeB2 h (a ++ b) ↔ B1BeforeB2 h a ∧ B1BeforeB2 (holds .b2 h a) b := by
  induction a generalizing h with
  | nil => simp [B1BeforeB2, holds]
  | cons e es ih =>
    cases e with
    | acquire l =>
      show ((l = .b1 → h = false) ∧
          B1BeforeB2 (if l = .b2 then true else h) (es ++ b)) ↔
        ((l = .b1 → h = false) ∧ B1BeforeB2 (if l = .b2 then true else h) es) ∧
        B1BeforeB2 (holds .b2 (if l = .b2 then true else h) es) b
      rw [ih, and_assoc]
    | release l =>
      show B1BeforeB2 (if l = .b2 then false else h) (es ++ b) ↔
        B1BeforeB2 (if l = .b2 then false else h) es ∧
        B1BeforeB2 (holds .b2 (if l = .b2 then false else h) es) b
      rw [ih]

/-- The lock events of a touch do not depend on the branch taken. -/
theorem touch_locks_eq (fuel : Nat) (s : State) (k : Nat) :
    StrategyAccessBuffer_locks fuel s k false =
      [.acquire .counter, .release .counter, .acquire .b1, .acquire .b2,
        .acquire .counter, .release .counter, .release .b1, .release .b2] := by
  unfold StrategyAccessBuffer_locks
  simp only [Bool.false_eq_true, if_false]
  cases h1 : search_for_frame fuel s.tick k with
  | error e =>
    cases h2 : search_for_frame_b2 fuel s.tick k with
    | error e2 => rfl
    | ok r2 => cases r2 <;> rfl
  | ok r =>
    cases r with
    | some f => rfl
    | none =>
      cases h2 : search_for_frame_b2 fuel s.tick k with
      | error e2 => rfl
      | ok r2 => cases r2 <;> rfl

/-- The lock events of a purge: the B1 lock is released before the B2 lock is
taken. -/
theorem purge_locks_eq (fuel : Nat) (s : State) (k : Nat) :
    StrategyAccessBuffer_locks fuel s k true =
      [.acquire .counter, .release .counter, .acquire .b1, .release .b1,
        .acquire .b2, .release .b2] := by
  unfold StrategyAccessBuffer_locks
  simp

theorem touch_locks_safe (fuel : Nat) (s : State) (k : Nat) :
    CounterInnermost false (StrategyAccessBuffer_locks fuel s k false) ∧
    AcquiredTogether false (StrategyAccessBuffer_locks fuel s k false) ∧
    B1BeforeB2 false (StrategyAccessBuffer_locks fuel s k false) ∧
    holds .counter false (StrategyAccessBuffer_locks fuel s k false) = false ∧
    holds .b1 false (StrategyAccessBuffer_locks fuel s k false) = false ∧
    holds .b2 false (StrategyAccessBuffer_locks fuel s k false) = false := by
  rw [touch_locks_eq]
  decide

/-- The free-list loop respects the lock rules and leaves none of the
ClockCounter, B1 and B2 locks held. -/
theorem freelist_loop_locks_safe (fuel n : Nat) (s : State) :
    CounterInnermost false (freelist_loop_locks fuel n s) ∧
    AcquiredTogether false (freelist_loop_locks fuel n s) ∧
    B1BeforeB2 false (freelist_loop_locks fuel n s) ∧
    holds .counter false (freelist_loop_locks fuel n s) = false ∧
    holds .b1 false (freelist_loop_locks fuel n s) = false ∧
    holds .b2 false (freelist_loop_locks fuel n s) = false := by
  induction n generalizing s with
  | zero => exact ⟨trivial, trivial, trivial, rfl, rfl, rfl⟩
  | succ n ih =>
    rw [freelist_loop_locks]
    by_cases h1 : s.firstFreeBuffer < 0
    · rw [if_pos h1]; decide
    · rw [if_neg h1]
      simp only [CounterInnermost_append, AcquiredTogether_append, B1BeforeB2_append,
        holds_append]
      simp only [CounterInnermost, AcquiredTogether, B1BeforeB2, holds, reduceCtorEq,
        if_false, false_or, false_implies, true_and, and_true, or_self]
      by_cases h2 : s.refcount s.firstFreeBuffer.toNat = 0 ∧
          s.usagecount s.firstFreeBuffer.toNat = 0
      · rw [if_pos h2]
        exact touch_locks_safe fuel _ _
      · rw [if_neg h2]
        simp only [CounterInnermost, AcquiredTogether, B1BeforeB2, holds, reduceCtorEq,
          if_false, false_or, false_implies, true_and, and_true, or_self]
        exact ih _

/-- The B2 scan, entered with the B1 and B2 locks held, respects the lock
rules. -/
theorem scan_b2_locks_safe (s : State) (n : Nat) (p : Option Ptr) :
    CounterInnermost false (scan_b2_locks s n p) ∧
    AcquiredTogether true (scan_b2_locks s n p) ∧
    B1BeforeB2 true (scan_b2_locks s n p) := by
  induction n generalizing p with
  | zero =>
    cases p <;>
      simp [scan_b2_locks, CounterInnermost, AcquiredTogether, B1BeforeB2]
  | succ n ih =>
    cases p with
    | none => simp [scan_b2_locks, CounterInnermost, AcquiredTogether, B1BeforeB2]
    | some x =>
      rw [scan_b2_locks]
      split_ifs with h1 h2
      · exact ⟨trivial, trivial, trivial⟩
      · simp [CounterInnermost, AcquiredTogether, B1BeforeB2, move_to_head_locks,
          insert_at_head_locks, update_time_locks]
      · simp only [CounterInnermost, AcquiredTogether, B1BeforeB2, reduceCtorEq,
          if_false, false_or, false_implies, true_and, or_self]
        exact ih _

/-- The B1 scan, entered with the B1 and B2 locks held, respects the lock
rules. -/
theorem scan_b1_locks_safe (fuel : Nat) (s : State) (n : Nat) (p : Option Ptr) :
    CounterInnermost false (scan_b1_locks fuel s n p) ∧
    AcquiredTogether true (scan_b1_locks fuel s n p) ∧
    B1BeforeB2 true (scan_b1_locks fuel s n p) := by
  induction n generalizing p with
  | zero =>
    cases p with
    | none => rw [scan_b1_locks]; exact scan_b2_locks_safe _ _ _
    | some x => simp [scan_b1_locks, CounterInnermost, AcquiredTogether, B1BeforeB2]
  | succ n ih =>
    cases p with
    | none => rw [scan_b1_locks]; exact scan_b2_locks_safe _ _ _
    | some x =>
      rw [scan_b1_locks]
      split_ifs with h1 h2
      · exact ⟨trivial, trivial, trivial⟩
      · simp [CounterInnermost, AcquiredTogether, B1BeforeB2, move_to_head_locks,
          insert_at_head_locks, update_time_locks]
      · simp only [CounterInnermost, AcquiredTogether, B1BeforeB2, reduceCtorEq,
          if_false, false_or, false_implies, true_and, or_self]
        exact ih _

theorem counterInnermost_initial {c : Bool} {pre tr : List LockEvent}
    (h : CounterInnermost c tr) (hp : pre <+: tr) : CounterInnermost c pre := by
  obtain ⟨t, rfl⟩ := hp
  exact ((CounterInnermost_append _ _ _).1 h).1

theorem acquiredTogether_initial {c : Bool} {pre tr : List LockEvent}
    (h : AcquiredTogether c tr) (hp : pre <+: tr) : AcquiredTogether c pre := by
  obtain ⟨t, rfl⟩ := hp
  exact ((AcquiredTogether_append _ _ _).1 h).1

theorem b1BeforeB2_initial {c : Bool} {pre tr : List LockEvent}
    (h : B1BeforeB2 c tr) (hp : pre <+: tr) : B1BeforeB2 c pre := by
  obtain ⟨t, rfl⟩ := hp
  exact ((B1BeforeB2_append _ _ _).1 h).1

/-- `StrategyGetBuffer` respects the three lock rules. -/
theorem getBuffer_locks_safe (fuel : Nat) (s : State) :
    CounterInnermost false (StrategyGetBuffer_locks fuel s) ∧
    AcquiredTogether false (StrategyGetBuffer_locks fuel s) ∧
    B1BeforeB2 false (StrategyGetBuffer_locks fuel s) := by
  have hscan : ∀ t : State,
      CounterInnermost false
        ([.acquire .b1, .acquire .b2] ++ scan_b1_locks fuel t fuel t.linkedListInfo.tail) ∧
      AcquiredTogether false
        ([.acquire .b1, .acquire .b2] ++ scan_b1_locks fuel t fuel t.linkedListInfo.tail) ∧
      B1BeforeB2 false
        ([.acquire .b1, .acquire .b2] ++ scan_b1_locks fuel t fuel t.linkedListInfo.tail) := by
    intro t
    obtain ⟨h1, h2, h3⟩ := scan_b1_locks_safe fuel t fuel t.linkedListInfo.tail
    simp only [CounterInnermost_append, AcquiredTogether_append, B1BeforeB2_append]
    simp only [CounterInnermost, AcquiredTogether, B1BeforeB2, holds, reduceCtorEq,
      if_false, if_true, true_and, and_true, or_true, true_or, implies_true, false_implies]
    exact ⟨h1, h2, h3⟩
  unfold StrategyGetBuffer_locks
  simp only [CounterInnermost_append, AcquiredTogether_append, B1BeforeB2_append]
  simp only [CounterInnermost, AcquiredTogether, B1BeforeB2, holds, reduceCtorEq,
    if_false, if_true, true_and, and_true, false_or, or_self, false_implies]
  split_ifs with h0
  · obtain ⟨f1, f2, f3, f4, f5, f6⟩ := freelist_loop_locks_safe fuel fuel s.tick
    simp only [CounterInnermost_append, AcquiredTogether_append, B1BeforeB2_append,
      f4, f5, f6]
    refine ⟨⟨f1, ?_⟩, ⟨f2, ?_⟩, f3, ?_⟩ <;>
    · split
      · first
          | exact (hscan _).1
          | exact (hscan _).2.1
          | exact (hscan _).2.2
      · trivial
  · exact hscan _

/-- `StrategyFreeBuffer` never takes a segment lock while the ClockCounter
lock is held, and never the B1 lock while the B2 lock is held. -/
theorem freeBuffer_locks_safe (fuel : Nat) (s : State) (k : Nat) :
    CounterInnermost false (StrategyFreeBuffer_locks fuel s k) ∧
    B1BeforeB2 false (StrategyFreeBuffer_locks fuel s k) := by
  unfold StrategyFreeBuffer_locks
  split_ifs with h
  · simp only [purge_locks_eq]
    decide
  · decide

/-! ## Claim about the lock order -/

/-- C33 (counterexample): purge uses both segment locks but does not acquire
them together.  Its lock events are acquire/release of the ClockCounter lock,
acquire/release of the B1 lock, then acquire/release of the B2 lock: the B2
lock is taken at a moment when the B1 lock is not held.  The same holds for
`StrategyFreeBuffer`, which calls purge. -/
theorem purge_takes_segment_locks_one_after_the_other :
    StrategyAccessBuffer_locks 8 exInit 0 true =
      [.acquire .counter, .release .counter, .acquire .b1, .release .b1,
        .acquire .b2, .release .b2] ∧
    ¬ AcquiredTogether false (StrategyAccessBuffer_locks 8 exInit 0 true) ∧
    StrategyFreeBuffer_locks 8 exDrained 0 =
      [.acquire .freelist, .acquire .counter, .release .counter, .acquire .b1, .release .b1,
        .acquire .b2, .release .b2, .release .freelist] ∧
    ¬ AcquiredTogether false (StrategyFreeBuffer_locks 8 exDrained 0) := by
  decide

/-- C33 (amended): at every moment of the lock-event trace of
`StrategyAccessBuffer` (touch and purge), `StrategyGetBuffer` and
`StrategyFreeBuffer`, the ClockCounter lock is not held when the B1 or the B2
lock is being acquired, and the B1 lock is never acquired while the B2 lock is
held.  In touch and `StrategyGetBuffer` the segment locks are acquired
together, B1 first: the B2 lock is only taken while the B1 lock is held.
Purge takes and releases the B1 lock and only then takes the B2 lock, and
`StrategyFreeBuffer` does the same inside its free-list lock. -/
theorem lock_order_of_operations (fuel : Nat) (s : State) (k : Nat) :
    (∀ pre, (pre <+: StrategyAccessBuffer_locks fuel s k false ∨
        pre <+: StrategyAccessBuffer_locks fuel s k true ∨
        pre <+: StrategyGetBuffer_locks fuel s ∨
        pre <+: StrategyFreeBuffer_locks fuel s k) →
      CounterInnermost false pre ∧ B1BeforeB2 false pre) ∧
    (∀ pre, (pre <+: StrategyAccessBuffer_locks fuel s k false ∨
        pre <+: StrategyGetBuffer_locks fuel s) → AcquiredTogether false pre) ∧
    StrategyAccessBuffer_locks fuel s k true =
      [.acquire .counter, .release .counter, .acquire .b1, .release .b1,
        .acquire .b2, .release .b2] ∧
    (s.freeNext k = FREENEXT_NOT_IN_LIST →
      StrategyFreeBuffer_locks fuel s k =
        [.acquire .freelist, .acquire .counter, .release .counter, .acquire .b1,
          .release .b1, .acquire .b2, .release .b2, .release .freelist]) := by
  obtain ⟨t1, t2, t3, -⟩ := touch_locks_safe fuel s k
  obtain ⟨g1, g2, g3⟩ := getBuffer_locks_safe fuel s
  obtain ⟨f1, f3⟩ := freeBuffer_locks_safe fuel s k
  have p1 : CounterInnermost false (StrategyAccessBuffer_locks fuel s k true) := by
    rw [purge_locks_eq]; decide
  have p3 : B1BeforeB2 false (StrategyAccessBuffer_locks fuel s k true) := by
    rw [purge_locks_eq]; decide
  refine ⟨?_, ?_, purge_locks_eq fuel s k, ?_⟩
  · rintro pre (h | h | h | h)
    · exact ⟨counterInnermost_initial t1 h, b1BeforeB2_initial t3 h⟩
    · exact ⟨counterInnermost_initial p1 h, b1BeforeB2_initial p3 h⟩
    · exact ⟨counterInnermost_initial g1 h, b1BeforeB2_initial g3 h⟩
    · exact ⟨counterInnermost_initial f1 h, b1BeforeB2_initial f3 h⟩
  · rintro pre (h | h)
    · exact acquiredTogether_initial t2 h
    · exact acquiredTogether_initial g2 h
  · intro h
    unfold StrategyFreeBuffer_locks
    rw [if_pos h]
    simp only [purge_locks_eq]
    rfl

/-- Worked instance of amended C33: `StrategyGetBuffer` on B1 = [2, 1, 0] with an empty free
list takes the B1 lock, then the B2 lock, checks buffer 0 and stamps it under
the ClockCounter lock before it releases the segment locks. -/
theorem lock_order_of_operations_witness :
    StrategyGetBuffer_locks 8 exDrained =
      [.acquire .counter, .release .counter, .acquire .b1, .acquire .b2,
        .acquire (.header 0), .acquire .counter, .release .counter,
        .release .b1, .release .b2] ∧
    CounterInnermost false (StrategyGetBuffer_locks 8 exDrained) ∧
    AcquiredTogether false (StrategyGetBuffer_locks 8 exDrained) :=
  have h := lock_order_of_operations 8 exDrained 0
  ⟨by decide, (h.1 _ (Or.inr (Or.inr (Or.inl (List.prefix_refl _))))).1,
    h.2.1 _ (Or.inr (List.prefix_refl _))⟩

end Elru

namespace Elru

/-! ## Termination of the list traversals -/

/-- The ranked scan walks a well-linked list of `L.length` nodes with no more
fuel than that. -/
theorem insert_rank_loop_returns (s : State) (frame : Ptr) (L : List Ptr) (p : Option Ptr)
    (hs : Seg s.mem p L none) (ht : s.otherLinkedListInfo.tail ≠ none)
    (fuel : Nat) (hf : L.length ≤ fuel) :
    ∃ s2, insert_rank_loop s frame fuel (firstOr L none) = .ok s2 := by
  induction L generalizing p fuel with
  | nil =>
    cases htl : s.otherLinkedListInfo.tail with
    | none => exact absurd htl ht
    | some t => cases fuel <;> simp [firstOr, insert_rank_loop, htl]
  | cons x xs ih =>
    cases fuel with
    | zero => simp at hf
    | succ n =>
      obtain ⟨_, h2, h3⟩ := hs
      simp only [firstOr, insert_rank_loop]
      split_ifs
      · exact ⟨_, rfl⟩
      · rw [h2]
        exact ih (some x) h3 n (by simpa using hf)

theorem pinChecks_append (a b : List LockEvent) :
    pinChecks (a ++ b) = pinChecks a ++ pinChecks b := by
  induction a with
  | nil => rfl
  | cons e es ih =>
    cases e with
    | acquire l => cases l <;> simp [pinChecks, ih]
    | release l => simp [pinChecks, ih]

/-- The B2 scan checks the members of a well-linked list from the tail, each
at most once. -/
theorem scan_b2_locks_checks (s : State) (xs : List Nat) (q : Option Ptr)
    (hs : Seg s.mem none (nodes xs) q)
    (hid : ∀ i ∈ xs, (s.mem (.main i)).frame_id = (i : Int)) (n : Nat) :
    pinChecks (scan_b2_locks s n (lastOr (nodes xs) none)) <+: xs.reverse := by
  induction xs using List.reverseRecOn generalizing q n with
  | nil =>
    cases n <;> simp [nodes, lastOr, scan_b2_locks, pinChecks]
  | append_singleton l a ih =>
    rw [nodes_append, Seg_append] at hs
    obtain ⟨hl, ha⟩ := hs
    have hprev : (s.mem (.main a)).prev = lastOr (nodes l) none := ha.1
    have hida := hid a (by simp)
    have hneg : ¬ ((a : Int) < 0) := by omega
    rw [nodes_append, show nodes [a] = [Ptr.main a] from rfl, lastOr_concat]
    cases n with
    | zero => simp [scan_b2_locks, pinChecks]
    | succ n =>
      rw [scan_b2_locks]
      simp only [hida, hneg, if_false, Int.toNat_ofNat, hprev, List.reverse_append,
        List.reverse_cons, List.reverse_nil, List.nil_append, List.singleton_append]
      split_ifs
      · simp [pinChecks, move_to_head_locks, insert_at_head_locks, update_time_locks]
      · simp only [pinChecks]
        exact (List.prefix_cons_inj a).2 (ih _ hl (fun i hi => hid i (by simp [hi])) n)

/-- The B1 scan checks the members of B1 from the tail, each at most once,
and only when it has run off B1 the members the B2 scan checks. -/
theorem scan_b1_locks_checks (fuel : Nat) (s : State) (xs : List Nat) (q : Option Ptr)
    (hs : Seg s.mem none (nodes xs) q)
    (hid : ∀ i ∈ xs, (s.mem (.main i)).frame_id = (i : Int)) (Y : List Nat)
    (hY : pinChecks (scan_b2_locks s fuel s.otherLinkedListInfo.tail) <+: Y) (n : Nat) :
    pinChecks (scan_b1_locks fuel s n (lastOr (nodes xs) none)) <+: xs.reverse ++ Y := by
  induction xs using List.reverseRecOn generalizing q n with
  | nil =>
    cases n <;> simpa [nodes, lastOr, scan_b1_locks] using hY
  | append_singleton l a ih =>
    rw [nodes_append, Seg_append] at hs
    obtain ⟨hl, ha⟩ := hs
    have hprev : (s.mem (.main a)).prev = lastOr (nodes l) none := ha.1
    have hida := hid a (by simp)
    have hneg : ¬ ((a : Int) < 0) := by omega
    rw [nodes_append, show nodes [a] = [Ptr.main a] from rfl, lastOr_concat]
    cases n with
    | zero => simp [scan_b1_locks, pinChecks]
    | succ n =>
      rw [scan_b1_locks]
      simp only [hida, hneg, if_false, Int.toNat_ofNat, hprev, List.reverse_append,
        List.reverse_cons, List.reverse_nil, List.nil_append, List.singleton_append,
        List.cons_append]
      split_ifs
      · simp [pinChecks, move_to_head_locks, insert_at_head_locks, update_time_locks]
      · simp only [pinChecks]
        exact (List.prefix_cons_inj a).2 (ih _ hl (fun i hi => hid i (by simp [hi])) n)

/-- With more fuel than B1 and B2 have members the victim scan returns. -/
theorem scan_returns (fuel : Nat) (s : State) (b1 b2 : List Nat) (hinv : Inv s b1 b2)
    (hf : b1.length + b2.length < fuel) :
    ∃ r s2, scan_b1 fuel s fuel s.linkedListInfo.tail = .ok (r, s2) := by
  by_cases hp1 : ∀ i ∈ b1, s.refcount i ≠ 0
  · rw [scan_b1_all_pinned fuel s b1 hinv.1 hp1 (by omega)]
    by_cases hp2 : ∀ i ∈ b2, s.refcount i ≠ 0
    · rw [scan_b2_all_pinned fuel s b2 hinv.2.1 hp2 (by omega)]
      exact ⟨_, _, rfl⟩
    · have hp : ∃ i ∈ b2, s.refcount i = 0 := by
        by_contra hc
        exact hp2 (fun i hi h0 => hc ⟨i, hi, h0⟩)
      obtain ⟨l, v, r2, rfl, hv, hr⟩ := exists_last_unpinned s.refcount b2 hp
      obtain ⟨s3, e3, -⟩ := scan_b2_hit fuel s b1 l r2 v hinv hv hr hf
      exact ⟨_, _, e3⟩
  · have hp : ∃ i ∈ b1, s.refcount i = 0 := by
      by_contra hc
      exact hp1 (fun i hi h0 => hc ⟨i, hi, h0⟩)
    obtain ⟨l, v, r2, rfl, hv, hr⟩ := exists_last_unpinned s.refcount b1 hp
    obtain ⟨s3, e3, -⟩ := scan_b1_hit fuel s b2 l r2 v hinv hv hr hf
    exact ⟨_, _, e3⟩

/-- Distinct frames below `C` are at most `C`. -/
theorem length_le_of_lt (xs : List Nat) (C : Nat) (hnd : xs.Nodup) (h : ∀ i ∈ xs, i < C) :
    xs.length ≤ C := by
  have h1 : xs.toFinset ⊆ Finset.range C := by
    intro i hi
    rw [List.mem_toFinset] at hi
    exact Finset.mem_range.2 (h i hi)
  have h2 := Finset.card_le_card h1
  rw [List.toFinset_card_of_nodup hnd, Finset.card_range] at h2
  exact h2

/-! ## Claim about the termination of the traversals -/

/-- C37: on a well-formed state every list traversal ends within the length of
the segment it walks.  One unit of fuel is one node visited.
`search_for_frame` returns with fuel |B1| and `search_for_frame_b2` with fuel
|B2| when the segment is a proper list (one more for a segment still in its
initial state, where the walk meets the unused head slot); the ranked scan of
`insert_into_b2` returns with fuel |B2|; the pin checks of the victim scan
(one `LockBufHdr` per frame looked at) are an initial part of B1 read from the
tail followed by B2 read from the tail, so no member is checked twice and
there are at most |B1| + |B2| checks, which is at most `C` when all members
are below `C`; and with more fuel than that the scan returns a frame or the
error. -/
theorem traversals_end_within_segment_length (fuel : Nat) (s : State) (b1 b2 : List Nat)
    (k : Int) (hinv : Inv s b1 b2) :
    (Proper s.mem s.linkedListInfo b1 → ∃ r, search_for_frame b1.length s k = .ok r) ∧
    (Proper s.mem s.otherLinkedListInfo b2 →
      ∃ r, search_for_frame_b2 b2.length s k = .ok r) ∧
    (∃ r, search_for_frame (b1.length + 1) s k = .ok r) ∧
    (∃ r, search_for_frame_b2 (b2.length + 1) s k = .ok r) ∧
    (b2 ≠ [] → ∀ frame,
      ∃ s2, insert_rank_loop s frame b2.length s.otherLinkedListInfo.head = .ok s2) ∧
    (∀ n, pinChecks (scan_b1_locks fuel s n s.linkedListInfo.tail) <+:
      b1.reverse ++ b2.reverse) ∧
    (∀ n, (pinChecks (scan_b1_locks fuel s n s.linkedListInfo.tail)).Nodup ∧
      (pinChecks (scan_b1_locks fuel s n s.linkedListInfo.tail)).length ≤
        b1.length + b2.length) ∧
    (∀ C, (∀ i, i ∈ b1 ∨ i ∈ b2 → i < C) → b1.length + b2.length ≤ C) ∧
    (b1.length + b2.length < fuel →
      ∃ r s2, scan_b1 fuel s fuel s.linkedListInfo.tail = .ok (r, s2)) := by
  obtain ⟨h1, h2, hd⟩ := hinv
  have hnd : (b1.reverse ++ b2.reverse).Nodup := by
    rw [List.nodup_append]
    refine ⟨List.nodup_reverse.2 h1.nodup, List.nodup_reverse.2 h2.nodup, ?_⟩
    intro i hi hj
    exact hd i (List.mem_reverse.1 hi) (List.mem_reverse.1 hj)
  have hsearch : ∀ (info : Info) (xs : List Nat), Proper s.mem info xs →
      ∃ r, (if info.head = none then (.ok none : Except Fault (Option Ptr))
        else search_loop s.mem k xs.length info.head) = .ok r := by
    intro info xs hp
    by_cases hn : info.head = none
    · exact ⟨none, by rw [if_pos hn]⟩
    · rw [if_neg hn, hp.2.2.2.1]
      exact search_loop_returns s.mem k _ none hp.2.2.1 xs.length (by simp [nodes])
  have hchk : ∀ n, pinChecks (scan_b1_locks fuel s n s.linkedListInfo.tail) <+:
      b1.reverse ++ b2.reverse := by
    intro n
    rw [h1.tail_eq]
    refine scan_b1_locks_checks fuel s b1 none h1.seg (fun i hi => h1.frame_id_eq hi) _ ?_ n
    rw [h2.tail_eq]
    exact scan_b2_locks_checks s b2 none h2.seg (fun i hi => h2.frame_id_eq hi) fuel
  refine ⟨hsearch _ _, hsearch _ _, h1.search_returns k _ (by omega),
    h2.search_returns k _ (by omega), ?_, hchk, ?_, ?_, ?_⟩
  · intro hne frame
    have ht : s.otherLinkedListInfo.tail ≠ none := by
      intro ht
      exact hne (h2.eq_nil_of_tail ht)
    obtain ⟨hp, -⟩ := h2.proper_of_tail ht
    rw [hp.2.2.2.1]
    exact insert_rank_loop_returns s frame _ none hp.2.2.1 ht _ (by simp [nodes])
  · intro n
    refine ⟨hnd.sublist (hchk n).sublist, ?_⟩
    have := (hchk n).length_le
    simpa using this
  · intro C hC
    have := length_le_of_lt (b1.reverse ++ b2.reverse) C hnd (by
      intro i hi
      rcases List.mem_append.1 hi with h | h
      · exact hC i (Or.inl (List.mem_reverse.1 h))
      · exact hC i (Or.inr (List.mem_reverse.1 h)))
    simpa using this
  · intro hf
    exact scan_returns fuel s b1 b2 ⟨h1, h2, hd⟩ hf

/-- Worked instance of C37: B1 = [2], B2 = [1, 0], every buffer pinned.  The scan
checks 2, then 0, then 1 and raises the error; the search for frame 0 in B2
returns with fuel 2. -/
theorem traversals_end_within_segment_length_witness :
    Inv exAllPinned [2] [1, 0] ∧
    pinChecks (scan_b1_locks 8 exAllPinned 8 exAllPinned.linkedListInfo.tail) = [2, 0, 1] ∧
    pinChecks (scan_b1_locks 8 exAllPinned 8 exAllPinned.linkedListInfo.tail) <+:
      [2].reverse ++ [1, 0].reverse ∧
    search_for_frame_b2 2 exAllPinned 0 = .ok (some (.main 0)) ∧
    (∃ r, search_for_frame_b2 [1, 0].length exAllPinned 0 = .ok r) :=
  have h := traversals_end_within_segment_length 8 exAllPinned [2] [1, 0] 0 (by decide)
  ⟨by decide, by decide, h.2.2.2.2.2.1 8, rfl, h.2.1 (by decide)⟩

end Elru

namespace Elru

/-! ## The link-repair prologue of `delete_other_arbitrarily` -/

/-- The search finds a node that follows a well-linked run of nodes with other
ids. -/
theorem search_loop_reaches (mem : Ptr → Node) (x : Nat) (l : List Nat) (p : Option Ptr)
    (hs : Seg mem p (nodes l) (some (.main x)))
    (hid : ∀ i ∈ l, (mem (.main i)).frame_id = (i : Int)) (hx : x ∉ l)
    (hidx : (mem (.main x)).frame_id = (x : Int)) (fuel : Nat) (hf : l.length < fuel) :
    search_loop mem x fuel (firstOr (nodes l) (some (.main x))) = .ok (some (.main x)) := by
  induction l generalizing p fuel with
  | nil =>
    obtain ⟨n, rfl⟩ : ∃ n, fuel = n + 1 := ⟨fuel - 1, by simp at hf; omega⟩
    simp [nodes, firstOr, search_loop, hidx]
  | cons a l ih =>
    obtain ⟨n, rfl⟩ : ∃ n, fuel = n + 1 := ⟨fuel - 1, by simp at hf; omega⟩
    obtain ⟨_, h2, h3⟩ := hs
    have ha : (mem (.main a)).frame_id ≠ (x : Int) := by
      rw [hid a (by simp)]
      intro e
      exact hx (by simp [show a = x by exact_mod_cast e])
    rw [nodes_cons]
    simp only [firstOr, search_loop, ha, if_false]
    rw [h2]
    exact ih (some (.main a)) h3 (fun i hi => hid i (by simp [hi]))
      (fun hm => hx (by simp [hm])) n (by simpa using hf)

/-- Walking `prev` from the tail, `search_for_frame_after` finds the node that
follows `x`. -/
theorem search_after_loop_seg (mem : Ptr → Node) (x : Nat) (r : List Nat) (q : Option Ptr)
    (hs : Seg mem (some (.main x)) (nodes r) q) (hne : r ≠ [])
    (hid : ∀ i ∈ r, (mem (.main i)).frame_id = (i : Int)) (hx : x ∉ r)
    (hidx : (mem (.main x)).frame_id = (x : Int)) (fuel : Nat) (hf : r.length ≤ fuel) :
    search_after_loop mem x fuel (lastOr (nodes r) none) = .ok (firstOr (nodes r) none) := by
  induction r using List.reverseRecOn generalizing q fuel with
  | nil => exact absurd rfl hne
  | append_singleton r0 a ih =>
    obtain ⟨n, rfl⟩ : ∃ n, fuel = n + 1 := ⟨fuel - 1, by simp at hf; omega⟩
    rw [nodes_append, Seg_append] at hs
    obtain ⟨h0, ha⟩ := hs
    have hprev : (mem (.main a)).prev = lastOr (nodes r0) (some (.main x)) := ha.1
    rw [nodes_append, show nodes [a] = [Ptr.main a] from rfl, lastOr_concat]
    rcases eq_nil_or_snoc r0 with rfl | ⟨r1, b, rfl⟩
    · simp only [nodes, List.map_nil, lastOr] at hprev
      simp [search_after_loop, hprev, hidx, nodes, firstOr]
    · have hb : (mem (.main b)).frame_id ≠ (x : Int) := by
        rw [hid b (by simp)]
        intro e
        exact hx (by simp [show b = x by exact_mod_cast e])
      have hprev2 : (mem (.main a)).prev = some (.main b) := by
        rw [hprev, nodes_append, show nodes [b] = [Ptr.main b] from rfl, lastOr_concat]
      have e := ih _ h0 (by simp) (fun i hi => hid i (by simp at hi ⊢; tauto))
        (fun hm => hx (by simp at hm ⊢; tauto)) n (by simp at hf ⊢; omega)
      rw [nodes_append, show nodes [b] = [Ptr.main b] from rfl, lastOr_concat] at e
      simp only [search_after_loop, hprev2, hb, if_false]
      rw [e]
      congr 1
      rw [nodes_append, show nodes [b] = [Ptr.main b] from rfl,
        firstOr_append_ne_nil (by simp) [Ptr.main a] none]

/-- Walking `next` from the head, `search_for_frame_before` finds the node
that precedes `x`. -/
theorem search_before_loop_seg (mem : Ptr → Node) (x : Nat) (l : List Nat) (p : Option Ptr)
    (hs : Seg mem p (nodes l) (some (.main x))) (hne : l ≠ [])
    (hid : ∀ i ∈ l, (mem (.main i)).frame_id = (i : Int)) (hx : x ∉ l)
    (hidx : (mem (.main x)).frame_id = (x : Int)) (fuel : Nat) (hf : l.length ≤ fuel) :
    search_before_loop mem x fuel (firstOr (nodes l) none) = .ok (lastOr (nodes l) none) := by
  induction l generalizing p fuel with
  | nil => exact absurd rfl hne
  | cons a l ih =>
    obtain ⟨n, rfl⟩ : ∃ n, fuel = n + 1 := ⟨fuel - 1, by simp at hf; omega⟩
    obtain ⟨_, h2, h3⟩ := hs
    rw [nodes_cons]
    cases l with
    | nil =>
      have h2b : (mem (.main a)).next = some (.main x) := by simpa [nodes, firstOr] using h2
      simp [firstOr, search_before_loop, h2b, hidx, nodes, lastOr]
    | cons b l2 =>
      have hb : (mem (.main b)).frame_id ≠ (x : Int) := by
        rw [hid b (by simp)]
        intro e
        exact hx (by simp [show b = x by exact_mod_cast e])
      have h2b : (mem (.main a)).next = some (.main b) := by simpa [nodes, firstOr] using h2
      have e := ih (some (.main a)) h3 (by simp) (fun i hi => hid i (by simp [hi]))
        (fun hm => hx (by simp [hm])) n (by simpa using hf)
      simp only [firstOr, search_before_loop, h2b, hb, if_false]
      rw [nodes_cons] at e
      simp only [firstOr] at e
      rw [e]
      rfl

theorem setNext_restore (s : State) (p : Ptr) :
    (s.setNext p none).setNext p (s.mem p).next = s := by
  cases s with
  | mk mem i1 i2 c f1 f2 fn rc uc =>
    simp only [State.setNext, State.mk.injEq, and_true]
    funext q
    by_cases hq : q = p
    · subst hq; simp
    · simp [Function.update_apply, hq]

theorem setPrev_restore (s : State) (p : Ptr) :
    (s.setPrev p none).setPrev p (s.mem p).prev = s := by
  cases s with
  | mk mem i1 i2 c f1 f2 fn rc uc =>
    simp only [State.setPrev, State.mk.injEq, and_true]
    funext q
    by_cases hq : q = p
    · subst hq; simp
    · simp [Function.update_apply, hq]

/-- In the middle-node case `delete_other_arbitrarily` only depends on the
state the link-repair prologue leaves. -/
theorem delete_other_arbitrarily_repaired {fuel : Nat} {t t2 s0 : State} {k : Int}
    {frame : Ptr}
    (hsr : search_for_frame_b2 fuel t k = .ok (some frame))
    (hh : t.otherLinkedListInfo.head ≠ some frame)
    (ht : t.otherLinkedListInfo.tail ≠ some frame)
    (hrep : repair_links fuel t frame k = .ok s0)
    (hsr2 : search_for_frame_b2 fuel t2 k = .ok (some frame))
    (hh2 : t2.otherLinkedListInfo.head ≠ some frame)
    (ht2 : t2.otherLinkedListInfo.tail ≠ some frame)
    (hrep2 : repair_links fuel t2 frame k = .ok s0) :
    delete_other_arbitrarily fuel t k = delete_other_arbitrarily fuel t2 k := by
  unfold delete_other_arbitrarily
  rw [hsr, hsr2]
  simp only [if_neg hh, if_neg ht, hrep, if_neg hh2, if_neg ht2, hrep2]

/-! ## Claim about inconsistent links met by a removal from B2 -/

/-- C32 (amended): when `delete_other_arbitrarily` meets a middle member `x`
of B2 = l ++ x :: r whose `next` link (or whose `prev` link) is NULL in an
otherwise well-formed state, it does not fail: the link-repair prologue finds
the missing neighbour with `search_for_frame_after` (resp.
`search_for_frame_before`) and writes it back, which restores the well-formed
state, and the removal then proceeds exactly as on the undamaged state,
leaving B2 = l ++ r.  When both links of `x` are NULL nothing is repaired and
the unlinking dereferences NULL. -/
theorem delete_other_repairs_a_missing_link (fuel : Nat) (s : State) (b1 l r : List Nat)
    (x : Nat) (hinv : Inv s b1 (l ++ x :: r)) (hl : l ≠ []) (hr : r ≠ [])
    (hf : (l ++ x :: r).length < fuel) :
    (∃ s2, delete_other_arbitrarily fuel s x = .ok s2 ∧
      IsSeg s2.mem s2.otherLinkedListInfo (l ++ r)) ∧
    repair_links fuel (s.setNext (.main x) none) (.main x) x = .ok s ∧
    delete_other_arbitrarily fuel (s.setNext (.main x) none) x =
      delete_other_arbitrarily fuel s x ∧
    repair_links fuel (s.setPrev (.main x) none) (.main x) x = .ok s ∧
    delete_other_arbitrarily fuel (s.setPrev (.main x) none) x =
      delete_other_arbitrarily fuel s x ∧
    delete_other_arbitrarily fuel ((s.setNext (.main x) none).setPrev (.main x) none) x =
      .error .nullDeref := by
  obtain ⟨-, h2, -⟩ := hinv
  have hxm : x ∈ l ++ x :: r := by simp
  have hnd := h2.nodup
  have hxl : x ∉ l := by
    intro hm
    rw [List.nodup_append] at hnd
    exact hnd.2.2 hm (by simp)
  have hxr : x ∉ r := by
    have := (List.nodup_append.1 hnd).2.1
    simp only [List.nodup_cons] at this
    exact this.1
  have herase : (l ++ x :: r).erase x = l ++ r := by
    rw [List.erase_append_right _ hxl, List.erase_cons_head]
  have hidx := h2.frame_id_eq hxm
  have hid : ∀ i ∈ l ++ x :: r, (s.mem (.main i)).frame_id = (i : Int) :=
    fun i hi => h2.frame_id_eq hi
  have hseg := h2.seg
  rw [nodes_append, nodes_cons, Seg_append] at hseg
  obtain ⟨hsl, hprev, hnext, hsr⟩ := hseg
  have hhead : s.otherLinkedListInfo.head = firstOr (nodes l) (some (.main x)) := by
    rcases h2 with hp | ⟨h0, -⟩
    · rw [hp.2.2.2.1, nodes_append, nodes_cons, firstOr_append]; rfl
    · simp at h0
  have htail : s.otherLinkedListInfo.tail = lastOr (nodes r) (some (.main x)) := by
    rw [h2.tail_eq, nodes_append, nodes_cons, lastOr_append]; rfl
  obtain ⟨a, l2, rfl⟩ : ∃ a l2, l = a :: l2 := by
    cases l with
    | nil => exact absurd rfl hl
    | cons a l2 => exact ⟨a, l2, rfl⟩
  obtain ⟨c, r2, rfl⟩ : ∃ c r2, r = c :: r2 := by
    cases r with
    | nil => exact absurd rfl hr
    | cons c r2 => exact ⟨c, r2, rfl⟩
  have hax : a ≠ x := fun e => hxl (by simp [e])
  have hh : s.otherLinkedListInfo.head ≠ some (.main x) := by
    rw [hhead]
    simp only [nodes_cons, firstOr, ne_eq, Option.some.injEq, Ptr.main.injEq]
    exact hax
  obtain ⟨z, hz, hzm⟩ := lastOr_cons_ne_none (Ptr.main c) (nodes r2) (some (.main x))
  have hz2 : lastOr (nodes (c :: r2)) (some (.main x)) = some z := hz
  have hzx : z ≠ Ptr.main x := by
    rintro rfl
    exact hxr (main_mem_nodes.1 hzm)
  have ht : s.otherLinkedListInfo.tail ≠ some (.main x) := by
    rw [htail, hz2]
    simpa using hzx
  have hp : (s.mem (.main x)).prev = lastOr (nodes (a :: l2)) none := hprev
  have hn : (s.mem (.main x)).next = some (.main c) := hnext
  obtain ⟨y, hy, -⟩ := lastOr_cons_ne_none (Ptr.main a) (nodes l2) none
  have hy2 : lastOr (nodes (a :: l2)) none = some y := hy
  -- what a state that differs from `s` only in the links of `x` still knows
  have key : ∀ t : State, t.otherLinkedListInfo = s.otherLinkedListInfo →
      (∀ p, (t.mem p).frame_id = (s.mem p).frame_id) →
      (∀ p, p ≠ Ptr.main x → (t.mem p).prev = (s.mem p).prev ∧
        (t.mem p).next = (s.mem p).next) →
      search_for_frame_b2 fuel t x = .ok (some (.main x)) ∧
      t.otherLinkedListInfo.head ≠ some (.main x) ∧
      t.otherLinkedListInfo.tail ≠ some (.main x) ∧
      search_for_frame_after fuel t x = .ok (some (.main c)) ∧
      search_for_frame_before fuel t x = .ok (s.mem (.main x)).prev := by
    intro t hi hfid hlk
    have hsl2 : Seg t.mem none (nodes (a :: l2)) (some (.main x)) :=
      Seg_congr hsl (fun p hp => by
        refine hlk p ?_
        rintro rfl
        exact hxl (main_mem_nodes.1 hp))
    have hsr2 : Seg t.mem (some (.main x)) (nodes (c :: r2)) none :=
      Seg_congr hsr (fun p hp => by
        refine hlk p ?_
        rintro rfl
        exact hxr (main_mem_nodes.1 hp))
    have hidt : ∀ i ∈ a :: l2 ++ x :: c :: r2, (t.mem (.main i)).frame_id = (i : Int) :=
      fun i hi => by rw [hfid]; exact hid i hi
    refine ⟨?_, by rw [hi]; exact hh, by rw [hi]; exact ht, ?_, ?_⟩
    · unfold search_for_frame_b2
      rw [hi, hhead, if_neg (by simp [nodes, firstOr])]
      exact search_loop_reaches t.mem x (a :: l2) none hsl2
        (fun i hi => hidt i (by simp at hi ⊢; tauto)) hxl (hidt x (by simp)) fuel
        (by simp at hf ⊢; omega)
    · unfold search_for_frame_after
      rw [hi, htail, hz2, if_neg (by simp), ← hz2]
      have := search_after_loop_seg t.mem x (c :: r2) none hsr2 (by simp)
        (fun i hi => hidt i (by simp at hi ⊢; tauto)) hxr (hidt x (by simp)) fuel
        (by simp at hf ⊢; omega)
      rw [show lastOr (nodes (c :: r2)) (some (Ptr.main x)) = lastOr (nodes (c :: r2)) none
        from rfl, this]
      rfl
    · unfold search_for_frame_before
      rw [hi, hhead, if_neg (by simp [nodes, firstOr]), hp]
      exact search_before_loop_seg t.mem x (a :: l2) none hsl2 (by simp)
        (fun i hi => hidt i (by simp at hi ⊢; tauto)) hxl (hidt x (by simp)) fuel
        (by simp at hf ⊢; omega)
  have hfidN : ∀ (t : State) (v : Option Ptr) (p : Ptr),
      ((t.setNext (.main x) v).mem p).frame_id = (t.mem p).frame_id := by
    intro t v p
    simp only [State.setNext, Function.update_apply]
    split_ifs with h <;> simp [h]
  have hfidP : ∀ (t : State) (v : Option Ptr) (p : Ptr),
      ((t.setPrev (.main x) v).mem p).frame_id = (t.mem p).frame_id := by
    intro t v p
    simp only [State.setPrev, Function.update_apply]
    split_ifs with h <;> simp [h]
  obtain ⟨k1, k2, k3, -, -⟩ := key s rfl (fun _ => rfl) (fun _ _ => ⟨rfl, rfl⟩)
  have hrepS : repair_links fuel s (.main x) x = .ok s := by
    simp [repair_links, hp, hy2, hn]
  -- the lost `next`
  obtain ⟨n1, n2, n3, n4, -⟩ := key (s.setNext (.main x) none) rfl (hfidN s none)
    (fun p hpx => by simp [hpx])
  have hrepN : repair_links fuel (s.setNext (.main x) none) (.main x) x = .ok s := by
    have e1 : ((s.setNext (.main x) none).mem (.main x)).prev = some y := by
      rw [prev_setNext, hp, hy2]
    have e2 : ((s.setNext (.main x) none).mem (.main x)).next = none := by
      rw [next_setNext, if_pos rfl]
    simp only [repair_links, e1, e2, n4]
    rw [← hn, setNext_restore]
  -- the lost `prev`
  obtain ⟨p1, p2, p3, -, p5⟩ := key (s.setPrev (.main x) none) rfl (hfidP s none)
    (fun p hpx => by simp [hpx])
  have hrepP : repair_links fuel (s.setPrev (.main x) none) (.main x) x = .ok s := by
    have e1 : ((s.setPrev (.main x) none).mem (.main x)).prev = none := by
      rw [prev_setPrev, if_pos rfl]
    have e2 : ((s.setPrev (.main x) none).mem (.main x)).next = some (.main c) := by
      rw [next_setPrev, hn]
    simp only [repair_links, e1, e2, p5]
    rw [setPrev_restore]
  -- both lost
  obtain ⟨b1, b2, b3, -, -⟩ := key ((s.setNext (.main x) none).setPrev (.main x) none) rfl
    (fun p => by rw [hfidP, hfidN]) (fun p hpx => by simp [hpx])
  refine ⟨?_, hrepN, delete_other_arbitrarily_repaired n1 n2 n3 hrepN k1 k2 k3 hrepS,
    hrepP, delete_other_arbitrarily_repaired p1 p2 p3 hrepP k1 k2 k3 hrepS, ?_⟩
  · obtain ⟨s2, e2, hB, -⟩ := delete_other_arbitrarily_isSeg fuel s _ x h2 hf
    rw [herase] at hB
    exact ⟨s2, e2, hB⟩
  · have e1 : ((((s.setNext (.main x) none).setPrev (.main x) none).mem (.main x))).prev
        = none := by
      rw [prev_setPrev, if_pos rfl]
    have e2 : ((((s.setNext (.main x) none).setPrev (.main x) none).mem (.main x))).next
        = none := by
      rw [next_setPrev, next_setNext, if_pos rfl]
    unfold delete_other_arbitrarily
    rw [b1]
    simp only [if_neg b2, if_neg b3, repair_links, e1, e2]

/-- C32 (counterexample): B2 = [2, 1, 0] with the `next` link of member 1 lost
(`exLostNext`), resp. its `prev` link lost (`exLostPrev`).  Node 1 is neither
head nor tail and has a NULL link, yet `delete_other_arbitrarily(1)` does not
fail: the link-repair prologue rewrites the lost link (`next` becomes node 0,
resp. `prev` becomes node 2) and the call returns normally with B2 = [2, 0]. -/
theorem delete_other_repairs_instead_of_failing :
    (exLostNext.otherLinkedListInfo.head = some (.main 2) ∧
      exLostNext.otherLinkedListInfo.tail = some (.main 0) ∧
      (exLostNext.mem (.main 1)).prev = some (.main 2) ∧
      (exLostNext.mem (.main 1)).next = none ∧
      search_for_frame_b2 8 exLostNext 1 = .ok (some (.main 1)) ∧
      (∃ s0, repair_links 8 exLostNext (.main 1) 1 = .ok s0 ∧
        (s0.mem (.main 1)).next = some (.main 0)) ∧
      ∃ s2, delete_other_arbitrarily 8 exLostNext 1 = .ok s2 ∧ Inv s2 [] [2, 0]) ∧
    (exLostPrev.otherLinkedListInfo.head = some (.main 2) ∧
      exLostPrev.otherLinkedListInfo.tail = some (.main 0) ∧
      (exLostPrev.mem (.main 1)).prev = none ∧
      (exLostPrev.mem (.main 1)).next = some (.main 0) ∧
      search_for_frame_b2 8 exLostPrev 1 = .ok (some (.main 1)) ∧
      (∃ s0, repair_links 8 exLostPrev (.main 1) 1 = .ok s0 ∧
        (s0.mem (.main 1)).prev = some (.main 2)) ∧
      ∃ s2, delete_other_arbitrarily 8 exLostPrev 1 = .ok s2 ∧ Inv s2 [] [2, 0]) := by
  refine ⟨⟨by decide, by decide, by decide, by decide, rfl,
      ⟨okState (repair_links 8 exLostNext (.main 1) 1) exLostNext, rfl, by decide⟩,
      ⟨okState (delete_other_arbitrarily 8 exLostNext 1) exLostNext, rfl, by decide⟩⟩,
    ⟨by decide, by decide, by decide, by decide, rfl,
      ⟨okState (repair_links 8 exLostPrev (.main 1) 1) exLostPrev, rfl, by decide⟩,
      ⟨okState (delete_other_arbitrarily 8 exLostPrev 1) exLostPrev, rfl, by decide⟩⟩⟩

/-- Worked instance of amended C32: B2 = [2, 1, 0], member 1 with one link lost is removed as
from the undamaged list; with both links lost the call dereferences NULL. -/
theorem delete_other_repairs_a_missing_link_witness :
    Inv exThreeInB2 [] ([2] ++ 1 :: [0]) ∧
    delete_other_arbitrarily 8 exLostNext 1 = delete_other_arbitrarily 8 exThreeInB2 1 ∧
    delete_other_arbitrarily 8 exLostPrev 1 = delete_other_arbitrarily 8 exThreeInB2 1 ∧
    delete_other_arbitrarily 8 exLostBoth 1 = .error .nullDeref :=
  have h := delete_other_repairs_a_missing_link 8 exThreeInB2 [] [2] [0] 1 (by decide)
    (by decide) (by decide) (by decide)
  ⟨by decide, h.2.2.1, h.2.2.2.2.1, h.2.2.2.2.2⟩

end Elru
